import Mathlib

/-!
Qadin front end: lexer, parser, code generator and driver loop.

A shallow embedding of `src/Qadin/lexer.h`, of the parsers of
`src/Qadin/parsers.h`, of the printers of `src/Qadin/ASTs.h` and of the code
generator and the driver loop of `src/Qadin/Qadin.cpp` (the same code is
repeated in the monolithic `src/Qadin.cpp`).

Conventions of the embedding.

* Characters and tokens are C `int`s, modelled as `Int`. Standard input is a
  finite list of byte values (`List Nat`); `getchar` returns the next byte, or
  `EOF = -1` once the list is exhausted, and keeps returning `EOF` afterwards.
* C strings (`IdStr`, `NumStr`) are lists of character codes.
* The `<cctype>` predicates are those of the "C" locale (the program never
  calls `setlocale`).
* `NumVal` is the result of the libc call `strtod(NumStr)`. Floating point is
  not modelled: the state keeps the lexeme handed to `strtod`, so that the
  value is a function of what is stored; `decimalOf` gives the exact decimal
  reading of such a lexeme.
* The process-wide globals are fields of explicit state records.
* Loops whose every iteration reads one character are structural recursions on
  the remaining input. The recursive call `return lexer()` and the mutually
  recursive parser functions take a fuel argument.
-/

namespace Qadin

/-! ## Character classes (`<cctype>`, "C" locale) -/

/-- The value of the macro `EOF`. -/
def EOF : Int := -1

/-- C `isspace`: space, `\t`, `\n`, `\v`, `\f`, `\r`. -/
def isspace (c : Int) : Bool := c == 32 || (decide (9 ≤ c) && decide (c ≤ 13))

/-- C `isalpha`: `A`..`Z` and `a`..`z`. -/
def isalpha (c : Int) : Bool :=
  (decide (65 ≤ c) && decide (c ≤ 90)) || (decide (97 ≤ c) && decide (c ≤ 122))

/-- C `isdigit`: `0`..`9`. -/
def isdigit (c : Int) : Bool := decide (48 ≤ c) && decide (c ≤ 57)

/-- C `isalnum`. -/
def isalnum (c : Int) : Bool := isalpha c || isdigit c

/-- C `isascii`: the value fits in seven bits. -/
def isascii (c : Int) : Bool := decide (0 ≤ c) && decide (c ≤ 127)

/-! ## Tokens (`enum Token`) -/

/-- End of input. -/
def tok_eof : Int := -1

/-- The keyword `gate`. -/
def tok_gate : Int := -2

/-- The keyword `extern`. -/
def tok_extern : Int := -3

/-- An identifier; its text is in `IdStr`. -/
def tok_id : Int := -4

/-- A number; its value is in `NumVal`. -/
def tok_num : Int := -5

/-- The string literal `"gate"`. -/
def str_gate : List Int := [103, 97, 116, 101]

/-- The string literal `"extern"`, as character codes. -/
def str_ext : List Int := [101, 120, 116, 101, 114, 110]

/-! ## Lexer state and the lexer -/

/-- The globals of `lexer.h`: the function-static `LastChar`, the unread part
of standard input, and the token metadata `IdStr` and `NumVal` (the latter as
the lexeme passed to `strtod`). -/
structure LexState where
  LastChar : Int
  input : List Nat
  IdStr : List Int
  NumVal : List Int
  deriving DecidableEq, Repr

/-- The lexer state at program start: `LastChar = ' '`, empty `IdStr`,
zero-initialised `NumVal`. -/
def LexState.start (inp : List Nat) : LexState :=
  { LastChar := 32, input := inp, IdStr := [], NumVal := [] }

/-- The call `getchar()` on the remaining input. -/
def getchar : List Nat → Int × List Nat
  | [] => (EOF, [])
  | c :: cs => ((c : Int), cs)

/-- The loop `while (isspace(LastChar)) LastChar = getchar();` -/
def skipSpace : Int → List Nat → Int × List Nat
  | c, [] => if isspace c then (EOF, []) else (c, [])
  | c, x :: xs => if isspace c then skipSpace (x : Int) xs else (c, x :: xs)

/-- The loop `while (isalnum((LastChar = getchar()))) IdStr += LastChar;`
Returns the final `IdStr`, `LastChar` and remaining input. -/
def readIdent : List Int → List Nat → List Int × Int × List Nat
  | IdStr, [] => (IdStr, EOF, [])
  | IdStr, x :: xs =>
    if isalnum (x : Int) then readIdent (IdStr ++ [(x : Int)]) xs else (IdStr, (x : Int), xs)

/-- The number loop
`do { NumStr += LastChar; one_dec = one_dec || (LastChar == '.'); LastChar = getchar(); }
 while (isdigit(LastChar) || (LastChar == '.' && !one_dec));`
Returns the final `NumStr`, `LastChar` and remaining input. -/
def readNumber : List Int → Bool → Int → List Nat → List Int × Int × List Nat
  | NumStr, _, c, [] => (NumStr ++ [c], EOF, [])
  | NumStr, one_dec, c, x :: xs =>
    let NumStr1 := NumStr ++ [c]
    let one_dec1 := one_dec || c == 46
    if isdigit (x : Int) || ((x : Int) == 46 && !one_dec1) then
      readNumber NumStr1 one_dec1 (x : Int) xs
    else (NumStr1, (x : Int), xs)

/-- The comment loop
`do { LastChar = getchar(); } while (LastChar != EOF && LastChar != '\n' && LastChar != '\r');`
Returns the final `LastChar` and remaining input. -/
def skipComment : List Nat → Int × List Nat
  | [] => (EOF, [])
  | x :: xs =>
    if (x : Int) != EOF && (x : Int) != 10 && (x : Int) != 13 then skipComment xs
    else ((x : Int), xs)

/-- The function `lexer()`. The fuel bounds the depth of the recursive call
`return lexer()` made after a comment; `none` means the fuel ran out. -/
def lexerF : Nat → LexState → Option (Int × LexState)
  | 0, _ => none
  | fuel + 1, l =>
    let ws := skipSpace l.LastChar l.input
    let c := ws.1
    if isalpha c then
      let r := readIdent [c] ws.2
      let l1 : LexState := { l with LastChar := r.2.1, input := r.2.2, IdStr := r.1 }
      if r.1 = str_gate then some (tok_gate, l1)
      else if r.1 = str_ext then some ( tok_extern, l1)
      else some (tok_id, l1)
    else if isdigit c || c == 46 then
      let r := readNumber [] (c == 46) c ws.2
      some (tok_num, { l with LastChar := r.2.1, input := r.2.2, NumVal := r.1 })
    else if c == 35 then
      let r := skipComment ws.2
      if r.1 != EOF then lexerF fuel { l with LastChar := r.1, input := r.2 }
      else some (tok_eof, { l with LastChar := r.1, input := r.2 })
    else if c == EOF then
      some (tok_eof, { l with LastChar := c, input := ws.2 })
    else
      let g := getchar ws.2
      some (c, { l with LastChar := g.1, input := g.2 })

/-- The function `lexer()` as a total function: the fuel `input.length + 1`
always suffices (`lexerF_fuel`), so the fallback branch is never taken. -/
def lexer (l : LexState) : Int × LexState :=
  match lexerF (l.input.length + 1) l with
  | some r => r
  | none => (tok_eof, l)

/-- The characters the lexer has still to process are `cs`: the buffered
`LastChar` holds the first of them and `input` the others; when none is left
`LastChar` is `EOF`. At program start the pending characters are a space
followed by the whole standard input. -/
def Pending (l : LexState) : List Nat → Prop
  | [] => l.LastChar = EOF ∧ l.input = []
  | c :: cs => l.LastChar = (c : Int) ∧ l.input = cs

/-- A C string as the list of the codes of its characters. -/
def codes (w : List Nat) : List Int := w.map (fun x => (x : Int))

/-- The token `lexer()` returns for an identifier-shaped lexeme: the two
comparisons `IdStr == "gate"` and `IdStr == "extern"` of the source. -/
def wordTok (w : List Int) : Int :=
  if w = str_gate then tok_gate else if w = str_ext then tok_extern else tok_id

/-- A run "made of digits and at most one `.`". -/
def NumRun (w : List Nat) : Prop :=
  (∀ x ∈ w, isdigit ((x : Nat) : Int) = true ∨ x = 46) ∧ w.count 46 ≤ 1

/-- The exact decimal reading of a number lexeme as (mantissa, number of
fraction digits): the lexeme denotes `mantissa / 10 ^ digits`, which `strtod`
rounds to the nearest double. The accumulator is (mantissa, digits, dot seen);
a lexeme holds digits and `.` only, so a character that is no digit is a `.`. -/
def decimalOf (s : List Int) : Nat × Nat :=
  let r := s.foldl (fun (a : Nat × Nat × Bool) (c : Int) =>
    if isdigit c then (10 * a.1 + (c - 48).toNat, (if a.2.2 then a.2.1 + 1 else a.2.1), a.2.2)
    else (a.1, a.2.1, true)) (0, 0, false)
  (r.1, r.2.1)

/-! ## AST (`ASTs.h`) -/

/-- The expression nodes: `NumberExprAST(Val)`, `VariableExprAST(IdName)`,
`BinaryExprAST(Op, left, right)` and `CallExprAST(Callee, Args)`. -/
inductive ExprAST where
  | NumberExprAST (Val : List Int)
  | VariableExprAST (IdName : List Int)
  | BinaryExprAST (Op : Int) (left right : ExprAST)
  | CallExprAST (Callee : List Int) (Args : List ExprAST)

/-- The class `PrototypeAST`: function name and parameter names. -/
structure PrototypeAST where
  Name : List Int
  Args : List (List Int)
  deriving DecidableEq

/-- The class `FunctionAST`: a prototype and a body. -/
structure FunctionAST where
  Proto : PrototypeAST
  Body : ExprAST

/-- What a `printf` call writes: literal text of the format string (and the
`end` string), a `%f` double, a `%s` name, a `%c` operator character. -/
inductive Out where
  | text (s : String)
  | num (v : List Int)
  | name (s : List Int)
  | chr (c : Int)
  deriving DecidableEq

mutual
/-- The virtual method `pretty_print(end)` of the four expression classes. -/
def ExprAST.pretty_print : ExprAST → String → List Out
  | .NumberExprAST Val, e => [Out.text "(Number = ", Out.num Val, Out.text ")", Out.text e]
  | .VariableExprAST IdName, e => [Out.text "(id = ", Out.name IdName, Out.text ")", Out.text e]
  | .BinaryExprAST Op left right, e =>
    [Out.text "Binary Expr: "] ++ left.pretty_print "" ++ [Out.text " ", Out.chr Op, Out.text " "]
      ++ right.pretty_print "" ++ [Out.text e]
  | .CallExprAST Callee Args, e =>
    [Out.name Callee, Out.text "("] ++ pretty_print_args Args ++ [Out.text ")", Out.text e]
/-- The loop of `CallExprAST::pretty_print`: every element but the one held by
`Args[len - 1]` is printed with end `", "`, that one with end `""`. -/
def pretty_print_args : List ExprAST → List Out
  | [] => []
  | [a] => a.pretty_print ""
  | a :: b :: rest => a.pretty_print ", " ++ pretty_print_args (b :: rest)
end

/-! ## Parser state (`parsers.h`) -/

/-- What the parser writes: `LogError` messages on stderr and the
`printf("%d\n", CurTok)` of `ParseIdentifierExpr` on stdout. -/
inductive Diag where
  | LogError (Str : String)
  | printTok (tok : Int)
  deriving DecidableEq

/-- The globals of the parser: the lexer's globals, the lookahead `CurTok`,
the `std::map<char, int> BinOpPrecedence` (as an association list with unique
keys) and the output written so far. -/
structure State where
  lex : LexState
  CurTok : Int
  BinOpPrecedence : List (Int × Int)
  diag : List Diag
  deriving DecidableEq

/-- The function `getNextTok()`: `return CurTok = lexer();` -/
def getNextTok (s : State) : State :=
  let r := lexer s.lex
  { s with lex := r.2, CurTok := r.1 }

/-- The function `LogError(Str)`: prints the message; the caller returns `nullptr`. -/
def LogError (s : State) (Str : String) : State :=
  { s with diag := s.diag ++ [Diag.LogError Str] }

/-- The operator `std::map::operator[]` used as an rvalue: the mapped value, inserting a
value-initialised (zero) entry when the key is absent. -/
def mapIndex (m : List (Int × Int)) (k : Int) : Int × List (Int × Int) :=
  match m.lookup k with
  | some v => (v, m)
  | none => (0, (k, 0) :: m)

/-- The assignment `m[k] = v`: `std::map::operator[]` used as an lvalue. -/
def mapAssign (m : List (Int × Int)) (k v : Int) : List (Int × Int) :=
  match m.lookup k with
  | some _ => m.map (fun p => if p.1 = k then (k, v) else p)
  | none => (k, v) :: m

/-- The function `GetTokPrecedence()`; the lookup may insert into the map. -/
def GetTokPrecedence (s : State) : Int × State :=
  if !isascii s.CurTok then (-1, s)
  else
    let r := mapIndex s.BinOpPrecedence s.CurTok
    let s1 := { s with BinOpPrecedence := r.2 }
    if r.1 ≤ 0 then (-1, s1) else (r.1, s1)

/-- The function `install_binops()`. -/
def install_binops (s : State) : State :=
  let m := s.BinOpPrecedence
  let m := mapAssign m 60 10
  let m := mapAssign m 43 20
  let m := mapAssign m 45 20
  let m := mapAssign m 42 40
  let m := mapAssign m 47 40
  { s with BinOpPrecedence := m }

/-- The globals at program start: zero-initialised `CurTok`, empty map,
nothing written. -/
def State.init (inp : List Nat) : State :=
  { lex := LexState.start inp, CurTok := 0, BinOpPrecedence := [], diag := [] }

/-- The state in which `main` calls `MainLoop` on the given standard input:
after `install_binops()` and the priming `getNextTok()`. -/
def State.start (inp : List Nat) : State :=
  getNextTok (install_binops (State.init inp))

/-! ## Parser functions

Each returns `none` when the fuel runs out and otherwise the returned pointer
(`none` for `nullptr`) together with the state left behind. -/

/-- The function `ParseNumberExpr()`. -/
def ParseNumberExpr (s : State) : Option ExprAST × State :=
  (some (.NumberExprAST s.lex.NumVal), getNextTok s)

mutual
/-- The function `ParseParenExpr()`. -/
def ParseParenExpr : Nat → State → Option (Option ExprAST × State)
  | 0, _ => none
  | fuel + 1, s =>
    match ParseExpression fuel (getNextTok s) with
    | none => none
    | some (none, s1) => some (none, s1)
    | some (some V, s1) =>
      if s1.CurTok ≠ 41 then some (none, LogError s1 "Syntax Error: expected ')'")
      else some (some V, getNextTok s1)
/-- The function `ParseIdentifierExpr()`. -/
def ParseIdentifierExpr : Nat → State → Option (Option ExprAST × State)
  | 0, _ => none
  | fuel + 1, s =>
    let IdName := s.lex.IdStr
    let s1 := getNextTok s
    if s1.CurTok ≠ 40 then some (some (.VariableExprAST IdName), s1)
    else
      let s2 := getNextTok s1
      if s2.CurTok ≠ 41 then
        match ParseArgsLoop fuel [] s2 with
        | none => none
        | some (none, s3) => some (none, s3)
        | some (some Args, s3) => some (some (.CallExprAST IdName Args), getNextTok s3)
      else some (some (.CallExprAST IdName []), getNextTok s2)
/-- The `while (1)` loop of `ParseIdentifierExpr`, from the top of an
iteration with the arguments collected so far; it ends at `break` with the
arguments, or with `nullptr`. -/
def ParseArgsLoop : Nat → List ExprAST → State → Option (Option (List ExprAST) × State)
  | 0, _, _ => none
  | fuel + 1, Args, s =>
    match ParseExpression fuel s with
    | none => none
    | some (none, s1) => some (none, s1)
    | some (some Arg, s1) =>
      let Args1 := Args ++ [Arg]
      if s1.CurTok = 41 then some (some Args1, s1)
      else if s1.CurTok ≠ 44 then
        some (none, LogError { s1 with diag := s1.diag ++ [Diag.printTok s1.CurTok] }
          "Syntax Error: Expected ')' or ',' in argument list")
      else ParseArgsLoop fuel Args1 (getNextTok s1)
/-- The function `ParsePrimary()`. -/
def ParsePrimary : Nat → State → Option (Option ExprAST × State)
  | 0, _ => none
  | fuel + 1, s =>
    if s.CurTok = tok_id then ParseIdentifierExpr fuel s
    else if s.CurTok = tok_num then some (ParseNumberExpr s)
    else if s.CurTok = 40 then ParseParenExpr fuel s
    else some (none, LogError s "Parse Error: Unknown token")
/-- The function `ParseExpression()`. -/
def ParseExpression : Nat → State → Option (Option ExprAST × State)
  | 0, _ => none
  | fuel + 1, s =>
    match ParsePrimary fuel s with
    | none => none
    | some (none, s1) => some (none, s1)
    | some (some LHS, s1) => ParseBinOpRHS fuel 0 LHS s1
/-- The function `ParseBinOpRHS(ExprPrec, LHS)`, from the top of an iteration of its
`while (1)` loop. -/
def ParseBinOpRHS : Nat → Int → ExprAST → State → Option (Option ExprAST × State)
  | 0, _, _, _ => none
  | fuel + 1, ExprPrec, LHS, s =>
    let p := GetTokPrecedence s
    let TokPrec := p.1
    if TokPrec < ExprPrec then some (some LHS, p.2)
    else
      let BinOp := p.2.CurTok
      match ParsePrimary fuel (getNextTok p.2) with
      | none => none
      | some (none, s1) => some (none, s1)
      | some (some RHS, s1) =>
        let q := GetTokPrecedence s1
        let NextPrec := q.1
        if TokPrec < NextPrec then
          match ParseBinOpRHS fuel (TokPrec + 1) RHS q.2 with
          | none => none
          | some (none, s2) => some (none, s2)
          | some (some RHS1, s2) => ParseBinOpRHS fuel ExprPrec (.BinaryExprAST BinOp LHS RHS1) s2
        else ParseBinOpRHS fuel ExprPrec (.BinaryExprAST BinOp LHS RHS) q.2
end

/-! ## Vocabulary of the statements -/

/-- The precedence table of the specification: `<` is 10, `+` and `-` are 20,
`*` and `/` are 40, every other token is -1. -/
def tokPrec (t : Int) : Int :=
  if t = 60 then 10 else if t = 43 ∨ t = 45 then 20 else if t = 42 ∨ t = 47 then 40 else -1

/-- The precedence table answers every lookup as the specification's table:
the case after `install_binops()`, kept by every later lookup. -/
def Installed (s : State) : Prop :=
  ∀ t : Int, (GetTokPrecedence { s with CurTok := t }).1 = tokPrec t

/-- The token of the data model: end-of-input, the keywords, an identifier
with its name, a number with its lexeme, or a single character. -/
inductive Token where
  | eof
  | gate
  | ext
  | id (name : List Int)
  | num (lexeme : List Int)
  | chr (c : Int)
  deriving DecidableEq

/-- The token denoted by a token code together with the metadata globals. -/
def tokenOf (tok : Int) (l : LexState) : Token :=
  if tok = tok_eof then .eof
  else if tok = tok_gate then .gate
  else if tok = tok_extern then .ext
  else if tok = tok_id then .id l.IdStr
  else if tok = tok_num then .num l.NumVal
  else .chr tok

/-- What the parser sees of the input: the lookahead and the lexer's state. -/
def State.view (s : State) : Int × LexState := (s.CurTok, s.lex)

/-- The first `n` tokens ahead: the lookahead, then what the lexer returns. -/
def tokens : Nat → Int × LexState → List Token
  | 0, _ => []
  | n + 1, v => tokenOf v.1 v.2 :: tokens n (lexer v.2)

/-- The view after `n` tokens have been consumed (`n` calls of `getNextTok`). -/
def advance : Nat → Int × LexState → Int × LexState
  | 0, v => v
  | n + 1, v => advance n (lexer v.2)

/-- The operands and operator characters among printed items: the literal
text of the format strings is dropped. -/
def Out.content : Out → Option Out
  | .text _ => none
  | o => some o

/-- The operand or operator character a token stands for; parentheses and
commas stand for none. The end and keyword tokens, which no expression
contains, stand for their code, so that none of them could be consumed
without showing. -/
def Token.content : Token → Option Out
  | .num v => some (.num v)
  | .id n => some (.name n)
  | .chr c => if c = 40 ∨ c = 41 ∨ c = 44 then none else some (.chr c)
  | .eof => some (.chr tok_eof)
  | .gate => some (.chr tok_gate)
  | .ext => some (.chr tok_extern)

/-- A fuelled function keeps its result when given one more unit of fuel. -/
def FuelMono {α β : Type} (F : Nat → α → Option β) (f : Nat) : Prop :=
  ∀ a r, F f a = some r → F (f + 1) a = some r

/-- The code of a token. -/
def Token.code : Token → Int
  | .eof => tok_eof
  | .gate => tok_gate
  | .ext => tok_extern
  | .id _ => tok_id
  | .num _ => tok_num
  | .chr c => c

/-- The tokens of `o1 a1 o2 a2 ... on an`, given as the pairs `(oi, ai)` of an
operator character and the lexeme of a number literal. -/
def chainToks : List (Int × List Int) → List Token
  | [] => []
  | q :: rest => Token.chr q.1 :: Token.num q.2 :: chainToks rest

/-- The left-nested tree `BinaryOp(on, ... BinaryOp(o1, LHS, a1) ..., an)`. -/
def leftNested (LHS : ExprAST) (rest : List (Int × List Int)) : ExprAST :=
  rest.foldl (fun acc q => ExprAST.BinaryExprAST q.1 acc (ExprAST.NumberExprAST q.2)) LHS

/-- The call `ParseExpression()`, made in state `u`, returns the expression `e` and
leaves state `v` (given enough fuel). -/
def Parses (u : State) (e : ExprAST) (v : State) : Prop :=
  ∃ f, ParseExpression f u = some (some e, v)

/-- The call `ParseExpression()`, made in state `u`, returns `nullptr` and leaves `v`. -/
def ParseFails (u v : State) : Prop :=
  ∃ f, ParseExpression f u = some (none, v)

/-- From state `u` the input holds the arguments `es`, each followed by a
comma, and `w` is the state after the last of these commas is consumed. -/
inductive ArgPrefix : State → List ExprAST → State → Prop where
  | done (u : State) : ArgPrefix u [] u
  | more (u : State) (e : ExprAST) (v : State) (es : List ExprAST) (w : State) :
      Parses u e v → v.CurTok = 44 → ArgPrefix (getNextTok v) es w → ArgPrefix u (e :: es) w

/-- The operands and operator characters that `pretty_print` writes for an
expression, in the order written. -/
def printed (e : ExprAST) : List Out :=
  (e.pretty_print "").filterMap Out.content

/-- The operands and operator characters among the first `n` tokens ahead. -/
def consumed (n : Nat) (v : Int × LexState) : List Out :=
  (tokens n v).filterMap Token.content

/-- Consuming `n` tokens leads from the view `v` to the view `w`, and the
operands and operator characters among these tokens are `items`. -/
def Span (n : Nat) (v : Int × LexState) (items : List Out) (w : Int × LexState) : Prop :=
  w = advance n v ∧ items = consumed n v

/-! ## Prototypes and top-level expressions (`parsers.h`) -/

/-- The string literal `"__anon_expr"`, as character codes. -/
def str_anon : List Int := [95, 95, 97, 110, 111, 110, 95, 101, 120, 112, 114]

/-- The loop `while(getNextTok() == tok_id) argnames.push_back(IdStr);` of
`ParsePrototype`, from its test; it ends with the names collected and the
state in which the lookahead is the first token that is no identifier. -/
def ParsePrototypeArgs : Nat → List (List Int) → State → Option (List (List Int) × State)
  | 0, _, _ => none
  | fuel + 1, argnames, s =>
    let s1 := getNextTok s
    if s1.CurTok = tok_id then ParsePrototypeArgs fuel (argnames ++ [s1.lex.IdStr]) s1
    else some (argnames, s1)

/-- The function `ParsePrototype()`; the fuel bounds the iterations of its loop. -/
def ParsePrototype (fuel : Nat) (s : State) : Option (Option PrototypeAST × State) :=
  if s.CurTok ≠ tok_id then
    some (none, LogError s "Syntax Error: Expected function name in prototype")
  else
    let func_name := s.lex.IdStr
    let s1 := getNextTok s
    if s1.CurTok ≠ 40 then
      some (none, LogError s1 "Syntax Error: Expected '(' following function name in Prototype")
    else
      match ParsePrototypeArgs fuel [] s1 with
      | none => none
      | some (argnames, s2) =>
        if s2.CurTok ≠ 41 then
          some (none, LogError s2 "Syntax Error: Expected ')' following arg list in Prototype")
        else some (some { Name := func_name, Args := argnames }, getNextTok s2)

/-- The function `ParseTopLevelExpr()`. -/
def ParseTopLevelExpr (fuel : Nat) (s : State) : Option (Option FunctionAST × State) :=
  match ParseExpression fuel s with
  | none => none
  | some (none, s1) => some (none, s1)
  | some (some E, s1) =>
    some (some { Proto := { Name := str_anon, Args := [] }, Body := E }, s1)

/-- The number of characters the lexer has still to process: the buffered
`LastChar`, unless it is `EOF`, and the unread input. -/
def pendingLen (l : LexState) : Nat :=
  l.input.length + (if l.LastChar = EOF then 0 else 1)

/-- The tokens of a prototype: the name, `(`, the parameter names, `)`. -/
def protoToks (name : List Int) (params : List (List Int)) : List Token :=
  Token.id name :: Token.chr 40 :: (params.map Token.id ++ [Token.chr 41])

/-! ## Code generation (`Qadin.cpp`)

The backend (LLVM) is outside the repository. It is modelled by its
documented behaviour, as far as the generator can observe it: a value is the
term of the builder calls that made it; a module is the list of its functions
in the order of their creation; a function has a name, the names of its
arguments and possibly a body; no backend call fails.

Constants. `Builder` is an `IRBuilder<>` with the default `ConstantFolder`: a
builder call whose operands are all constants inserts no instruction and
returns a constant. Floating point is not modelled, so such a constant is kept
as the operation it is the value of (`Value.ConstantFold`), as a number
literal is kept as its lexeme.

Names. A module holds at most one function of a name, and a function at most
one argument of a name: `Value::setName` and `Function::Create` "choose a new
unique name if the provided name is taken". The new name is the one of
`ValueSymbolTable::makeUniqueName`: the provided name, a `.` for a function
(none for an argument), and the decimal digits of a counter of the symbol
table, which is incremented until the name is free. Since the names of a
module are unique, a function is referred to by its name: `getFunction` finds
the function of a name, and the operations on `TheFunction` take its name.
Function names are taken to be non-empty, as are all the names the parser
produces (an unnamed function could not be found by name). -/

/-- The class `llvm::Value`, as far as the generator builds values:
`ConstantFP::get`, the address `&Arg` of an argument of a function, the
instructions `fadd`, `fsub`, `fmul`, `fcmp ult`, `uitofp` (to double) and
`call`, and the constant that the constant folder returns for an operation
`I` whose operands are constants. -/
inductive Value where
  | ConstantFP (Val : List Int)
  | Argument (F : List Int) (ArgNo : Nat)
  | FAdd (L R : Value)
  | FSub (L R : Value)
  | FMul (L R : Value)
  | FCmpULT (L R : Value)
  | UIToFP (V : Value)
  | Call (CalleeF : List Int) (ArgsV : List Value)
  | ConstantFold (I : Value)

/-- The test `isa<Constant>(V)`: of the values the generator builds, the
constants are those of `ConstantFP::get` and those of the constant folder. -/
def Value.isConstant : Value → Bool
  | .ConstantFP _ => true
  | .ConstantFold _ => true
  | _ => false

/-- The builder call `CreateFAdd(L, R)`: operands that are both constants are
folded to a constant and no instruction is inserted; otherwise the instruction
`fadd` is inserted. -/
def CreateFAdd (L R : Value) : Value :=
  if L.isConstant && R.isConstant then Value.ConstantFold (Value.FAdd L R) else Value.FAdd L R

/-- The builder call `CreateFSub(L, R)`. -/
def CreateFSub (L R : Value) : Value :=
  if L.isConstant && R.isConstant then Value.ConstantFold (Value.FSub L R) else Value.FSub L R

/-- The builder call `CreateFMul(L, R)`. -/
def CreateFMul (L R : Value) : Value :=
  if L.isConstant && R.isConstant then Value.ConstantFold (Value.FMul L R) else Value.FMul L R

/-- The builder call `CreateFCmpULT(L, R)`. -/
def CreateFCmpULT (L R : Value) : Value :=
  if L.isConstant && R.isConstant then Value.ConstantFold (Value.FCmpULT L R)
  else Value.FCmpULT L R

/-- The builder call `CreateUIToFP(V, double)`: a constant operand is folded. -/
def CreateUIToFP (V : Value) : Value :=
  if V.isConstant then Value.ConstantFold (Value.UIToFP V) else Value.UIToFP V

/-- The block `entry` of a function under definition: created by
`BasicBlock::Create`, then ended by `CreateRet(RetVal)`. -/
inductive Block where
  | entry
  | ret (RetVal : Value)

/-- The class `llvm::Function`: its name, the names of its arguments, and its
body; without a body (`empty()`) it is a declaration. -/
structure LLVMFunction where
  Name : List Int
  Args : List (List Int)
  Body : Option Block

/-- The globals of the generator: `TheModule` (its functions), the symbol
table `NamedValues` (a `std::map` from names to `Value *`, a null pointer
being `none`), what `LogErrorV` has written, and the counter `LastUnique` of
the symbol table of the module, from which new function names are made. -/
structure GenState where
  TheModule : List LLVMFunction
  NamedValues : List (List Int × Option Value)
  diag : List Diag
  LastUnique : Nat

/-- The generator's globals after `InitializeModule()`. -/
def GenState.init : GenState :=
  { TheModule := [], NamedValues := [], diag := [], LastUnique := 0 }

/-- The function `LogErrorV(Str)`: prints the message; the caller returns `nullptr`. -/
def LogErrorV (g : GenState) (Str : String) : GenState :=
  { g with diag := g.diag ++ [Diag.LogError Str] }

/-- The entry of a name in the symbol table, if there is one (`std::map::find`). -/
def namedFind (k : List Int) : List (List Int × Option Value) → Option (Option Value)
  | [] => none
  | p :: rest => if p.1 = k then some p.2 else namedFind k rest

/-- The expression `NamedValues[k]` as an rvalue: the mapped pointer, a null
entry being inserted when the name has none. -/
def namedIndex (nv : List (List Int × Option Value)) (k : List Int) :
    Option Value × List (List Int × Option Value) :=
  match namedFind k nv with
  | some v => (v, nv)
  | none => (none, (k, none) :: nv)

/-- The assignment `NamedValues[k] = v`. -/
def namedAssign (nv : List (List Int × Option Value)) (k : List Int) (v : Option Value) :
    List (List Int × Option Value) :=
  match namedFind k nv with
  | some _ => nv.map (fun p => if p.1 = k then (k, v) else p)
  | none => (k, v) :: nv

/-- The call `TheModule->getFunction(Name)`. -/
def getFunction (m : List LLVMFunction) (Name : List Int) : Option LLVMFunction :=
  m.find? (fun F => decide (F.Name = Name))

/-- The body of the function that `getFunction` finds for the name is set. -/
def setBody : List LLVMFunction → List Int → Block → List LLVMFunction
  | [], _, _ => []
  | F :: rest, Name, b =>
    if F.Name = Name then { F with Body := some b } :: rest else F :: setBody rest Name b

/-- The call `eraseFromParent()` on the function that `getFunction` finds for
the name. -/
def eraseFromParent : List LLVMFunction → List Int → List LLVMFunction
  | [], _ => []
  | F :: rest, Name => if F.Name = Name then rest else F :: eraseFromParent rest Name

mutual
/-- The virtual method `codegen()` of the four expression classes. -/
def ExprAST.codegen : ExprAST → GenState → Option Value × GenState
  | .NumberExprAST Val, g => (some (Value.ConstantFP Val), g)
  | .VariableExprAST IdName, g =>
    let r := namedIndex g.NamedValues IdName
    let g1 : GenState := { g with NamedValues := r.2 }
    match r.1 with
    | none => (none, LogErrorV g1 "Unknown Variable Name")
    | some V => (some V, g1)
  | .BinaryExprAST Op left right, g =>
    let l := left.codegen g
    let r := right.codegen l.2
    match l.1, r.1 with
    | some L, some R =>
      if Op = 43 then (some (CreateFAdd L R), r.2)
      else if Op = 45 then (some (CreateFSub L R), r.2)
      else if Op = 42 then (some (CreateFMul L R), r.2)
      else if Op = 60 then (some (CreateUIToFP (CreateFCmpULT L R)), r.2)
      else (none, LogErrorV r.2 "invalid BinOp")
    | _, _ => (none, r.2)
  | .CallExprAST Callee Args, g =>
    match getFunction g.TheModule Callee with
    | none => (none, LogErrorV g "Unknown function called")
    | some CalleeF =>
      if CalleeF.Args.length ≠ Args.length then
        (none, LogErrorV g "Incorrect number of arguments passed")
      else
        match codegenArgs Args [] g with
        | (none, g1) => (none, g1)
        | (some ArgsV, g1) => (some (Value.Call Callee ArgsV), g1)
/-- The loop of `CallExprAST::codegen` over the arguments not yet generated,
with the values collected so far: it returns `nullptr` at the first argument
that fails. -/
def codegenArgs : List ExprAST → List Value → GenState → Option (List Value) × GenState
  | [], ArgsV, g => (some ArgsV, g)
  | a :: rest, ArgsV, g =>
    match a.codegen g with
    | (none, g1) => (none, g1)
    | (some V, g1) => codegenArgs rest (ArgsV ++ [V]) g1
end

/-- The decimal digits of a number, last digit first in the accumulator; the
first argument bounds the number of digits. -/
def decimalDigits : Nat → Nat → List Int → List Int
  | 0, _, acc => acc
  | fuel + 1, n, acc =>
    let acc1 := (((48 + n % 10 : Nat) : Int)) :: acc
    if n / 10 = 0 then acc1 else decimalDigits fuel (n / 10) acc1

/-- What `raw_ostream::operator<<` writes for an unsigned number. -/
def decimal (n : Nat) : List Int := decimalDigits (n + 1) n []

/-- The loop of `ValueSymbolTable::makeUniqueName`: the counter is incremented
and appended to the name (after `sep`, which is `.` for a function and empty
for an argument) until the result is not among the names taken. Returns the
new name and the counter. The fuel bounds the iterations; one more than the
number of names taken suffices (`makeUniqueName_fresh`). -/
def makeUniqueName (taken : List (List Int)) (Name sep : List Int) :
    Nat → Nat → List Int × Nat
  | 0, LastUnique => (Name, LastUnique)
  | fuel + 1, LastUnique =>
    let UniqueName := Name ++ sep ++ decimal (LastUnique + 1)
    if UniqueName ∈ taken then makeUniqueName taken Name sep fuel (LastUnique + 1)
    else (UniqueName, LastUnique + 1)

/-- The name a value gets in a symbol table (`ValueSymbolTable::createValueName`,
`reinsertValue`): the provided name when it is not taken, else a new unique
name. Returns the name and the counter of the symbol table. -/
def createValueName (taken : List (List Int)) (Name sep : List Int) (LastUnique : Nat) :
    List Int × Nat :=
  if Name ∈ taken then makeUniqueName taken Name sep (taken.length + 1) LastUnique
  else (Name, LastUnique)

/-- The loop `for (auto &Arg : F->args()) Arg.setName(Args[Idx++]);` over the
names not yet given, with the names of the arguments named so far and the
counter of the symbol table of the function. An empty name leaves the argument
unnamed. -/
def setNames : List (List Int) → List (List Int) → Nat → List (List Int)
  | [], names, _ => names
  | a :: rest, names, LastUnique =>
    if a = [] then setNames rest (names ++ [a]) LastUnique
    else
      let r := createValueName names a [] LastUnique
      setNames rest (names ++ [r.1]) r.2

/-- The method `PrototypeAST::codegen()`: `Function::Create` adds to the module
a function without a body, with one argument for each name, under the name of
the prototype or, when the module has a function of that name, under a new
unique name; the loop names the arguments. -/
def PrototypeAST.codegen (P : PrototypeAST) (g : GenState) : Option LLVMFunction × GenState :=
  let n := createValueName (g.TheModule.map (fun F => F.Name)) P.Name [46] g.LastUnique
  let F : LLVMFunction := { Name := n.1, Args := setNames P.Args [] 0, Body := none }
  (some F, { g with TheModule := g.TheModule ++ [F], LastUnique := n.2 })

/-- The loop `for (auto &Arg : TheFunction->args()) NamedValues[Arg.getName()] = &Arg;`
over the arguments from number `i` on. -/
def bindArgs (F : List Int) : List (List Int) → Nat → List (List Int × Option Value) →
    List (List Int × Option Value)
  | [], _, nv => nv
  | a :: rest, i, nv => bindArgs F rest (i + 1) (namedAssign nv a (some (Value.Argument F i)))

/-- The method `FunctionAST::codegen()`. The call `verifyFunction`, whose
result the code does not use, is left out. -/
def FunctionAST.codegen (Fn : FunctionAST) (g : GenState) : Option LLVMFunction × GenState :=
  let r : Option LLVMFunction × GenState :=
    match getFunction g.TheModule Fn.Proto.Name with
    | some F => (some F, g)
    | none => Fn.Proto.codegen g
  match r.1 with
  | none => (none, r.2)
  | some TheFunction =>
    if TheFunction.Body.isSome then (none, LogErrorV r.2 "Function can't be redefined.")
    else
      let g1 : GenState := { r.2 with TheModule := setBody r.2.TheModule TheFunction.Name Block.entry }
      let g2 : GenState := { g1 with NamedValues := bindArgs TheFunction.Name TheFunction.Args 0 [] }
      match Fn.Body.codegen g2 with
      | (some RetVal, g3) =>
        (some { TheFunction with Body := some (Block.ret RetVal) },
          { g3 with TheModule := setBody g3.TheModule TheFunction.Name (Block.ret RetVal) })
      | (none, g3) =>
        (none, { g3 with TheModule := eraseFromParent g3.TheModule TheFunction.Name })

/-- The definition `gate foo(a b) a + b`, as parsed. -/
def fooDefinition : FunctionAST :=
  { Proto := { Name := [102, 111, 111], Args := [[97], [98]] },
    Body := ExprAST.BinaryExprAST 43 (ExprAST.VariableExprAST [97]) (ExprAST.VariableExprAST [98]) }

/-- The state of the generator after `gate foo(a b) a + b` has been generated
in the initial state. -/
def afterFooDefinition : GenState := (fooDefinition.codegen GenState.init).2

/-- The prototype of `extern f(a)`, as parsed. -/
def externF : PrototypeAST := { Name := [102], Args := [[97]] }

/-- The state of the generator after `extern f(a)` has been generated in the
initial state. -/
def afterExternF : GenState := (externF.codegen GenState.init).2

/-- The tokens that `n` successive calls of `lexer()` return. -/
def lexerCalls : Nat → LexState → List Int
  | 0, _ => []
  | n + 1, l => (lexer l).1 :: lexerCalls n (lexer l).2
/-! ## Definitions and the driver (`parsers.h`, `ASTs.h`, `Qadin.cpp`) -/

/-- The function `ParseDefn()`. -/
def ParseDefn (fuel : Nat) (s : State) : Option (Option FunctionAST × State) :=
  match ParsePrototype fuel (getNextTok s) with
  | none => none
  | some (none, s1) => some (none, s1)
  | some (some Proto, s1) =>
    match ParseExpression fuel s1 with
    | none => none
    | some (none, s2) => some (none, s2)
    | some (some E, s2) => some (some { Proto := Proto, Body := E }, s2)

/-- The function `ParseExtern()`. -/
def ParseExtern (fuel : Nat) (s : State) : Option (Option PrototypeAST × State) :=
  ParsePrototype fuel (getNextTok s)

/-- The loop of `PrototypeAST::pretty_print` over the elements not yet
printed: each is printed, and `", "` after it unless it equals, as a string,
the element `Args[len - 1]`. -/
def pretty_print_names (last : List Int) : List (List Int) → List Out
  | [] => []
  | element :: rest =>
    (Out.name element :: (if element ≠ last then [Out.text ", "] else [])) ++
      pretty_print_names last rest

/-- The method `PrototypeAST::pretty_print(end)`. -/
def PrototypeAST.pretty_print (P : PrototypeAST) (e : String) : List Out :=
  [Out.text "Prototype: [", Out.name P.Name, Out.text "("] ++
    (match P.Args.getLast? with
     | none => []
     | some last => pretty_print_names last P.Args) ++
    [Out.text ")]", Out.text e]

/-- The method `FunctionAST::pretty_print(end)`. -/
def FunctionAST.pretty_print (Fn : FunctionAST) (e : String) : List Out :=
  [Out.text "Function:\n  "] ++ Fn.Proto.pretty_print "\n  " ++ [Out.text "Body: ["] ++
    Fn.Body.pretty_print "]\n" ++ [Out.text e]

/-- What the driver writes: the prompt `"Qadin> "`, a status line, the text of
a `pretty_print("\n")` call (in verbose mode), and the print of a generated
function followed by a line end. -/
inductive Print where
  | prompt
  | status (line : String)
  | pretty (items : List Out)
  | IR (F : LLVMFunction)

/-- The globals of the whole program: those of the lexer and parser, those of
the generator, and what the driver has written. What the parser, the
generator and the driver write is kept in three lists; the order of the
writes of different lists is not recorded. -/
structure Process where
  parse : State
  gen : GenState
  out : List Print

/-- The state in which `main` calls `MainLoop`: after `install_binops()`, the
first prompt, the priming `getNextTok()` and `InitializeModule()`. -/
def Process.start (inp : List Nat) : Process :=
  { parse := State.start inp, gen := GenState.init, out := [Print.prompt] }

/-- The function `HandleDefn(v)`. -/
def HandleDefn (fuel : Nat) (v : Bool) (p : Process) : Option Process :=
  match ParseDefn fuel p.parse with
  | none => none
  | some (some AST, s1) =>
    let out1 := p.out ++ [Print.status "Parsed a function definition.\n"] ++
      (if v then [Print.pretty (AST.pretty_print "\n")] else [])
    match AST.codegen p.gen with
    | (some IR, g1) => some { parse := s1, gen := g1, out := out1 ++ [Print.IR IR] }
    | (none, g1) => some { parse := s1, gen := g1, out := out1 }
  | some (none, s1) => some { p with parse := getNextTok s1 }

/-- The function `HandleExtern(v)`. -/
def HandleExtern (fuel : Nat) (v : Bool) (p : Process) : Option Process :=
  match ParseExtern fuel p.parse with
  | none => none
  | some (some AST, s1) =>
    let out1 := p.out ++ [Print.status "Parsed an extern\n"] ++
      (if v then [Print.pretty (AST.pretty_print "\n")] else [])
    match AST.codegen p.gen with
    | (some IR, g1) => some { parse := s1, gen := g1, out := out1 ++ [Print.IR IR] }
    | (none, g1) => some { parse := s1, gen := g1, out := out1 }
  | some (none, s1) => some { p with parse := getNextTok s1 }

/-- The function `HandleTopLevelExpr(v)`. -/
def HandleTopLevelExpr (fuel : Nat) (v : Bool) (p : Process) : Option Process :=
  match ParseTopLevelExpr fuel p.parse with
  | none => none
  | some (some AST, s1) =>
    let out1 := p.out ++ [Print.status "Parsed a top-level expr\n"] ++
      (if v then [Print.pretty (AST.pretty_print "\n")] else [])
    match AST.codegen p.gen with
    | (some IR, g1) => some { parse := s1, gen := g1, out := out1 ++ [Print.IR IR] }
    | (none, g1) => some { parse := s1, gen := g1, out := out1 }
  | some (none, s1) => some { p with parse := getNextTok s1 }

/-- The function `MainLoop(v)`, from the top of an iteration of its
`while (1)`; it returns the state in which it returns, `none` when the fuel
runs out. The fuel bounds the iterations and the depth of the parser. -/
def MainLoop : Nat → Bool → Process → Option Process
  | 0, _, _ => none
  | fuel + 1, v, p =>
    let p1 : Process := { p with out := p.out ++ [Print.prompt] }
    if p1.parse.CurTok = tok_eof then some p1
    else if p1.parse.CurTok = 59 then MainLoop fuel v { p1 with parse := getNextTok p1.parse }
    else if p1.parse.CurTok = tok_gate then
      match HandleDefn fuel v p1 with
      | none => none
      | some p2 => MainLoop fuel v p2
    else if p1.parse.CurTok = tok_extern then
      match HandleExtern fuel v p1 with
      | none => none
      | some p2 => MainLoop fuel v p2
    else
      match HandleTopLevelExpr fuel v p1 with
      | none => none
      | some p2 => MainLoop fuel v p2

mutual
/-- The operator characters of the `BinaryOp` nodes of an expression, those
inside the arguments of calls included. -/
def ExprAST.operators : ExprAST → List Int
  | .NumberExprAST _ => []
  | .VariableExprAST _ => []
  | .BinaryExprAST Op left right => Op :: (left.operators ++ right.operators)
  | .CallExprAST _ Args => operatorsOfArgs Args
/-- The operator characters of the `BinaryOp` nodes of a list of expressions. -/
def operatorsOfArgs : List ExprAST → List Int
  | [] => []
  | a :: rest => a.operators ++ operatorsOfArgs rest
end

/-- The precedence of the operator at the root of an expression, when the
root is a `BinaryOp` node. -/
def ExprAST.rootPrec : ExprAST → Option Int
  | .BinaryExprAST Op _ _ => some (tokPrec Op)
  | _ => none

mutual
/-- An expression is properly nested: at every `BinaryOp` node, a left child
that is a `BinaryOp` has an operator of precedence greater than or equal to
that of the node, and a right child that is a `BinaryOp` has an operator of
strictly higher precedence. -/
def ExprAST.properlyNested : ExprAST → Bool
  | .NumberExprAST _ => true
  | .VariableExprAST _ => true
  | .BinaryExprAST Op left right =>
    left.properlyNested && right.properlyNested &&
      (match left.rootPrec with
       | some p => decide (tokPrec Op ≤ p)
       | none => true) &&
      (match right.rootPrec with
       | some p => decide (tokPrec Op < p)
       | none => true)
  | .CallExprAST _ Args => properlyNestedArgs Args
/-- Every expression of the list is properly nested. -/
def properlyNestedArgs : List ExprAST → Bool
  | [] => true
  | a :: rest => a.properlyNested && properlyNestedArgs rest
end



/-- A bound on what the parser can still consume: the number of characters
the lexer has still to process, and one for a lookahead that is not the end
token. -/
def tokensLeft (v : Int × LexState) : Nat :=
  pendingLen v.2 + (if v.1 = tok_eof then 0 else 1)

/-! ## Vocabulary of the statements on lookups, printing, well-formedness and the module -/

/-- The calls of `GetTokPrecedence()` made with the lookahead set to each of
the tokens in turn: the state that the last of them leaves. -/
def lookups : List Int → State → State
  | [], s => s
  | t :: rest, s => lookups rest (GetTokPrecedence { s with CurTok := t }).2

/-- The names of a parameter list as the specification has them printed: in order,
with the separator `, ` between every two adjacent names and none after the
last. -/
def separated : List (List Int) → List Out
  | [] => []
  | [p] => [Out.name p]
  | p :: q :: rest => Out.name p :: Out.text ", " :: separated (q :: rest)

/-- The standard input `extern f(a b a)`. -/
def externRepeated : List Nat :=
  [101, 120, 116, 101, 114, 110, 32, 102, 40, 97, 32, 98, 32, 97, 41]

/-- A name is bound in the symbol table: the table has a value for it. An
entry with the null pointer, as a failed lookup leaves it, binds nothing. -/
def bound (nv : List (List Int × Option Value)) (k : List Int) : Bool :=
  match namedFind k nv with
  | some (some _) => true
  | _ => false

mutual
/-- An expression is well-formed for a module and a symbol table, in the
recursive sense of the specification: a number always is; a variable is when
its name is bound; a binary operation is when both children are and the
operator is one of `+`, `-`, `*`, `<`; a call is when the module has the
callee, the number of arguments is the number of its parameters, and every
argument is well-formed. -/
def ExprAST.wellFormed (m : List LLVMFunction) (nv : List (List Int × Option Value)) :
    ExprAST → Bool
  | .NumberExprAST _ => true
  | .VariableExprAST IdName => bound nv IdName
  | .BinaryExprAST Op left right =>
    left.wellFormed m nv && right.wellFormed m nv &&
      (decide (Op = 43) || decide (Op = 45) || decide (Op = 42) || decide (Op = 60))
  | .CallExprAST Callee Args =>
    match getFunction m Callee with
    | none => false
    | some CalleeF => decide (CalleeF.Args.length = Args.length) && wellFormedArgs m nv Args
/-- Every expression of the list is well-formed. -/
def wellFormedArgs (m : List LLVMFunction) (nv : List (List Int × Option Value)) :
    List ExprAST → Bool
  | [] => true
  | a :: rest => a.wellFormed m nv && wellFormedArgs m nv rest
end

/-- The module has a definition of the name: `getFunction` finds a function
for it, and that function has a body. -/
def hasBody (m : List LLVMFunction) (f : List Int) : Bool :=
  match getFunction m f with
  | some F => F.Body.isSome
  | none => false

/-- A call of `codegen()` by the driver: of a `FunctionAST` (a definition or
an anonymous function) or of a `PrototypeAST` (a declaration). -/
inductive Gen where
  | defn (Fn : FunctionAST)
  | decl (P : PrototypeAST)

/-- The state of the generator after a call. -/
def Gen.run : Gen → GenState → GenState
  | .defn Fn, g => (Fn.codegen g).2
  | .decl P, g => (P.codegen g).2

/-- The state of the generator after a sequence of calls. -/
def runGen : List Gen → GenState → GenState
  | [], g => g
  | c :: rest, g => runGen rest (c.run g)

/-- The anonymous function that `ParseTopLevelExpr` makes of an expression. -/
def anonFunction (E : ExprAST) : FunctionAST :=
  { Proto := { Name := str_anon, Args := [] }, Body := E }

/-- The standard input `1;2;`. -/
def twoExpressions : List Nat := [49, 59, 50, 59]

/-- What the driver has written since an earlier point holds the IR of no
function named `__anon_expr`: no codegen of a top-level expression has
returned a function since. -/
def NoAnonIR (out out1 : List Print) : Prop :=
  ∃ extra, out1 = out ++ extra ∧ ∀ F, Print.IR F ∈ extra → F.Name ≠ str_anon

/-- What the module holds of a function, as far as the specification speaks of it:
its name, its parameter list, and whether it has a body. -/
def LLVMFunction.signature (F : LLVMFunction) : List Int × List (List Int) × Bool :=
  (F.Name, F.Args, F.Body.isSome)

/-- The functions held by the module. -/
def functions (g : GenState) : List (List Int × List (List Int) × Bool) :=
  g.TheModule.map LLVMFunction.signature

/-- The definition `gate f(a) y`, as parsed: its body names no parameter. -/
def unknownBody : FunctionAST :=
  { Proto := { Name := [102], Args := [[97]] }, Body := ExprAST.VariableExprAST [121] }

/-- The definition `gate h(a) y`, as parsed. -/
def unknownBodyH : FunctionAST :=
  { Proto := { Name := [104], Args := [[97]] }, Body := ExprAST.VariableExprAST [121] }

/-- The text of an identifier as the specification describes it: not empty, a
letter first, then letters and digits only, and neither `gate` nor `extern`. -/
def isIdentifier (w : List Int) : Bool :=
  (match w with
   | [] => false
   | c :: rest => isalpha c && rest.all isalnum) &&
    decide (w ≠ str_gate) && decide (w ≠ str_ext)

/-- A lookahead as the lexer leaves it: the buffered character is a character
read or `EOF`, and with an identifier token `IdStr` holds the text of an
identifier. -/
def Lexed (v : Int × LexState) : Prop :=
  EOF ≤ v.2.LastChar ∧ (v.1 = tok_id → isIdentifier v.2.IdStr = true)

/-- The standard input `gate foo(x1 y) x1`. -/
def gateFoo : List Nat :=
  [103, 97, 116, 101, 32, 102, 111, 111, 40, 120, 49, 32, 121, 41, 32, 120, 49]

/-- A generator state in which `a` names the first argument of a function `f`,
as `FunctionAST::codegen` binds it for `gate f(a) ...`. -/
def scopeOfA : GenState :=
  { TheModule := [], NamedValues := bindArgs [102] [[97]] 0 [], diag := [], LastUnique := 0 }

mutual
/-- The calls of an expression: for every `Call` node, those inside the
arguments of calls included, the name of the callee and the number of
arguments. -/
def ExprAST.callSites : ExprAST → List (List Int × Nat)
  | .NumberExprAST _ => []
  | .VariableExprAST _ => []
  | .BinaryExprAST _ left right => left.callSites ++ right.callSites
  | .CallExprAST Callee Args => (Callee, Args.length) :: callSitesOfArgs Args
/-- The calls of a list of expressions. -/
def callSitesOfArgs : List ExprAST → List (List Int × Nat)
  | [] => []
  | a :: rest => a.callSites ++ callSitesOfArgs rest
end

/-- The messages that `LogErrorV` has written between two states of the
generator. -/
def newDiag (g g1 : GenState) : List Diag := g1.diag.drop g.diag.length

/-- The call `f(h())`, as parsed. -/
def callOfUnknown : ExprAST :=
  ExprAST.CallExprAST [102] [ExprAST.CallExprAST [104] []]

/-- The call `f(f())`, as parsed. -/
def callOfShortCall : ExprAST :=
  ExprAST.CallExprAST [102] [ExprAST.CallExprAST [102] []]

/-- The arity checked at a call of `f` in a module is `k`: in every state of
the generator with that module, a call of `f` with another number of arguments
than `k` fails with the incorrect-number-of-arguments error, and a call of `f`
with `k` number literals generates the call instruction. -/
def ArityChecked (m : List LLVMFunction) (f : List Int) (k : Nat) : Prop :=
  (∀ (Args : List ExprAST) (g1 : GenState), g1.TheModule = m → Args.length ≠ k →
    (ExprAST.CallExprAST f Args).codegen g1 =
      (none, LogErrorV g1 "Incorrect number of arguments passed")) ∧
  (∀ (v : List Int) (g1 : GenState), g1.TheModule = m →
    (ExprAST.CallExprAST f (List.replicate k (ExprAST.NumberExprAST v))).codegen g1 =
      (some (Value.Call f (List.replicate k (Value.ConstantFP v))), g1))

/-- The prototype of `extern f(a a)`, as parsed. -/
def externRepeatedA : PrototypeAST := { Name := [102], Args := [[97], [97]] }

end Qadin

namespace Qadin

/-! ## The lexer terminates -/

theorem skipSpace_length (inp : List Nat) :
    ∀ c : Int, (skipSpace c inp).2.length ≤ inp.length := by
  induction inp with
  | nil => intro c; unfold skipSpace; split <;> simp
  | cons x xs ih =>
    intro c
    unfold skipSpace
    split
    · exact Nat.le_succ_of_le (ih _)
    · simp

theorem skipComment_length (inp : List Nat) :
    (skipComment inp).1 ≠ EOF → (skipComment inp).2.length < inp.length := by
  induction inp with
  | nil => simp [skipComment]
  | cons x xs ih =>
    unfold skipComment
    split
    · intro h; exact Nat.lt_succ_of_lt (ih h)
    · intro _; simp

/-- With more fuel than remaining input the lexer returns, and what it returns
does not depend on the fuel. -/
theorem lexerF_fuel (n : Nat) : ∀ (m : Nat) (l : LexState),
    l.input.length < n → l.input.length < m →
      (lexerF n l).isSome = true ∧ lexerF n l = lexerF m l := by
  induction n with
  | zero => intro m l h; omega
  | succ n ih =>
    intro m l hn hm
    cases m with
    | zero => omega
    | succ m =>
      unfold lexerF
      simp only []
      split
      · split
        · simp
        · split <;> simp
      · split
        · simp
        · split
          · split
            · rename_i hne
              have hne1 : (skipComment (skipSpace l.LastChar l.input).2).1 ≠ EOF := by
                simpa using hne
              have h1 := skipComment_length _ hne1
              have h2 := skipSpace_length l.input l.LastChar
              apply ih
              · simp only []; omega
              · simp only []; omega
            · simp
          · split <;> simp

theorem lexerF_eq_lexer (n : Nat) (l : LexState) (h : l.input.length < n) :
    lexerF n l = some (lexer l) := by
  have h1 := lexerF_fuel (l.input.length + 1) n l (Nat.lt_succ_self _) h
  unfold lexer
  cases hr : lexerF (l.input.length + 1) l with
  | none => rw [hr] at h1; simp at h1
  | some r => rw [← h1.2, hr]

/-- The body of `lexer()`, with the recursive call being `lexer` itself. -/
theorem lexer_eq (l : LexState) :
    lexer l =
      (let ws := skipSpace l.LastChar l.input
       let c := ws.1
       if isalpha c then
         let r := readIdent [c] ws.2
         let l1 : LexState := { l with LastChar := r.2.1, input := r.2.2, IdStr := r.1 }
         if r.1 = str_gate then (tok_gate, l1)
         else if r.1 = str_ext then ( tok_extern, l1)
         else (tok_id, l1)
       else if isdigit c || c == 46 then
         let r := readNumber [] (c == 46) c ws.2
         (tok_num, { l with LastChar := r.2.1, input := r.2.2, NumVal := r.1 })
       else if c == 35 then
         let r := skipComment ws.2
         if r.1 != EOF then lexer { l with LastChar := r.1, input := r.2 }
         else (tok_eof, { l with LastChar := r.1, input := r.2 })
       else if c == EOF then
         (tok_eof, { l with LastChar := c, input := ws.2 })
       else
         let g := getchar ws.2
         (c, { l with LastChar := g.1, input := g.2 })) := by
  have h := lexerF_eq_lexer (l.input.length + 1) l (Nat.lt_succ_self _)
  unfold lexerF at h
  simp only [] at h ⊢
  split at h
  · rename_i ha; simp only [ha, if_true]
    split at h
    · rename_i hg; rw [if_pos hg]; exact (Option.some.inj h).symm
    · rename_i hg; rw [if_neg hg]
      split at h
      · rename_i he; rw [if_pos he]; exact (Option.some.inj h).symm
      · rename_i he; rw [if_neg he]; exact (Option.some.inj h).symm
  · rename_i ha; simp only [ha, if_false]
    split at h
    · rename_i hd; simp only [hd, if_true]; exact (Option.some.inj h).symm
    · rename_i hd; simp only [hd, if_false]
      split at h
      · rename_i hc; simp only [hc, if_true]
        split at h
        · rename_i hne; simp only [hne, if_true]
          have hne1 : (skipComment (skipSpace l.LastChar l.input).2).1 ≠ EOF := by
            simpa using hne
          have h1 := skipComment_length _ hne1
          have h2 := skipSpace_length l.input l.LastChar
          rw [lexerF_eq_lexer _ _ (by simp only []; omega)] at h
          exact (Option.some.inj h).symm
        · rename_i hne; simp only [hne, if_false]; exact (Option.some.inj h).symm
      · rename_i hc; simp only [hc, if_false]
        split at h
        · rename_i he; simp only [he, if_true]; exact (Option.some.inj h).symm
        · rename_i he; simp only [he, if_false]; exact (Option.some.inj h).symm

/-! ## Lemmas on the loops of the lexer -/

theorem pending_start (inp : List Nat) : Pending (LexState.start inp) (32 :: inp) :=
  ⟨rfl, rfl⟩

theorem pending_getchar (l : LexState) (r : List Nat) :
    Pending { l with LastChar := (getchar r).1, input := (getchar r).2 } r := by
  cases r <;> exact ⟨rfl, rfl⟩

theorem pending_unique (l : LexState) (r : List Nat) (h : Pending l r) :
    l.LastChar = (getchar r).1 ∧ l.input = (getchar r).2 := by
  cases r <;> exact h

theorem skipSpace_nonspace (c : Int) (inp : List Nat) (hc : isspace c = false) :
    skipSpace c inp = (c, inp) := by
  cases inp <;> simp [skipSpace, hc]

theorem skipSpace_run (c : Nat) (rest : List Nat) (hc : isspace (c : Int) = false) :
    ∀ (ws : List Nat) (w : Int), isspace w = true → (∀ x ∈ ws, isspace ((x : Nat) : Int) = true) →
      skipSpace w (ws ++ c :: rest) = ((c : Int), rest) := by
  intro ws
  induction ws with
  | nil =>
    intro w hw _
    simp only [List.nil_append, skipSpace, hw, if_true]
    exact skipSpace_nonspace _ _ hc
  | cons x xs ih =>
    intro w hw hall
    simp only [List.cons_append, skipSpace, hw, if_true]
    exact ih _ (hall x (List.mem_cons_self _ _)) (fun y hy => hall y (List.mem_cons_of_mem _ hy))

theorem skipSpace_run_eof :
    ∀ (ws : List Nat) (w : Int), isspace w = true → (∀ x ∈ ws, isspace ((x : Nat) : Int) = true) →
      skipSpace w ws = (EOF, []) := by
  intro ws
  induction ws with
  | nil => intro w hw _; simp [skipSpace, hw]
  | cons x xs ih =>
    intro w hw hall
    simp only [skipSpace, hw, if_true]
    exact ih _ (hall x (List.mem_cons_self _ _)) (fun y hy => hall y (List.mem_cons_of_mem _ hy))

/-- Skipping whitespace leaves the first pending character that is not one. -/
theorem skipSpace_pending (l : LexState) (ws : List Nat) (c : Nat) (rest : List Nat)
    (hp : Pending l (ws ++ c :: rest)) (hws : ∀ x ∈ ws, isspace ((x : Nat) : Int) = true)
    (hc : isspace (c : Int) = false) :
    skipSpace l.LastChar l.input = ((c : Int), rest) := by
  cases ws with
  | nil =>
    obtain ⟨h1, h2⟩ := hp
    rw [h1, h2]; exact skipSpace_nonspace _ _ hc
  | cons w ws =>
    obtain ⟨h1, h2⟩ := hp
    rw [h1, h2]
    exact skipSpace_run c rest hc ws _ (hws w (List.mem_cons_self _ _))
      (fun y hy => hws y (List.mem_cons_of_mem _ hy))

theorem skipSpace_pending_eof (l : LexState) (ws : List Nat)
    (hp : Pending l ws) (hws : ∀ x ∈ ws, isspace ((x : Nat) : Int) = true) :
    skipSpace l.LastChar l.input = (EOF, []) := by
  cases ws with
  | nil =>
    obtain ⟨h1, h2⟩ := hp
    rw [h1, h2]; rfl
  | cons w ws =>
    obtain ⟨h1, h2⟩ := hp
    rw [h1, h2]
    exact skipSpace_run_eof ws _ (hws w (List.mem_cons_self _ _))
      (fun y hy => hws y (List.mem_cons_of_mem _ hy))

/-- The identifier loop reads a run of letters and digits up to the first
character that is neither. -/
theorem readIdent_run (rest : List Nat)
    (hrest : ∀ x, rest.head? = some x → isalnum ((x : Nat) : Int) = false) :
    ∀ (w : List Nat) (acc : List Int), (∀ x ∈ w, isalnum ((x : Nat) : Int) = true) →
      readIdent acc (w ++ rest) = (acc ++ codes w, (getchar rest).1, (getchar rest).2) := by
  intro w
  induction w with
  | nil =>
    intro acc _
    cases rest with
    | nil => simp [readIdent, getchar, codes]
    | cons x xs =>
      have hx := hrest x rfl
      simp [readIdent, getchar, codes, hx]
  | cons x xs ih =>
    intro acc hall
    have hx := hall x (List.mem_cons_self _ _)
    simp only [List.cons_append, readIdent, hx, if_true, List.append_eq]
    rw [ih _ (fun y hy => hall y (List.mem_cons_of_mem _ hy))]
    simp [codes]

theorem skipComment_run (e : Nat) (rest : List Nat) (he : e = 10 ∨ e = 13) :
    ∀ (c : List Nat), (∀ x ∈ c, x ≠ 10 ∧ x ≠ 13) →
      skipComment (c ++ e :: rest) = ((e : Int), rest) := by
  intro c
  induction c with
  | nil =>
    intro _
    rcases he with h | h <;> subst h <;> simp [skipComment]
  | cons x xs ih =>
    intro hall
    have hx := hall x (List.mem_cons_self _ _)
    have h1 : ((x : Int) != EOF && (x : Int) != 10 && (x : Int) != 13) = true := by
      simp only [EOF, Bool.and_eq_true, bne_iff_ne, ne_eq]
      omega
    simp only [List.cons_append, skipComment, h1, if_true]
    exact ih (fun y hy => hall y (List.mem_cons_of_mem _ hy))

theorem skipComment_run_eof :
    ∀ (c : List Nat), (∀ x ∈ c, x ≠ 10 ∧ x ≠ 13) → skipComment c = (EOF, []) := by
  intro c
  induction c with
  | nil => intro _; rfl
  | cons x xs ih =>
    intro hall
    have hx := hall x (List.mem_cons_self _ _)
    have h1 : ((x : Int) != EOF && (x : Int) != 10 && (x : Int) != 13) = true := by
      simp only [EOF, Bool.and_eq_true, bne_iff_ne, ne_eq]
      omega
    simp only [skipComment, h1, if_true]
    exact ih (fun y hy => hall y (List.mem_cons_of_mem _ hy))

theorem isalpha_not_space (c : Int) (h : isalpha c = true) : isspace c = false := by
  simp only [isalpha, isspace, Bool.or_eq_true, Bool.and_eq_true, decide_eq_true_eq,
    Bool.or_eq_false_iff, Bool.and_eq_false_iff, decide_eq_false_iff_not, beq_eq_false_iff_ne,
    ne_eq] at *
  omega

theorem isalpha_alnum (c : Int) (h : isalpha c = true) : isalnum c = true := by
  simp [isalnum, h]

/-- The lexer only looks at its state through the whitespace skip and leaves
`IdStr` and `NumVal` as they are unless it sets them. -/
theorem lexer_congr (l1 l2 : LexState)
    (h : skipSpace l1.LastChar l1.input = skipSpace l2.LastChar l2.input)
    (hi : l1.IdStr = l2.IdStr) (hn : l1.NumVal = l2.NumVal) : lexer l1 = lexer l2 := by
  rw [lexer_eq l1, lexer_eq l2]
  simp only [h, hi, hn]

theorem lexer_skip_one_space (l : LexState) (w : Int) (s : List Nat) (hw : isspace w = true) :
    lexer { l with LastChar := w, input := s } =
      lexer { l with LastChar := (getchar s).1, input := (getchar s).2 } := by
  apply lexer_congr
  · cases s with
    | nil => simp only [skipSpace, getchar, hw, if_true]; rfl
    | cons x xs => simp [skipSpace, getchar, hw]
  · rfl
  · rfl

/-- Rule 2 of the lexer: a word. -/
theorem lexer_word (l : LexState) (ws : List Nat) (c : Nat) (run rest : List Nat)
    (hp : Pending l (ws ++ c :: run ++ rest))
    (hws : ∀ x ∈ ws, isspace ((x : Nat) : Int) = true)
    (hc : isalpha (c : Int) = true)
    (hrun : ∀ x ∈ run, isalnum ((x : Nat) : Int) = true)
    (hrest : ∀ x, rest.head? = some x → isalnum ((x : Nat) : Int) = false) :
    lexer l = (wordTok (codes (c :: run)),
      { l with LastChar := (getchar rest).1, input := (getchar rest).2,
               IdStr := codes (c :: run) }) := by
  have hp1 : Pending l (ws ++ c :: (run ++ rest)) := by simpa using hp
  have hsk := skipSpace_pending l ws c (run ++ rest) hp1 hws (isalpha_not_space _ hc)
  rw [lexer_eq]
  simp only [hsk, hc, if_true]
  rw [readIdent_run rest hrest run [(c : Int)] hrun]
  have hcodes : [(c : Int)] ++ codes run = codes (c :: run) := by simp [codes]
  simp only [hcodes, wordTok]
  split
  · rfl
  · split <;> rfl

/-- End of input is sticky. -/
theorem lexer_at_eof (l : LexState) (hp : Pending l []) : lexer l = (tok_eof, l) := by
  obtain ⟨h1, h2⟩ := hp
  have hl : l = { l with LastChar := EOF, input := [] } := by
    cases l; simp only [LexState.mk.injEq] at *; simp_all
  have hr : lexer l = (tok_eof, { l with LastChar := EOF, input := [] }) := by
    rw [lexer_eq, h1, h2]; rfl
  rw [hr, ← hl]

/-! ## Lexer claims -/

/-- C5. For every non-empty string `w` of letters only, lexing `w` followed by
end-of-input yields one token for the whole of `w` and then the end token:
`tok_gate` if `w` is "gate", `tok_extern` if it is "extern", otherwise `tok_id`
with `IdStr = w`; nothing of `w` is left pending, and the next call (and every
later one, the state being unchanged) returns `tok_eof`. -/
theorem lexer_letters_one_token (w : List Nat) (hne : w ≠ [])
    (hw : ∀ x ∈ w, isalpha ((x : Nat) : Int) = true) :
    ∃ l1, lexer (LexState.start w) =
        ((if codes w = str_gate then tok_gate
          else if codes w = str_ext then tok_extern else tok_id), l1) ∧
      l1.IdStr = codes w ∧ Pending l1 [] ∧ lexer l1 = (tok_eof, l1) := by
  cases w with
  | nil => exact absurd rfl hne
  | cons c run =>
    have h := lexer_word (LexState.start (c :: run)) [32] c run []
      (by simpa using pending_start (c :: run))
      (by intro x hx; simp at hx; subst hx; rfl)
      (hw c (List.mem_cons_self _ _))
      (fun x hx => isalpha_alnum _ (hw x (List.mem_cons_of_mem _ hx)))
      (by intro x hx; simp at hx)
    refine ⟨_, h, rfl, ⟨rfl, rfl⟩, ?_⟩
    exact lexer_at_eof _ ⟨rfl, rfl⟩

theorem lexer_letters_one_token_witness :
    (([103, 97, 116, 101] : List Nat) ≠ [] ∧
      ∀ x ∈ ([103, 97, 116, 101] : List Nat), isalpha ((x : Nat) : Int) = true) ∧
    ∃ l1, lexer (LexState.start [103, 97, 116, 101]) =
        ((if codes [103, 97, 116, 101] = str_gate then tok_gate
          else if codes [103, 97, 116, 101] = str_ext then tok_extern else tok_id), l1) ∧
      l1.IdStr = codes [103, 97, 116, 101] ∧ Pending l1 [] ∧ lexer l1 = (tok_eof, l1) :=
  ⟨⟨by decide, by decide⟩, lexer_letters_one_token [103, 97, 116, 101] (by decide) (by decide)⟩

/-- C7. When the first pending character that is not whitespace is a letter,
the token covers the longest run of letters and digits starting there
(`c :: run`, followed by `rest` which is empty or starts with a character that
is neither): the token is `tok_gate` or `tok_extern` exactly when the run is
"gate" or "extern", otherwise `tok_id`; `IdStr` is the run, and `rest` is left
pending, its first character starting the next token. -/
theorem lexer_identifier_maximal_run (l : LexState) (ws : List Nat) (c : Nat)
    (run rest : List Nat)
    (hp : Pending l (ws ++ c :: run ++ rest))
    (hws : ∀ x ∈ ws, isspace ((x : Nat) : Int) = true)
    (hc : isalpha (c : Int) = true)
    (hrun : ∀ x ∈ run, isalnum ((x : Nat) : Int) = true)
    (hrest : ∀ x, rest.head? = some x → isalnum ((x : Nat) : Int) = false) :
    ∃ l1, lexer l =
        ((if codes (c :: run) = str_gate then tok_gate
          else if codes (c :: run) = str_ext then tok_extern else tok_id), l1) ∧
      l1.IdStr = codes (c :: run) ∧ Pending l1 rest ∧ l1.NumVal = l.NumVal :=
  ⟨_, lexer_word l ws c run rest hp hws hc hrun hrest, rfl,
    pending_getchar { l with IdStr := codes (c :: run) } rest, rfl⟩

/-- The words "gates", "gate1" and "Gate", followed by `;`, are identifiers. -/
theorem lexer_identifier_maximal_run_witness :
    (Pending (LexState.start [32, 103, 97, 116, 101, 115, 59])
        ([32, 32] ++ 103 :: [97, 116, 101, 115] ++ [59]) ∧
      (∀ x ∈ ([32, 32] : List Nat), isspace ((x : Nat) : Int) = true) ∧
      isalpha ((103 : Nat) : Int) = true ∧
      (∀ x ∈ ([97, 116, 101, 115] : List Nat), isalnum ((x : Nat) : Int) = true) ∧
      (∀ x, ([59] : List Nat).head? = some x → isalnum ((x : Nat) : Int) = false)) ∧
    (∃ l1, lexer (LexState.start [32, 103, 97, 116, 101, 115, 59]) =
        ((if codes (103 :: [97, 116, 101, 115]) = str_gate then tok_gate
          else if codes (103 :: [97, 116, 101, 115]) = str_ext then tok_extern else tok_id), l1) ∧
      l1.IdStr = codes (103 :: [97, 116, 101, 115]) ∧ Pending l1 [59] ∧
      l1.NumVal = (LexState.start [32, 103, 97, 116, 101, 115, 59]).NumVal) ∧
    lexer (LexState.start [103, 97, 116, 101, 115, 59]) =
      (tok_id, ⟨59, [], [103, 97, 116, 101, 115], []⟩) ∧
    lexer (LexState.start [103, 97, 116, 101, 49, 59]) =
      (tok_id, ⟨59, [], [103, 97, 116, 101, 49], []⟩) ∧
    lexer (LexState.start [71, 97, 116, 101, 59]) =
      (tok_id, ⟨59, [], [71, 97, 116, 101], []⟩) ∧
    lexer (LexState.start [103, 97, 116, 101, 59]) =
      (tok_gate, ⟨59, [], [103, 97, 116, 101], []⟩) :=
  ⟨⟨⟨rfl, rfl⟩, by decide, by decide, by decide, by intro x hx; cases hx; decide⟩,
    lexer_identifier_maximal_run (LexState.start [32, 103, 97, 116, 101, 115, 59]) [32, 32] 103
      [97, 116, 101, 115] [59] ⟨rfl, rfl⟩ (by decide) (by decide) (by decide)
      (by intro x hx; cases hx; decide),
    by decide, by decide, by decide, by decide⟩

/-- C8. A comment is discarded with its line end: when the pending characters
are (whitespace,) `#`, a text `c` without `\n` and `\r`, `\n` and then `s`, the
lexer returns the token and leaves the state that it returns and leaves when
only `s` is pending, which is also what it does on `s` from its start state
(`LastChar = ' '`). When the comment `c` runs to end-of-input, it returns
`tok_eof` and end-of-input is pending. -/
theorem lexer_comment_discarded (l l2 : LexState) (ws c s : List Nat)
    (hws : ∀ x ∈ ws, isspace ((x : Nat) : Int) = true)
    (hc : ∀ x ∈ c, x ≠ 10 ∧ x ≠ 13)
    (hp : Pending l (ws ++ 35 :: c ++ 10 :: s))
    (hp2 : Pending l2 (ws ++ 35 :: c)) :
    lexer l = lexer { l with LastChar := (getchar s).1, input := (getchar s).2 } ∧
    lexer l = lexer { l with LastChar := 32, input := s } ∧
    lexer l2 = (tok_eof, { l2 with LastChar := EOF, input := [] }) := by
  have h35 : isspace ((35 : Nat) : Int) = false := by decide
  have hA : lexer l = lexer { l with LastChar := 10, input := s } := by
    have hp1 : Pending l (ws ++ 35 :: (c ++ 10 :: s)) := by simpa using hp
    have hsk := skipSpace_pending l ws 35 (c ++ 10 :: s) hp1 hws h35
    rw [lexer_eq l]
    simp only [hsk]
    have hcm := skipComment_run 10 s (Or.inl rfl) c hc
    simp only [hcm]
    rfl
  refine ⟨?_, ?_, ?_⟩
  · rw [hA]; exact lexer_skip_one_space l 10 s (by decide)
  · rw [hA, lexer_skip_one_space l 10 s (by decide), lexer_skip_one_space l 32 s (by decide)]
  · have hsk := skipSpace_pending l2 ws 35 c hp2 hws h35
    rw [lexer_eq l2]
    simp only [hsk]
    have hcm := skipComment_run_eof c hc
    simp only [hcm]
    rfl

/-- The input `#x` newline `ab` lexes as `ab` does, and `#x` alone gives the end token. -/
theorem lexer_comment_discarded_witness :
    ((∀ x ∈ ([] : List Nat), isspace ((x : Nat) : Int) = true) ∧
      (∀ x ∈ ([120] : List Nat), x ≠ 10 ∧ x ≠ 13) ∧
      Pending (⟨35, [120, 10, 97, 98], [], []⟩ : LexState) ([] ++ 35 :: [120] ++ 10 :: [97, 98]) ∧
      Pending (⟨35, [120], [], []⟩ : LexState) ([] ++ 35 :: [120])) ∧
    (lexer (⟨35, [120, 10, 97, 98], [], []⟩ : LexState) =
        lexer { (⟨35, [120, 10, 97, 98], [], []⟩ : LexState) with
          LastChar := (getchar [97, 98]).1, input := (getchar [97, 98]).2 } ∧
      lexer (⟨35, [120, 10, 97, 98], [], []⟩ : LexState) =
        lexer { (⟨35, [120, 10, 97, 98], [], []⟩ : LexState) with
          LastChar := 32, input := [97, 98] } ∧
      lexer (⟨35, [120], [], []⟩ : LexState) =
        (tok_eof, { (⟨35, [120], [], []⟩ : LexState) with LastChar := EOF, input := [] })) ∧
    lexer (⟨35, [120, 10, 97, 98], [], []⟩ : LexState) = (tok_id, ⟨EOF, [], [97, 98], []⟩) :=
  ⟨⟨by decide, by decide, ⟨rfl, rfl⟩, ⟨rfl, rfl⟩⟩,
    lexer_comment_discarded _ _ [] [120] [97, 98] (by decide) (by decide) ⟨rfl, rfl⟩ ⟨rfl, rfl⟩,
    by decide⟩

/-- C9. The lexer has no failure case: when the first pending character `c`
that is not whitespace is not a letter, a digit, `.` or `#` (and, being a
character, not end-of-input), the lexer returns, whatever positive fuel it
is given, the token whose code is `c`, consumes that one character and leaves
the following characters pending, with `IdStr` and `NumVal` untouched. -/
theorem lexer_single_char_token (l : LexState) (ws : List Nat) (c : Nat) (rest : List Nat)
    (hp : Pending l (ws ++ c :: rest))
    (hws : ∀ x ∈ ws, isspace ((x : Nat) : Int) = true)
    (hsp : isspace (c : Int) = false) (hal : isalpha (c : Int) = false)
    (hdi : isdigit (c : Int) = false) (hdot : c ≠ 46) (hsharp : c ≠ 35) :
    ∃ l1, (∀ fuel, 0 < fuel → lexerF fuel l = some ((c : Int), l1)) ∧
      lexer l = ((c : Int), l1) ∧ Pending l1 rest ∧
      l1.IdStr = l.IdStr ∧ l1.NumVal = l.NumVal := by
  have hsk := skipSpace_pending l ws c rest hp hws hsp
  have h46 : ((c : Int) == 46) = false := by
    simp only [beq_eq_false_iff_ne, ne_eq]; omega
  have h35 : ((c : Int) == 35) = false := by
    simp only [beq_eq_false_iff_ne, ne_eq]; omega
  have hE : ((c : Int) == EOF) = false := by
    simp only [EOF, beq_eq_false_iff_ne, ne_eq]; omega
  have hF : ∀ fuel, 0 < fuel → lexerF fuel l = some ((c : Int),
      { l with LastChar := (getchar rest).1, input := (getchar rest).2 }) := by
    intro fuel hfuel
    cases fuel with
    | zero => omega
    | succ n =>
      unfold lexerF
      simp only [hsk, hal, hdi, h46, h35, hE, Bool.or_false, Bool.false_eq_true, if_false]
  refine ⟨_, hF, ?_, pending_getchar l rest, rfl, rfl⟩
  have h := lexerF_eq_lexer (l.input.length + 1) l (Nat.lt_succ_self _)
  rw [hF _ (Nat.succ_pos _)] at h
  exact (Option.some.inj h).symm

/-- The nine punctuation characters `+ - * / < ( ) , ;` meet the hypotheses,
and `+` followed by `1` is lexed as the token 43. -/
theorem lexer_single_char_token_witness :
    (Pending (LexState.start [43, 49]) ([32] ++ 43 :: [49]) ∧
      (∀ x ∈ ([32] : List Nat), isspace ((x : Nat) : Int) = true) ∧
      (∀ c ∈ ([43, 45, 42, 47, 60, 40, 41, 44, 59] : List Nat),
        isspace ((c : Nat) : Int) = false ∧ isalpha ((c : Nat) : Int) = false ∧
        isdigit ((c : Nat) : Int) = false ∧ c ≠ 46 ∧ c ≠ 35)) ∧
    ∃ l1, (∀ fuel, 0 < fuel → lexerF fuel (LexState.start [43, 49]) = some (((43 : Nat) : Int), l1)) ∧
      lexer (LexState.start [43, 49]) = (((43 : Nat) : Int), l1) ∧ Pending l1 [49] ∧
      l1.IdStr = (LexState.start [43, 49]).IdStr ∧ l1.NumVal = (LexState.start [43, 49]).NumVal :=
  ⟨⟨⟨rfl, rfl⟩, by decide, by decide⟩,
    lexer_single_char_token (LexState.start [43, 49]) [32] 43 [49] ⟨rfl, rfl⟩
      (by decide) (by decide) (by decide) (by decide) (by decide) (by decide)⟩

theorem isdigit_46 : isdigit 46 = false := by decide

/-- What the number loop reads: the characters `w` it appends after the first
one are digits or `.`, with no `.` once one has been seen, and the loop stops at
end-of-input or at a character that is neither a digit nor an admissible `.`. -/
theorem readNumber_run (inp : List Nat) :
    ∀ (acc : List Int) (od : Bool) (c : Int),
      ∃ w r, inp = w ++ r ∧
        readNumber acc od c inp = (acc ++ c :: codes w, (getchar r).1, (getchar r).2) ∧
        (∀ x ∈ w, isdigit ((x : Nat) : Int) = true ∨ x = 46) ∧
        ((od || c == 46) = true → 46 ∉ w) ∧ w.count 46 ≤ 1 ∧
        (∀ x, r.head? = some x →
          isdigit ((x : Nat) : Int) = false ∧ (x = 46 → (od || c == 46) = true ∨ 46 ∈ w)) := by
  induction inp with
  | nil =>
    intro acc od c
    refine ⟨[], [], rfl, ?_, ?_, ?_, ?_, ?_⟩
    · simp [readNumber, getchar, codes]
    · intro x hx; cases hx
    · intro _ hx; cases hx
    · simp
    · intro x hx; cases hx
  | cons x xs ih =>
    intro acc od c
    by_cases hcond : (isdigit (x : Int) || ((x : Int) == 46 && !(od || c == 46))) = true
    · obtain ⟨w, r, hsplit, hres, hmem, hlock, hcount, hstop⟩ :=
        ih (acc ++ [c]) (od || c == 46) (x : Int)
      have hx46 : ((x : Int) == 46) = true ↔ x = 46 := by
        simp only [beq_iff_eq]; omega
      refine ⟨x :: w, r, ?_, ?_, ?_, ?_, ?_, ?_⟩
      · simp [hsplit]
      · simp only [readNumber, hcond, if_true]
        rw [hres]; simp [codes]
      · intro y hy
        rcases List.mem_cons.mp hy with h | h
        · subst h
          rcases Bool.or_eq_true _ _ ▸ hcond with h1 | h1
          · exact Or.inl h1
          · right
            have := (Bool.and_eq_true _ _ ▸ h1).1
            exact hx46.mp this
        · exact hmem y h
      · intro hod h46
        rcases List.mem_cons.mp h46 with h | h
        · have hd : isdigit ((x : Nat) : Int) = true := by
            rcases Bool.or_eq_true _ _ ▸ hcond with h1 | h1
            · exact h1
            · have := (Bool.and_eq_true _ _ ▸ h1).2
              simp [hod] at this
          rw [← h] at hd
          exact absurd hd (by decide)
        · exact hlock (by simp [hod]) h
      · by_cases hx : x = 46
        · subst hx
          have hnot : 46 ∉ w := hlock (by simp)
          simp [List.count_cons, List.count_eq_zero_of_not_mem hnot]
        · rw [List.count_cons_of_ne (Ne.symm hx)]; exact hcount
      · intro y hy
        obtain ⟨h1, h2⟩ := hstop y hy
        refine ⟨h1, fun h => ?_⟩
        rcases h2 h with h3 | h3
        · rcases Bool.or_eq_true _ _ ▸ h3 with h4 | h4
          · exact Or.inl h4
          · exact Or.inr (List.mem_cons.mpr (Or.inl (hx46.mp h4).symm))
        · exact Or.inr (List.mem_cons_of_mem _ h3)
    · refine ⟨[], x :: xs, rfl, ?_, ?_, ?_, ?_, ?_⟩
      · simp only [readNumber, hcond]
        simp [getchar, codes]
      · intro y hy; cases hy
      · intro _ hy; cases hy
      · simp
      · intro y hy
        simp only [List.head?_cons, Option.some.injEq] at hy
        subst hy
        simp only [Bool.or_eq_true, Bool.and_eq_true, Bool.not_eq_true', not_or, not_and,
          Bool.not_eq_false, beq_iff_eq] at hcond
        refine ⟨by simpa using hcond.1, fun h => Or.inl ?_⟩
        have := hcond.2 (by omega)
        simpa using this

/-- C6. When the first pending character that is not whitespace is a digit or
a `.`, the lexer returns `tok_num` and the lexeme it hands to `strtod` is the
longest prefix `w` of the pending characters that is made of digits and at most
one `.`; what follows `w` (a second `.` included) is not consumed and is left
pending as the start of the next token. -/
theorem lexer_number_longest_run (l : LexState) (ws : List Nat) (c : Nat) (rest : List Nat)
    (hp : Pending l (ws ++ c :: rest))
    (hws : ∀ x ∈ ws, isspace ((x : Nat) : Int) = true)
    (hc : isdigit (c : Int) = true ∨ c = 46) :
    ∃ w r l1, c :: rest = w ++ r ∧ w ≠ [] ∧ NumRun w ∧
      (∀ w', w' <+: c :: rest → NumRun w' → w'.length ≤ w.length) ∧
      lexer l = (tok_num, l1) ∧ l1.NumVal = codes w ∧ Pending l1 r ∧
      l1.IdStr = l.IdStr := by
  have hsp : isspace (c : Int) = false := by
    rcases hc with h | h
    · simp only [isdigit, isspace, Bool.and_eq_true, decide_eq_true_eq, Bool.or_eq_false_iff,
        Bool.and_eq_false_iff, decide_eq_false_iff_not, beq_eq_false_iff_ne, ne_eq] at *
      omega
    · subst h; decide
  have hal : isalpha (c : Int) = false := by
    rcases hc with h | h
    · simp only [isdigit, isalpha, Bool.and_eq_true, decide_eq_true_eq, Bool.or_eq_false_iff,
        Bool.and_eq_false_iff, decide_eq_false_iff_not] at *
      omega
    · subst h; decide
  have hcond : (isdigit (c : Int) || (c : Int) == 46) = true := by
    rcases hc with h | h
    · simp [h]
    · subst h; decide
  have hc46 : ((c : Int) == 46) = true ↔ c = 46 := by
    simp only [beq_iff_eq]; omega
  have hsk := skipSpace_pending l ws c rest hp hws hsp
  obtain ⟨w0, r, hsplit, hres, hmem, hlock, hcount, hstop⟩ :=
    readNumber_run rest [] ((c : Int) == 46) (c : Int)
  have hrun : NumRun (c :: w0) := by
    constructor
    · intro x hx
      rcases List.mem_cons.mp hx with h | h
      · subst h; exact hc
      · exact hmem x h
    · by_cases h : c = 46
      · subst h
        have hnot : 46 ∉ w0 := hlock (by simp)
        simp [List.count_cons, List.count_eq_zero_of_not_mem hnot]
      · rw [List.count_cons_of_ne (Ne.symm h)]; exact hcount
  refine ⟨c :: w0, r,
    ({ l with LastChar := (getchar r).1, input := (getchar r).2, NumVal := codes (c :: w0) } :
      LexState), ?_, ?_, hrun, ?_, ?_, rfl, ?_, rfl⟩
  · simp [hsplit]
  · simp
  · intro w1 hpre hw1
    by_contra hlt
    have hlt1 : (c :: w0).length < w1.length := Nat.lt_of_not_le hlt
    cases r with
    | nil =>
      have := hpre.length_le
      rw [hsplit] at this
      simp at this hlt1
      omega
    | cons x r1 =>
      obtain ⟨hxd, hx46⟩ := hstop x rfl
      have hpre2 : (c :: w0) ++ [x] <+: c :: rest := by
        rw [hsplit]
        exact ⟨r1, by simp⟩
      have hsub : (c :: w0) ++ [x] <+: w1 :=
        List.prefix_of_prefix_length_le hpre2 hpre (by simp at hlt1 ⊢; omega)
      have hxin : x ∈ w1 := hsub.subset (by simp)
      have hxe : x = 46 := by
        rcases hw1.1 x hxin with h | h
        · rw [h] at hxd; exact absurd hxd (by decide)
        · exact h
      have hin : 46 ∈ c :: w0 := by
        rcases hx46 hxe with h | h
        · have : ((c : Int) == 46) = true := by simpa using h
          exact List.mem_cons.mpr (Or.inl (hc46.mp this).symm)
        · exact List.mem_cons_of_mem _ h
      have h1 : 1 ≤ List.count 46 (c :: w0) := List.count_pos_iff.mpr hin
      have h2 : List.count 46 ((c :: w0) ++ [x]) = List.count 46 (c :: w0) + 1 := by
        rw [hxe, List.count_append]; simp
      have h3 := hsub.sublist.count_le (46 : Nat)
      have h4 := hw1.2
      omega
  · rw [lexer_eq]
    simp only [hsk, hal, hcond, Bool.false_eq_true, if_false, if_true]
    rw [hres]
    simp [codes]
  · exact pending_getchar { l with NumVal := codes (c :: w0) } r

/-- The input `3.14.5`: first a number with lexeme `3.14` (314 / 10 ^ 2), the
second `.` left pending, then a number with lexeme `.5` (5 / 10 ^ 1). -/
theorem lexer_number_longest_run_witness :
    (Pending (LexState.start [51, 46, 49, 52, 46, 53]) ([32] ++ 51 :: [46, 49, 52, 46, 53]) ∧
      (∀ x ∈ ([32] : List Nat), isspace ((x : Nat) : Int) = true) ∧
      (isdigit ((51 : Nat) : Int) = true ∨ (51 : Nat) = 46)) ∧
    (∃ w r l1, 51 :: [46, 49, 52, 46, 53] = w ++ r ∧ w ≠ [] ∧ NumRun w ∧
      (∀ w', w' <+: 51 :: [46, 49, 52, 46, 53] → NumRun w' → w'.length ≤ w.length) ∧
      lexer (LexState.start [51, 46, 49, 52, 46, 53]) = (tok_num, l1) ∧ l1.NumVal = codes w ∧
      Pending l1 r ∧ l1.IdStr = (LexState.start [51, 46, 49, 52, 46, 53]).IdStr) ∧
    lexer (LexState.start [51, 46, 49, 52, 46, 53]) =
      (tok_num, ⟨46, [53], [], [51, 46, 49, 52]⟩) ∧
    lexer ⟨46, [53], [], [51, 46, 49, 52]⟩ = (tok_num, ⟨EOF, [], [], [46, 53]⟩) ∧
    decimalOf [51, 46, 49, 52] = (314, 2) ∧ decimalOf [46, 53] = (5, 1) :=
  ⟨⟨⟨rfl, rfl⟩, by decide, Or.inl (by decide)⟩,
    lexer_number_longest_run (LexState.start [51, 46, 49, 52, 46, 53]) [32] 51
      [46, 49, 52, 46, 53] ⟨rfl, rfl⟩ (by decide) (Or.inl (by decide)),
    by decide, by decide, by decide, by decide⟩

/-! ## The precedence table -/

theorem GetTokPrecedence_lex (s : State) : (GetTokPrecedence s).2.lex = s.lex := by
  unfold GetTokPrecedence; split
  · rfl
  · simp only []; split <;> rfl

theorem GetTokPrecedence_CurTok (s : State) : (GetTokPrecedence s).2.CurTok = s.CurTok := by
  unfold GetTokPrecedence; split
  · rfl
  · simp only []; split <;> rfl

theorem GetTokPrecedence_diag (s : State) : (GetTokPrecedence s).2.diag = s.diag := by
  unfold GetTokPrecedence; split
  · rfl
  · simp only []; split <;> rfl

theorem GetTokPrecedence_view (s : State) : (GetTokPrecedence s).2.view = s.view := by
  simp [State.view, GetTokPrecedence_lex, GetTokPrecedence_CurTok]

/-- The value a lookup returns, in terms of the association list. -/
theorem GetTokPrecedence_fst (s : State) :
    (GetTokPrecedence s).1 =
      if isascii s.CurTok = true then
        (if (s.BinOpPrecedence.lookup s.CurTok).getD 0 ≤ 0 then -1
         else (s.BinOpPrecedence.lookup s.CurTok).getD 0)
      else -1 := by
  unfold GetTokPrecedence mapIndex
  cases ha : isascii s.CurTok
  · simp
  · cases hl : s.BinOpPrecedence.lookup s.CurTok with
    | none => simp
    | some v => simp only [Bool.not_true, Bool.false_eq_true, if_false, if_true, Option.getD_some]
                split <;> rfl

/-- A lookup leaves every later lookup as it was. -/
theorem GetTokPrecedence_lookup (s : State) (k : Int) :
    ((GetTokPrecedence s).2.BinOpPrecedence.lookup k).getD 0 =
      (s.BinOpPrecedence.lookup k).getD 0 := by
  unfold GetTokPrecedence mapIndex
  cases ha : isascii s.CurTok
  · simp
  · cases hl : s.BinOpPrecedence.lookup s.CurTok with
    | some v => simp only [Bool.not_true, Bool.false_eq_true, if_false]; split <;> rfl
    | none =>
      have h2 : ((s.CurTok, (0 : Int)) :: s.BinOpPrecedence).lookup k =
          if k = s.CurTok then some 0 else s.BinOpPrecedence.lookup k := by
        by_cases hk : k = s.CurTok
        · subst hk; simp [List.lookup]
        · have : (k == s.CurTok) = false := by simpa using hk
          simp [List.lookup, this, hk]
      simp only [Bool.not_true, Bool.false_eq_true, if_false, le_refl, if_true]
      rw [h2]
      by_cases hk : k = s.CurTok
      · subst hk; simp [hl]
      · simp [hk]

theorem Installed_of_lookup (s s1 : State)
    (h : ∀ k, (s1.BinOpPrecedence.lookup k).getD 0 = (s.BinOpPrecedence.lookup k).getD 0)
    (hi : Installed s) : Installed s1 := by
  intro t
  have := hi t
  rw [GetTokPrecedence_fst] at this ⊢
  simp only [h]
  exact this

theorem Installed_GetTokPrecedence (s : State) (hi : Installed s) :
    Installed (GetTokPrecedence s).2 :=
  Installed_of_lookup s _ (GetTokPrecedence_lookup s) hi

theorem Installed_getNextTok (s : State) (hi : Installed s) : Installed (getNextTok s) :=
  Installed_of_lookup s _ (fun _ => rfl) hi

theorem Installed_LogError (s : State) (m : String) (hi : Installed s) :
    Installed (LogError s m) :=
  Installed_of_lookup s _ (fun _ => rfl) hi

theorem GetTokPrecedence_installed (s : State) (hi : Installed s) :
    (GetTokPrecedence s).1 = tokPrec s.CurTok := by
  have := hi s.CurTok
  simpa using this

theorem Installed_install_binops (s0 : State) (h0 : s0.BinOpPrecedence = []) :
    Installed (install_binops s0) := by
  intro t
  rw [GetTokPrecedence_fst]
  simp only [install_binops, h0, mapAssign, List.lookup]
  unfold tokPrec isascii
  by_cases h1 : t = 47
  · subst h1; decide
  by_cases h2 : t = 42
  · subst h2; decide
  by_cases h3 : t = 45
  · subst h3; decide
  by_cases h4 : t = 43
  · subst h4; decide
  by_cases h5 : t = 60
  · subst h5; decide
  have e1 : (t == 47) = false := by simpa using h1
  have e2 : (t == 42) = false := by simpa using h2
  have e3 : (t == 45) = false := by simpa using h3
  have e4 : (t == 43) = false := by simpa using h4
  have e5 : (t == 60) = false := by simpa using h5
  simp [List.lookup, e1, e2, e3, e4, e5, h1, h2, h3, h4, h5]

theorem Installed_start (inp : List Nat) : Installed (State.start inp) :=
  Installed_getNextTok _ (Installed_install_binops _ rfl)

/-- C3. After `install_binops()` (run, as in `main`, on the empty map),
`GetTokPrecedence()` returns 10 when the current token is `<`, 20 for `+` and
`-`, 40 for `*` and `/`, and -1 for every other token, the negative codes of
the end-of-input, keyword, identifier and number tokens included. -/
theorem GetTokPrecedence_after_install (s0 : State) (h0 : s0.BinOpPrecedence = []) (t : Int) :
    (GetTokPrecedence { install_binops s0 with CurTok := t }).1 =
      (if t = 60 then 10 else if t = 43 ∨ t = 45 then 20
       else if t = 42 ∨ t = 47 then 40 else -1) ∧
    (t = tok_eof ∨ t = tok_gate ∨ t = tok_extern ∨ t = tok_id ∨ t = tok_num →
      (GetTokPrecedence { install_binops s0 with CurTok := t }).1 = -1) := by
  have h := Installed_install_binops s0 h0 t
  refine ⟨h, fun ht => ?_⟩
  rw [h]
  rcases ht with h | h | h | h | h <;> subst h <;> decide

theorem GetTokPrecedence_after_install_witness :
    (State.init []).BinOpPrecedence = [] ∧
    ((GetTokPrecedence { install_binops (State.init []) with CurTok := 42 }).1 =
      (if (42 : Int) = 60 then 10 else if (42 : Int) = 43 ∨ (42 : Int) = 45 then 20
       else if (42 : Int) = 42 ∨ (42 : Int) = 47 then 40 else -1) ∧
    ((42 : Int) = tok_eof ∨ (42 : Int) = tok_gate ∨ (42 : Int) = tok_extern ∨
        (42 : Int) = tok_id ∨ (42 : Int) = tok_num →
      (GetTokPrecedence { install_binops (State.init []) with CurTok := 42 }).1 = -1)) :=
  ⟨rfl, GetTokPrecedence_after_install _ rfl 42⟩

/-! ## More fuel does not change what the parser returns -/

theorem parser_fuel_step (f : Nat) :
    FuelMono ParseParenExpr f ∧ FuelMono ParseIdentifierExpr f ∧
    FuelMono (fun n (a : List ExprAST × State) => ParseArgsLoop n a.1 a.2) f ∧
    FuelMono ParsePrimary f ∧ FuelMono ParseExpression f ∧
    FuelMono (fun n (a : Int × ExprAST × State) => ParseBinOpRHS n a.1 a.2.1 a.2.2) f := by
  induction f with
  | zero =>
    refine ⟨?_, ?_, ?_, ?_, ?_, ?_⟩ <;> intro a r h
    · simp [ParseParenExpr] at h
    · simp [ParseIdentifierExpr] at h
    · simp [ParseArgsLoop] at h
    · simp [ParsePrimary] at h
    · simp [ParseExpression] at h
    · simp [ParseBinOpRHS] at h
  | succ f ih =>
    obtain ⟨ihParen, ihId, ihArgs, ihPrim, ihExpr, ihRHS⟩ := ih
    refine ⟨?_, ?_, ?_, ?_, ?_, ?_⟩
    · intro s r h
      rw [ParseParenExpr] at h ⊢
      cases hE : ParseExpression f (getNextTok s) with
      | none => rw [hE] at h; simp at h
      | some x => rw [hE] at h; rw [ihExpr _ _ hE]; exact h
    · intro s r h
      rw [ParseIdentifierExpr] at h ⊢
      simp only [] at h ⊢
      split
      · rename_i h1; rw [if_pos h1] at h; exact h
      · rename_i h1; rw [if_neg h1] at h
        split
        · rename_i h2; rw [if_pos h2] at h
          cases hE : ParseArgsLoop f [] (getNextTok (getNextTok s)) with
          | none => rw [hE] at h; simp at h
          | some x =>
            rw [hE] at h
            have := ihArgs ([], getNextTok (getNextTok s)) x hE
            simp only [] at this
            rw [this]; exact h
        · rename_i h2; rw [if_neg h2] at h; exact h
    · intro a r h
      obtain ⟨Args, s⟩ := a
      simp only [] at h ⊢
      rw [ParseArgsLoop] at h ⊢
      cases hE : ParseExpression f s with
      | none => rw [hE] at h; simp at h
      | some x =>
        rw [hE] at h; rw [ihExpr _ _ hE]
        obtain ⟨o, s1⟩ := x
        cases o with
        | none => exact h
        | some Arg =>
          simp only [] at h ⊢
          split
          · rename_i h1; rw [if_pos h1] at h; exact h
          · rename_i h1; rw [if_neg h1] at h
            split
            · rename_i h2; rw [if_pos h2] at h; exact h
            · rename_i h2; rw [if_neg h2] at h
              exact ihArgs (Args ++ [Arg], getNextTok s1) r h
    · intro s r h
      rw [ParsePrimary] at h ⊢
      split
      · rename_i h1; rw [if_pos h1] at h; exact ihId _ _ h
      · rename_i h1; rw [if_neg h1] at h
        split
        · rename_i h2; rw [if_pos h2] at h; exact h
        · rename_i h2; rw [if_neg h2] at h
          split
          · rename_i h3; rw [if_pos h3] at h; exact ihParen _ _ h
          · rename_i h3; rw [if_neg h3] at h; exact h
    · intro s r h
      rw [ParseExpression] at h ⊢
      cases hE : ParsePrimary f s with
      | none => rw [hE] at h; simp at h
      | some x =>
        rw [hE] at h; rw [ihPrim _ _ hE]
        obtain ⟨o, s1⟩ := x
        cases o with
        | none => exact h
        | some LHS => exact ihRHS (0, LHS, s1) r h
    · intro a r h
      obtain ⟨ExprPrec, LHS, s⟩ := a
      simp only [] at h ⊢
      rw [ParseBinOpRHS] at h ⊢
      simp only [] at h ⊢
      split
      · rename_i h1; rw [if_pos h1] at h; exact h
      · rename_i h1; rw [if_neg h1] at h
        cases hE : ParsePrimary f (getNextTok (GetTokPrecedence s).2) with
        | none => rw [hE] at h; simp at h
        | some x =>
          rw [hE] at h; rw [ihPrim _ _ hE]
          obtain ⟨o, s1⟩ := x
          cases o with
          | none => exact h
          | some RHS =>
            simp only [] at h ⊢
            split
            · rename_i h2; rw [if_pos h2] at h
              cases hR : ParseBinOpRHS f ((GetTokPrecedence s).1 + 1) RHS
                  (GetTokPrecedence s1).2 with
              | none => rw [hR] at h; simp at h
              | some y =>
                rw [hR] at h
                have := ihRHS ((GetTokPrecedence s).1 + 1, RHS, (GetTokPrecedence s1).2) y hR
                simp only [] at this
                rw [this]
                obtain ⟨o2, s2⟩ := y
                cases o2 with
                | none => exact h
                | some RHS1 =>
                  exact ihRHS (ExprPrec, ExprAST.BinaryExprAST _ LHS RHS1, s2) r h
            · rename_i h2; rw [if_neg h2] at h
              exact ihRHS (ExprPrec, ExprAST.BinaryExprAST _ LHS RHS, (GetTokPrecedence s1).2) r h

theorem ParseExpression_mono (f g : Nat) (s : State) (r : Option ExprAST × State)
    (h : ParseExpression f s = some r) (hfg : f ≤ g) : ParseExpression g s = some r := by
  induction hfg with
  | refl => exact h
  | step _ ih => exact (parser_fuel_step _).2.2.2.2.1 _ _ ih

theorem ParsePrimary_mono (f g : Nat) (s : State) (r : Option ExprAST × State)
    (h : ParsePrimary f s = some r) (hfg : f ≤ g) : ParsePrimary g s = some r := by
  induction hfg with
  | refl => exact h
  | step _ ih => exact (parser_fuel_step _).2.2.2.1 _ _ ih

theorem ParseArgsLoop_mono (f g : Nat) (Args : List ExprAST) (s : State)
    (r : Option (List ExprAST) × State)
    (h : ParseArgsLoop f Args s = some r) (hfg : f ≤ g) : ParseArgsLoop g Args s = some r := by
  induction hfg with
  | refl => exact h
  | step _ ih => exact (parser_fuel_step _).2.2.1 (Args, s) _ ih

theorem ParseBinOpRHS_mono (f g : Nat) (p : Int) (LHS : ExprAST) (s : State)
    (r : Option ExprAST × State)
    (h : ParseBinOpRHS f p LHS s = some r) (hfg : f ≤ g) : ParseBinOpRHS g p LHS s = some r := by
  induction hfg with
  | refl => exact h
  | step _ ih => exact (parser_fuel_step _).2.2.2.2.2 (p, LHS, s) _ ih

theorem ParseIdentifierExpr_mono (f g : Nat) (s : State) (r : Option ExprAST × State)
    (h : ParseIdentifierExpr f s = some r) (hfg : f ≤ g) : ParseIdentifierExpr g s = some r := by
  induction hfg with
  | refl => exact h
  | step _ ih => exact (parser_fuel_step _).2.1 _ _ ih

/-! ## Tokens ahead -/

theorem getNextTok_view (s : State) : (getNextTok s).view = lexer s.lex := rfl

theorem getNextTok_diag (s : State) : (getNextTok s).diag = s.diag := rfl

theorem tokenOf_code (c : Int) (l : LexState) : (tokenOf c l).code = c := by
  unfold tokenOf
  split
  · rename_i h; rw [h]; rfl
  · split
    · rename_i h; rw [h]; rfl
    · split
      · rename_i h; rw [h]; rfl
      · split
        · rename_i h; rw [h]; rfl
        · split
          · rename_i h; rw [h]; rfl
          · rfl

theorem tokenOf_num (c : Int) (l : LexState) (a : List Int) (h : tokenOf c l = Token.num a) :
    c = tok_num ∧ l.NumVal = a := by
  have hc := tokenOf_code c l
  rw [h] at hc
  have hc1 : c = tok_num := hc.symm
  subst hc1
  refine ⟨rfl, ?_⟩
  have : tokenOf tok_num l = Token.num l.NumVal := by simp [tokenOf, tok_num, tok_eof, tok_gate, tok_extern, tok_id]
  rw [this] at h
  exact Token.num.inj h

theorem tokenOf_id (c : Int) (l : LexState) (a : List Int) (h : tokenOf c l = Token.id a) :
    c = tok_id ∧ l.IdStr = a := by
  have hc := tokenOf_code c l
  rw [h] at hc
  have hc1 : c = tok_id := hc.symm
  subst hc1
  refine ⟨rfl, ?_⟩
  have : tokenOf tok_id l = Token.id l.IdStr := by simp [tokenOf, tok_eof, tok_gate, tok_extern, tok_id]
  rw [this] at h
  exact Token.id.inj h

theorem tokenOf_chr (c : Int) (l : LexState) (o : Int) (h : tokenOf c l = Token.chr o) :
    c = o := by
  have hc := tokenOf_code c l
  rw [h] at hc
  exact hc.symm

theorem tokens_succ (n : Nat) (v : Int × LexState) :
    tokens (n + 1) v = tokenOf v.1 v.2 :: tokens n (lexer v.2) := rfl

theorem advance_succ (n : Nat) (v : Int × LexState) :
    advance (n + 1) v = advance n (lexer v.2) := rfl

/-- The last of the tokens ahead is the lookahead after the others are consumed. -/
theorem tokens_last (t : Token) : ∀ (n : Nat) (v : Int × LexState) (pre : List Token),
    tokens (n + 1) v = pre ++ [t] → tokenOf (advance n v).1 (advance n v).2 = t := by
  intro n
  induction n with
  | zero =>
    intro v pre h
    cases pre with
    | nil =>
      rw [tokens_succ] at h
      exact (List.cons.inj h).1
    | cons x pre =>
      have := congrArg List.length h
      simp only [tokens, List.length_cons, List.length_nil, List.length_append] at this
      omega
  | succ n ih =>
    intro v pre h
    cases pre with
    | nil =>
      have := congrArg List.length h
      simp only [tokens, List.length_cons, List.length_nil, List.nil_append] at this
      omega
    | cons x pre =>
      rw [tokens_succ] at h
      exact ih (lexer v.2) pre (List.cons.inj h).2

/-! ## Steps of the operator-precedence loop -/

theorem ParsePrimary_num (f : Nat) (s : State) (h : s.CurTok = tok_num) :
    ParsePrimary (f + 1) s =
      some (some (ExprAST.NumberExprAST s.lex.NumVal), getNextTok s) := by
  rw [ParsePrimary, h]
  simp [tok_num, tok_id, ParseNumberExpr]

/-- The loop of `ParseBinOpRHS` returns `LHS` at a token whose precedence is
below `ExprPrec`. -/
theorem ParseBinOpRHS_stop (f : Nat) (p : Int) (LHS : ExprAST) (s : State)
    (hi : Installed s) (hp : tokPrec s.CurTok < p) :
    ParseBinOpRHS (f + 1) p LHS s = some (some LHS, (GetTokPrecedence s).2) := by
  rw [ParseBinOpRHS]
  simp only [GetTokPrecedence_installed s hi, hp, if_true]

/-- One iteration of the loop of `ParseBinOpRHS` at an operator followed by a
number literal. -/
theorem ParseBinOpRHS_num (f : Nat) (p : Int) (LHS : ExprAST) (s : State)
    (hi : Installed s) (hp : p ≤ tokPrec s.CurTok) (hnum : (lexer s.lex).1 = tok_num) :
    ParseBinOpRHS (f + 2) p LHS s =
      if tokPrec s.CurTok < tokPrec (lexer (lexer s.lex).2).1 then
        match ParseBinOpRHS (f + 1) (tokPrec s.CurTok + 1)
            (ExprAST.NumberExprAST (lexer s.lex).2.NumVal)
            (GetTokPrecedence (getNextTok (getNextTok (GetTokPrecedence s).2))).2 with
        | none => none
        | some (none, s2) => some (none, s2)
        | some (some RHS1, s2) =>
          ParseBinOpRHS (f + 1) p (ExprAST.BinaryExprAST s.CurTok LHS RHS1) s2
      else
        ParseBinOpRHS (f + 1) p
          (ExprAST.BinaryExprAST s.CurTok LHS (ExprAST.NumberExprAST (lexer s.lex).2.NumVal))
          (GetTokPrecedence (getNextTok (getNextTok (GetTokPrecedence s).2))).2 := by
  have hnp : ¬ tokPrec s.CurTok < p := not_lt.mpr hp
  have h1 : (getNextTok (GetTokPrecedence s).2).CurTok = tok_num := by
    show (lexer (GetTokPrecedence s).2.lex).1 = tok_num
    rw [GetTokPrecedence_lex]; exact hnum
  have h2 : (getNextTok (GetTokPrecedence s).2).lex = (lexer s.lex).2 := by
    show (lexer (GetTokPrecedence s).2.lex).2 = (lexer s.lex).2
    rw [GetTokPrecedence_lex]
  have hi2 : Installed (getNextTok (getNextTok (GetTokPrecedence s).2)) :=
    Installed_getNextTok _ (Installed_getNextTok _ (Installed_GetTokPrecedence s hi))
  have h3 : (getNextTok (getNextTok (GetTokPrecedence s).2)).CurTok =
      (lexer (lexer s.lex).2).1 := by
    show (lexer (getNextTok (GetTokPrecedence s).2).lex).1 = _
    rw [h2]
  rw [ParseBinOpRHS]
  simp only [GetTokPrecedence_installed s hi, hnp, if_false, ParsePrimary_num f _ h1,
    GetTokPrecedence_installed _ hi2, h3, h2, GetTokPrecedence_CurTok]

/-- The loop of `ParseBinOpRHS` on a chain of operators of one precedence `p`,
each followed by a number literal, the chain being followed by a token that is
no operator: the operands are merged to the left one after the other. -/
theorem ParseBinOpRHS_chain (p : Int) (hp : 0 < p) (ExprPrec : Int) (h0 : 0 ≤ ExprPrec)
    (hle : ExprPrec ≤ p) (t : Token) (ht : tokPrec t.code = -1) :
    ∀ (rest : List (Int × List Int)) (LHS : ExprAST) (s : State) (f : Nat),
      Installed s → (∀ q ∈ rest, tokPrec q.1 = p) →
      tokens (2 * rest.length + 1) s.view = chainToks rest ++ [t] →
      rest.length + 2 ≤ f →
      ∃ s1, ParseBinOpRHS f ExprPrec LHS s = some (some (leftNested LHS rest), s1) ∧
        s1.view = advance (2 * rest.length) s.view ∧ Installed s1 ∧ s1.diag = s.diag := by
  intro rest
  induction rest with
  | nil =>
    intro LHS s f hi _ htok hf
    obtain ⟨g, rfl⟩ := Nat.exists_eq_add_of_le hf
    have hcur : tokenOf s.CurTok s.lex = t := by
      have := htok
      simp only [List.length_nil, Nat.mul_zero, Nat.zero_add, chainToks, List.nil_append,
        tokens, State.view, List.cons.injEq, and_true] at this
      exact this
    have hc : s.CurTok = t.code := by rw [← hcur, tokenOf_code]
    have hlt : tokPrec s.CurTok < ExprPrec := by rw [hc, ht]; omega
    refine ⟨(GetTokPrecedence s).2, ?_, GetTokPrecedence_view s,
      Installed_GetTokPrecedence s hi, GetTokPrecedence_diag s⟩
    have := ParseBinOpRHS_stop (g + 1) ExprPrec LHS s hi hlt
    have e : ([] : List (Int × List Int)).length + 2 + g = g + 1 + 1 := by
      simp only [List.length_nil]; omega
    rw [e]
    exact this
  | cons q rest ih =>
    intro LHS s f hi hall htok hf
    obtain ⟨g, rfl⟩ := Nat.exists_eq_add_of_le hf
    have hlen : 2 * (q :: rest).length + 1 = (2 * rest.length + 1) + 1 + 1 := by
      simp only [List.length_cons]; omega
    rw [hlen, tokens_succ, tokens_succ] at htok
    simp only [chainToks, List.cons_append, List.cons.injEq] at htok
    obtain ⟨hq1, hq2, hrest⟩ := htok
    have hcur : s.CurTok = q.1 := tokenOf_chr _ _ _ hq1
    have hnum := tokenOf_num _ _ _ hq2
    have hnum2 : (lexer s.lex).2.NumVal = q.2 := hnum.2
    have hpq : tokPrec s.CurTok = p := by rw [hcur]; exact hall q (List.mem_cons_self _ _)
    have hnext : ¬ tokPrec s.CurTok < tokPrec (lexer (lexer s.lex).2).1 := by
      rw [hpq]
      cases rest with
      | nil =>
        have h1 : tokenOf (lexer (lexer s.lex).2).1 (lexer (lexer s.lex).2).2 = t := by
          simpa [tokens, chainToks, State.view] using hrest
        have h2 : (lexer (lexer s.lex).2).1 = t.code := by rw [← h1, tokenOf_code]
        rw [h2, ht]; omega
      | cons q2 rest2 =>
        have h1 : tokenOf (lexer (lexer s.lex).2).1 (lexer (lexer s.lex).2).2 =
            Token.chr q2.1 := by
          have := hrest
          simp only [List.length_cons, chainToks, List.cons_append, State.view] at this
          rw [show 2 * (rest2.length + 1) + 1 = (2 * rest2.length + 1 + 1) + 1 by omega,
            tokens_succ] at this
          exact (List.cons.inj this).1
        have h2 := tokenOf_chr _ _ _ h1
        rw [h2, hall q2 (List.mem_cons_of_mem _ (List.mem_cons_self _ _))]
        omega
    have hstep := ParseBinOpRHS_num (rest.length + 1 + g) ExprPrec LHS s hi
      (by rw [hpq]; exact hle) hnum.1
    rw [if_neg hnext] at hstep
    have hi2 : Installed (GetTokPrecedence (getNextTok (getNextTok (GetTokPrecedence s).2))).2 :=
      Installed_GetTokPrecedence _ (Installed_getNextTok _ (Installed_getNextTok _
        (Installed_GetTokPrecedence s hi)))
    have hview : (GetTokPrecedence (getNextTok (getNextTok (GetTokPrecedence s).2))).2.view =
        lexer (lexer s.lex).2 := by
      rw [GetTokPrecedence_view, getNextTok_view]
      show lexer (lexer (GetTokPrecedence s).2.lex).2 = _
      rw [GetTokPrecedence_lex]
    obtain ⟨s1, hres, hv, his, hd⟩ := ih
      (ExprAST.BinaryExprAST s.CurTok LHS (ExprAST.NumberExprAST (lexer s.lex).2.NumVal))
      (GetTokPrecedence (getNextTok (getNextTok (GetTokPrecedence s).2))).2
      (rest.length + 1 + g + 1) hi2
      (fun q2 hq2 => hall q2 (List.mem_cons_of_mem _ hq2))
      (by rw [hview]; exact hrest) (by omega)
    refine ⟨s1, ?_, ?_, his, ?_⟩
    · rw [show (q :: rest).length + 2 + g = rest.length + 1 + g + 2 by
        simp only [List.length_cons]; omega]
      rw [hstep, hres, hcur, hnum2]
      rfl
    · rw [hv, hview]
      rw [show 2 * (q :: rest).length = 2 * rest.length + 1 + 1 by
        simp only [List.length_cons]; omega]
      rfl
    · rw [hd, GetTokPrecedence_diag, getNextTok_diag, getNextTok_diag, GetTokPrecedence_diag]

/-- C2. A chain `a0 o1 a1 ... on an` of number literals whose operators all
have one precedence (`rest` lists the pairs `(oi, ai)`; any length, so every
n ≥ 1), followed by a token that is no operator, is parsed by
`ParseExpression`, given fuel `n + 4` or more, to the left-nested tree
`BinaryOp(on, ... BinaryOp(o1, a0, a1) ..., an)`, leaving that token as the
lookahead. -/
theorem ParseExpression_left_assoc (s : State) (a0 : List Int) (rest : List (Int × List Int))
    (t : Token) (p : Int) (f : Nat)
    (hi : Installed s) (hp : 0 < p) (hall : ∀ q ∈ rest, tokPrec q.1 = p)
    (ht : tokPrec t.code = -1)
    (htok : tokens (2 * rest.length + 2) s.view = Token.num a0 :: chainToks rest ++ [t])
    (hf : rest.length + 4 ≤ f) :
    ∃ s1, ParseExpression f s =
        some (some (leftNested (ExprAST.NumberExprAST a0) rest), s1) ∧
      s1.view = advance (2 * rest.length + 1) s.view ∧ tokenOf s1.CurTok s1.lex = t ∧
      Installed s1 ∧ s1.diag = s.diag := by
  obtain ⟨g, rfl⟩ := Nat.exists_eq_add_of_le hf
  rw [show 2 * rest.length + 2 = (2 * rest.length + 1) + 1 by omega, tokens_succ] at htok
  simp only [List.cons_append, List.cons.injEq] at htok
  obtain ⟨h1, hrest⟩ := htok
  have hnum := tokenOf_num _ _ _ h1
  have hnum1 : s.CurTok = tok_num := hnum.1
  have hnum2 : s.lex.NumVal = a0 := hnum.2
  obtain ⟨s1, hres, hv, his, hd⟩ := ParseBinOpRHS_chain p hp 0 (le_refl 0) (le_of_lt hp) t ht
    rest (ExprAST.NumberExprAST a0) (getNextTok s) (rest.length + 2 + g + 1)
    (Installed_getNextTok s hi) hall (by rw [getNextTok_view]; exact hrest) (by omega)
  refine ⟨s1, ?_, ?_, ?_, his, ?_⟩
  · rw [show rest.length + 4 + g = (rest.length + 2 + g + 1) + 1 by omega, ParseExpression,
      ParsePrimary_num _ s hnum1]
    simp only [hnum2]
    exact hres
  · rw [hv, getNextTok_view]; rfl
  · have := tokens_last t (2 * rest.length) (lexer s.lex) (chainToks rest) hrest
    have hview' : (s1.CurTok, s1.lex) = advance (2 * rest.length) (lexer s.lex) := by
      rw [← getNextTok_view]; exact hv
    rw [← hview'] at this
    exact this
  · rw [hd]; rfl

/-- The input `1 - 2 - 3;` parses as `(1 - 2) - 3`. -/
theorem ParseExpression_left_assoc_witness :
    (Installed (State.start [49, 45, 50, 45, 51, 59]) ∧ (0 : Int) < 20 ∧
      (∀ q ∈ ([(45, [50]), (45, [51])] : List (Int × List Int)), tokPrec q.1 = 20) ∧
      tokPrec (Token.chr 59).code = -1 ∧
      tokens (2 * ([(45, [50]), (45, [51])] : List (Int × List Int)).length + 2)
          (State.start [49, 45, 50, 45, 51, 59]).view =
        Token.num [49] :: chainToks [(45, [50]), (45, [51])] ++ [Token.chr 59] ∧
      ([(45, [50]), (45, [51])] : List (Int × List Int)).length + 4 ≤ 6) ∧
    (∃ s1, ParseExpression 6 (State.start [49, 45, 50, 45, 51, 59]) =
        some (some (leftNested (ExprAST.NumberExprAST [49]) [(45, [50]), (45, [51])]), s1) ∧
      s1.view = advance (2 * ([(45, [50]), (45, [51])] : List (Int × List Int)).length + 1)
        (State.start [49, 45, 50, 45, 51, 59]).view ∧
      tokenOf s1.CurTok s1.lex = Token.chr 59 ∧
      Installed s1 ∧ s1.diag = (State.start [49, 45, 50, 45, 51, 59]).diag) ∧
    leftNested (ExprAST.NumberExprAST [49]) [(45, [50]), (45, [51])] =
      ExprAST.BinaryExprAST 45
        (ExprAST.BinaryExprAST 45 (ExprAST.NumberExprAST [49]) (ExprAST.NumberExprAST [50]))
        (ExprAST.NumberExprAST [51]) :=
  ⟨⟨Installed_start _, by decide, by decide, by decide, by decide, by decide⟩,
    ParseExpression_left_assoc (State.start [49, 45, 50, 45, 51, 59]) [49]
      [(45, [50]), (45, [51])] (Token.chr 59) 20 6 (Installed_start _) (by decide) (by decide)
      (by decide) (by decide) (by decide),
    rfl⟩

/-- The loop of `ParseBinOpRHS` returns at a token of precedence below `p`. -/
theorem loop_stop (s : State) (p : Int) (hi : Installed s) (hp : tokPrec s.CurTok < p) :
    ∃ s2, (∀ LHS g, ParseBinOpRHS (g + 1) p LHS s = some (some LHS, s2)) ∧
      s2.view = s.view ∧ Installed s2 ∧ s2.diag = s.diag :=
  ⟨(GetTokPrecedence s).2, fun LHS g => ParseBinOpRHS_stop g p LHS s hi hp,
    GetTokPrecedence_view s, Installed_GetTokPrecedence s hi, GetTokPrecedence_diag s⟩

/-- An iteration at an operator and a number literal followed by a token that
does not bind tighter: the two are merged into `LHS` and the loop goes on. -/
theorem loop_merge (s : State) (p : Int) (b : List Int) (hi : Installed s)
    (hp : p ≤ tokPrec s.CurTok)
    (hb : tokenOf (advance 1 s.view).1 (advance 1 s.view).2 = Token.num b)
    (hnext : ¬ tokPrec s.CurTok < tokPrec (advance 2 s.view).1) :
    ∃ s2, (∀ LHS g, ParseBinOpRHS (g + 2) p LHS s =
        ParseBinOpRHS (g + 1) p
          (ExprAST.BinaryExprAST s.CurTok LHS (ExprAST.NumberExprAST b)) s2) ∧
      s2.view = advance 2 s.view ∧ Installed s2 ∧ s2.diag = s.diag := by
  have hnum := tokenOf_num _ _ _ hb
  have hnum1 : (lexer s.lex).1 = tok_num := hnum.1
  have hnum2 : (lexer s.lex).2.NumVal = b := hnum.2
  have hnext1 : ¬ tokPrec s.CurTok < tokPrec (lexer (lexer s.lex).2).1 := hnext
  refine ⟨(GetTokPrecedence (getNextTok (getNextTok (GetTokPrecedence s).2))).2, ?_, ?_, ?_, ?_⟩
  · intro LHS g
    rw [ParseBinOpRHS_num g p LHS s hi hp hnum1, if_neg hnext1, hnum2]
  · rw [GetTokPrecedence_view, getNextTok_view]
    show lexer (lexer (GetTokPrecedence s).2.lex).2 = _
    rw [GetTokPrecedence_lex]; rfl
  · exact Installed_GetTokPrecedence _ (Installed_getNextTok _ (Installed_getNextTok _
      (Installed_GetTokPrecedence s hi)))
  · rw [GetTokPrecedence_diag, getNextTok_diag, getNextTok_diag, GetTokPrecedence_diag]

/-- An iteration at an operator and a number literal followed by an operator
that binds tighter: the number becomes the `LHS` of a recursive call with
`ExprPrec = TokPrec + 1`, whose result is the right operand. -/
theorem loop_descend (s : State) (p : Int) (b : List Int) (hi : Installed s)
    (hp : p ≤ tokPrec s.CurTok)
    (hb : tokenOf (advance 1 s.view).1 (advance 1 s.view).2 = Token.num b)
    (hnext : tokPrec s.CurTok < tokPrec (advance 2 s.view).1) :
    ∃ s2, (∀ LHS g, ParseBinOpRHS (g + 2) p LHS s =
        match ParseBinOpRHS (g + 1) (tokPrec s.CurTok + 1) (ExprAST.NumberExprAST b) s2 with
        | none => none
        | some (none, s3) => some (none, s3)
        | some (some RHS1, s3) =>
          ParseBinOpRHS (g + 1) p (ExprAST.BinaryExprAST s.CurTok LHS RHS1) s3) ∧
      s2.view = advance 2 s.view ∧ Installed s2 ∧ s2.diag = s.diag := by
  have hnum := tokenOf_num _ _ _ hb
  have hnum1 : (lexer s.lex).1 = tok_num := hnum.1
  have hnum2 : (lexer s.lex).2.NumVal = b := hnum.2
  have hnext1 : tokPrec s.CurTok < tokPrec (lexer (lexer s.lex).2).1 := hnext
  refine ⟨(GetTokPrecedence (getNextTok (getNextTok (GetTokPrecedence s).2))).2, ?_, ?_, ?_, ?_⟩
  · intro LHS g
    rw [ParseBinOpRHS_num g p LHS s hi hp hnum1, if_pos hnext1, hnum2]
  · rw [GetTokPrecedence_view, getNextTok_view]
    show lexer (lexer (GetTokPrecedence s).2.lex).2 = _
    rw [GetTokPrecedence_lex]; rfl
  · exact Installed_GetTokPrecedence _ (Installed_getNextTok _ (Installed_getNextTok _
      (Installed_GetTokPrecedence s hi)))
  · rw [GetTokPrecedence_diag, getNextTok_diag, getNextTok_diag, GetTokPrecedence_diag]

/-- C1. On the tokens `a o1 b o2 c` (number literals `a`, `b`, `c`, installed
operators `o1`, `o2` of different precedences) followed by a token that is no
operator, `ParseExpression`, given fuel 4 or more, nests the operator of
higher precedence deeper: it returns `BinaryOp(o1, a, BinaryOp(o2, b, c))` when
`o2` has the higher precedence and `BinaryOp(o2, BinaryOp(o1, a, b), c)` when
`o1` has (the hypothesis that the precedences differ is not needed: equal
ones also give the second tree), and leaves the following token as the
lookahead. -/
theorem ParseExpression_precedence (s : State) (a b c : List Int) (o1 o2 : Int) (t : Token)
    (f : Nat) (hi : Installed s)
    (h1 : 0 < tokPrec o1) (h2 : 0 < tokPrec o2) (ht : tokPrec t.code = -1)
    (htok : tokens 6 s.view =
      [Token.num a, Token.chr o1, Token.num b, Token.chr o2, Token.num c, t])
    (hf : 4 ≤ f) :
    ∃ s1, ParseExpression f s =
        some (some (if tokPrec o1 < tokPrec o2 then
            ExprAST.BinaryExprAST o1 (ExprAST.NumberExprAST a)
              (ExprAST.BinaryExprAST o2 (ExprAST.NumberExprAST b) (ExprAST.NumberExprAST c))
          else
            ExprAST.BinaryExprAST o2
              (ExprAST.BinaryExprAST o1 (ExprAST.NumberExprAST a) (ExprAST.NumberExprAST b))
              (ExprAST.NumberExprAST c)), s1) ∧
      s1.view = advance 5 s.view ∧ tokenOf s1.CurTok s1.lex = t ∧
      Installed s1 ∧ s1.diag = s.diag := by
  obtain ⟨g, rfl⟩ := Nat.exists_eq_add_of_le hf
  simp only [tokens, List.cons.injEq, and_true] at htok
  obtain ⟨ta, to1, tb, to2, tc, tt⟩ := htok
  have hnum := tokenOf_num _ _ _ ta
  have hnum1 : s.CurTok = tok_num := hnum.1
  have hnum2 : s.lex.NumVal = a := hnum.2
  have hiA := Installed_getNextTok s hi
  have hcA : (getNextTok s).CurTok = o1 := tokenOf_chr _ _ _ to1
  have hco2 : (advance 3 s.view).1 = o2 := tokenOf_chr _ _ _ to2
  have hct : (advance 5 s.view).1 = t.code := by
    have := congrArg Token.code tt
    rw [tokenOf_code] at this
    exact this
  have hstart : ParseExpression (4 + g) s =
      ParseBinOpRHS (g + 3) 0 (ExprAST.NumberExprAST a) (getNextTok s) := by
    rw [show 4 + g = (g + 2 + 1) + 1 by omega, ParseExpression, ParsePrimary_num _ s hnum1]
    simp only [hnum2]
  by_cases hlt : tokPrec o1 < tokPrec o2
  · obtain ⟨sB, hB, hvB, hiB, hdB⟩ := loop_descend (getNextTok s) 0 b hiA
      (by rw [hcA]; omega) tb (by rw [hcA]; show _ < tokPrec (advance 3 s.view).1; rw [hco2]; exact hlt)
    have hvB3 : sB.view = advance 3 s.view := hvB
    have hcB : sB.CurTok = o2 := by
      have := congrArg Prod.fst hvB3
      exact this.trans hco2
    obtain ⟨sC, hC, hvC, hiC, hdC⟩ := loop_merge sB (tokPrec (getNextTok s).CurTok + 1) c hiB
      (by rw [hcA, hcB]; omega) (by rw [hvB3]; exact tc)
      (by rw [hvB3, hcB]; show ¬ _ < tokPrec (advance 5 s.view).1; rw [hct, ht]; omega)
    have hvC5 : sC.view = advance 5 s.view := by rw [hvC, hvB3]; rfl
    have hcC : sC.CurTok = t.code := (congrArg Prod.fst hvC5).trans hct
    obtain ⟨sD, hD, hvD, hiD, hdD⟩ := loop_stop sC (tokPrec (getNextTok s).CurTok + 1) hiC
      (by rw [hcC, ht, hcA]; omega)
    have hcD : sD.CurTok = t.code := (congrArg Prod.fst hvD).trans hcC
    obtain ⟨sE, hE, hvE, hiE, hdE⟩ := loop_stop sD 0 hiD (by rw [hcD, ht]; omega)
    refine ⟨sE, ?_, ?_, ?_, hiE, ?_⟩
    · rw [hstart, hB _ (g + 1), hC _ g, hD _ g]
      simp only []
      rw [hE _ (g + 1), if_pos hlt, hcA, hcB]
    · rw [hvE, hvD, hvC5]
    · have hv : sE.view = advance 5 s.view := by rw [hvE, hvD, hvC5]
      have h5 : (sE.CurTok, sE.lex) = advance 5 s.view := hv
      rw [show sE.CurTok = (sE.CurTok, sE.lex).1 from rfl,
        show sE.lex = (sE.CurTok, sE.lex).2 from rfl, h5]
      exact tt
    · rw [hdE, hdD, hdC, hdB]; rfl
  · obtain ⟨sB, hB, hvB, hiB, hdB⟩ := loop_merge (getNextTok s) 0 b hiA
      (by rw [hcA]; omega) tb
      (by rw [hcA]; show ¬ _ < tokPrec (advance 3 s.view).1; rw [hco2]; exact hlt)
    have hvB3 : sB.view = advance 3 s.view := hvB
    have hcB : sB.CurTok = o2 := by
      have := congrArg Prod.fst hvB3
      exact this.trans hco2
    obtain ⟨sC, hC, hvC, hiC, hdC⟩ := loop_merge sB 0 c hiB
      (by rw [hcB]; omega) (by rw [hvB3]; exact tc)
      (by rw [hvB3, hcB]; show ¬ _ < tokPrec (advance 5 s.view).1; rw [hct, ht]; omega)
    have hvC5 : sC.view = advance 5 s.view := by rw [hvC, hvB3]; rfl
    have hcC : sC.CurTok = t.code := (congrArg Prod.fst hvC5).trans hct
    obtain ⟨sD, hD, hvD, hiD, hdD⟩ := loop_stop sC 0 hiC (by rw [hcC, ht]; omega)
    refine ⟨sD, ?_, ?_, ?_, hiD, ?_⟩
    · rw [hstart, hB _ (g + 1), hC _ g, hD _ g, if_neg hlt, hcA, hcB]
    · rw [hvD, hvC5]
    · have hv : sD.view = advance 5 s.view := by rw [hvD, hvC5]
      have h5 : (sD.CurTok, sD.lex) = advance 5 s.view := hv
      rw [show sD.CurTok = (sD.CurTok, sD.lex).1 from rfl,
        show sD.lex = (sD.CurTok, sD.lex).2 from rfl, h5]
      exact tt
    · rw [hdD, hdC, hdB]; rfl

/-- The input `1 + 2 * 3;` parses as `1 + (2 * 3)`, and `1 * 2 + 3;` as
`(1 * 2) + 3`. -/
theorem ParseExpression_precedence_witness :
    (Installed (State.start [49, 43, 50, 42, 51, 59]) ∧
      0 < tokPrec 43 ∧ 0 < tokPrec 42 ∧ tokPrec (Token.chr 59).code = -1 ∧
      tokens 6 (State.start [49, 43, 50, 42, 51, 59]).view =
        [Token.num [49], Token.chr 43, Token.num [50], Token.chr 42, Token.num [51],
          Token.chr 59] ∧ 4 ≤ 4) ∧
    (∃ s1, ParseExpression 4 (State.start [49, 43, 50, 42, 51, 59]) =
        some (some (if tokPrec 43 < tokPrec 42 then
            ExprAST.BinaryExprAST 43 (ExprAST.NumberExprAST [49])
              (ExprAST.BinaryExprAST 42 (ExprAST.NumberExprAST [50]) (ExprAST.NumberExprAST [51]))
          else
            ExprAST.BinaryExprAST 42
              (ExprAST.BinaryExprAST 43 (ExprAST.NumberExprAST [49]) (ExprAST.NumberExprAST [50]))
              (ExprAST.NumberExprAST [51])), s1) ∧
      s1.view = advance 5 (State.start [49, 43, 50, 42, 51, 59]).view ∧
      tokenOf s1.CurTok s1.lex = Token.chr 59 ∧
      Installed s1 ∧ s1.diag = (State.start [49, 43, 50, 42, 51, 59]).diag) ∧
    (ParseExpression 4 (State.start [49, 43, 50, 42, 51, 59])).map (fun r => r.1) =
      some (some (ExprAST.BinaryExprAST 43 (ExprAST.NumberExprAST [49])
        (ExprAST.BinaryExprAST 42 (ExprAST.NumberExprAST [50]) (ExprAST.NumberExprAST [51])))) ∧
    (ParseExpression 4 (State.start [49, 42, 50, 43, 51, 59])).map (fun r => r.1) =
      some (some (ExprAST.BinaryExprAST 43
        (ExprAST.BinaryExprAST 42 (ExprAST.NumberExprAST [49]) (ExprAST.NumberExprAST [50]))
        (ExprAST.NumberExprAST [51]))) :=
  ⟨⟨Installed_start _, by decide, by decide, by decide, by decide, by decide⟩,
    ParseExpression_precedence (State.start [49, 43, 50, 42, 51, 59]) [49] [50] [51] 43 42
      (Token.chr 59) 4 (Installed_start _) (by decide) (by decide) (by decide) (by decide)
      (by decide),
    rfl, rfl⟩

/-! ## Identifier expressions and calls -/

/-- The function `ParseExpression` does not return an expression when the lookahead is `)`. -/
theorem ParseExpression_at_rparen (f : Nat) (s : State) (e : ExprAST) (v : State)
    (hc : s.CurTok = 41) : ParseExpression f s ≠ some (some e, v) := by
  cases f with
  | zero => simp [ParseExpression]
  | succ f =>
    rw [ParseExpression]
    cases f with
    | zero => simp [ParsePrimary]
    | succ f =>
      rw [ParsePrimary, hc]
      simp [tok_id, tok_num]

/-- The argument loop, once the arguments of a prefix have been parsed, goes
on as it does from the state after the prefix with these arguments collected. -/
theorem ParseArgsLoop_prefix (u0 : State) (es : List ExprAST) (u : State)
    (hpre : ArgPrefix u0 es u) :
    ∀ (Args : List ExprAST) (r : Option (List ExprAST) × State) (g : Nat),
      ParseArgsLoop g (Args ++ es) u = some r →
      ∃ f0, ∀ f, f0 ≤ f → ParseArgsLoop f Args u0 = some r := by
  induction hpre with
  | done u =>
    intro Args r g h
    refine ⟨g, fun f hf => ?_⟩
    rw [List.append_nil] at h
    exact ParseArgsLoop_mono g f Args u r h hf
  | more u e v es w hp hc _ ih =>
    intro Args r g h
    obtain ⟨k, hk⟩ := hp
    obtain ⟨f1, hf1⟩ := ih (Args ++ [e]) r g (by simpa using h)
    refine ⟨max k f1 + 1, fun f hf => ?_⟩
    obtain ⟨f', rfl⟩ : ∃ f', f = f' + 1 := ⟨f - 1, by omega⟩
    rw [ParseArgsLoop, ParseExpression_mono k f' u _ hk (by omega)]
    simp only [hc]
    rw [if_neg (by decide), if_neg (by simp)]
    exact hf1 f' (by omega)

theorem ArgPrefix_not_rparen (u0 : State) (es : List ExprAST) (u : State) (e : ExprAST)
    (v : State) (hpre : ArgPrefix u0 es u) (hp : Parses u e v) : u0.CurTok ≠ 41 := by
  intro hc
  cases hpre with
  | done =>
    obtain ⟨k, hk⟩ := hp
    exact ParseExpression_at_rparen k _ _ _ hc hk
  | more _ e1 v1 es1 _ hp1 _ _ =>
    obtain ⟨k, hk⟩ := hp1
    exact ParseExpression_at_rparen k _ _ _ hc hk

/-- The function `ParseIdentifierExpr` when the identifier is followed by `(` and the token
after that is not `)`: the result is decided by the argument loop. -/
theorem ParseIdentifierExpr_call (f : Nat) (s : State)
    (h40 : (getNextTok s).CurTok = 40) (h41 : (getNextTok (getNextTok s)).CurTok ≠ 41) :
    ParseIdentifierExpr (f + 1) s =
      match ParseArgsLoop f [] (getNextTok (getNextTok s)) with
      | none => none
      | some (none, s3) => some (none, s3)
      | some (some Args, s3) =>
        some (some (ExprAST.CallExprAST s.lex.IdStr Args), getNextTok s3) := by
  rw [ParseIdentifierExpr]
  simp only [h40, ne_eq, not_true_eq_false, if_false, h41, not_false_eq_true, if_true]

/-- C10. `ParseIdentifierExpr`, called on an identifier `x`.
(1) If the next token is not `(`, it returns `VariableReference(x)` and
consumes only `x`. (2) If the next tokens are `(` `)`, it returns the call of
`x` with no arguments and consumes through the `)`. (3) If `(` is followed by
arguments, each but the last followed by `,` and the last by `)`, it returns
the call of `x` with these arguments in source order and consumes through the
`)`. (4) It returns `nullptr` if, after `(` or after a comma, an argument
fails to parse, and (5) if the token after an argument is neither `,` nor `)`. -/
theorem ParseIdentifierExpr_spec (s : State) (x : List Int)
    (hx : tokenOf s.CurTok s.lex = Token.id x) :
    ((getNextTok s).CurTok ≠ 40 → ∀ f, 0 < f →
      ParseIdentifierExpr f s = some (some (ExprAST.VariableExprAST x), getNextTok s)) ∧
    ((getNextTok s).CurTok = 40 → (getNextTok (getNextTok s)).CurTok = 41 → ∀ f, 0 < f →
      ParseIdentifierExpr f s =
        some (some (ExprAST.CallExprAST x []), getNextTok (getNextTok (getNextTok s)))) ∧
    (∀ es u e v, (getNextTok s).CurTok = 40 → ArgPrefix (getNextTok (getNextTok s)) es u →
      Parses u e v → v.CurTok = 41 →
      ∃ f0, ∀ f, f0 ≤ f →
        ParseIdentifierExpr f s = some (some (ExprAST.CallExprAST x (es ++ [e])), getNextTok v)) ∧
    (∀ es u v, (getNextTok s).CurTok = 40 → (getNextTok (getNextTok s)).CurTok ≠ 41 →
      ArgPrefix (getNextTok (getNextTok s)) es u → ParseFails u v →
      ∃ f0, ∀ f, f0 ≤ f → ParseIdentifierExpr f s = some (none, v)) ∧
    (∀ es u e v, (getNextTok s).CurTok = 40 → ArgPrefix (getNextTok (getNextTok s)) es u →
      Parses u e v → v.CurTok ≠ 41 → v.CurTok ≠ 44 →
      ∃ f0, ∀ f, f0 ≤ f →
        ParseIdentifierExpr f s =
          some (none, LogError { v with diag := v.diag ++ [Diag.printTok v.CurTok] }
            "Syntax Error: Expected ')' or ',' in argument list")) := by
  have hid : s.lex.IdStr = x := (tokenOf_id _ _ _ hx).2
  refine ⟨?_, ?_, ?_, ?_, ?_⟩
  · intro h40 f hf
    obtain ⟨g, rfl⟩ : ∃ g, f = g + 1 := ⟨f - 1, by omega⟩
    rw [ParseIdentifierExpr]
    simp only [h40, ne_eq, not_false_eq_true, if_true, hid]
  · intro h40 h41 f hf
    obtain ⟨g, rfl⟩ : ∃ g, f = g + 1 := ⟨f - 1, by omega⟩
    rw [ParseIdentifierExpr]
    simp only [h40, h41, ne_eq, not_true_eq_false, if_false, hid]
  · intro es u e v h40 hpre hp hc
    have h41 := ArgPrefix_not_rparen _ es u e v hpre hp
    obtain ⟨k, hk⟩ := hp
    have hlast : ParseArgsLoop (k + 1) ([] ++ es) u = some (some (es ++ [e]), v) := by
      rw [ParseArgsLoop, hk]
      simp only [hc, if_true, List.nil_append]
    obtain ⟨f0, hf0⟩ := ParseArgsLoop_prefix _ es u hpre [] _ (k + 1) hlast
    refine ⟨f0 + 1, fun f hf => ?_⟩
    obtain ⟨g, rfl⟩ : ∃ g, f = g + 1 := ⟨f - 1, by omega⟩
    rw [ParseIdentifierExpr_call g s h40 h41, hf0 g (by omega), hid]
  · intro es u v h40 h41 hpre hp
    obtain ⟨k, hk⟩ := hp
    have hlast : ParseArgsLoop (k + 1) ([] ++ es) u = some (none, v) := by
      rw [ParseArgsLoop, hk]
    obtain ⟨f0, hf0⟩ := ParseArgsLoop_prefix _ es u hpre [] _ (k + 1) hlast
    refine ⟨f0 + 1, fun f hf => ?_⟩
    obtain ⟨g, rfl⟩ : ∃ g, f = g + 1 := ⟨f - 1, by omega⟩
    rw [ParseIdentifierExpr_call g s h40 h41, hf0 g (by omega)]
  · intro es u e v h40 hpre hp hc1 hc2
    have h41 := ArgPrefix_not_rparen _ es u e v hpre hp
    obtain ⟨k, hk⟩ := hp
    have hlast : ParseArgsLoop (k + 1) ([] ++ es) u =
        some (none, LogError { v with diag := v.diag ++ [Diag.printTok v.CurTok] }
          "Syntax Error: Expected ')' or ',' in argument list") := by
      rw [ParseArgsLoop, hk]
      simp only [hc1, hc2, if_false, ne_eq, not_false_eq_true, if_true]
    obtain ⟨f0, hf0⟩ := ParseArgsLoop_prefix _ es u hpre [] _ (k + 1) hlast
    refine ⟨f0 + 1, fun f hf => ?_⟩
    obtain ⟨g, rfl⟩ : ∃ g, f = g + 1 := ⟨f - 1, by omega⟩
    rw [ParseIdentifierExpr_call g s h40 h41, hf0 g (by omega)]

/-- On `f(1,2);` the call of `f` with the arguments 1 and 2 is returned; `x;`
is a variable reference, `f();` a call without arguments, and `f(1 2);`,
`f(1,);` and `f(+);` return `nullptr`. -/
theorem ParseIdentifierExpr_spec_witness :
    tokenOf (State.start [102, 40, 49, 44, 50, 41, 59]).CurTok
        (State.start [102, 40, 49, 44, 50, 41, 59]).lex = Token.id [102] ∧
    (∃ f0 v, ∀ f, f0 ≤ f →
      ParseIdentifierExpr f (State.start [102, 40, 49, 44, 50, 41, 59]) =
        some (some (ExprAST.CallExprAST [102]
          ([ExprAST.NumberExprAST [49]] ++ [ExprAST.NumberExprAST [50]])), v)) ∧
    (ParseIdentifierExpr 9 (State.start [102, 40, 49, 44, 50, 41, 59])).map (fun r => r.1) =
      some (some (ExprAST.CallExprAST [102]
        [ExprAST.NumberExprAST [49], ExprAST.NumberExprAST [50]])) ∧
    (ParseIdentifierExpr 9 (State.start [120, 59])).map (fun r => r.1) =
      some (some (ExprAST.VariableExprAST [120])) ∧
    (ParseIdentifierExpr 9 (State.start [102, 40, 41, 59])).map (fun r => r.1) =
      some (some (ExprAST.CallExprAST [102] [])) ∧
    (ParseIdentifierExpr 9 (State.start [102, 40, 49, 32, 50, 41, 59])).map (fun r => r.1) =
      some none ∧
    (ParseIdentifierExpr 9 (State.start [102, 40, 49, 44, 41, 59])).map (fun r => r.1) =
      some none ∧
    (ParseIdentifierExpr 9 (State.start [102, 40, 43, 41, 59])).map (fun r => r.1) =
      some none := by
  refine ⟨by decide, ?_, rfl, rfl, rfl, rfl, rfl, rfl⟩
  have h := (ParseIdentifierExpr_spec (State.start [102, 40, 49, 44, 50, 41, 59]) [102]
    (by decide)).2.2.1 [ExprAST.NumberExprAST [49]]
    (getNextTok (GetTokPrecedence (getNextTok (getNextTok (getNextTok
      (State.start [102, 40, 49, 44, 50, 41, 59]))))).2)
    (ExprAST.NumberExprAST [50])
    (GetTokPrecedence (getNextTok (getNextTok (GetTokPrecedence (getNextTok (getNextTok
      (getNextTok (State.start [102, 40, 49, 44, 50, 41, 59]))))).2))).2
    (by decide)
    (ArgPrefix.more _ (ExprAST.NumberExprAST [49])
      (GetTokPrecedence (getNextTok (getNextTok (getNextTok
        (State.start [102, 40, 49, 44, 50, 41, 59]))))).2 [] _ ⟨3, rfl⟩ (by decide)
      (ArgPrefix.done _))
    ⟨3, rfl⟩ (by decide)
  obtain ⟨f0, hf0⟩ := h
  exact ⟨f0, _, hf0⟩

/-! ## Pretty-printing keeps the order of the source -/

theorem advance_add (n m : Nat) : ∀ v : Int × LexState,
    advance (n + m) v = advance m (advance n v) := by
  induction n with
  | zero => intro v; rw [Nat.zero_add]; rfl
  | succ n ih =>
    intro v
    rw [show n + 1 + m = (n + m) + 1 by omega, advance_succ, advance_succ, ih]

theorem tokens_add (n m : Nat) : ∀ v : Int × LexState,
    tokens (n + m) v = tokens n v ++ tokens m (advance n v) := by
  induction n with
  | zero => intro v; rw [Nat.zero_add]; rfl
  | succ n ih =>
    intro v
    rw [show n + 1 + m = (n + m) + 1 by omega, tokens_succ, tokens_succ, advance_succ, ih]
    rfl

theorem Span.refl (v : Int × LexState) : Span 0 v [] v := ⟨rfl, rfl⟩

theorem Span.trans {n m : Nat} {u v w : Int × LexState} {a b : List Out}
    (h1 : Span n u a v) (h2 : Span m v b w) : Span (n + m) u (a ++ b) w := by
  obtain ⟨hv, ha⟩ := h1
  obtain ⟨hw, hb⟩ := h2
  subst hv
  refine ⟨by rw [hw, advance_add], ?_⟩
  rw [ha, hb]
  simp [consumed, tokens_add]

/-- Consuming the lookahead. -/
theorem Span.one (s : State) (items : List Out)
    (h : (Token.content (tokenOf s.CurTok s.lex)).toList = items) :
    Span 1 s.view items (lexer s.lex) := by
  refine ⟨rfl, ?_⟩
  rw [← h]
  simp only [consumed, tokens, State.view, List.filterMap_cons, List.filterMap_nil]
  cases Token.content (tokenOf s.CurTok s.lex) <;> rfl

theorem content_num (l : LexState) :
    (Token.content (tokenOf tok_num l)).toList = [Out.num l.NumVal] := by
  simp [tokenOf, tok_num, tok_eof, tok_gate, tok_extern, tok_id, Token.content]

theorem content_id (l : LexState) :
    (Token.content (tokenOf tok_id l)).toList = [Out.name l.IdStr] := by
  simp [tokenOf, tok_eof, tok_gate, tok_extern, tok_id, Token.content]

theorem content_lparen (l : LexState) : (Token.content (tokenOf 40 l)).toList = [] := by
  simp [tokenOf, tok_num, tok_eof, tok_gate, tok_extern, tok_id, Token.content]

theorem content_rparen (l : LexState) : (Token.content (tokenOf 41 l)).toList = [] := by
  simp [tokenOf, tok_num, tok_eof, tok_gate, tok_extern, tok_id, Token.content]

theorem content_comma (l : LexState) : (Token.content (tokenOf 44 l)).toList = [] := by
  simp [tokenOf, tok_num, tok_eof, tok_gate, tok_extern, tok_id, Token.content]

/-- An installed operator character is a character token that stands for itself. -/
theorem content_operator (c : Int) (l : LexState) (h : 0 ≤ tokPrec c) :
    (Token.content (tokenOf c l)).toList = [Out.chr c] := by
  unfold tokPrec at h
  have hc : c = 60 ∨ c = 43 ∨ c = 45 ∨ c = 42 ∨ c = 47 := by
    by_cases h1 : c = 60
    · exact Or.inl h1
    · rw [if_neg h1] at h
      by_cases h2 : c = 43 ∨ c = 45
      · rcases h2 with h2 | h2
        · exact Or.inr (Or.inl h2)
        · exact Or.inr (Or.inr (Or.inl h2))
      · rw [if_neg h2] at h
        by_cases h3 : c = 42 ∨ c = 47
        · rcases h3 with h3 | h3
          · exact Or.inr (Or.inr (Or.inr (Or.inl h3)))
          · exact Or.inr (Or.inr (Or.inr (Or.inr h3)))
        · rw [if_neg h3] at h
          omega
  rcases hc with h | h | h | h | h <;> subst h <;>
    simp [tokenOf, tok_num, tok_eof, tok_gate, tok_extern, tok_id, Token.content]

/-- The end string of `pretty_print` is literal text. -/
theorem pretty_print_content (e : ExprAST) (ending : String) :
    (e.pretty_print ending).filterMap Out.content = printed e := by
  cases e <;>
    simp [printed, ExprAST.pretty_print, List.filterMap_append, Out.content]

theorem printed_number (v : List Int) : printed (ExprAST.NumberExprAST v) = [Out.num v] := by
  simp [printed, ExprAST.pretty_print, Out.content]

theorem printed_variable (x : List Int) :
    printed (ExprAST.VariableExprAST x) = [Out.name x] := by
  simp [printed, ExprAST.pretty_print, Out.content]

theorem printed_binary (op : Int) (l r : ExprAST) :
    printed (ExprAST.BinaryExprAST op l r) = printed l ++ [Out.chr op] ++ printed r := by
  simp [printed, ExprAST.pretty_print, List.filterMap_append, Out.content]

theorem printed_args (args : List ExprAST) :
    (pretty_print_args args).filterMap Out.content = args.flatMap printed := by
  induction args with
  | nil => simp [pretty_print_args]
  | cons a rest ih =>
    cases rest with
    | nil => simp [pretty_print_args, pretty_print_content]
    | cons b rest =>
      rw [pretty_print_args, List.filterMap_append, ih, pretty_print_content]
      simp

theorem printed_call (c : List Int) (args : List ExprAST) :
    printed (ExprAST.CallExprAST c args) = Out.name c :: args.flatMap printed := by
  simp [printed, ExprAST.pretty_print, List.filterMap_append, Out.content, printed_args]

/-- What each parser function consumes when it returns an expression, and
what the returned expression prints: the operands and operator characters of
the consumed tokens, in their order. -/
theorem parser_span (f : Nat) :
    (∀ s e s1, Installed s → s.CurTok = 40 → ParseParenExpr f s = some (some e, s1) →
      Installed s1 ∧ ∃ n, 0 < n ∧ Span n s.view (printed e) s1.view) ∧
    (∀ s e s1, Installed s → s.CurTok = tok_id → ParseIdentifierExpr f s = some (some e, s1) →
      Installed s1 ∧ ∃ n, 0 < n ∧ Span n s.view (printed e) s1.view) ∧
    (∀ Args s Args1 s1, Installed s → ParseArgsLoop f Args s = some (some Args1, s1) →
      Installed s1 ∧ s1.CurTok = 41 ∧
        ∃ es n, Args1 = Args ++ es ∧ Span n s.view (es.flatMap printed) s1.view) ∧
    (∀ s e s1, Installed s → ParsePrimary f s = some (some e, s1) →
      Installed s1 ∧ ∃ n, 0 < n ∧ Span n s.view (printed e) s1.view) ∧
    (∀ s e s1, Installed s → ParseExpression f s = some (some e, s1) →
      Installed s1 ∧ ∃ n, 0 < n ∧ Span n s.view (printed e) s1.view) ∧
    (∀ p LHS s e s1, Installed s → 0 ≤ p → ParseBinOpRHS f p LHS s = some (some e, s1) →
      Installed s1 ∧
        ∃ n items, printed e = printed LHS ++ items ∧ Span n s.view items s1.view) := by
  induction f with
  | zero =>
    refine ⟨?_, ?_, ?_, ?_, ?_, ?_⟩
    · intro s e s1 _ _ h; simp [ParseParenExpr] at h
    · intro s e s1 _ _ h; simp [ParseIdentifierExpr] at h
    · intro Args s Args1 s1 _ h; simp [ParseArgsLoop] at h
    · intro s e s1 _ h; simp [ParsePrimary] at h
    · intro s e s1 _ h; simp [ParseExpression] at h
    · intro p LHS s e s1 _ _ h; simp [ParseBinOpRHS] at h
  | succ f ih =>
    obtain ⟨ihParen, ihId, ihArgs, ihPrim, ihExpr, ihRHS⟩ := ih
    refine ⟨?_, ?_, ?_, ?_, ?_, ?_⟩
    · intro s e s1 hi hc h
      rw [ParseParenExpr] at h
      cases hE : ParseExpression f (getNextTok s) with
      | none => rw [hE] at h; simp at h
      | some x =>
        rw [hE] at h
        obtain ⟨o, s2⟩ := x
        cases o with
        | none => simp at h
        | some V =>
          simp only [] at h
          by_cases h41 : s2.CurTok = 41
          · rw [if_neg (not_not.mpr h41)] at h
            obtain ⟨rfl, rfl⟩ : V = e ∧ getNextTok s2 = s1 := by simpa using h
            obtain ⟨hi2, n, hn, hsp⟩ := ihExpr _ _ _ (Installed_getNextTok s hi) hE
            refine ⟨Installed_getNextTok _ hi2, 1 + n + 1, by omega, ?_⟩
            have a := Span.one s [] (by rw [hc]; exact content_lparen _)
            have b := Span.one s2 [] (by rw [h41]; exact content_rparen _)
            have := (a.trans hsp).trans b
            simpa using this
          · rw [if_pos h41] at h; simp at h
    · intro s e s1 hi hc h
      rw [ParseIdentifierExpr] at h
      simp only [] at h
      have a := Span.one s [Out.name s.lex.IdStr] (by rw [hc]; exact content_id _)
      by_cases h40 : (getNextTok s).CurTok = 40
      · rw [if_neg (not_not.mpr h40)] at h
        have b := Span.one (getNextTok s) [] (by rw [h40]; exact content_lparen _)
        by_cases h41 : (getNextTok (getNextTok s)).CurTok = 41
        · rw [if_neg (not_not.mpr h41)] at h
          obtain ⟨rfl, rfl⟩ : ExprAST.CallExprAST s.lex.IdStr [] = e ∧
              getNextTok (getNextTok (getNextTok s)) = s1 := by simpa using h
          refine ⟨Installed_getNextTok _ (Installed_getNextTok _ (Installed_getNextTok s hi)),
            1 + 1 + 1, by omega, ?_⟩
          have c := Span.one (getNextTok (getNextTok s)) []
            (by rw [h41]; exact content_rparen _)
          have := (a.trans b).trans c
          rw [printed_call]
          simpa using this
        · rw [if_pos h41] at h
          cases hA : ParseArgsLoop f [] (getNextTok (getNextTok s)) with
          | none => rw [hA] at h; simp at h
          | some x =>
            rw [hA] at h
            obtain ⟨o, s3⟩ := x
            cases o with
            | none => simp at h
            | some Args =>
              simp only [] at h
              obtain ⟨rfl, rfl⟩ : ExprAST.CallExprAST s.lex.IdStr Args = e ∧
                  getNextTok s3 = s1 := by simpa using h
              obtain ⟨hi3, hc3, es, n, hes, hsp⟩ := ihArgs [] _ _ _
                (Installed_getNextTok _ (Installed_getNextTok s hi)) hA
              refine ⟨Installed_getNextTok _ hi3, 1 + 1 + n + 1, by omega, ?_⟩
              have d := Span.one s3 [] (by rw [hc3]; exact content_rparen _)
              have := ((a.trans b).trans hsp).trans d
              rw [printed_call, hes]
              simpa using this
      · rw [if_pos h40] at h
        obtain ⟨rfl, rfl⟩ : ExprAST.VariableExprAST s.lex.IdStr = e ∧ getNextTok s = s1 := by
          simpa using h
        refine ⟨Installed_getNextTok s hi, 1, by omega, ?_⟩
        rw [printed_variable]
        exact a
    · intro Args s Args1 s1 hi h
      rw [ParseArgsLoop] at h
      cases hE : ParseExpression f s with
      | none => rw [hE] at h; simp at h
      | some x =>
        rw [hE] at h
        obtain ⟨o, s2⟩ := x
        cases o with
        | none => simp at h
        | some Arg =>
          simp only [] at h
          obtain ⟨hi2, n, hn, hsp⟩ := ihExpr _ _ _ hi hE
          by_cases h41 : s2.CurTok = 41
          · rw [if_pos h41] at h
            obtain ⟨rfl, rfl⟩ : Args ++ [Arg] = Args1 ∧ s2 = s1 := by simpa using h
            exact ⟨hi2, h41, [Arg], n, rfl, by simpa using hsp⟩
          · rw [if_neg h41] at h
            by_cases h44 : s2.CurTok = 44
            · rw [if_neg (not_not.mpr h44)] at h
              obtain ⟨hi3, hc3, es, m, hes, hsp2⟩ := ihArgs _ _ _ _
                (Installed_getNextTok _ hi2) h
              refine ⟨hi3, hc3, Arg :: es, n + 1 + m, by simp [hes], ?_⟩
              have c := Span.one s2 [] (by rw [h44]; exact content_comma _)
              have := (hsp.trans c).trans hsp2
              simpa using this
            · rw [if_pos h44] at h; simp at h
    · intro s e s1 hi h
      rw [ParsePrimary] at h
      by_cases h1 : s.CurTok = tok_id
      · rw [if_pos h1] at h; exact ihId _ _ _ hi h1 h
      · rw [if_neg h1] at h
        by_cases h2 : s.CurTok = tok_num
        · rw [if_pos h2] at h
          obtain ⟨rfl, rfl⟩ : ExprAST.NumberExprAST s.lex.NumVal = e ∧ getNextTok s = s1 := by
            simpa [ParseNumberExpr] using h
          refine ⟨Installed_getNextTok s hi, 1, by omega, ?_⟩
          rw [printed_number]
          exact Span.one s _ (by rw [h2]; exact content_num _)
        · rw [if_neg h2] at h
          by_cases h3 : s.CurTok = 40
          · rw [if_pos h3] at h; exact ihParen _ _ _ hi h3 h
          · rw [if_neg h3] at h; simp at h
    · intro s e s1 hi h
      rw [ParseExpression] at h
      cases hP : ParsePrimary f s with
      | none => rw [hP] at h; simp at h
      | some x =>
        rw [hP] at h
        obtain ⟨o, s2⟩ := x
        cases o with
        | none => simp at h
        | some LHS =>
          simp only [] at h
          obtain ⟨hi2, n, hn, hsp⟩ := ihPrim _ _ _ hi hP
          obtain ⟨hi3, m, items, hpr, hsp2⟩ := ihRHS 0 LHS s2 e s1 hi2 (le_refl 0) h
          refine ⟨hi3, n + m, by omega, ?_⟩
          rw [hpr]
          exact hsp.trans hsp2
    · intro p LHS s e s1 hi hp h
      rw [ParseBinOpRHS] at h
      simp only [GetTokPrecedence_installed s hi] at h
      by_cases hlt : tokPrec s.CurTok < p
      · rw [if_pos hlt] at h
        obtain ⟨rfl, rfl⟩ : LHS = e ∧ (GetTokPrecedence s).2 = s1 := by simpa using h
        refine ⟨Installed_GetTokPrecedence s hi, 0, [], by simp, ?_⟩
        rw [GetTokPrecedence_view]
        exact Span.refl _
      · rw [if_neg hlt] at h
        have hop : 0 ≤ tokPrec s.CurTok := by omega
        have a := Span.one s [Out.chr s.CurTok] (content_operator _ _ hop)
        cases hP : ParsePrimary f (getNextTok (GetTokPrecedence s).2) with
        | none => rw [hP] at h; simp at h
        | some x =>
          rw [hP] at h
          obtain ⟨o, s2⟩ := x
          cases o with
          | none => simp at h
          | some RHS =>
            simp only [] at h
            obtain ⟨hi2, n, hn, hsp⟩ := ihPrim _ _ _
              (Installed_getNextTok _ (Installed_GetTokPrecedence s hi)) hP
            have hv : (getNextTok (GetTokPrecedence s).2).view = lexer s.lex := by
              rw [getNextTok_view, GetTokPrecedence_lex]
            rw [hv] at hsp
            simp only [GetTokPrecedence_installed s2 hi2, GetTokPrecedence_CurTok] at h
            by_cases hnx : tokPrec s.CurTok < tokPrec s2.CurTok
            · rw [if_pos hnx] at h
              cases hR : ParseBinOpRHS f (tokPrec s.CurTok + 1) RHS (GetTokPrecedence s2).2 with
              | none => rw [hR] at h; simp at h
              | some y =>
                rw [hR] at h
                obtain ⟨o2, s3⟩ := y
                cases o2 with
                | none => simp at h
                | some RHS1 =>
                  simp only [] at h
                  obtain ⟨hi3, m, it1, hpr1, hsp1⟩ := ihRHS _ _ _ _ _
                    (Installed_GetTokPrecedence s2 hi2) (by omega) hR
                  rw [GetTokPrecedence_view] at hsp1
                  obtain ⟨hi4, k, it2, hpr2, hsp2⟩ := ihRHS _ _ _ _ _ hi3 hp h
                  refine ⟨hi4, 1 + n + m + k, [Out.chr s.CurTok] ++ printed RHS ++ it1 ++ it2,
                    ?_, ((a.trans hsp).trans hsp1).trans hsp2⟩
                  rw [hpr2, printed_binary, hpr1]
                  simp
            · rw [if_neg hnx] at h
              obtain ⟨hi4, k, it2, hpr2, hsp2⟩ := ihRHS _ _ _ _ _
                (Installed_GetTokPrecedence s2 hi2) hp h
              rw [GetTokPrecedence_view] at hsp2
              refine ⟨hi4, 1 + n + k, [Out.chr s.CurTok] ++ printed RHS ++ it2,
                ?_, (a.trans hsp).trans hsp2⟩
              rw [hpr2, printed_binary]
              simp

/-- C4. Whenever `ParseExpression` returns an expression (with the default
precedence table installed), it has consumed some number `n ≥ 1` of tokens,
and the operands (number values, variable and callee names) and operator
characters that `pretty_print` writes for the expression, whatever the end
string, are those of the `n` consumed tokens in the order of the input, call
arguments included: only the parentheses and commas of the input do not show. -/
theorem pretty_print_source_order (f : Nat) (s : State) (e : ExprAST) (s1 : State)
    (ending : String) (hi : Installed s) (h : ParseExpression f s = some (some e, s1)) :
    ∃ n, 0 < n ∧ s1.view = advance n s.view ∧
      (e.pretty_print ending).filterMap Out.content =
        (tokens n s.view).filterMap Token.content := by
  obtain ⟨_, n, hn, hv, hitems⟩ := (parser_span f).2.2.2.2.1 s e s1 hi h
  exact ⟨n, hn, hv, by rw [pretty_print_content]; exact hitems⟩

/-- The input `f(1,x)*(2+y);` is printed as `f 1 x * 2 + y`. -/
theorem pretty_print_source_order_witness :
    Installed (State.start [102, 40, 49, 44, 120, 41, 42, 40, 50, 43, 121, 41, 59]) ∧
    ∃ e s1,
      ParseExpression 12 (State.start [102, 40, 49, 44, 120, 41, 42, 40, 50, 43, 121, 41, 59]) =
        some (some e, s1) ∧
      e = ExprAST.BinaryExprAST 42
        (ExprAST.CallExprAST [102] [ExprAST.NumberExprAST [49], ExprAST.VariableExprAST [120]])
        (ExprAST.BinaryExprAST 43 (ExprAST.NumberExprAST [50]) (ExprAST.VariableExprAST [121])) ∧
      (∃ n, 0 < n ∧
        s1.view = advance n
          (State.start [102, 40, 49, 44, 120, 41, 42, 40, 50, 43, 121, 41, 59]).view ∧
        (e.pretty_print "").filterMap Out.content =
          (tokens n (State.start
            [102, 40, 49, 44, 120, 41, 42, 40, 50, 43, 121, 41, 59]).view).filterMap
              Token.content) ∧
      (e.pretty_print "").filterMap Out.content =
        [Out.name [102], Out.num [49], Out.name [120], Out.chr 42, Out.num [50], Out.chr 43,
          Out.name [121]] :=
  ⟨Installed_start _,
    ExprAST.BinaryExprAST 42
      (ExprAST.CallExprAST [102] [ExprAST.NumberExprAST [49], ExprAST.VariableExprAST [120]])
      (ExprAST.BinaryExprAST 43 (ExprAST.NumberExprAST [50]) (ExprAST.VariableExprAST [121])),
    ((ParseExpression 12 (State.start
      [102, 40, 49, 44, 120, 41, 42, 40, 50, 43, 121, 41, 59])).getD (none, State.init [])).2,
    rfl, rfl,
    pretty_print_source_order 12 _ _ _ "" (Installed_start _) rfl,
    by decide⟩

/-! ## The lexer consumes input -/

theorem skipSpace_pendingLen (inp : List Nat) : ∀ c : Int,
    (skipSpace c inp).1 ≠ EOF → (skipSpace c inp).2.length + 1 ≤ inp.length + (if c = EOF then 0 else 1) := by
  induction inp with
  | nil =>
    intro c h
    unfold skipSpace at h ⊢
    split
    · rename_i hs; rw [if_pos hs] at h; exact absurd rfl h
    · rename_i hs; rw [if_neg hs] at h
      simp only [List.length_nil] at *
      rw [if_neg h]
  | cons x xs ih =>
    intro c h
    unfold skipSpace at h ⊢
    split
    · rename_i hs; rw [if_pos hs] at h
      have := ih _ h
      have hx : ((x : Nat) : Int) ≠ EOF := by simp only [EOF]; omega
      rw [if_neg hx] at this
      simp only [List.length_cons]
      split <;> omega
    · rename_i hs; rw [if_neg hs] at h
      simp only [] at h
      rw [if_neg h]

theorem getchar_pendingLen (inp : List Nat) :
    (getchar inp).2.length + (if (getchar inp).1 = EOF then 0 else 1) ≤ inp.length := by
  cases inp with
  | nil => simp [getchar]
  | cons x xs =>
    simp only [getchar, List.length_cons]
    split <;> omega

theorem readIdent_pendingLen (inp : List Nat) : ∀ acc : List Int,
    (readIdent acc inp).2.2.length + (if (readIdent acc inp).2.1 = EOF then 0 else 1)
      ≤ inp.length := by
  induction inp with
  | nil => intro acc; simp [readIdent]
  | cons x xs ih =>
    intro acc
    unfold readIdent
    split
    · have := ih (acc ++ [(x : Int)])
      simp only [List.length_cons]; omega
    · simp only [List.length_cons]
      split <;> omega

theorem readNumber_pendingLen (inp : List Nat) : ∀ (acc : List Int) (od : Bool) (c : Int),
    (readNumber acc od c inp).2.2.length +
        (if (readNumber acc od c inp).2.1 = EOF then 0 else 1) ≤ inp.length := by
  induction inp with
  | nil => intro acc od c; simp [readNumber]
  | cons x xs ih =>
    intro acc od c
    unfold readNumber
    simp only []
    split
    · have := ih (acc ++ [c]) (od || c == 46) (x : Int)
      simp only [List.length_cons]; omega
    · simp only [List.length_cons]
      split <;> omega

theorem skipComment_pendingLen (inp : List Nat) :
    (skipComment inp).2.length + (if (skipComment inp).1 = EOF then 0 else 1) ≤ inp.length := by
  induction inp with
  | nil => simp [skipComment]
  | cons x xs ih =>
    unfold skipComment
    split
    · simp only [List.length_cons]; omega
    · simp only [List.length_cons]
      split <;> omega

/-- A call of the lexer that does not return the end token consumes at least
one pending character. -/
theorem lexer_consumes_aux (n : Nat) : ∀ l : LexState, l.input.length < n →
    (lexer l).1 ≠ tok_eof → pendingLen (lexer l).2 < pendingLen l := by
  induction n with
  | zero => intro l h; omega
  | succ n ih =>
    intro l hn hne
    rw [lexer_eq] at hne ⊢
    simp only [] at hne ⊢
    have hsk := skipSpace_pendingLen l.input l.LastChar
    have hskl := skipSpace_length l.input l.LastChar
    by_cases hE : (skipSpace l.LastChar l.input).1 = EOF
    · exfalso
      have h1 : isalpha (skipSpace l.LastChar l.input).1 = false := by rw [hE]; decide
      have h2 : (isdigit (skipSpace l.LastChar l.input).1 ||
          (skipSpace l.LastChar l.input).1 == 46) = false := by rw [hE]; decide
      have h3 : ((skipSpace l.LastChar l.input).1 == 35) = false := by rw [hE]; decide
      have h4 : ((skipSpace l.LastChar l.input).1 == EOF) = true := by rw [hE]; decide
      simp only [h1, h2, h3, h4, Bool.false_eq_true, if_false, if_true] at hne
      exact hne rfl
    · have hbase : (skipSpace l.LastChar l.input).2.length + 1 ≤ pendingLen l := hsk hE
      by_cases ha : isalpha (skipSpace l.LastChar l.input).1 = true
      · simp only [ha, if_true]
        have := readIdent_pendingLen (skipSpace l.LastChar l.input).2
          [(skipSpace l.LastChar l.input).1]
        split
        · simp only [pendingLen]; omega
        · split <;> (simp only [pendingLen]; omega)
      · have ha1 : isalpha (skipSpace l.LastChar l.input).1 = false := by simpa using ha
        simp only [ha1, Bool.false_eq_true, if_false] at hne ⊢
        by_cases hd : (isdigit (skipSpace l.LastChar l.input).1 ||
            (skipSpace l.LastChar l.input).1 == 46) = true
        · simp only [hd, if_true]
          have := readNumber_pendingLen (skipSpace l.LastChar l.input).2 []
            ((skipSpace l.LastChar l.input).1 == 46) (skipSpace l.LastChar l.input).1
          simp only [pendingLen]; omega
        · have hd1 : (isdigit (skipSpace l.LastChar l.input).1 ||
              (skipSpace l.LastChar l.input).1 == 46) = false := by simpa using hd
          simp only [hd1, Bool.false_eq_true, if_false] at hne ⊢
          by_cases hc : ((skipSpace l.LastChar l.input).1 == 35) = true
          · simp only [hc, if_true] at hne ⊢
            have hcm := skipComment_pendingLen (skipSpace l.LastChar l.input).2
            by_cases hr : ((skipComment (skipSpace l.LastChar l.input).2).1 != EOF) = true
            · simp only [hr, if_true] at hne ⊢
              have hr1 : (skipComment (skipSpace l.LastChar l.input).2).1 ≠ EOF := by
                simpa using hr
              have hlen := skipComment_length _ hr1
              have := ih { l with LastChar := (skipComment (skipSpace l.LastChar l.input).2).1,
                                  input := (skipComment (skipSpace l.LastChar l.input).2).2 }
                (by simp only []; omega) hne
              rw [if_neg hr1] at hcm
              have hp : pendingLen { l with
                  LastChar := (skipComment (skipSpace l.LastChar l.input).2).1,
                  input := (skipComment (skipSpace l.LastChar l.input).2).2 } =
                  (skipComment (skipSpace l.LastChar l.input).2).2.length + 1 := by
                simp only [pendingLen, if_neg hr1]
              omega
            · have hr2 : ((skipComment (skipSpace l.LastChar l.input).2).1 != EOF) = false := by
                simpa using hr
              simp only [hr2, Bool.false_eq_true, if_false] at hne
              exact absurd rfl hne
          · have hc1 : ((skipSpace l.LastChar l.input).1 == 35) = false := by simpa using hc
            have hE1 : ((skipSpace l.LastChar l.input).1 == EOF) = false := by simpa using hE
            simp only [hc1, hE1, Bool.false_eq_true, if_false]
            have := getchar_pendingLen (skipSpace l.LastChar l.input).2
            simp only [pendingLen]; omega

theorem lexer_consumes (l : LexState) (h : (lexer l).1 ≠ tok_eof) :
    pendingLen (lexer l).2 < pendingLen l :=
  lexer_consumes_aux (l.input.length + 1) l (Nat.lt_succ_self _) h

/-! ## Parenthesised expressions -/

/-- C11. `ParseParenExpr`, called at `(` (which it consumes without looking
at it): (1) if `ParseExpression` returns `e` for what follows and then stops
at `)`, it returns exactly `e`, with no node added, and consumes the `)`;
(2) if `ParseExpression` returns `nullptr`, so does it, leaving the same state;
(3) if the token after the expression is not `)`, it returns `nullptr`
after logging the error. -/
theorem ParseParenExpr_spec (s : State) :
    (∀ e v, Parses (getNextTok s) e v → v.CurTok = 41 →
      ∃ f0, ∀ f, f0 ≤ f → ParseParenExpr f s = some (some e, getNextTok v)) ∧
    (∀ v, ParseFails (getNextTok s) v →
      ∃ f0, ∀ f, f0 ≤ f → ParseParenExpr f s = some (none, v)) ∧
    (∀ e v, Parses (getNextTok s) e v → v.CurTok ≠ 41 →
      ∃ f0, ∀ f, f0 ≤ f →
        ParseParenExpr f s = some (none, LogError v "Syntax Error: expected ')'")) := by
  refine ⟨?_, ?_, ?_⟩
  · intro e v ⟨k, hk⟩ hc
    refine ⟨k + 1, fun f hf => ?_⟩
    obtain ⟨g, rfl⟩ : ∃ g, f = g + 1 := ⟨f - 1, by omega⟩
    rw [ParseParenExpr, ParseExpression_mono k g _ _ hk (by omega)]
    simp only [hc, ne_eq, not_true_eq_false, if_false]
  · intro v ⟨k, hk⟩
    refine ⟨k + 1, fun f hf => ?_⟩
    obtain ⟨g, rfl⟩ : ∃ g, f = g + 1 := ⟨f - 1, by omega⟩
    rw [ParseParenExpr, ParseExpression_mono k g _ _ hk (by omega)]
  · intro e v ⟨k, hk⟩ hc
    refine ⟨k + 1, fun f hf => ?_⟩
    obtain ⟨g, rfl⟩ : ∃ g, f = g + 1 := ⟨f - 1, by omega⟩
    rw [ParseParenExpr, ParseExpression_mono k g _ _ hk (by omega)]
    simp only [hc, ne_eq, not_false_eq_true, if_true]

/-- The input `(1+2)*3;` parses as `(1 + 2) * 3`: the parenthesised `1+2` is
returned as it is and becomes the left operand; `(1+2;` and `(+);` give
`nullptr`. -/
theorem ParseParenExpr_spec_witness :
    (∃ f0 v, ∀ f, f0 ≤ f →
      ParseParenExpr f (State.start [40, 49, 43, 50, 41, 42, 51, 59]) =
        some (some (ExprAST.BinaryExprAST 43 (ExprAST.NumberExprAST [49])
          (ExprAST.NumberExprAST [50])), v)) ∧
    (ParseExpression 9 (State.start [40, 49, 43, 50, 41, 42, 51, 59])).map (fun r => r.1) =
      some (some (ExprAST.BinaryExprAST 42
        (ExprAST.BinaryExprAST 43 (ExprAST.NumberExprAST [49]) (ExprAST.NumberExprAST [50]))
        (ExprAST.NumberExprAST [51]))) ∧
    (ParseParenExpr 9 (State.start [40, 49, 43, 50, 59])).map (fun r => r.1) = some none ∧
    (ParseParenExpr 9 (State.start [40, 43, 41, 59])).map (fun r => r.1) = some none := by
  refine ⟨?_, rfl, rfl, rfl⟩
  obtain ⟨f0, hf0⟩ := (ParseParenExpr_spec (State.start [40, 49, 43, 50, 41, 42, 51, 59])).1
    (ExprAST.BinaryExprAST 43 (ExprAST.NumberExprAST [49]) (ExprAST.NumberExprAST [50]))
    ((ParseExpression 5 (getNextTok (State.start [40, 49, 43, 50, 41, 42, 51, 59]))).getD
      (none, State.init [])).2
    ⟨5, rfl⟩ (by decide)
  exact ⟨f0, _, hf0⟩

/-! ## Top-level expressions -/

/-- C13. `ParseTopLevelExpr` succeeds exactly when `ParseExpression` does on
the same input with the same fuel, and then returns the function whose
prototype has the name `__anon_expr` and no parameter and whose body is the
expression `ParseExpression` returned, leaving the same state; it returns
`nullptr` exactly when `ParseExpression` does. -/
theorem ParseTopLevelExpr_spec (f : Nat) (s : State) :
    (∀ E s1, ParseExpression f s = some (some E, s1) →
      ParseTopLevelExpr f s =
        some (some { Proto := { Name := str_anon, Args := [] }, Body := E }, s1)) ∧
    (∀ F s1, ParseTopLevelExpr f s = some (some F, s1) →
      F.Proto.Name = str_anon ∧ F.Proto.Args = [] ∧
        ParseExpression f s = some (some F.Body, s1)) ∧
    (∀ s1, ParseExpression f s = some (none, s1) ↔ ParseTopLevelExpr f s = some (none, s1)) ∧
    (ParseExpression f s = none ↔ ParseTopLevelExpr f s = none) ∧
    str_anon = "__anon_expr".toList.map (fun c => (c.toNat : Int)) := by
  refine ⟨?_, ?_, ?_, ?_, by decide⟩
  · intro E s1 h
    simp only [ParseTopLevelExpr, h]
  · intro F s1 h
    unfold ParseTopLevelExpr at h
    cases hE : ParseExpression f s with
    | none => rw [hE] at h; simp at h
    | some x =>
      rw [hE] at h
      obtain ⟨o, s2⟩ := x
      cases o with
      | none => simp at h
      | some E =>
        simp only [Option.some.injEq, Prod.mk.injEq] at h
        obtain ⟨h1, h2⟩ := h
        subst h1 h2
        exact ⟨rfl, rfl, rfl⟩
  · intro s1
    unfold ParseTopLevelExpr
    cases hE : ParseExpression f s with
    | none => simp
    | some x =>
      obtain ⟨o, s2⟩ := x
      cases o <;> simp
  · unfold ParseTopLevelExpr
    cases hE : ParseExpression f s with
    | none => simp
    | some x =>
      obtain ⟨o, s2⟩ := x
      cases o <;> simp

/-! ## Prototypes -/

/-- The parameter loop of `ParsePrototype` on identifiers followed by a token
that is none: it collects their names in order and stops at that token. -/
theorem ParsePrototypeArgs_run (t : Token) (ht : t.code ≠ tok_id) :
    ∀ (params acc : List (List Int)) (s : State) (f : Nat),
      tokens (params.length + 1) (lexer s.lex) = params.map Token.id ++ [t] →
      params.length + 1 ≤ f →
      ∃ s1, ParsePrototypeArgs f acc s = some (acc ++ params, s1) ∧
        s1.view = advance (params.length + 1) s.view ∧ tokenOf s1.CurTok s1.lex = t ∧
        s1.diag = s.diag ∧ s1.BinOpPrecedence = s.BinOpPrecedence := by
  intro params
  induction params with
  | nil =>
    intro acc s f htok hf
    obtain ⟨g, rfl⟩ : ∃ g, f = g + 1 := ⟨f - 1, by simp at hf; omega⟩
    have hcur : tokenOf (getNextTok s).CurTok (getNextTok s).lex = t := by
      simpa [tokens] using htok
    have hne : (getNextTok s).CurTok ≠ tok_id := by
      have := congrArg Token.code hcur
      rw [tokenOf_code] at this
      rw [this]; exact ht
    refine ⟨getNextTok s, ?_, rfl, hcur, rfl, rfl⟩
    rw [ParsePrototypeArgs]
    simp only [hne, if_false, List.append_nil]
  | cons p ps ih =>
    intro acc s f htok hf
    obtain ⟨g, rfl⟩ : ∃ g, f = g + 1 := ⟨f - 1, by simp at hf; omega⟩
    rw [show (p :: ps).length + 1 = (ps.length + 1) + 1 by simp, tokens_succ] at htok
    simp only [List.map_cons, List.cons_append, List.cons.injEq] at htok
    obtain ⟨hp, hrest⟩ := htok
    have hid := tokenOf_id _ _ _ hp
    have hid1 : (getNextTok s).CurTok = tok_id := hid.1
    have hid2 : (getNextTok s).lex.IdStr = p := hid.2
    obtain ⟨s1, hres, hv, hcur, hd, hb⟩ := ih (acc ++ [p]) (getNextTok s) g hrest
      (by simp at hf; omega)
    refine ⟨s1, ?_, ?_, hcur, ?_, ?_⟩
    · rw [ParsePrototypeArgs]
      simp only [hid1, if_true, hid2]
      rw [hres]; simp
    · rw [hv]; rfl
    · rw [hd]; rfl
    · rw [hb]; rfl

/-- What the parameter loop has read when it ends: identifiers, whose names it
returns in order, and then the token it stops at, which is no identifier. -/
theorem ParsePrototypeArgs_inv (f : Nat) :
    ∀ (acc : List (List Int)) (s : State) (names : List (List Int)) (s1 : State),
      ParsePrototypeArgs f acc s = some (names, s1) →
      ∃ params, names = acc ++ params ∧ s1.CurTok ≠ tok_id ∧
        s1.view = advance (params.length + 1) s.view ∧
        tokens (params.length + 1) (lexer s.lex) =
          params.map Token.id ++ [tokenOf s1.CurTok s1.lex] := by
  induction f with
  | zero => intro acc s names s1 h; simp [ParsePrototypeArgs] at h
  | succ f ih =>
    intro acc s names s1 h
    rw [ParsePrototypeArgs] at h
    by_cases hid : (getNextTok s).CurTok = tok_id
    · rw [if_pos hid] at h
      obtain ⟨params, hn, hne, hv, htok⟩ := ih _ _ _ _ h
      refine ⟨(getNextTok s).lex.IdStr :: params, by simp [hn], hne, ?_, ?_⟩
      · rw [hv]; rfl
      · rw [show ((getNextTok s).lex.IdStr :: params).length + 1 = (params.length + 1) + 1 by simp,
          tokens_succ]
        have h1 : tokenOf (lexer s.lex).1 (lexer s.lex).2 = Token.id (getNextTok s).lex.IdStr := by
          have : (lexer s.lex).1 = tok_id := hid
          rw [this]
          simp [tokenOf, tok_eof, tok_gate, tok_extern, tok_id, getNextTok]
        rw [h1]
        simp only [List.map_cons, List.cons_append, List.cons.injEq, true_and]
        exact htok
    · rw [if_neg hid] at h
      simp only [Option.some.injEq, Prod.mk.injEq] at h
      obtain ⟨h1, h2⟩ := h
      subst h1 h2
      exact ⟨[], by simp, hid, rfl, by simp [tokens, getNextTok]⟩

/-- The parameter loop ends: fuel beyond the number of pending characters suffices. -/
theorem ParsePrototypeArgs_total (n : Nat) :
    ∀ (s : State) (acc : List (List Int)) (f : Nat), pendingLen s.lex < n → n ≤ f →
      ∃ r, ParsePrototypeArgs f acc s = some r := by
  induction n with
  | zero => intro s acc f h; omega
  | succ n ih =>
    intro s acc f hn hf
    obtain ⟨g, rfl⟩ : ∃ g, f = g + 1 := ⟨f - 1, by omega⟩
    rw [ParsePrototypeArgs]
    by_cases hid : (getNextTok s).CurTok = tok_id
    · rw [if_pos hid]
      have hne : (lexer s.lex).1 ≠ tok_eof := by
        have : (lexer s.lex).1 = tok_id := hid
        rw [this]; decide
      have := lexer_consumes s.lex hne
      exact ih (getNextTok s) _ g (by show pendingLen (lexer s.lex).2 < n; omega) (by omega)
    · rw [if_neg hid]; exact ⟨_, rfl⟩

/-- C12. `ParsePrototype` succeeds exactly on the token sequences identifier,
`(`, identifiers, `)`. (1) On such a sequence, given fuel beyond the number of
parameters, it returns the prototype with that name and these parameter names
in order and consumes through the `)`. (2) Whenever it returns a prototype,
the tokens it consumed were of this form, with the name and the parameters of
the prototype. (3) It always returns, given fuel beyond the number of pending
characters; so on every other sequence it returns `nullptr`: a parse error. -/
theorem ParsePrototype_spec (s : State) :
    (∀ name params f, tokens (params.length + 3) s.view = protoToks name params →
      params.length + 1 ≤ f →
      ∃ s1, ParsePrototype f s = some (some { Name := name, Args := params }, s1) ∧
        s1.view = advance (params.length + 3) s.view ∧ s1.diag = s.diag) ∧
    (∀ f P s1, ParsePrototype f s = some (some P, s1) →
      tokens (P.Args.length + 3) s.view = protoToks P.Name P.Args ∧
        s1.view = advance (P.Args.length + 3) s.view) ∧
    (∀ f, pendingLen s.lex + 1 ≤ f → ∃ r, ParsePrototype f s = some r) ∧
    ((¬ ∃ name params, tokens (params.length + 3) s.view = protoToks name params) →
      ∀ f, pendingLen s.lex + 1 ≤ f → ∃ s1, ParsePrototype f s = some (none, s1)) := by
  have hconv : ∀ f P s1, ParsePrototype f s = some (some P, s1) →
      tokens (P.Args.length + 3) s.view = protoToks P.Name P.Args ∧
        s1.view = advance (P.Args.length + 3) s.view := by
    intro f P s1 h
    unfold ParsePrototype at h
    by_cases hid : s.CurTok = tok_id
    · rw [if_neg (not_not.mpr hid)] at h
      simp only [] at h
      by_cases h40 : (getNextTok s).CurTok = 40
      · rw [if_neg (not_not.mpr h40)] at h
        cases hA : ParsePrototypeArgs f [] (getNextTok s) with
        | none => rw [hA] at h; simp at h
        | some x =>
          rw [hA] at h
          obtain ⟨names, s2⟩ := x
          simp only [] at h
          by_cases h41 : s2.CurTok = 41
          · rw [if_neg (not_not.mpr h41)] at h
            simp only [Option.some.injEq, Prod.mk.injEq] at h
            obtain ⟨h1, h2⟩ := h
            subst h1 h2
            obtain ⟨params, hn, _, hv, htok⟩ := ParsePrototypeArgs_inv f _ _ _ _ hA
            simp only [List.nil_append] at hn
            subst hn
            constructor
            · rw [show names.length + 3 = (names.length + 1) + 1 + 1 by omega, tokens_succ,
                tokens_succ]
              have e1 : tokenOf s.view.1 s.view.2 = Token.id s.lex.IdStr := by
                show tokenOf s.CurTok s.lex = _
                rw [hid]; simp [tokenOf, tok_eof, tok_gate, tok_extern, tok_id]
              have e2 : tokenOf (lexer s.view.2).1 (lexer s.view.2).2 = Token.chr 40 := by
                have : (lexer s.view.2).1 = 40 := h40
                rw [this]; simp [tokenOf, tok_eof, tok_gate, tok_extern, tok_id, tok_num]
              have e3 : tokenOf s2.CurTok s2.lex = Token.chr 41 := by
                rw [h41]; simp [tokenOf, tok_eof, tok_gate, tok_extern, tok_id, tok_num]
              rw [e1, e2]
              have htok' : tokens (names.length + 1) (lexer (lexer s.view.2).2) =
                  names.map Token.id ++ [Token.chr 41] := by
                rw [← e3]; exact htok
              rw [htok']
              rfl
            · show lexer s2.lex = _
              have : s2.view = advance (names.length + 1) (lexer s.lex) := hv
              rw [show names.length + 3 = 1 + (names.length + 1) + 1 by omega, advance_add,
                advance_add]
              show _ = advance 1 (advance (names.length + 1) (lexer s.lex))
              rw [← this]; rfl
          · rw [if_pos h41] at h; simp at h
      · rw [if_pos h40] at h; simp at h
    · rw [if_pos hid] at h; simp at h
  have htotal : ∀ f, pendingLen s.lex + 1 ≤ f → ∃ r, ParsePrototype f s = some r := by
    intro f hf
    unfold ParsePrototype
    by_cases hid : s.CurTok = tok_id
    · rw [if_neg (not_not.mpr hid)]
      simp only []
      by_cases h40 : (getNextTok s).CurTok = 40
      · rw [if_neg (not_not.mpr h40)]
        have hne : (lexer s.lex).1 ≠ tok_eof := by
          have : (lexer s.lex).1 = 40 := h40
          rw [this]; decide
        have hlt := lexer_consumes s.lex hne
        obtain ⟨r, hr⟩ := ParsePrototypeArgs_total (pendingLen (getNextTok s).lex + 1)
          (getNextTok s) [] f (Nat.lt_succ_self _)
          (by show pendingLen (lexer s.lex).2 + 1 ≤ f; omega)
        rw [hr]
        obtain ⟨names, s2⟩ := r
        simp only []
        split <;> exact ⟨_, rfl⟩
      · rw [if_pos h40]; exact ⟨_, rfl⟩
    · rw [if_pos hid]; exact ⟨_, rfl⟩
  refine ⟨?_, hconv, htotal, ?_⟩
  · intro name params f htok hf
    rw [show params.length + 3 = (params.length + 1) + 1 + 1 by omega, tokens_succ,
      tokens_succ] at htok
    simp only [protoToks, List.cons.injEq] at htok
    obtain ⟨h1, h2, hrest⟩ := htok
    have hid := tokenOf_id _ _ _ h1
    have hid1 : s.CurTok = tok_id := hid.1
    have hid2 : s.lex.IdStr = name := hid.2
    have h40 : (getNextTok s).CurTok = 40 := tokenOf_chr _ _ _ h2
    obtain ⟨s2, hres, hv, hcur, hd, _⟩ := ParsePrototypeArgs_run (Token.chr 41) (by decide)
      params [] (getNextTok s) f hrest hf
    have h41 : s2.CurTok = 41 := by
      have := congrArg Token.code hcur
      rw [tokenOf_code] at this
      exact this
    refine ⟨getNextTok s2, ?_, ?_, ?_⟩
    · unfold ParsePrototype
      simp only [hid1, ne_eq, not_true_eq_false, if_false, h40, hres, h41, hid2,
        List.nil_append]
    · show lexer s2.lex = _
      have : s2.view = advance (params.length + 1) (lexer s.lex) := hv
      rw [show params.length + 3 = 1 + (params.length + 1) + 1 by omega, advance_add,
        advance_add]
      show _ = advance 1 (advance (params.length + 1) (lexer s.lex))
      rw [← this]; rfl
    · show s2.diag = s.diag
      rw [hd]; rfl
  · intro hnot f hf
    obtain ⟨r, hr⟩ := htotal f hf
    obtain ⟨o, s1⟩ := r
    cases o with
    | none => exact ⟨s1, hr⟩
    | some P => exact absurd ⟨P.Name, P.Args, (hconv f P s1 hr).1⟩ hnot

/-- The input `foo(a b);` gives the prototype of `foo` with the parameters `a`
and `b`, `foo();` the one without parameters; `foo(a, b)`, `gate(a)`,
`foo(gate)`, `foo a)` and `foo(a` give `nullptr`. -/
theorem ParsePrototype_spec_witness :
    (∃ s1, ParsePrototype 3 (State.start [102, 111, 111, 40, 97, 32, 98, 41, 59]) =
        some (some { Name := [102, 111, 111], Args := [[97], [98]] }, s1) ∧
      s1.view = advance (([[97], [98]] : List (List Int)).length + 3)
        (State.start [102, 111, 111, 40, 97, 32, 98, 41, 59]).view ∧
      s1.diag = (State.start [102, 111, 111, 40, 97, 32, 98, 41, 59]).diag) ∧
    (ParsePrototype 9 (State.start [102, 111, 111, 40, 41, 59])).map (fun r => r.1) =
      some (some { Name := [102, 111, 111], Args := [] }) ∧
    (ParsePrototype 9 (State.start [102, 111, 111, 40, 97, 44, 32, 98, 41])).map
      (fun r => r.1) = some none ∧
    (ParsePrototype 9 (State.start [103, 97, 116, 101, 40, 97, 41])).map (fun r => r.1) =
      some none ∧
    (ParsePrototype 9 (State.start [102, 111, 111, 40, 103, 97, 116, 101, 41])).map
      (fun r => r.1) = some none ∧
    (ParsePrototype 9 (State.start [102, 111, 111, 32, 97, 41])).map (fun r => r.1) =
      some none ∧
    (ParsePrototype 9 (State.start [102, 111, 111, 40, 97])).map (fun r => r.1) = some none :=
  ⟨(ParsePrototype_spec (State.start [102, 111, 111, 40, 97, 32, 98, 41, 59])).1
      [102, 111, 111] [[97], [98]] 3 (by decide) (by decide),
    by decide, by decide, by decide, by decide, by decide, by decide⟩

/-! ## Expression code generation -/

theorem LogErrorV_ne (g : GenState) (a b : String) (h : a ≠ b) :
    ((none : Option Value), LogErrorV g a) ≠ (none, LogErrorV g b) := by
  intro he
  have h1 := congrArg (fun r => r.2.diag) he
  simp only [LogErrorV, List.append_cancel_left_eq, List.cons.injEq, and_true,
    Diag.LogError.injEq] at h1
  exact h h1

/-- C14. Codegen of a variable reference `x` succeeds exactly when the symbol
table binds `x` to a value, and then returns that value and changes nothing;
when `x` has no value (no entry, or a null one) it logs the
unknown-variable-name error and returns `nullptr`, the module being left as it is. -/
theorem VariableExprAST_codegen_spec (x : List Int) (g : GenState) :
    (∀ V, namedFind x g.NamedValues = some (some V) →
      (ExprAST.VariableExprAST x).codegen g = (some V, g)) ∧
    ((∀ V, namedFind x g.NamedValues ≠ some (some V)) →
      ((ExprAST.VariableExprAST x).codegen g).1 = none ∧
      ((ExprAST.VariableExprAST x).codegen g).2.diag =
        g.diag ++ [Diag.LogError "Unknown Variable Name"] ∧
      ((ExprAST.VariableExprAST x).codegen g).2.TheModule = g.TheModule) ∧
    (((ExprAST.VariableExprAST x).codegen g).1.isSome = true ↔
      ∃ V, namedFind x g.NamedValues = some (some V)) := by
  cases hf : namedFind x g.NamedValues with
  | none =>
    have hres : (ExprAST.VariableExprAST x).codegen g =
        (none, LogErrorV { g with NamedValues := (x, none) :: g.NamedValues }
          "Unknown Variable Name") := by
      simp only [ExprAST.codegen, namedIndex, hf]
    refine ⟨fun V h => by simp at h, fun _ => ?_, ?_⟩
    · rw [hres]; exact ⟨rfl, rfl, rfl⟩
    · rw [hres]; simp
  | some o =>
    cases o with
    | none =>
      have hres : (ExprAST.VariableExprAST x).codegen g =
          (none, LogErrorV { g with NamedValues := g.NamedValues } "Unknown Variable Name") := by
        simp only [ExprAST.codegen, namedIndex, hf]
      refine ⟨fun V h => by simp at h, fun _ => ?_, ?_⟩
      · rw [hres]; exact ⟨rfl, rfl, rfl⟩
      · rw [hres]; simp
    | some V =>
      have hres : (ExprAST.VariableExprAST x).codegen g = (some V, g) := by
        simp only [ExprAST.codegen, namedIndex, hf]
      refine ⟨fun V1 h => ?_, fun h => absurd rfl (h V), ?_⟩
      · have : V1 = V := by
          have := Option.some.inj (Option.some.inj h)
          exact this.symm
        rw [this]; exact hres
      · rw [hres]; simp

/-- In a function with the parameters `a` and `b`, `b` is the second argument
and `c` is unknown. -/
theorem VariableExprAST_codegen_spec_witness :
    (ExprAST.VariableExprAST [98]).codegen
        { TheModule := [], NamedValues := bindArgs [102] [[97], [98]] 0 [], diag := [],
          LastUnique := 0 } =
      (some (Value.Argument [102] 1),
        { TheModule := [], NamedValues := bindArgs [102] [[97], [98]] 0 [], diag := [],
          LastUnique := 0 }) ∧
    ((ExprAST.VariableExprAST [99]).codegen
        { TheModule := [], NamedValues := bindArgs [102] [[97], [98]] 0 [], diag := [],
          LastUnique := 0 }).1 =
      none ∧
    ((ExprAST.VariableExprAST [99]).codegen
        { TheModule := [], NamedValues := bindArgs [102] [[97], [98]] 0 [], diag := [],
          LastUnique := 0 }).2.diag =
      [] ++ [Diag.LogError "Unknown Variable Name"] :=
  ⟨(VariableExprAST_codegen_spec [98] _).1 _ rfl, rfl, rfl⟩

theorem codegenArgs_nil (acc : List Value) (g : GenState) :
    codegenArgs [] acc g = (some acc, g) := by
  simp only [codegenArgs]

theorem codegenArgs_numbers (v : List Int) (g : GenState) : ∀ (n : Nat) (acc : List Value),
    codegenArgs (List.replicate n (ExprAST.NumberExprAST v)) acc g =
      (some (acc ++ List.replicate n (Value.ConstantFP v)), g) := by
  intro n
  induction n with
  | zero => intro acc; simp [codegenArgs]
  | succ n ih =>
    intro acc
    simp only [List.replicate_succ, codegenArgs, ExprAST.codegen]
    rw [ih]; simp

/-- The three outcomes of `CallExprAST::codegen`, by its two checks. -/
theorem CallExprAST_codegen_eq (Callee : List Int) (Args : List ExprAST) (g : GenState) :
    (getFunction g.TheModule Callee = none →
      (ExprAST.CallExprAST Callee Args).codegen g =
        (none, LogErrorV g "Unknown function called")) ∧
    (∀ CalleeF, getFunction g.TheModule Callee = some CalleeF →
      CalleeF.Args.length ≠ Args.length →
      (ExprAST.CallExprAST Callee Args).codegen g =
        (none, LogErrorV g "Incorrect number of arguments passed")) ∧
    (∀ CalleeF, getFunction g.TheModule Callee = some CalleeF →
      CalleeF.Args.length = Args.length →
      (ExprAST.CallExprAST Callee Args).codegen g =
        match codegenArgs Args [] g with
        | (none, g1) => (none, g1)
        | (some ArgsV, g1) => (some (Value.Call Callee ArgsV), g1)) := by
  refine ⟨fun h => ?_, fun F h hne => ?_, fun F h he => ?_⟩
  · simp only [ExprAST.codegen, h]
  · simp only [ExprAST.codegen, h, hne, ne_eq, not_false_eq_true, if_true]
  · simp only [ExprAST.codegen, h, he, ne_eq, not_true_eq_false, if_false]

/-- C18 (the code departs from the claim). With the default precedence table
installed, the input `1/2;` is parsed by `ParseTopLevelExpr` to the function
whose body is `BinaryOp('/', 1, 2)`, `/` being installed with precedence 40,
and codegen of that expression, as of the function, fails with the
invalid-binary-operator error: the switch of `BinaryExprAST::codegen` has no
case for `/`. -/
theorem division_parses_and_is_invalid_BinOp :
    Installed (State.start [49, 47, 50, 59]) ∧
    tokPrec 47 = 40 ∧
    (ParseExpression 4 (State.start [49, 47, 50, 59])).map (fun r => r.1) =
      some (some (ExprAST.BinaryExprAST 47 (ExprAST.NumberExprAST [49])
        (ExprAST.NumberExprAST [50]))) ∧
    (ExprAST.BinaryExprAST 47 (ExprAST.NumberExprAST [49]) (ExprAST.NumberExprAST [50])).codegen
        GenState.init =
      (none, LogErrorV GenState.init "invalid BinOp") ∧
    (∃ F s1, ParseTopLevelExpr 4 (State.start [49, 47, 50, 59]) = some (some F, s1) ∧
      (F.codegen GenState.init).1 = none ∧
      (F.codegen GenState.init).2.diag = [Diag.LogError "invalid BinOp"]) :=
  ⟨Installed_start _, by decide, rfl, rfl,
    { Proto := { Name := str_anon, Args := [] },
      Body := ExprAST.BinaryExprAST 47 (ExprAST.NumberExprAST [49]) (ExprAST.NumberExprAST [50]) },
    ((ParseExpression 4 (State.start [49, 47, 50, 59])).getD (none, State.init [])).2,
    rfl, rfl, rfl⟩

/-! ## Function code generation -/

/-- C19. Codegen of a function whose name `getFunction` finds in the module
with a body fails with the function-cannot-be-redefined error, whatever the
new parameters and body are: it returns `nullptr`, and the state is the one
before with the message added, so the module is unchanged and the existing
definition keeps its parameters and body. -/
theorem FunctionAST_codegen_redefinition (Fn : FunctionAST) (g : GenState) (F : LLVMFunction)
    (b : Block) (hF : getFunction g.TheModule Fn.Proto.Name = some F) (hb : F.Body = some b) :
    Fn.codegen g = (none, LogErrorV g "Function can't be redefined.") ∧
    (Fn.codegen g).2.TheModule = g.TheModule ∧
    getFunction (Fn.codegen g).2.TheModule Fn.Proto.Name = some F := by
  have h : Fn.codegen g = (none, LogErrorV g "Function can't be redefined.") := by
    simp only [FunctionAST.codegen, hF, hb, Option.isSome_some, if_true]
  rw [h]
  exact ⟨rfl, rfl, hF⟩

/-- After `gate foo(a b) a + b`, the definition `gate foo(x) x` is rejected
and `foo` is as before. -/
theorem FunctionAST_codegen_redefinition_witness :
    (getFunction afterFooDefinition.TheModule [102, 111, 111] =
        some { Name := [102, 111, 111], Args := [[97], [98]],
               Body := some (Block.ret (Value.FAdd (Value.Argument [102, 111, 111] 0)
                 (Value.Argument [102, 111, 111] 1))) }) ∧
    (FunctionAST.codegen
        { Proto := { Name := [102, 111, 111], Args := [[120]] },
          Body := ExprAST.VariableExprAST [120] } afterFooDefinition =
      (none, LogErrorV afterFooDefinition "Function can't be redefined.")) :=
  ⟨rfl, (FunctionAST_codegen_redefinition
    { Proto := { Name := [102, 111, 111], Args := [[120]] },
      Body := ExprAST.VariableExprAST [120] } afterFooDefinition
    { Name := [102, 111, 111], Args := [[97], [98]],
      Body := some (Block.ret (Value.FAdd (Value.Argument [102, 111, 111] 0)
        (Value.Argument [102, 111, 111] 1))) }
    (Block.ret (Value.FAdd (Value.Argument [102, 111, 111] 0)
        (Value.Argument [102, 111, 111] 1))) rfl rfl).1⟩

mutual
/-- Expression codegen does not change the module. -/
theorem codegen_TheModule : ∀ (e : ExprAST) (g : GenState),
    (e.codegen g).2.TheModule = g.TheModule
  | .NumberExprAST _, g => by simp only [ExprAST.codegen]
  | .VariableExprAST x, g => by
    simp only [ExprAST.codegen]
    split <;> rfl
  | .BinaryExprAST Op l r, g => by
    have hl := codegen_TheModule l g
    have hr := codegen_TheModule r (l.codegen g).2
    simp only [ExprAST.codegen]
    split
    · split
      · rw [hr, hl]
      · split
        · rw [hr, hl]
        · split
          · rw [hr, hl]
          · split
            · rw [hr, hl]
            · show (r.codegen (l.codegen g).2).2.TheModule = _
              rw [hr, hl]
    · rw [hr, hl]
  | .CallExprAST c args, g => by
    have ha := codegenArgs_TheModule args [] g
    simp only [ExprAST.codegen]
    split
    · rfl
    · split
      · rfl
      · split
        · rename_i h; rw [h] at ha; exact ha
        · rename_i h; rw [h] at ha; exact ha
theorem codegenArgs_TheModule : ∀ (es : List ExprAST) (acc : List Value) (g : GenState),
    (codegenArgs es acc g).2.TheModule = g.TheModule
  | [], acc, g => by simp only [codegenArgs]
  | a :: rest, acc, g => by
    have ha := codegen_TheModule a g
    simp only [codegenArgs]
    split
    · rename_i h; rw [h] at ha; exact ha
    · rename_i V g1 h
      rw [h] at ha
      rw [codegenArgs_TheModule rest (acc ++ [V]) g1]; exact ha
end

theorem setBody_filter_others (f : List Int) (b : Block) :
    ∀ m : List LLVMFunction,
      (setBody m f b).filter (fun F => !decide (F.Name = f)) =
        m.filter (fun F => !decide (F.Name = f)) := by
  intro m
  induction m with
  | nil => rfl
  | cons x xs ih =>
    by_cases hx : x.Name = f
    · simp only [setBody, hx, if_true]
      rw [List.filter_cons_of_neg (by simp),
        List.filter_cons_of_neg (by simpa using hx)]
    · simp only [setBody, hx, if_false]
      rw [List.filter_cons_of_pos (by simpa using hx),
        List.filter_cons_of_pos (by simpa using hx), ih]

theorem decimalDigits_spec : ∀ (fuel n : Nat) (acc : List Int), n < fuel →
    ∃ ds, decimalDigits fuel n acc = ds ++ acc ∧ ds ≠ [] ∧ (∀ d ∈ ds, isdigit d = true) ∧
      ds.foldl (fun a c => 10 * a + (c - 48).toNat) 0 = n := by
  intro fuel
  induction fuel with
  | zero => intro n acc h; omega
  | succ fuel ih =>
    intro n acc h
    rw [decimalDigits]
    have hd : isdigit (((48 + n % 10 : Nat) : Int)) = true := by
      simp only [isdigit, Bool.and_eq_true, decide_eq_true_eq]
      omega
    have hv : ((((48 + n % 10 : Nat) : Int)) - 48).toNat = n % 10 := by omega
    by_cases h0 : n / 10 = 0
    · simp only [h0, if_true]
      refine ⟨[((48 + n % 10 : Nat) : Int)], rfl, by simp, ?_, ?_⟩
      · intro d hdm
        rw [List.mem_singleton] at hdm
        rw [hdm]; exact hd
      · simp only [List.foldl_cons, List.foldl_nil, hv]
        omega
    · simp only [h0, if_false]
      obtain ⟨ds, h1, _, h3, h4⟩ := ih (n / 10) (((48 + n % 10 : Nat) : Int) :: acc) (by omega)
      refine ⟨ds ++ [((48 + n % 10 : Nat) : Int)], ?_, by simp, ?_, ?_⟩
      · rw [h1]; simp
      · intro d hdm
        rcases List.mem_append.mp hdm with h | h
        · exact h3 d h
        · rw [List.mem_singleton] at h
          rw [h]; exact hd
      · rw [List.foldl_append, h4]
        simp only [List.foldl_cons, List.foldl_nil, hv]
        omega

theorem decimal_spec (n : Nat) :
    decimal n ≠ [] ∧ (∀ d ∈ decimal n, isdigit d = true) ∧
      (decimal n).foldl (fun a c => 10 * a + (c - 48).toNat) 0 = n := by
  obtain ⟨ds, h1, h2, h3, h4⟩ := decimalDigits_spec (n + 1) n [] (by omega)
  rw [List.append_nil] at h1
  unfold decimal
  rw [h1]
  exact ⟨h2, h3, h4⟩

theorem decimal_inj (a b : Nat) (h : decimal a = decimal b) : a = b := by
  have ha := (decimal_spec a).2.2
  have hb := (decimal_spec b).2.2
  rw [h] at ha
  omega

/-- A name made by `makeUniqueName` ends in a digit. -/
theorem unique_name_last (Name sep : List Int) (k : Nat) :
    ∃ pre d, Name ++ sep ++ decimal k = pre ++ [d] ∧ isdigit d = true := by
  obtain ⟨h1, h2, _⟩ := decimal_spec k
  refine ⟨Name ++ sep ++ (decimal k).dropLast, (decimal k).getLast h1, ?_, ?_⟩
  · rw [List.append_assoc _ _ [_], List.dropLast_append_getLast]
  · exact h2 _ (List.getLast_mem h1)

/-- Among more candidates than there are names taken, one is free. -/
theorem unique_name_free (taken : List (List Int)) (Name sep : List Int) (L : Nat) :
    ∃ k, L < k ∧ k ≤ L + (taken.length + 1) ∧ Name ++ sep ++ decimal k ∉ taken := by
  by_contra hall
  push_neg at hall
  have hsub : (List.range (taken.length + 1)).map (fun i => Name ++ sep ++ decimal (L + 1 + i)) ⊆
      taken := by
    intro x hx
    obtain ⟨i, hi, rfl⟩ := List.mem_map.mp hx
    rw [List.mem_range] at hi
    exact hall (L + 1 + i) (by omega) (by omega)
  have hnd : ((List.range (taken.length + 1)).map
      (fun i => Name ++ sep ++ decimal (L + 1 + i))).Nodup := by
    apply List.Nodup.map _ (List.nodup_range _)
    intro i j hij
    have := decimal_inj _ _ (List.append_cancel_left hij)
    omega
  have := (List.Nodup.subperm hnd hsub).length_le
  simp only [List.length_map, List.length_range] at this
  omega

theorem makeUniqueName_spec (taken : List (List Int)) (Name sep : List Int) :
    ∀ (fuel L : Nat), (∃ k, L < k ∧ k ≤ L + fuel ∧ Name ++ sep ++ decimal k ∉ taken) →
      ∃ k, L < k ∧ makeUniqueName taken Name sep fuel L = (Name ++ sep ++ decimal k, k) ∧
        Name ++ sep ++ decimal k ∉ taken := by
  intro fuel
  induction fuel with
  | zero => intro L ⟨k, h1, h2, _⟩; omega
  | succ fuel ih =>
    intro L ⟨k, h1, h2, h3⟩
    rw [makeUniqueName]
    by_cases hm : Name ++ sep ++ decimal (L + 1) ∈ taken
    · simp only [hm, if_true]
      have hk : k ≠ L + 1 := by
        intro e; rw [e] at h3; exact h3 hm
      obtain ⟨k1, hk1, hk2, hk3⟩ := ih (L + 1) ⟨k, by omega, by omega, h3⟩
      exact ⟨k1, by omega, hk2, hk3⟩
    · simp only [hm, if_false]
      exact ⟨L + 1, by omega, rfl, hm⟩

/-- The name given by `createValueName` is not among the names taken; it is
the provided name when that is free, and else the provided name followed by
the separator and the digits of the new value of the counter. -/
theorem createValueName_spec (taken : List (List Int)) (Name sep : List Int) (L : Nat) :
    (createValueName taken Name sep L).1 ∉ taken ∧
    (Name ∉ taken → createValueName taken Name sep L = (Name, L)) ∧
    (Name ∈ taken → ∃ k, L < k ∧
      createValueName taken Name sep L = (Name ++ sep ++ decimal k, k)) := by
  unfold createValueName
  by_cases hm : Name ∈ taken
  · obtain ⟨k, hk1, hk2, hk3⟩ := makeUniqueName_spec taken Name sep (taken.length + 1) L
      (unique_name_free taken Name sep L)
    rw [if_pos hm, hk2]
    exact ⟨hk3, fun h => absurd hm h, fun _ => ⟨k, hk1, rfl⟩⟩
  · rw [if_neg hm]
    exact ⟨hm, fun _ => rfl, fun h => absurd h hm⟩

theorem setNames_append : ∀ (ps names : List (List Int)) (L : Nat),
    ∃ tail, setNames ps names L = names ++ tail ∧ tail.length = ps.length := by
  intro ps
  induction ps with
  | nil => intro names L; exact ⟨[], by simp [setNames], rfl⟩
  | cons a rest ih =>
    intro names L
    rw [setNames]
    by_cases ha : a = []
    · rw [if_pos ha]
      obtain ⟨tail, h1, h2⟩ := ih (names ++ [a]) L
      exact ⟨a :: tail, by rw [h1]; simp, by simp [h2]⟩
    · rw [if_neg ha]
      obtain ⟨tail, h1, h2⟩ := ih (names ++ [(createValueName names a [] L).1])
        (createValueName names a [] L).2
      exact ⟨(createValueName names a [] L).1 :: tail, by rw [h1]; simp, by simp [h2]⟩

/-- The function gets one argument for each name of the prototype. -/
theorem setNames_length (ps : List (List Int)) : (setNames ps [] 0).length = ps.length := by
  obtain ⟨tail, h1, h2⟩ := setNames_append ps [] 0
  rw [h1, List.nil_append, h2]

/-- Names that are pairwise distinct and not yet taken are kept as given. -/
theorem setNames_distinct : ∀ (ps names : List (List Int)) (L : Nat),
    ps.Nodup → (∀ a ∈ ps, a ∉ names) → setNames ps names L = names ++ ps := by
  intro ps
  induction ps with
  | nil => intro names L _ _; simp [setNames]
  | cons a rest ih =>
    intro names L hnd hfree
    rw [List.nodup_cons] at hnd
    have hrest : ∀ b ∈ rest, b ∉ names ++ [a] := by
      intro b hb hmem
      rcases List.mem_append.mp hmem with h | h
      · exact hfree b (List.mem_cons_of_mem _ hb) h
      · rw [List.mem_singleton] at h
        rw [h] at hb
        exact hnd.1 hb
    rw [setNames]
    by_cases ha : a = []
    · rw [if_pos ha, ih _ _ hnd.2 hrest]; simp
    · rw [if_neg ha]
      have hc := (createValueName_spec names a [] L).2.1 (hfree a (List.mem_cons_self _ _))
      simp only [hc]
      rw [ih _ _ hnd.2 hrest]; simp

/-- A name that is taken is given to no later argument. -/
theorem setNames_taken (x : List Int) (hx : x ≠ []) : ∀ (ps names : List (List Int)) (L : Nat),
    x ∈ names → ∃ tail, setNames ps names L = names ++ tail ∧ tail.length = ps.length ∧
      x ∉ tail := by
  intro ps
  induction ps with
  | nil => intro names L _; exact ⟨[], by simp [setNames], rfl, by simp⟩
  | cons a rest ih =>
    intro names L hmem
    rw [setNames]
    by_cases ha : a = []
    · rw [if_pos ha]
      obtain ⟨tail, h1, h2, h3⟩ := ih (names ++ [a]) L (List.mem_append_left _ hmem)
      refine ⟨a :: tail, by rw [h1]; simp, by simp [h2], ?_⟩
      intro h
      rcases List.mem_cons.mp h with h | h
      · exact hx (h.trans ha)
      · exact h3 h
    · rw [if_neg ha]
      have hfresh := (createValueName_spec names a [] L).1
      obtain ⟨tail, h1, h2, h3⟩ := ih (names ++ [(createValueName names a [] L).1])
        (createValueName names a [] L).2 (List.mem_append_left _ hmem)
      refine ⟨(createValueName names a [] L).1 :: tail, by rw [h1]; simp, by simp [h2], ?_⟩
      intro h
      rcases List.mem_cons.mp h with h | h
      · rw [← h] at hfresh; exact hfresh hmem
      · exact h3 h

/-- The first argument of a name that does not end in a digit keeps the name,
and no other argument has it. -/
theorem setNames_first (x : List Int) (hx : x ≠ [])
    (hd : ∀ pre d, x = pre ++ [d] → isdigit d = false) :
    ∀ (pre post names : List (List Int)) (L : Nat), x ∉ pre → x ∉ names →
      ∃ pre1 post1, setNames (pre ++ x :: post) names L = names ++ pre1 ++ x :: post1 ∧
        pre1.length = pre.length ∧ post1.length = post.length ∧ x ∉ pre1 ∧ x ∉ post1 := by
  intro pre
  induction pre with
  | nil =>
    intro post names L _ hn
    rw [List.nil_append, setNames, if_neg hx]
    have hc := (createValueName_spec names x [] L).2.1 hn
    simp only [hc]
    obtain ⟨tail, h1, h2, h3⟩ := setNames_taken x hx post (names ++ [x]) L (by simp)
    exact ⟨[], tail, by rw [h1]; simp, rfl, h2, by simp, h3⟩
  | cons a rest ih =>
    intro post names L hpre hn
    have hax : a ≠ x := fun h => hpre (by rw [h]; exact List.mem_cons_self _ _)
    have hrest : x ∉ rest := fun h => hpre (List.mem_cons_of_mem _ h)
    rw [List.cons_append, setNames]
    by_cases ha : a = []
    · rw [if_pos ha]
      have hn1 : x ∉ names ++ [a] := by
        intro h
        rcases List.mem_append.mp h with h | h
        · exact hn h
        · rw [List.mem_singleton] at h; exact hax h.symm
      obtain ⟨pre1, post1, h1, h2, h3, h4, h5⟩ := ih post (names ++ [a]) L hrest hn1
      refine ⟨a :: pre1, post1, by rw [h1]; simp, by simp [h2], h3, ?_, h5⟩
      intro h
      rcases List.mem_cons.mp h with h | h
      · exact hax h.symm
      · exact h4 h
    · rw [if_neg ha]
      have hne : (createValueName names a [] L).1 ≠ x := by
        by_cases hm : a ∈ names
        · obtain ⟨k, _, hk⟩ := (createValueName_spec names a [] L).2.2 hm
          rw [hk]
          intro h
          obtain ⟨p, d, hpd, hdig⟩ := unique_name_last a [] k
          have := hd p d (by rw [← h]; exact hpd)
          rw [hdig] at this
          exact Bool.noConfusion this
        · rw [(createValueName_spec names a [] L).2.1 hm]; exact hax
      have hn1 : x ∉ names ++ [(createValueName names a [] L).1] := by
        intro h
        rcases List.mem_append.mp h with h | h
        · exact hn h
        · rw [List.mem_singleton] at h; exact hne h.symm
      obtain ⟨pre1, post1, h1, h2, h3, h4, h5⟩ :=
        ih post (names ++ [(createValueName names a [] L).1]) (createValueName names a [] L).2
          hrest hn1
      refine ⟨(createValueName names a [] L).1 :: pre1, post1, by rw [h1]; simp, by simp [h2],
        h3, ?_, h5⟩
      intro h
      rcases List.mem_cons.mp h with h | h
      · exact hne h.symm
      · exact h4 h

/-! ## The symbol table -/

theorem namedFind_map (k k1 : List Int) (v : Option Value) :
    ∀ nv : List (List Int × Option Value),
      namedFind k (nv.map (fun p => if p.1 = k1 then (k1, v) else p)) =
        if k = k1 then (namedFind k1 nv).map (fun _ => v) else namedFind k nv := by
  intro nv
  induction nv with
  | nil => simp [namedFind]
  | cons p rest ih =>
    rw [List.map_cons]
    by_cases hp : p.1 = k1
    · rw [if_pos hp]
      by_cases hk : k = k1
      · rw [if_pos hk]
        simp [namedFind, hp, hk]
      · rw [if_neg hk]
        have h1 : ¬ k1 = k := fun h => hk h.symm
        have h2 : ¬ p.1 = k := fun h => hk (h.symm.trans hp)
        rw [namedFind, if_neg h1, ih, if_neg hk, namedFind, if_neg h2]
    · rw [if_neg hp]
      by_cases hk : k = k1
      · rw [if_pos hk, namedFind, if_neg (by rw [hk]; exact hp), ih, if_pos hk, namedFind,
          if_neg hp]
      · rw [if_neg hk, namedFind, namedFind, ih, if_neg hk]

/-- After `NamedValues[k1] = v` the name `k1` is bound to `v` and every other
name is bound as before. -/
theorem namedFind_namedAssign (nv : List (List Int × Option Value)) (k k1 : List Int)
    (v : Option Value) :
    namedFind k (namedAssign nv k1 v) = if k = k1 then some v else namedFind k nv := by
  unfold namedAssign
  cases h : namedFind k1 nv with
  | none =>
    simp only []
    rw [namedFind]
    by_cases hk : k = k1
    · rw [if_pos hk.symm, if_pos hk]
    · rw [if_neg (fun e => hk e.symm), if_neg hk]
  | some w =>
    simp only []
    rw [namedFind_map, h]
    rfl

theorem bindArgs_other (F x : List Int) : ∀ (us : List (List Int)) (i : Nat)
    (nv : List (List Int × Option Value)), x ∉ us →
      namedFind x (bindArgs F us i nv) = namedFind x nv := by
  intro us
  induction us with
  | nil => intro i nv _; rfl
  | cons a rest ih =>
    intro i nv hx
    rw [bindArgs, ih _ _ (fun h => hx (List.mem_cons_of_mem _ h)), namedFind_namedAssign,
      if_neg (fun e => hx (by rw [e]; exact List.mem_cons_self _ _))]

/-- The loop binds a name that one argument has to that argument. -/
theorem bindArgs_find (F x : List Int) : ∀ (pre post : List (List Int)) (i : Nat)
    (nv : List (List Int × Option Value)), x ∉ pre → x ∉ post →
      namedFind x (bindArgs F (pre ++ x :: post) i nv) =
        some (some (Value.Argument F (i + pre.length))) := by
  intro pre
  induction pre with
  | nil =>
    intro post i nv _ hpost
    rw [List.nil_append, bindArgs, bindArgs_other F x post _ _ hpost, namedFind_namedAssign,
      if_pos rfl]
    rfl
  | cons a rest ih =>
    intro post i nv hpre hpost
    rw [List.cons_append, bindArgs, ih post _ _ (fun h => hpre (List.mem_cons_of_mem _ h)) hpost,
      List.length_cons]
    congr 3
    omega

/-! ## The functions of the module -/

theorem setBody_names (f : List Int) (b : Block) : ∀ m : List LLVMFunction,
    (setBody m f b).map (fun F => F.Name) = m.map (fun F => F.Name) := by
  intro m
  induction m with
  | nil => rfl
  | cons x xs ih =>
    rw [setBody]
    by_cases hx : x.Name = f
    · rw [if_pos hx]; rfl
    · rw [if_neg hx, List.map_cons, List.map_cons, ih]

theorem eraseFromParent_names (f : List Int) : ∀ m : List LLVMFunction,
    ((eraseFromParent m f).map (fun F => F.Name)).Sublist (m.map (fun F => F.Name)) := by
  intro m
  induction m with
  | nil => exact List.Sublist.refl _
  | cons x xs ih =>
    rw [eraseFromParent]
    by_cases hx : x.Name = f
    · rw [if_pos hx]; exact List.sublist_cons_self _ _
    · rw [if_neg hx]; exact List.Sublist.cons₂ _ ih

/-- In a module whose names are unique, erasing the function of a name leaves
the functions of the other names, and none of that name. -/
theorem eraseFromParent_unique (f : List Int) : ∀ m : List LLVMFunction,
    (m.map (fun F => F.Name)).Nodup →
      eraseFromParent m f = m.filter (fun F => !decide (F.Name = f)) := by
  intro m
  induction m with
  | nil => intro _; rfl
  | cons x xs ih =>
    intro hnd
    rw [List.map_cons, List.nodup_cons] at hnd
    rw [eraseFromParent]
    by_cases hx : x.Name = f
    · rw [if_pos hx, List.filter_cons_of_neg (by simpa using hx)]
      symm
      rw [List.filter_eq_self]
      intro F hF
      have : F.Name ≠ f := by
        intro e
        apply hnd.1
        rw [hx, ← e]
        exact List.mem_map_of_mem _ hF
      simpa using this
    · rw [if_neg hx, List.filter_cons_of_pos (by simpa using hx), ih hnd.2]

theorem getFunction_none (m : List LLVMFunction) (f : List Int) :
    getFunction m f = none ↔ f ∉ m.map (fun F => F.Name) := by
  unfold getFunction
  rw [List.find?_eq_none]
  constructor
  · intro h hm
    obtain ⟨F, hF, e⟩ := List.mem_map.mp hm
    exact h F hF (by simpa using e)
  · intro h F hF
    have : F.Name ≠ f := fun e => h (by rw [← e]; exact List.mem_map_of_mem _ hF)
    simpa using this

theorem getFunction_some (m : List LLVMFunction) (f : List Int) (F : LLVMFunction)
    (h : getFunction m f = some F) : F ∈ m ∧ F.Name = f := by
  unfold getFunction at h
  exact ⟨List.mem_of_find?_eq_some h, by simpa using List.find?_some h⟩

/-- The function created last is found by its name when that name was free. -/
theorem getFunction_append_new (m : List LLVMFunction) (F : LLVMFunction)
    (h : F.Name ∉ m.map (fun G => G.Name)) : getFunction (m ++ [F]) F.Name = some F := by
  have hn := (getFunction_none m F.Name).mpr h
  unfold getFunction at hn ⊢
  rw [List.find?_append, hn]
  simp

/-- What `PrototypeAST::codegen` does in every state: one function is added
to the module, with a name that no function of the module has, one argument
for each name of the prototype and no body. -/
theorem PrototypeAST_codegen_eq (P : PrototypeAST) (g : GenState) :
    ∃ F, P.codegen g = (some F, { g with TheModule := g.TheModule ++ [F],
                                         LastUnique := (P.codegen g).2.LastUnique }) ∧
      F.Name ∉ g.TheModule.map (fun G => G.Name) ∧ F.Args = setNames P.Args [] 0 ∧
      F.Body = none ∧ (P.Name ∉ g.TheModule.map (fun G => G.Name) → F.Name = P.Name ∧
        (P.codegen g).2.LastUnique = g.LastUnique) :=
  ⟨{ Name := (createValueName (g.TheModule.map (fun F => F.Name)) P.Name [46] g.LastUnique).1,
     Args := setNames P.Args [] 0, Body := none }, rfl,
    (createValueName_spec _ _ _ _).1, rfl, rfl,
    fun h => by
      have := (createValueName_spec _ P.Name [46] g.LastUnique).2.1 h
      exact ⟨congrArg Prod.fst this, congrArg Prod.snd this⟩⟩

/-! ## What expression codegen leaves unchanged -/

mutual
/-- Expression codegen does not touch the counter of the module. -/
theorem codegen_LastUnique : ∀ (e : ExprAST) (g : GenState),
    (e.codegen g).2.LastUnique = g.LastUnique
  | .NumberExprAST _, g => by simp only [ExprAST.codegen]
  | .VariableExprAST x, g => by
    simp only [ExprAST.codegen]
    split <;> rfl
  | .BinaryExprAST Op l r, g => by
    have hl := codegen_LastUnique l g
    have hr := codegen_LastUnique r (l.codegen g).2
    simp only [ExprAST.codegen]
    split
    · split
      · rw [hr, hl]
      · split
        · rw [hr, hl]
        · split
          · rw [hr, hl]
          · split
            · rw [hr, hl]
            · show (r.codegen (l.codegen g).2).2.LastUnique = _
              rw [hr, hl]
    · rw [hr, hl]
  | .CallExprAST c args, g => by
    have ha := codegenArgs_LastUnique args [] g
    simp only [ExprAST.codegen]
    split
    · rfl
    · split
      · rfl
      · split
        · rename_i h; rw [h] at ha; exact ha
        · rename_i h; rw [h] at ha; exact ha
theorem codegenArgs_LastUnique : ∀ (es : List ExprAST) (acc : List Value) (g : GenState),
    (codegenArgs es acc g).2.LastUnique = g.LastUnique
  | [], acc, g => by simp only [codegenArgs]
  | a :: rest, acc, g => by
    have ha := codegen_LastUnique a g
    simp only [codegenArgs]
    split
    · rename_i h; rw [h] at ha; exact ha
    · rename_i V g1 h
      rw [h] at ha
      rw [codegenArgs_LastUnique rest (acc ++ [V]) g1]; exact ha
end

mutual
/-- Expression codegen only adds to what is written, and nothing but the
messages of the four expression errors. -/
theorem codegen_diag : ∀ (e : ExprAST) (g : GenState),
    ∃ extra, (e.codegen g).2.diag = g.diag ++ extra ∧
      ∀ d ∈ extra, d ∈ [Diag.LogError "Unknown Variable Name", Diag.LogError "invalid BinOp",
        Diag.LogError "Unknown function called",
        Diag.LogError "Incorrect number of arguments passed"]
  | .NumberExprAST _, g => ⟨[], by simp [ExprAST.codegen], by simp⟩
  | .VariableExprAST x, g => by
    simp only [ExprAST.codegen]
    split
    · exact ⟨[Diag.LogError "Unknown Variable Name"], rfl, by simp⟩
    · exact ⟨[], by simp, by simp⟩
  | .BinaryExprAST Op l r, g => by
    obtain ⟨e1, hl, hl2⟩ := codegen_diag l g
    obtain ⟨e2, hr, hr2⟩ := codegen_diag r (l.codegen g).2
    have hboth : (r.codegen (l.codegen g).2).2.diag = g.diag ++ (e1 ++ e2) := by
      rw [hr, hl, List.append_assoc]
    have hmem : ∀ d ∈ e1 ++ e2, d ∈ [Diag.LogError "Unknown Variable Name",
        Diag.LogError "invalid BinOp", Diag.LogError "Unknown function called",
        Diag.LogError "Incorrect number of arguments passed"] := by
      intro d hd
      rcases List.mem_append.mp hd with h | h
      · exact hl2 d h
      · exact hr2 d h
    simp only [ExprAST.codegen]
    split
    · split
      · exact ⟨e1 ++ e2, hboth, hmem⟩
      · split
        · exact ⟨e1 ++ e2, hboth, hmem⟩
        · split
          · exact ⟨e1 ++ e2, hboth, hmem⟩
          · split
            · exact ⟨e1 ++ e2, hboth, hmem⟩
            · refine ⟨e1 ++ e2 ++ [Diag.LogError "invalid BinOp"], ?_, ?_⟩
              · show (r.codegen (l.codegen g).2).2.diag ++ _ = _
                rw [hboth, List.append_assoc]
              · intro d hd
                rcases List.mem_append.mp hd with h | h
                · exact hmem d h
                · rw [List.mem_singleton] at h; rw [h]; simp
    · exact ⟨e1 ++ e2, hboth, hmem⟩
  | .CallExprAST c args, g => by
    have ha := codegenArgs_diag args [] g
    simp only [ExprAST.codegen]
    split
    · exact ⟨[Diag.LogError "Unknown function called"], rfl, by simp⟩
    · split
      · exact ⟨[Diag.LogError "Incorrect number of arguments passed"], rfl, by simp⟩
      · split
        · rename_i h; rw [h] at ha; exact ha
        · rename_i h; rw [h] at ha; exact ha
theorem codegenArgs_diag : ∀ (es : List ExprAST) (acc : List Value) (g : GenState),
    ∃ extra, (codegenArgs es acc g).2.diag = g.diag ++ extra ∧
      ∀ d ∈ extra, d ∈ [Diag.LogError "Unknown Variable Name", Diag.LogError "invalid BinOp",
        Diag.LogError "Unknown function called",
        Diag.LogError "Incorrect number of arguments passed"]
  | [], acc, g => ⟨[], by simp [codegenArgs], by simp⟩
  | a :: rest, acc, g => by
    obtain ⟨e1, ha, ha2⟩ := codegen_diag a g
    simp only [codegenArgs]
    split
    · rename_i h; rw [h] at ha; exact ⟨e1, ha, ha2⟩
    · rename_i V g1 h
      rw [h] at ha
      obtain ⟨e2, hb, hb2⟩ := codegenArgs_diag rest (acc ++ [V]) g1
      refine ⟨e1 ++ e2, ?_, ?_⟩
      · rw [hb]
        show g1.diag ++ e2 = _
        rw [ha, List.append_assoc]
      · intro d hd
        rcases List.mem_append.mp hd with h | h
        · exact ha2 d h
        · exact hb2 d h
end

/-! ## Function codegen on a name without a body -/

/-- The course of `FunctionAST::codegen()` when the module has no function
with a body under the name: `TheFunction` is the declaration found or the
function just created, it is found under the name of the prototype, and the
result is decided by the codegen of the body in the scope of its arguments. -/
theorem FunctionAST_codegen_cases (Fn : FunctionAST) (g : GenState)
    (hnb : ∀ F, getFunction g.TheModule Fn.Proto.Name = some F → F.Body = none) :
    ∃ TheFunction gP,
      ((getFunction g.TheModule Fn.Proto.Name = some TheFunction ∧ gP = g) ∨
        (getFunction g.TheModule Fn.Proto.Name = none ∧
          Fn.Proto.codegen g = (some TheFunction, gP) ∧
          gP.TheModule = g.TheModule ++ [TheFunction] ∧
          TheFunction.Args = setNames Fn.Proto.Args [] 0)) ∧
      TheFunction.Body = none ∧ TheFunction.Name = Fn.Proto.Name ∧
      getFunction gP.TheModule Fn.Proto.Name = some TheFunction ∧ gP.diag = g.diag ∧
      gP.LastUnique = g.LastUnique ∧
      (∀ RetVal g3,
        Fn.Body.codegen ⟨setBody gP.TheModule TheFunction.Name Block.entry,
            bindArgs TheFunction.Name TheFunction.Args 0 [], gP.diag, gP.LastUnique⟩ =
          (some RetVal, g3) →
        Fn.codegen g = (some { TheFunction with Body := some (Block.ret RetVal) },
          { g3 with TheModule := setBody g3.TheModule TheFunction.Name (Block.ret RetVal) })) ∧
      (∀ g3,
        Fn.Body.codegen ⟨setBody gP.TheModule TheFunction.Name Block.entry,
            bindArgs TheFunction.Name TheFunction.Args 0 [], gP.diag, gP.LastUnique⟩ =
          (none, g3) →
        Fn.codegen g =
          (none, { g3 with TheModule := eraseFromParent g3.TheModule TheFunction.Name })) := by
  cases hF : getFunction g.TheModule Fn.Proto.Name with
  | some F =>
    have hb := hnb F hF
    refine ⟨F, g, Or.inl ⟨rfl, rfl⟩, hb, (getFunction_some _ _ _ hF).2, hF, rfl, rfl, ?_, ?_⟩
    · intro RetVal g3 h
      simp only [FunctionAST.codegen, hF, hb, Option.isSome_none, Bool.false_eq_true, if_false, h]
    · intro g3 h
      simp only [FunctionAST.codegen, hF, hb, Option.isSome_none, Bool.false_eq_true, if_false, h]
  | none =>
    obtain ⟨F, hP, hfresh, hargs, hbody, hname⟩ := PrototypeAST_codegen_eq Fn.Proto g
    have hfree := (getFunction_none _ _).mp hF
    have hn := (hname hfree).1
    have hL := (hname hfree).2
    rw [hL] at hP
    refine ⟨F, ⟨g.TheModule ++ [F], g.NamedValues, g.diag, g.LastUnique⟩,
      Or.inr ⟨rfl, hP, rfl, hargs⟩, hbody, hn, ?_, rfl, rfl, ?_, ?_⟩
    · show getFunction (g.TheModule ++ [F]) Fn.Proto.Name = some F
      rw [← hn]
      exact getFunction_append_new _ _ hfresh
    · intro RetVal g3 h
      simp only [FunctionAST.codegen, hF, hP, hbody, Option.isSome_none, Bool.false_eq_true,
        if_false, h]
    · intro g3 h
      simp only [FunctionAST.codegen, hF, hP, hbody, Option.isSome_none, Bool.false_eq_true,
        if_false, h]

theorem getFunction_setBody (f : List Int) (b : Block) (F : LLVMFunction) :
    ∀ m : List LLVMFunction, getFunction m f = some F →
      getFunction (setBody m f b) f = some { F with Body := some b } := by
  intro m
  induction m with
  | nil => intro h; simp [getFunction] at h
  | cons x xs ih =>
    intro h
    unfold getFunction at h ih ⊢
    rw [setBody]
    by_cases hx : x.Name = f
    · rw [List.find?_cons_of_pos _ (by simpa using hx)] at h
      rw [if_pos hx, List.find?_cons_of_pos _ (by simpa using hx)]
      rw [Option.some.inj h]
    · rw [List.find?_cons_of_neg _ (by simpa using hx)] at h
      rw [if_neg hx, List.find?_cons_of_neg _ (by simpa using hx)]
      exact ih h

/-- C21. When `getFunction` finds for the name of a definition a function
without a body (a declaration, as `extern` makes), `FunctionAST::codegen`
works on that function, whatever the two parameter lists are (the code does
not compare them, so in particular when both have `n` parameters): no function
is created (the names of the module afterwards are among those before, and
the counter for new names is as before), a function returned is the
declaration with a body, found under the name, and the
function-cannot-be-redefined error is not among what is written. -/
theorem FunctionAST_codegen_reuses_declaration (Fn : FunctionAST) (g : GenState)
    (F : LLVMFunction) (hF : getFunction g.TheModule Fn.Proto.Name = some F)
    (hb : F.Body = none) :
    ((Fn.codegen g).2.TheModule.map (fun G => G.Name)).Sublist
        (g.TheModule.map (fun G => G.Name)) ∧
    (Fn.codegen g).2.LastUnique = g.LastUnique ∧
    (∀ R, (Fn.codegen g).1 = some R →
      R.Name = F.Name ∧ R.Args = F.Args ∧ R.Body.isSome = true ∧
        getFunction (Fn.codegen g).2.TheModule Fn.Proto.Name = some R) ∧
    (∃ extra, (Fn.codegen g).2.diag = g.diag ++ extra ∧
      Diag.LogError "Function can't be redefined." ∉ extra) ∧
    Fn.codegen g ≠ (none, LogErrorV g "Function can't be redefined.") := by
  have hnb : ∀ F1, getFunction g.TheModule Fn.Proto.Name = some F1 → F1.Body = none := by
    intro F1 h1
    rw [hF] at h1
    rw [← Option.some.inj h1]; exact hb
  obtain ⟨T, gP, hcase, _, hname, _, _, _, hsome, hnone⟩ := FunctionAST_codegen_cases Fn g hnb
  have hT : T = F ∧ gP = g := by
    rcases hcase with ⟨h1, h2⟩ | ⟨h1, _⟩
    · rw [hF] at h1; exact ⟨(Option.some.inj h1).symm, h2⟩
    · rw [hF] at h1; exact Option.noConfusion h1
  obtain ⟨rfl, rfl⟩ := hT
  have hmod := codegen_TheModule Fn.Body ⟨setBody gP.TheModule T.Name Block.entry,
    bindArgs T.Name T.Args 0 [], gP.diag, gP.LastUnique⟩
  have hlast := codegen_LastUnique Fn.Body ⟨setBody gP.TheModule T.Name Block.entry,
    bindArgs T.Name T.Args 0 [], gP.diag, gP.LastUnique⟩
  obtain ⟨extra, hdiag, hextra⟩ := codegen_diag Fn.Body ⟨setBody gP.TheModule T.Name Block.entry,
    bindArgs T.Name T.Args 0 [], gP.diag, gP.LastUnique⟩
  have hnot : Diag.LogError "Function can't be redefined." ∉ extra := by
    intro h
    have := hextra _ h
    revert this
    decide
  have hne : ∀ r : Option LLVMFunction × GenState, r.2.diag = gP.diag ++ extra →
      r ≠ (none, LogErrorV gP "Function can't be redefined.") := by
    intro r hr e
    rw [e] at hr
    have h1 : gP.diag ++ [Diag.LogError "Function can't be redefined."] = gP.diag ++ extra := hr
    have h2 := List.append_cancel_left h1
    rw [← h2] at hnot
    exact hnot (List.mem_singleton_self _)
  cases hB : Fn.Body.codegen ⟨setBody gP.TheModule T.Name Block.entry,
      bindArgs T.Name T.Args 0 [], gP.diag, gP.LastUnique⟩ with
  | mk r g3 =>
    rw [hB] at hmod hlast hdiag
    cases r with
    | some RetVal =>
      have hres := hsome RetVal g3 hB
      have hF1 : getFunction gP.TheModule T.Name = some T := by rw [hname]; exact hF
      have hfind : getFunction (setBody g3.TheModule T.Name (Block.ret RetVal)) T.Name =
          some { T with Body := some (Block.ret RetVal) } := by
        have h1 := getFunction_setBody T.Name Block.entry T gP.TheModule hF1
        have h2 := getFunction_setBody T.Name (Block.ret RetVal) _ _ h1
        rw [hmod]
        exact h2
      refine ⟨?_, ?_, ?_, ⟨extra, ?_, hnot⟩, ?_⟩
      · rw [hres]
        show ((setBody g3.TheModule T.Name (Block.ret RetVal)).map _).Sublist _
        rw [setBody_names, hmod, setBody_names]
      · rw [hres]; exact hlast
      · intro R hR
        rw [hres] at hR
        have hR1 : R = { T with Body := some (Block.ret RetVal) } := (Option.some.inj hR).symm
        rw [hres, hR1, ← hname]
        exact ⟨rfl, rfl, rfl, hfind⟩
      · rw [hres]; exact hdiag
      · exact hne _ (by rw [hres]; exact hdiag)
    | none =>
      have hres := hnone g3 hB
      refine ⟨?_, ?_, ?_, ⟨extra, ?_, hnot⟩, ?_⟩
      · rw [hres]
        show ((eraseFromParent g3.TheModule T.Name).map _).Sublist _
        have := eraseFromParent_names T.Name g3.TheModule
        rw [hmod, setBody_names] at this
        rw [hmod]
        exact this
      · rw [hres]; exact hlast
      · intro R hR
        rw [hres] at hR
        exact Option.noConfusion hR
      · rw [hres]; exact hdiag
      · exact hne _ (by rw [hres]; exact hdiag)

/-- After `extern f(a)`, the definition `gate f(a) a` is generated on the
declaration: the module keeps its one function, now with the body. -/
theorem FunctionAST_codegen_reuses_declaration_witness :
    (getFunction afterExternF.TheModule [102] =
        some { Name := [102], Args := [[97]], Body := none }) ∧
    (FunctionAST.codegen
        { Proto := { Name := [102], Args := [[97]] }, Body := ExprAST.VariableExprAST [97] }
        afterExternF).2.LastUnique = afterExternF.LastUnique ∧
    FunctionAST.codegen
        { Proto := { Name := [102], Args := [[97]] }, Body := ExprAST.VariableExprAST [97] }
        afterExternF ≠
      (none, LogErrorV afterExternF "Function can't be redefined.") ∧
    (FunctionAST.codegen
        { Proto := { Name := [102], Args := [[97]] }, Body := ExprAST.VariableExprAST [97] }
        afterExternF).2.TheModule =
      [{ Name := [102], Args := [[97]], Body := some (Block.ret (Value.Argument [102] 0)) }] :=
  ⟨rfl,
    (FunctionAST_codegen_reuses_declaration
      { Proto := { Name := [102], Args := [[97]] }, Body := ExprAST.VariableExprAST [97] }
      afterExternF { Name := [102], Args := [[97]], Body := none } rfl rfl).2.1,
    (FunctionAST_codegen_reuses_declaration
      { Proto := { Name := [102], Args := [[97]] }, Body := ExprAST.VariableExprAST [97] }
      afterExternF { Name := [102], Args := [[97]], Body := none } rfl rfl).2.2.2.2,
    rfl⟩

/-- C22 (the code departs from the claim). `FunctionAST::codegen` fills the
symbol table from the arguments of `TheFunction`. When that is a declaration
made earlier, the names bound are those of the declaration, not those of the
prototype of the function being generated: after `extern f(a)`, codegen of
`gate f(b) b` generates the body with `a` bound and `b` unbound, so the
reference to the function's own parameter fails with the unknown-variable
error (and the declaration is erased), while in the initial state the same
definition generates, with `b` bound to the argument. -/
theorem FunctionAST_codegen_binds_declared_names :
    afterExternF.TheModule = [{ Name := [102], Args := [[97]], Body := none }] ∧
    FunctionAST.codegen
        { Proto := { Name := [102], Args := [[98]] }, Body := ExprAST.VariableExprAST [98] }
        afterExternF =
      (none, { TheModule := [],
               NamedValues := [([98], none), ([97], some (Value.Argument [102] 0))],
               diag := [Diag.LogError "Unknown Variable Name"], LastUnique := 0 }) ∧
    FunctionAST.codegen
        { Proto := { Name := [102], Args := [[98]] }, Body := ExprAST.VariableExprAST [98] }
        GenState.init =
      (some { Name := [102], Args := [[98]], Body := some (Block.ret (Value.Argument [102] 0)) },
        { TheModule := [{ Name := [102], Args := [[98]],
                          Body := some (Block.ret (Value.Argument [102] 0)) }],
          NamedValues := [([98], some (Value.Argument [102] 0))],
          diag := [], LastUnique := 0 }) :=
  ⟨rfl, rfl, rfl⟩

/-! ## The names of the module stay unique -/

theorem PrototypeAST_codegen_unique (P : PrototypeAST) (g : GenState)
    (hnd : (g.TheModule.map (fun F => F.Name)).Nodup) :
    ((P.codegen g).2.TheModule.map (fun F => F.Name)).Nodup := by
  obtain ⟨F, hP, hfresh, _⟩ := PrototypeAST_codegen_eq P g
  rw [hP]
  show ((g.TheModule ++ [F]).map (fun F => F.Name)).Nodup
  rw [List.map_append, List.map_cons, List.map_nil]
  apply List.Nodup.append hnd (List.nodup_singleton _)
  intro x hx hx1
  rw [List.mem_singleton] at hx1
  rw [hx1] at hx
  exact hfresh hx

theorem FunctionAST_codegen_unique (Fn : FunctionAST) (g : GenState)
    (hnd : (g.TheModule.map (fun F => F.Name)).Nodup) :
    ((Fn.codegen g).2.TheModule.map (fun F => F.Name)).Nodup := by
  by_cases hnb : ∀ F, getFunction g.TheModule Fn.Proto.Name = some F → F.Body = none
  · obtain ⟨T, gP, hcase, _, _, _, _, _, hsome, hnone⟩ := FunctionAST_codegen_cases Fn g hnb
    have hP : (gP.TheModule.map (fun F => F.Name)).Nodup := by
      rcases hcase with ⟨_, h2⟩ | ⟨_, h2, _⟩
      · rw [h2]; exact hnd
      · have := PrototypeAST_codegen_unique Fn.Proto g hnd
        rw [h2] at this
        exact this
    have hmod := codegen_TheModule Fn.Body ⟨setBody gP.TheModule T.Name Block.entry,
      bindArgs T.Name T.Args 0 [], gP.diag, gP.LastUnique⟩
    cases hB : Fn.Body.codegen ⟨setBody gP.TheModule T.Name Block.entry,
        bindArgs T.Name T.Args 0 [], gP.diag, gP.LastUnique⟩ with
    | mk r g3 =>
      rw [hB] at hmod
      cases r with
      | some RetVal =>
        rw [hsome RetVal g3 hB]
        show ((setBody g3.TheModule T.Name (Block.ret RetVal)).map _).Nodup
        rw [setBody_names, hmod, setBody_names]
        exact hP
      | none =>
        rw [hnone g3 hB]
        show ((eraseFromParent g3.TheModule T.Name).map _).Nodup
        have := eraseFromParent_names T.Name g3.TheModule
        rw [hmod, setBody_names] at this
        rw [hmod]
        exact List.Nodup.sublist this hP
  · push_neg at hnb
    obtain ⟨F, hF, hb⟩ := hnb
    have hsome : F.Body.isSome = true := by
      cases h : F.Body with
      | none => exact absurd h hb
      | some b => rfl
    have : Fn.codegen g = (none, LogErrorV g "Function can't be redefined.") := by
      simp only [FunctionAST.codegen, hF, hsome, if_true]
    rw [this]
    exact hnd

theorem codegen_diag_length (e : ExprAST) (g : GenState) :
    g.diag.length ≤ (e.codegen g).2.diag.length := by
  obtain ⟨extra, h, _⟩ := codegen_diag e g
  rw [h, List.length_append]
  omega

mutual
/-- Expression codegen that returns `nullptr` has written a message. -/
theorem codegen_none_diag : ∀ (e : ExprAST) (g : GenState), (e.codegen g).1 = none →
    g.diag.length < (e.codegen g).2.diag.length
  | .NumberExprAST _, g => by simp [ExprAST.codegen]
  | .VariableExprAST x, g => by
    simp only [ExprAST.codegen]
    split
    · intro _; simp [LogErrorV]
    · intro h; simp at h
  | .BinaryExprAST Op l r, g => by
    have hl := codegen_none_diag l g
    have hr := codegen_none_diag r (l.codegen g).2
    have hl1 := codegen_diag_length l g
    have hr1 := codegen_diag_length r (l.codegen g).2
    simp only [ExprAST.codegen]
    split
    · rename_i L R h1 h2
      split
      · intro h; simp at h
      · split
        · intro h; simp at h
        · split
          · intro h; simp at h
          · split
            · intro h; simp at h
            · intro _
              show _ < ((r.codegen (l.codegen g).2).2.diag ++ _).length
              rw [List.length_append]
              simp only [List.length_singleton]
              omega
    · rename_i h
      intro _
      show _ < (r.codegen (l.codegen g).2).2.diag.length
      cases h1 : (l.codegen g).1 with
      | none => have := hl h1; omega
      | some L =>
        cases h2 : (r.codegen (l.codegen g).2).1 with
        | none => have := hr h2; omega
        | some R => exact absurd h2 (h L R h1)
  | .CallExprAST c args, g => by
    have ha := codegenArgs_none_diag args [] g
    simp only [ExprAST.codegen]
    split
    · intro _; simp [LogErrorV]
    · split
      · intro _; simp [LogErrorV]
      · split
        · rename_i h; rw [h] at ha; intro _; exact ha rfl
        · intro h; simp at h
theorem codegenArgs_none_diag : ∀ (es : List ExprAST) (acc : List Value) (g : GenState),
    (codegenArgs es acc g).1 = none → g.diag.length < (codegenArgs es acc g).2.diag.length
  | [], acc, g => by simp [codegenArgs]
  | a :: rest, acc, g => by
    have ha := codegen_none_diag a g
    have ha1 := codegen_diag_length a g
    simp only [codegenArgs]
    split
    · rename_i h; rw [h] at ha; intro _; exact ha rfl
    · rename_i V g1 h
      rw [h] at ha1
      intro hn
      have := codegenArgs_none_diag rest (acc ++ [V]) g1 hn
      have e : (a.codegen g).2 = g1 := by rw [h]
      simp only [] at ha1
      omega
end

/-- C23. In a module whose function names are unique (as they are in every
state the generator reaches: `PrototypeAST_codegen_unique`,
`FunctionAST_codegen_unique`), when `FunctionAST::codegen` returns `nullptr`
and not because a function with a body has the name, then the body failed to
generate, with one of the four expression errors written, and afterwards the
module has no function of the name: `getFunction` finds none, and the module
holds the functions of the other names, as before. -/
theorem FunctionAST_codegen_failure_erases (Fn : FunctionAST) (g : GenState)
    (hnd : (g.TheModule.map (fun F => F.Name)).Nodup)
    (hnb : ∀ F, getFunction g.TheModule Fn.Proto.Name = some F → F.Body = none)
    (hfail : (Fn.codegen g).1 = none) :
    getFunction (Fn.codegen g).2.TheModule Fn.Proto.Name = none ∧
    (∀ F ∈ (Fn.codegen g).2.TheModule, F.Name ≠ Fn.Proto.Name) ∧
    (Fn.codegen g).2.TheModule =
      g.TheModule.filter (fun F => !decide (F.Name = Fn.Proto.Name)) ∧
    (∃ d extra, (Fn.codegen g).2.diag = g.diag ++ d :: extra ∧
      ∀ x ∈ d :: extra, x ∈ [Diag.LogError "Unknown Variable Name", Diag.LogError "invalid BinOp",
        Diag.LogError "Unknown function called",
        Diag.LogError "Incorrect number of arguments passed"]) := by
  obtain ⟨T, gP, hcase, _, hname, hfind, hdiagP, _, hsome, hnone⟩ :=
    FunctionAST_codegen_cases Fn g hnb
  have hP : (gP.TheModule.map (fun F => F.Name)).Nodup := by
    rcases hcase with ⟨_, h2⟩ | ⟨_, h2, _⟩
    · rw [h2]; exact hnd
    · have := PrototypeAST_codegen_unique Fn.Proto g hnd
      rw [h2] at this
      exact this
  have hothers : gP.TheModule.filter (fun F => !decide (F.Name = Fn.Proto.Name)) =
      g.TheModule.filter (fun F => !decide (F.Name = Fn.Proto.Name)) := by
    rcases hcase with ⟨_, h2⟩ | ⟨_, _, h3, _⟩
    · rw [h2]
    · rw [h3, List.filter_append, List.filter_cons_of_neg (by simpa using hname)]
      simp
  have hmod := codegen_TheModule Fn.Body ⟨setBody gP.TheModule T.Name Block.entry,
    bindArgs T.Name T.Args 0 [], gP.diag, gP.LastUnique⟩
  obtain ⟨extra, hdiag, hextra⟩ := codegen_diag Fn.Body ⟨setBody gP.TheModule T.Name Block.entry,
    bindArgs T.Name T.Args 0 [], gP.diag, gP.LastUnique⟩
  have hlen := codegen_none_diag Fn.Body ⟨setBody gP.TheModule T.Name Block.entry,
    bindArgs T.Name T.Args 0 [], gP.diag, gP.LastUnique⟩
  cases hB : Fn.Body.codegen ⟨setBody gP.TheModule T.Name Block.entry,
      bindArgs T.Name T.Args 0 [], gP.diag, gP.LastUnique⟩ with
  | mk r g3 =>
    rw [hB] at hmod hdiag hlen
    cases r with
    | some RetVal =>
      rw [hsome RetVal g3 hB] at hfail
      exact Option.noConfusion hfail
    | none =>
      have hres := hnone g3 hB
      have hnd3 : (g3.TheModule.map (fun F => F.Name)).Nodup := by
        rw [hmod]
        show ((setBody gP.TheModule T.Name Block.entry).map _).Nodup
        rw [setBody_names]; exact hP
      have hmodule : (Fn.codegen g).2.TheModule =
          g.TheModule.filter (fun F => !decide (F.Name = Fn.Proto.Name)) := by
        rw [hres]
        show eraseFromParent g3.TheModule T.Name = _
        rw [eraseFromParent_unique T.Name g3.TheModule hnd3, hmod, hname]
        show (setBody gP.TheModule Fn.Proto.Name Block.entry).filter _ = _
        rw [setBody_filter_others, hothers]
      have hall : ∀ F ∈ (Fn.codegen g).2.TheModule, F.Name ≠ Fn.Proto.Name := by
        intro F hF
        rw [hmodule, List.mem_filter] at hF
        simpa using hF.2
      refine ⟨?_, hall, hmodule, ?_⟩
      · rw [getFunction_none]
        intro hm
        obtain ⟨F, hF, e⟩ := List.mem_map.mp hm
        exact hall F hF e
      · have hd3 : g3.diag = g.diag ++ extra := by rw [hdiag]; show gP.diag ++ extra = _; rw [hdiagP]
        have hl3 : g.diag.length < g3.diag.length := by
          have := hlen rfl
          rw [← hdiagP]; exact this
        cases extra with
        | nil => rw [hd3, List.append_nil] at hl3; omega
        | cons d rest =>
          refine ⟨d, rest, ?_, hextra⟩
          rw [hres]; exact hd3

/-- After `extern f(a)`, the definition `gate f(b) b` fails in its body, and the
module is left without a function `f`. -/
theorem FunctionAST_codegen_failure_erases_witness :
    ((afterExternF.TheModule.map (fun F => F.Name)).Nodup ∧
      (FunctionAST.codegen
        { Proto := { Name := [102], Args := [[98]] }, Body := ExprAST.VariableExprAST [98] }
        afterExternF).1 = none) ∧
    getFunction (FunctionAST.codegen
        { Proto := { Name := [102], Args := [[98]] }, Body := ExprAST.VariableExprAST [98] }
        afterExternF).2.TheModule [102] = none :=
  ⟨⟨by decide, rfl⟩,
    (FunctionAST_codegen_failure_erases
      { Proto := { Name := [102], Args := [[98]] }, Body := ExprAST.VariableExprAST [98] }
      afterExternF (by decide)
      (fun F h => by
        have h1 : some ({ Name := [102], Args := [[97]], Body := none } : LLVMFunction) = some F := h
        rw [← Option.some.inj h1])
      rfl).1⟩

/-! ## Parameters of one name -/

/-- C29 (the claim fails). Codegen of `gate f(a a) a` in the initial state:
the second parameter is renamed `a1` by the backend, the symbol table binds
`a` to the first parameter and `a1` to the second, and the body `a` generates
to the first parameter, not to the last of the name. -/
theorem duplicate_parameter_first_bound :
    FunctionAST.codegen
        { Proto := { Name := [102], Args := [[97], [97]] }, Body := ExprAST.VariableExprAST [97] }
        GenState.init =
      (some { Name := [102], Args := [[97], [97, 49]],
              Body := some (Block.ret (Value.Argument [102] 0)) },
        { TheModule := [{ Name := [102], Args := [[97], [97, 49]],
                          Body := some (Block.ret (Value.Argument [102] 0)) }],
          NamedValues := [([97, 49], some (Value.Argument [102] 1)),
                          ([97], some (Value.Argument [102] 0))],
          diag := [], LastUnique := 0 }) :=
  rfl

/-- C29, amended. For a function created by `FunctionAST::codegen` (no
function has its name yet) whose parameter list holds the name `x` (not empty,
not ending in a digit) once or more often, the first `x` coming after the
parameters `pre`: the backend leaves the name `x` to that first parameter
alone, the symbol table built binds `x` to it, and the body `x` generates to
it; the function returned has a parameter for each name of the list. -/
theorem duplicate_parameter_resolves_to_first (g : GenState) (f x : List Int)
    (pre post : List (List Int)) (hfree : getFunction g.TheModule f = none) (hx : x ≠ [])
    (hd : ∀ p d, x = p ++ [d] → isdigit d = false) (hpre : x ∉ pre) :
    ∃ Args g4,
      FunctionAST.codegen
          { Proto := { Name := f, Args := pre ++ x :: post }, Body := ExprAST.VariableExprAST x }
          g =
        (some { Name := f, Args := Args,
                Body := some (Block.ret (Value.Argument f pre.length)) }, g4) ∧
      Args.length = (pre ++ x :: post).length ∧
      Args.count x = 1 ∧
      namedFind x (bindArgs f Args 0 []) = some (some (Value.Argument f pre.length)) ∧
      namedFind x g4.NamedValues = some (some (Value.Argument f pre.length)) := by
  have hnb : ∀ F, getFunction g.TheModule f = some F → F.Body = none := by
    intro F h; rw [hfree] at h; exact Option.noConfusion h
  obtain ⟨T, gP, hcase, hbody, hname, _, _, _, hsome, _⟩ :=
    FunctionAST_codegen_cases
      { Proto := { Name := f, Args := pre ++ x :: post }, Body := ExprAST.VariableExprAST x } g hnb
  have hargs : T.Args = setNames (pre ++ x :: post) [] 0 := by
    rcases hcase with ⟨h1, _⟩ | ⟨_, _, _, h4⟩
    · have h2 : getFunction g.TheModule f = some T := h1
      rw [hfree] at h2; exact Option.noConfusion h2
    · exact h4
  have hname1 : T.Name = f := hname
  obtain ⟨pre1, post1, h1, h2, h3, h4, h5⟩ := setNames_first x hx hd pre post [] 0 hpre (by simp)
  rw [List.nil_append] at h1
  have hfind : namedFind x (bindArgs f T.Args 0 []) =
      some (some (Value.Argument f pre.length)) := by
    rw [hargs, h1, bindArgs_find f x pre1 post1 0 [] h4 h5, Nat.zero_add, h2]
  have hB : (ExprAST.VariableExprAST x).codegen ⟨setBody gP.TheModule T.Name Block.entry,
      bindArgs T.Name T.Args 0 [], gP.diag, gP.LastUnique⟩ =
      (some (Value.Argument f pre.length), ⟨setBody gP.TheModule T.Name Block.entry,
      bindArgs T.Name T.Args 0 [], gP.diag, gP.LastUnique⟩) := by
    rw [hname1]
    simp only [ExprAST.codegen, namedIndex, hfind]
  have hres := hsome _ _ hB
  refine ⟨T.Args, ⟨setBody (setBody gP.TheModule T.Name Block.entry) T.Name
      (Block.ret (Value.Argument f pre.length)), bindArgs T.Name T.Args 0 [], gP.diag,
      gP.LastUnique⟩, ?_, ?_, ?_, hfind, ?_⟩
  · rw [hres, hname1]
  · rw [hargs, h1]
    simp [h2, h3]
  · rw [hargs, h1, List.count_append, List.count_cons_self, List.count_eq_zero_of_not_mem h4,
      List.count_eq_zero_of_not_mem h5]
  · show namedFind x (bindArgs T.Name T.Args 0 []) = _
    rw [hname1]; exact hfind

/-- Codegen of `gate f(a b a) a` in the initial state: the body generates to
the first parameter. -/
theorem duplicate_parameter_resolves_to_first_witness :
    (getFunction GenState.init.TheModule [102] = none ∧ ([97] : List Int) ≠ [] ∧
      (∀ p d, ([97] : List Int) = p ++ [d] → isdigit d = false) ∧
      ([97] : List Int) ∉ ([] : List (List Int))) ∧
    ∃ Args g4,
      FunctionAST.codegen
          { Proto := { Name := [102], Args := [] ++ [97] :: [[98], [97]] },
            Body := ExprAST.VariableExprAST [97] }
          GenState.init =
        (some { Name := [102], Args := Args,
                Body := some (Block.ret (Value.Argument [102] ([] : List (List Int)).length)) },
          g4) ∧
      Args.length = ([] ++ [97] :: [[98], [97]]).length ∧
      Args.count [97] = 1 ∧
      namedFind [97] (bindArgs [102] Args 0 []) =
        some (some (Value.Argument [102] ([] : List (List Int)).length)) ∧
      namedFind [97] g4.NamedValues =
        some (some (Value.Argument [102] ([] : List (List Int)).length)) :=
  have h97 : ∀ p d, ([97] : List Int) = p ++ [d] → isdigit d = false := by
    intro p d h
    have h1 := congrArg List.getLast? h
    simp at h1
    rw [← h1]; decide
  ⟨⟨rfl, by decide, h97, by simp⟩,
    duplicate_parameter_resolves_to_first GenState.init [102] [97] [] [[98], [97]] rfl
      (by decide) h97 (by simp)⟩

/-! ## End of input -/

theorem lexer_eof_aux (n : Nat) : ∀ l : LexState, l.input.length < n →
    (lexer l).1 = tok_eof →
      (lexer l).2.LastChar = EOF ∧ (lexer l).2.input.length ≤ l.input.length := by
  induction n with
  | zero => intro l h; omega
  | succ n ih =>
    intro l hn he
    rw [lexer_eq] at he ⊢
    simp only [] at he ⊢
    have hskl := skipSpace_length l.input l.LastChar
    by_cases ha : isalpha (skipSpace l.LastChar l.input).1 = true
    · exfalso
      simp only [ha, if_true] at he
      have hg : tok_gate ≠ tok_eof := by decide
      have hx : tok_extern ≠ tok_eof := by decide
      have hi : tok_id ≠ tok_eof := by decide
      split at he
      · exact hg he
      · split at he
        · exact hx he
        · exact hi he
    · have ha1 : isalpha (skipSpace l.LastChar l.input).1 = false := by simpa using ha
      simp only [ha1, Bool.false_eq_true, if_false] at he ⊢
      by_cases hd : (isdigit (skipSpace l.LastChar l.input).1 ||
          (skipSpace l.LastChar l.input).1 == 46) = true
      · exfalso
        simp only [hd, if_true] at he
        have hnum : tok_num ≠ tok_eof := by decide
        exact hnum he
      · have hd1 : (isdigit (skipSpace l.LastChar l.input).1 ||
            (skipSpace l.LastChar l.input).1 == 46) = false := by simpa using hd
        simp only [hd1, Bool.false_eq_true, if_false] at he ⊢
        by_cases hc : ((skipSpace l.LastChar l.input).1 == 35) = true
        · simp only [hc, if_true] at he ⊢
          have hcm := skipComment_pendingLen (skipSpace l.LastChar l.input).2
          by_cases hr : ((skipComment (skipSpace l.LastChar l.input).2).1 != EOF) = true
          · simp only [hr, if_true] at he ⊢
            have hr1 : (skipComment (skipSpace l.LastChar l.input).2).1 ≠ EOF := by
              simpa using hr
            have hlen := skipComment_length _ hr1
            have := ih { l with LastChar := (skipComment (skipSpace l.LastChar l.input).2).1,
                                input := (skipComment (skipSpace l.LastChar l.input).2).2 }
              (by simp only []; omega) he
            refine ⟨this.1, ?_⟩
            have h2 := this.2
            simp only [] at h2
            omega
          · have hr2 : ((skipComment (skipSpace l.LastChar l.input).2).1 != EOF) = false := by
              simpa using hr
            have hr3 : (skipComment (skipSpace l.LastChar l.input).2).1 = EOF := by
              simpa using hr2
            simp only [hr2, Bool.false_eq_true, if_false]
            refine ⟨hr3, ?_⟩
            show (skipComment (skipSpace l.LastChar l.input).2).2.length ≤ l.input.length
            omega
        · have hc1 : ((skipSpace l.LastChar l.input).1 == 35) = false := by simpa using hc
          simp only [hc1, Bool.false_eq_true, if_false] at he ⊢
          by_cases hE : ((skipSpace l.LastChar l.input).1 == EOF) = true
          · simp only [hE, if_true]
            exact ⟨by simpa using hE, hskl⟩
          · have hE1 : ((skipSpace l.LastChar l.input).1 == EOF) = false := by simpa using hE
            simp only [hE1, Bool.false_eq_true, if_false] at he
            have : (skipSpace l.LastChar l.input).1 ≠ EOF := by simpa using hE1
            exact absurd he this

/-- When `lexer()` returns the end token, the buffered character is `EOF`
and no input has been put back. -/
theorem lexer_eof (l : LexState) (h : (lexer l).1 = tok_eof) :
    (lexer l).2.LastChar = EOF ∧ (lexer l).2.input.length ≤ l.input.length :=
  lexer_eof_aux (l.input.length + 1) l (Nat.lt_succ_self _) h

/-- With `EOF` buffered, `lexer()` returns the end token and changes nothing. -/
theorem lexer_EOF_buffered (l : LexState) (h : l.LastChar = EOF) : lexer l = (tok_eof, l) := by
  have hs : skipSpace l.LastChar l.input = (EOF, l.input) := by
    rw [h]; exact skipSpace_nonspace EOF l.input (by decide)
  rw [lexer_eq]
  simp only [hs]
  have h1 : isalpha EOF = false := by decide
  have h2 : (isdigit EOF || EOF == 46) = false := by decide
  have h3 : (EOF == 35) = false := by decide
  have h4 : (EOF == EOF) = true := by decide
  simp only [h1, h2, h3, h4, Bool.false_eq_true, if_false, if_true]
  cases l
  simp only at h
  rw [h]

/-- The end token is sticky: after it, `lexer()` returns it again and leaves
the state as it is. -/
theorem lexer_eof_sticky (l : LexState) (h : (lexer l).1 = tok_eof) :
    lexer (lexer l).2 = (tok_eof, (lexer l).2) :=
  lexer_EOF_buffered _ (lexer_eof l h).1

/-- No call of `lexer()` makes the pending characters more. -/
theorem lexer_pendingLen_le (l : LexState) : pendingLen (lexer l).2 ≤ pendingLen l := by
  by_cases h : (lexer l).1 = tok_eof
  · have := lexer_eof l h
    simp only [pendingLen, this.1, if_true]
    omega
  · exact Nat.le_of_lt (lexer_consumes l h)

theorem lexerCalls_at_EOF : ∀ (n : Nat) (l : LexState), l.LastChar = EOF →
    lexerCalls n l = List.replicate n tok_eof := by
  intro n
  induction n with
  | zero => intro l _; rfl
  | succ n ih =>
    intro l h
    rw [lexerCalls, lexer_EOF_buffered l h, List.replicate_succ]
    simp only []
    rw [ih l h]

/-- The tokens that successive calls return: tokens other than the end token,
no more than there are characters pending, and then the end token only. -/
theorem lexerCalls_shape : ∀ (n : Nat) (l : LexState),
    ∃ toks : List Int, toks.length ≤ pendingLen l ∧ toks.length ≤ n ∧
      (∀ t ∈ toks, t ≠ tok_eof) ∧
      lexerCalls n l = toks ++ List.replicate (n - toks.length) tok_eof := by
  intro n
  induction n with
  | zero => intro l; exact ⟨[], by simp, by simp, by simp, rfl⟩
  | succ n ih =>
    intro l
    by_cases h : (lexer l).1 = tok_eof
    · refine ⟨[], by simp, by simp, by simp, ?_⟩
      rw [lexerCalls, lexerCalls_at_EOF n _ (lexer_eof l h).1, h]
      simp [List.replicate_succ]
    · obtain ⟨toks, h1, h2, h3, h4⟩ := ih (lexer l).2
      have hlt := lexer_consumes l h
      refine ⟨(lexer l).1 :: toks, by simp only [List.length_cons]; omega,
        by simp only [List.length_cons]; omega, ?_, ?_⟩
      · intro t ht
        rcases List.mem_cons.mp ht with e | e
        · rw [e]; exact h
        · exact h3 t e
      · rw [lexerCalls, h4]
        simp

/-- C30. On every input, the first `n` calls of `lexer()`, for every `n`,
return tokens other than the end token, no more of them than the input has
characters, and from then on the end token only; so every call after as many
calls as the input has characters returns the end token. Whenever a call
returns the end token (also at the end of a comment that runs to
end-of-input), the next call returns it too, and leaves the state unchanged. -/
theorem lexer_end_is_sticky (inp : List Nat) (n : Nat) :
    (∃ toks : List Int, toks.length ≤ inp.length ∧ (∀ t ∈ toks, t ≠ tok_eof) ∧
      lexerCalls n (LexState.start inp) = toks ++ List.replicate (n - toks.length) tok_eof) ∧
    (∀ k, inp.length ≤ k → k < n → (lexerCalls n (LexState.start inp))[k]? = some tok_eof) ∧
    (∀ l : LexState, (lexer l).1 = tok_eof → lexer (lexer l).2 = (tok_eof, (lexer l).2)) ∧
    (∀ c : List Nat, (∀ x ∈ c, x ≠ 10 ∧ x ≠ 13) →
      lexerCalls n (LexState.start (35 :: c)) = List.replicate n tok_eof) := by
  have hshape : ∃ toks : List Int, toks.length ≤ inp.length ∧ (∀ t ∈ toks, t ≠ tok_eof) ∧
      lexerCalls n (LexState.start inp) =
        toks ++ List.replicate (n - toks.length) tok_eof := by
    have hskip : lexer (LexState.start inp) =
        lexer { LexState.start inp with LastChar := (getchar inp).1, input := (getchar inp).2 } :=
      lexer_skip_one_space (LexState.start inp) 32 inp (by decide)
    have hcalls : lexerCalls n (LexState.start inp) =
        lexerCalls n { LexState.start inp with
          LastChar := (getchar inp).1, input := (getchar inp).2 } := by
      cases n with
      | zero => rfl
      | succ n => rw [lexerCalls, lexerCalls, hskip]
    obtain ⟨toks, h1, _, h3, h4⟩ := lexerCalls_shape n
      { LexState.start inp with LastChar := (getchar inp).1, input := (getchar inp).2 }
    have hp := getchar_pendingLen inp
    refine ⟨toks, ?_, h3, by rw [hcalls]; exact h4⟩
    simp only [pendingLen] at h1
    omega
  refine ⟨hshape, ?_, lexer_eof_sticky, ?_⟩
  · obtain ⟨toks, h1, _, h3⟩ := hshape
    intro k hk hkn
    rw [h3, List.getElem?_append_right (by omega), List.getElem?_replicate]
    rw [if_pos (by omega)]
  · intro c hc
    cases n with
    | zero => rfl
    | succ n =>
      have hsk := skipSpace_pending (LexState.start (35 :: c)) [32] 35 c ⟨rfl, rfl⟩
        (by intro x hx; rw [List.mem_singleton] at hx; rw [hx]; decide) (by decide)
      have hlex : lexer (LexState.start (35 :: c)) =
          (tok_eof, { LexState.start (35 :: c) with LastChar := EOF, input := [] }) := by
        rw [lexer_eq]
        simp only [hsk]
        have hcm := skipComment_run_eof c hc
        simp only [hcm]
        rfl
      rw [lexerCalls, hlex, List.replicate_succ]
      simp only []
      rw [lexerCalls_at_EOF n _ rfl]

/-! ## The operators of parsed expressions -/

theorem operatorsOfArgs_append : ∀ (a b : List ExprAST),
    operatorsOfArgs (a ++ b) = operatorsOfArgs a ++ operatorsOfArgs b := by
  intro a
  induction a with
  | nil => intro b; rfl
  | cons x xs ih => intro b; simp [operatorsOfArgs, ih]

/-- Every parser function that returns an expression builds `BinaryOp` nodes
only for tokens that have a precedence in the installed table. -/
theorem parser_operators (f : Nat) :
    (∀ s e s1, Installed s → ParseParenExpr f s = some (some e, s1) →
      ∀ op ∈ e.operators, 0 ≤ tokPrec op) ∧
    (∀ s e s1, Installed s → ParseIdentifierExpr f s = some (some e, s1) →
      ∀ op ∈ e.operators, 0 ≤ tokPrec op) ∧
    (∀ Args s Args1 s1, Installed s → (∀ op ∈ operatorsOfArgs Args, 0 ≤ tokPrec op) →
      ParseArgsLoop f Args s = some (some Args1, s1) →
      ∀ op ∈ operatorsOfArgs Args1, 0 ≤ tokPrec op) ∧
    (∀ s e s1, Installed s → ParsePrimary f s = some (some e, s1) →
      ∀ op ∈ e.operators, 0 ≤ tokPrec op) ∧
    (∀ s e s1, Installed s → ParseExpression f s = some (some e, s1) →
      ∀ op ∈ e.operators, 0 ≤ tokPrec op) ∧
    (∀ p LHS s e s1, Installed s → 0 ≤ p → (∀ op ∈ LHS.operators, 0 ≤ tokPrec op) →
      ParseBinOpRHS f p LHS s = some (some e, s1) → ∀ op ∈ e.operators, 0 ≤ tokPrec op) := by
  induction f with
  | zero =>
    refine ⟨?_, ?_, ?_, ?_, ?_, ?_⟩
    · intro s e s1 _ h; simp [ParseParenExpr] at h
    · intro s e s1 _ h; simp [ParseIdentifierExpr] at h
    · intro Args s Args1 s1 _ _ h; simp [ParseArgsLoop] at h
    · intro s e s1 _ h; simp [ParsePrimary] at h
    · intro s e s1 _ h; simp [ParseExpression] at h
    · intro p LHS s e s1 _ _ _ h; simp [ParseBinOpRHS] at h
  | succ f ih =>
    obtain ⟨ihParen, ihId, ihArgs, ihPrim, ihExpr, ihRHS⟩ := ih
    obtain ⟨_, _, _, spPrim, spExpr, spRHS⟩ := parser_span f
    refine ⟨?_, ?_, ?_, ?_, ?_, ?_⟩
    · intro s e s1 hi h
      rw [ParseParenExpr] at h
      cases hE : ParseExpression f (getNextTok s) with
      | none => rw [hE] at h; simp at h
      | some x =>
        rw [hE] at h
        obtain ⟨o, s2⟩ := x
        cases o with
        | none => simp at h
        | some V =>
          simp only [] at h
          by_cases h41 : s2.CurTok = 41
          · rw [if_neg (not_not.mpr h41)] at h
            obtain ⟨rfl, rfl⟩ : V = e ∧ getNextTok s2 = s1 := by simpa using h
            exact ihExpr _ _ _ (Installed_getNextTok s hi) hE
          · rw [if_pos h41] at h; simp at h
    · intro s e s1 hi h
      rw [ParseIdentifierExpr] at h
      simp only [] at h
      by_cases h40 : (getNextTok s).CurTok = 40
      · rw [if_neg (not_not.mpr h40)] at h
        by_cases h41 : (getNextTok (getNextTok s)).CurTok = 41
        · rw [if_neg (not_not.mpr h41)] at h
          obtain ⟨rfl, rfl⟩ : ExprAST.CallExprAST s.lex.IdStr [] = e ∧
              getNextTok (getNextTok (getNextTok s)) = s1 := by simpa using h
          intro op hop
          simp [ExprAST.operators, operatorsOfArgs] at hop
        · rw [if_pos h41] at h
          cases hA : ParseArgsLoop f [] (getNextTok (getNextTok s)) with
          | none => rw [hA] at h; simp at h
          | some x =>
            rw [hA] at h
            obtain ⟨o, s3⟩ := x
            cases o with
            | none => simp at h
            | some Args =>
              simp only [] at h
              obtain ⟨rfl, rfl⟩ : ExprAST.CallExprAST s.lex.IdStr Args = e ∧
                  getNextTok s3 = s1 := by simpa using h
              have := ihArgs [] _ _ _ (Installed_getNextTok _ (Installed_getNextTok s hi))
                (by intro op hop; simp [operatorsOfArgs] at hop) hA
              intro op hop
              rw [ExprAST.operators] at hop
              exact this op hop
      · rw [if_pos h40] at h
        obtain ⟨rfl, rfl⟩ : ExprAST.VariableExprAST s.lex.IdStr = e ∧ getNextTok s = s1 := by
          simpa using h
        intro op hop
        simp [ExprAST.operators] at hop
    · intro Args s Args1 s1 hi hargs h
      rw [ParseArgsLoop] at h
      cases hE : ParseExpression f s with
      | none => rw [hE] at h; simp at h
      | some x =>
        rw [hE] at h
        obtain ⟨o, s2⟩ := x
        cases o with
        | none => simp at h
        | some Arg =>
          simp only [] at h
          have hArg := ihExpr _ _ _ hi hE
          have hi2 := (spExpr _ _ _ hi hE).1
          have hnew : ∀ op ∈ operatorsOfArgs (Args ++ [Arg]), 0 ≤ tokPrec op := by
            intro op hop
            rw [operatorsOfArgs_append] at hop
            rcases List.mem_append.mp hop with h1 | h1
            · exact hargs op h1
            · simp only [operatorsOfArgs, List.append_nil] at h1
              exact hArg op h1
          by_cases h41 : s2.CurTok = 41
          · rw [if_pos h41] at h
            obtain ⟨rfl, rfl⟩ : Args ++ [Arg] = Args1 ∧ s2 = s1 := by simpa using h
            exact hnew
          · rw [if_neg h41] at h
            by_cases h44 : s2.CurTok = 44
            · rw [if_neg (not_not.mpr h44)] at h
              exact ihArgs _ _ _ _ (Installed_getNextTok _ hi2) hnew h
            · rw [if_pos h44] at h; simp at h
    · intro s e s1 hi h
      rw [ParsePrimary] at h
      by_cases h1 : s.CurTok = tok_id
      · rw [if_pos h1] at h; exact ihId _ _ _ hi h
      · rw [if_neg h1] at h
        by_cases h2 : s.CurTok = tok_num
        · rw [if_pos h2] at h
          obtain ⟨rfl, rfl⟩ : ExprAST.NumberExprAST s.lex.NumVal = e ∧ getNextTok s = s1 := by
            simpa [ParseNumberExpr] using h
          intro op hop
          simp [ExprAST.operators] at hop
        · rw [if_neg h2] at h
          by_cases h3 : s.CurTok = 40
          · rw [if_pos h3] at h; exact ihParen _ _ _ hi h
          · rw [if_neg h3] at h; simp at h
    · intro s e s1 hi h
      rw [ParseExpression] at h
      cases hP : ParsePrimary f s with
      | none => rw [hP] at h; simp at h
      | some x =>
        rw [hP] at h
        obtain ⟨o, s2⟩ := x
        cases o with
        | none => simp at h
        | some LHS =>
          simp only [] at h
          exact ihRHS 0 LHS s2 e s1 (spPrim _ _ _ hi hP).1 (le_refl 0) (ihPrim _ _ _ hi hP) h
    · intro p LHS s e s1 hi hp hLHS h
      rw [ParseBinOpRHS] at h
      simp only [GetTokPrecedence_installed s hi] at h
      by_cases hlt : tokPrec s.CurTok < p
      · rw [if_pos hlt] at h
        obtain ⟨rfl, rfl⟩ : LHS = e ∧ (GetTokPrecedence s).2 = s1 := by simpa using h
        exact hLHS
      · rw [if_neg hlt] at h
        have hop : 0 ≤ tokPrec s.CurTok := by omega
        cases hP : ParsePrimary f (getNextTok (GetTokPrecedence s).2) with
        | none => rw [hP] at h; simp at h
        | some x =>
          rw [hP] at h
          obtain ⟨o, s2⟩ := x
          cases o with
          | none => simp at h
          | some RHS =>
            simp only [] at h
            have hip := Installed_getNextTok _ (Installed_GetTokPrecedence s hi)
            have hi2 := (spPrim _ _ _ hip hP).1
            have hRHS := ihPrim _ _ _ hip hP
            simp only [GetTokPrecedence_installed s2 hi2, GetTokPrecedence_CurTok] at h
            by_cases hnx : tokPrec s.CurTok < tokPrec s2.CurTok
            · rw [if_pos hnx] at h
              cases hR : ParseBinOpRHS f (tokPrec s.CurTok + 1) RHS (GetTokPrecedence s2).2 with
              | none => rw [hR] at h; simp at h
              | some y =>
                rw [hR] at h
                obtain ⟨o2, s3⟩ := y
                cases o2 with
                | none => simp at h
                | some RHS1 =>
                  simp only [] at h
                  have hi3 := (spRHS _ _ _ _ _ (Installed_GetTokPrecedence s2 hi2)
                    (by omega) hR).1
                  have hRHS1 := ihRHS _ _ _ _ _ (Installed_GetTokPrecedence s2 hi2)
                    (by omega) hRHS hR
                  refine ihRHS _ _ _ _ _ hi3 hp ?_ h
                  intro op hmem
                  rw [ExprAST.operators] at hmem
                  rcases List.mem_cons.mp hmem with e1 | e1
                  · rw [e1]; exact hop
                  · rcases List.mem_append.mp e1 with e2 | e2
                    · exact hLHS op e2
                    · exact hRHS1 op e2
            · rw [if_neg hnx] at h
              refine ihRHS _ _ _ _ _ (Installed_GetTokPrecedence s2 hi2) hp ?_ h
              intro op hmem
              rw [ExprAST.operators] at hmem
              rcases List.mem_cons.mp hmem with e1 | e1
              · rw [e1]; exact hop
              · rcases List.mem_append.mp e1 with e2 | e2
                · exact hLHS op e2
                · exact hRHS op e2

/-- The tokens with a precedence in the default table are the five installed
operator characters. -/
theorem tokPrec_nonneg (op : Int) (h : 0 ≤ tokPrec op) :
    op ∈ [60, 43, 45, 42, 47] ∧ tokPrec op ≠ -1 := by
  refine ⟨?_, by omega⟩
  unfold tokPrec at h
  by_cases h1 : op = 60
  · simp [h1]
  · by_cases h2 : op = 43 ∨ op = 45
    · rcases h2 with e | e <;> simp [e]
    · by_cases h3 : op = 42 ∨ op = 47
      · rcases h3 with e | e <;> simp [e]
      · rw [if_neg h1, if_neg h2, if_neg h3] at h
        omega

/-! ## What the prototype parser leaves unchanged -/

theorem ParsePrototypeArgs_table (f : Nat) :
    ∀ (acc : List (List Int)) (s : State) (names : List (List Int)) (s1 : State),
      ParsePrototypeArgs f acc s = some (names, s1) →
      s1.BinOpPrecedence = s.BinOpPrecedence := by
  induction f with
  | zero => intro acc s names s1 h; simp [ParsePrototypeArgs] at h
  | succ f ih =>
    intro acc s names s1 h
    rw [ParsePrototypeArgs] at h
    by_cases hid : (getNextTok s).CurTok = tok_id
    · rw [if_pos hid] at h
      rw [ih _ _ _ _ h]; rfl
    · rw [if_neg hid] at h
      obtain ⟨_, rfl⟩ : acc = names ∧ getNextTok s = s1 := by simpa using h
      rfl

/-- Whatever `ParsePrototype` returns, it has consumed some number of tokens
and left the precedence table as it was. -/
theorem ParsePrototype_frame (f : Nat) (s : State) (r : Option PrototypeAST × State)
    (h : ParsePrototype f s = some r) :
    (∃ n, r.2.view = advance n s.view) ∧ r.2.BinOpPrecedence = s.BinOpPrecedence := by
  unfold ParsePrototype at h
  by_cases hid : s.CurTok = tok_id
  · rw [if_neg (not_not.mpr hid)] at h
    simp only [] at h
    by_cases h40 : (getNextTok s).CurTok = 40
    · rw [if_neg (not_not.mpr h40)] at h
      cases hA : ParsePrototypeArgs f [] (getNextTok s) with
      | none => rw [hA] at h; simp at h
      | some x =>
        rw [hA] at h
        obtain ⟨names, s2⟩ := x
        simp only [] at h
        obtain ⟨params, _, _, hv, _⟩ := ParsePrototypeArgs_inv f _ _ _ _ hA
        have ht := ParsePrototypeArgs_table f _ _ _ _ hA
        have hv2 : s2.view = advance (1 + (params.length + 1)) s.view := by
          rw [advance_add, hv]; rfl
        by_cases h41 : s2.CurTok = 41
        · rw [if_neg (not_not.mpr h41)] at h
          rw [← Option.some.inj h]
          refine ⟨⟨1 + (params.length + 1) + 1, ?_⟩, ht⟩
          rw [advance_add, ← hv2]; rfl
        · rw [if_pos h41] at h
          rw [← Option.some.inj h]
          exact ⟨⟨_, hv2⟩, ht⟩
    · rw [if_pos h40] at h
      rw [← Option.some.inj h]
      exact ⟨⟨1, rfl⟩, rfl⟩
  · rw [if_pos hid] at h
    rw [← Option.some.inj h]
    exact ⟨⟨0, rfl⟩, rfl⟩

theorem Installed_of_table (s s1 : State) (h : s1.BinOpPrecedence = s.BinOpPrecedence)
    (hi : Installed s) : Installed s1 :=
  Installed_of_lookup s s1 (fun k => by rw [h]) hi

/-- C27. With the default precedence table installed, every `BinaryOp` node
of an expression returned by `ParseExpression`, and of the body of a function
returned by `ParseDefn` or by `ParseTopLevelExpr` (nodes inside call arguments
included), carries one of the five installed operator characters `<`, `+`,
`-`, `*`, `/`, and so none of precedence -1. -/
theorem BinaryOp_operator_installed (f : Nat) (s : State) (hi : Installed s) :
    (∀ e s1, ParseExpression f s = some (some e, s1) →
      ∀ op ∈ e.operators, op ∈ [60, 43, 45, 42, 47] ∧ tokPrec op ≠ -1) ∧
    (∀ Fn s1, ParseDefn f s = some (some Fn, s1) →
      ∀ op ∈ Fn.Body.operators, op ∈ [60, 43, 45, 42, 47] ∧ tokPrec op ≠ -1) ∧
    (∀ Fn s1, ParseTopLevelExpr f s = some (some Fn, s1) →
      ∀ op ∈ Fn.Body.operators, op ∈ [60, 43, 45, 42, 47] ∧ tokPrec op ≠ -1) := by
  refine ⟨?_, ?_, ?_⟩
  · intro e s1 h op hop
    exact tokPrec_nonneg op ((parser_operators f).2.2.2.2.1 s e s1 hi h op hop)
  · intro Fn s1 h op hop
    unfold ParseDefn at h
    cases hP : ParsePrototype f (getNextTok s) with
    | none => rw [hP] at h; simp at h
    | some x =>
      rw [hP] at h
      obtain ⟨o, s2⟩ := x
      cases o with
      | none => simp at h
      | some Proto =>
        simp only [] at h
        have hi2 : Installed s2 :=
          Installed_of_table _ _ (ParsePrototype_frame f _ _ hP).2 (Installed_getNextTok s hi)
        cases hE : ParseExpression f s2 with
        | none => rw [hE] at h; simp at h
        | some y =>
          rw [hE] at h
          obtain ⟨o2, s3⟩ := y
          cases o2 with
          | none => simp at h
          | some E =>
            simp only [Option.some.injEq, Prod.mk.injEq] at h
            rw [← h.1] at hop
            exact tokPrec_nonneg op ((parser_operators f).2.2.2.2.1 s2 E s3 hi2 hE op hop)
  · intro Fn s1 h op hop
    unfold ParseTopLevelExpr at h
    cases hE : ParseExpression f s with
    | none => rw [hE] at h; simp at h
    | some y =>
      rw [hE] at h
      obtain ⟨o2, s3⟩ := y
      cases o2 with
      | none => simp at h
      | some E =>
        simp only [Option.some.injEq, Prod.mk.injEq] at h
        rw [← h.1] at hop
        exact tokPrec_nonneg op ((parser_operators f).2.2.2.2.1 s E s3 hi hE op hop)

/-- The input `1 - f(2 / x) < 3;` parses to an expression whose operators are
`<`, `-` and `/`. -/
theorem BinaryOp_operator_installed_witness :
    Installed (State.start [49, 45, 102, 40, 50, 47, 120, 41, 60, 51, 59]) ∧
    (∃ e s1, ParseExpression 9 (State.start [49, 45, 102, 40, 50, 47, 120, 41, 60, 51, 59]) =
        some (some e, s1) ∧ e.operators = [60, 45, 47] ∧
      ∀ op ∈ e.operators, op ∈ [60, 43, 45, 42, 47] ∧ tokPrec op ≠ -1) :=
  ⟨Installed_start _,
    ExprAST.BinaryExprAST 60
      (ExprAST.BinaryExprAST 45 (ExprAST.NumberExprAST [49])
        (ExprAST.CallExprAST [102]
          [ExprAST.BinaryExprAST 47 (ExprAST.NumberExprAST [50]) (ExprAST.VariableExprAST [120])]))
      (ExprAST.NumberExprAST [51]),
    ((ParseExpression 9 (State.start
      [49, 45, 102, 40, 50, 47, 120, 41, 60, 51, 59])).getD (none, State.init [])).2,
    rfl, rfl,
    (BinaryOp_operator_installed 9 (State.start [49, 45, 102, 40, 50, 47, 120, 41, 60, 51, 59])
      (Installed_start _)).1 _ _ rfl⟩

/-! ## Proper nesting -/

theorem chainToks_append (a b : List (Int × List Int)) :
    chainToks (a ++ b) = chainToks a ++ chainToks b := by
  induction a with
  | nil => rfl
  | cons q r ih => simp [chainToks, ih]

theorem chain_content (q : Int × List Int) (used : List (Int × List Int))
    (h : 0 < tokPrec q.1) :
    (chainToks (q :: used)).filterMap Token.content =
      Out.chr q.1 :: Out.num q.2 :: (chainToks used).filterMap Token.content := by
  have hc := content_operator q.1 (LexState.start []) (le_of_lt h)
  have hne : tokenOf q.1 (LexState.start []) = Token.chr q.1 := by
    unfold tokPrec at h
    unfold tokenOf
    have h1 : q.1 ≠ tok_eof := by intro e; rw [e] at h; simp [tok_eof] at h
    have h2 : q.1 ≠ tok_gate := by intro e; rw [e] at h; simp [tok_gate] at h
    have h3 : q.1 ≠ tok_extern := by intro e; rw [e] at h; simp [ tok_extern] at h
    have h4 : q.1 ≠ tok_id := by intro e; rw [e] at h; simp [tok_id] at h
    have h5 : q.1 ≠ tok_num := by intro e; rw [e] at h; simp [tok_num] at h
    rw [if_neg h1, if_neg h2, if_neg h3, if_neg h4, if_neg h5]
  rw [hne] at hc
  simp only [chainToks, List.filterMap_cons]
  cases hcc : Token.content (Token.chr q.1) with
  | none => rw [hcc] at hc; simp at hc
  | some o =>
    rw [hcc] at hc
    simp only [Option.toList_some, List.cons.injEq, and_true] at hc
    simp only [Token.content, hc]

theorem properlyNested_binary (op : Int) (l r : ExprAST) :
    (ExprAST.BinaryExprAST op l r).properlyNested = true ↔
      l.properlyNested = true ∧ r.properlyNested = true ∧
        (∀ p, l.rootPrec = some p → tokPrec op ≤ p) ∧
        (∀ p, r.rootPrec = some p → tokPrec op < p) := by
  simp only [ExprAST.properlyNested, Bool.and_eq_true]
  cases hl : l.rootPrec <;> cases hr : r.rootPrec <;> simp [and_assoc]

/-- The loop of `ParseBinOpRHS` at a token of precedence below `p`: nothing
is consumed and `LHS` is returned. -/
theorem climb_stop (t : Token) (s : State) (p : Int) (LHS : ExprAST)
    (rest : List (Int × List Int)) (hi : Installed s)
    (htok : tokens (2 * rest.length + 1) s.view = chainToks rest ++ [t])
    (hPN : LHS.properlyNested = true) (hlt : tokPrec s.CurTok < p) :
    ∃ f e s1 used remaining, rest = used ++ remaining ∧
      ParseBinOpRHS f p LHS s = some (some e, s1) ∧ Installed s1 ∧
      tokens (2 * remaining.length + 1) s1.view = chainToks remaining ++ [t] ∧
      s1.view = advance (2 * used.length) s.view ∧ tokPrec s1.CurTok < p ∧
      e.properlyNested = true ∧ (e = LHS ∨ ∃ r, e.rootPrec = some r ∧ p ≤ r) ∧
      printed e = printed LHS ++ (chainToks used).filterMap Token.content := by
  obtain ⟨s2, hres, hv, hi2, _⟩ := loop_stop s p hi hlt
  refine ⟨1, LHS, s2, [], rest, rfl, hres LHS 0, hi2, by rw [hv]; exact htok, by rw [hv]; rfl,
    ?_, hPN, Or.inl rfl, by simp [chainToks]⟩
  have : s2.CurTok = s.CurTok := congrArg Prod.fst hv
  rw [this]; exact hlt

/-- Precedence climbing on a chain of installed operators and number
literals followed by a token `t` that is no operator: the loop of
`ParseBinOpRHS` consumes a part `used` of the chain, stops at a token of
precedence below `p`, and returns a properly nested expression that is `LHS`
or has an operator of precedence `p` or more at its root. -/
theorem ParseBinOpRHS_climb (t : Token) (ht : tokPrec t.code = -1) :
    ∀ (m : Nat) (rest : List (Int × List Int)), rest.length ≤ m →
    ∀ (s : State) (p : Int) (LHS : ExprAST), Installed s → 0 ≤ p →
      tokens (2 * rest.length + 1) s.view = chainToks rest ++ [t] →
      (∀ q ∈ rest, 0 < tokPrec q.1) →
      LHS.properlyNested = true → (∀ r, LHS.rootPrec = some r → tokPrec s.CurTok ≤ r) →
      ∃ f e s1 used remaining, rest = used ++ remaining ∧
        ParseBinOpRHS f p LHS s = some (some e, s1) ∧ Installed s1 ∧
        tokens (2 * remaining.length + 1) s1.view = chainToks remaining ++ [t] ∧
        s1.view = advance (2 * used.length) s.view ∧ tokPrec s1.CurTok < p ∧
        e.properlyNested = true ∧ (e = LHS ∨ ∃ r, e.rootPrec = some r ∧ p ≤ r) ∧
        printed e = printed LHS ++ (chainToks used).filterMap Token.content := by
  intro m
  induction m with
  | zero =>
    intro rest hlen s p LHS hi hp htok hops hPN hinv
    have hnil : rest = [] := List.length_eq_zero.mp (Nat.le_zero.mp hlen)
    subst hnil
    have hcur : tokenOf s.CurTok s.lex = t := by
      simpa [tokens, chainToks, State.view] using htok
    have hc : s.CurTok = t.code := by rw [← hcur, tokenOf_code]
    exact climb_stop t s p LHS [] hi htok hPN (by rw [hc, ht]; omega)
  | succ m ih =>
    intro rest hlen s p LHS hi hp htok hops hPN hinv
    by_cases hlt : tokPrec s.CurTok < p
    · exact climb_stop t s p LHS rest hi htok hPN hlt
    · cases rest with
      | nil =>
        exfalso
        have hcur : tokenOf s.CurTok s.lex = t := by
          simpa [tokens, chainToks, State.view] using htok
        have hc : s.CurTok = t.code := by rw [← hcur, tokenOf_code]
        rw [hc, ht] at hlt
        omega
      | cons q rest1 =>
        have hlen1 : rest1.length ≤ m := by simp only [List.length_cons] at hlen; omega
        have hlenq : 2 * (q :: rest1).length + 1 = (2 * rest1.length + 1) + 1 + 1 := by
          simp only [List.length_cons]; omega
        have htok0 := htok
        rw [hlenq, tokens_succ, tokens_succ] at htok
        simp only [chainToks, List.cons_append, List.cons.injEq] at htok
        obtain ⟨hq1, hq2, hrest⟩ := htok
        have hcur : s.CurTok = q.1 := tokenOf_chr _ _ _ hq1
        have hq : 0 < tokPrec q.1 := hops q (List.mem_cons_self _ _)
        have hops1 : ∀ q2 ∈ rest1, 0 < tokPrec q2.1 :=
          fun q2 h2 => hops q2 (List.mem_cons_of_mem _ h2)
        have hple : p ≤ tokPrec s.CurTok := not_lt.mp hlt
        have hb : tokenOf (advance 1 s.view).1 (advance 1 s.view).2 = Token.num q.2 := hq2
        have hrest2 : tokens (2 * rest1.length + 1) (advance 2 s.view) =
            chainToks rest1 ++ [t] := hrest
        by_cases hnx : tokPrec s.CurTok < tokPrec (advance 2 s.view).1
        · -- the next operator binds tighter: descend
          obtain ⟨s2, hstep, hv2, hi2, _⟩ := loop_descend s p q.2 hi hple hb hnx
          obtain ⟨f1, e1, s3, used1, rem1, hsplit1, hres1, hi3, htok3, hv3, hlt3, hPN1, hroot1,
              hpr1⟩ :=
            ih rest1 hlen1 s2 (tokPrec s.CurTok + 1) (ExprAST.NumberExprAST q.2) hi2 (by omega)
              (by rw [hv2]; exact hrest2) hops1 rfl (by intro r hr; simp [ExprAST.rootPrec] at hr)
          have hlenr : rem1.length ≤ m := by
            have := congrArg List.length hsplit1
            simp only [List.length_append] at this
            omega
          have hopsr : ∀ q2 ∈ rem1, 0 < tokPrec q2.1 := by
            intro q2 h2
            exact hops1 q2 (by rw [hsplit1]; exact List.mem_append_right _ h2)
          have hPN2 : (ExprAST.BinaryExprAST s.CurTok LHS e1).properlyNested = true := by
            rw [properlyNested_binary]
            refine ⟨hPN, hPN1, hinv, ?_⟩
            intro r hr
            rcases hroot1 with h | ⟨r1, h1, h2⟩
            · rw [h] at hr; simp [ExprAST.rootPrec] at hr
            · rw [hr] at h1
              have : r = r1 := Option.some.inj h1
              omega
          obtain ⟨f2, e, s1, used2, rem2, hsplit2, hres2, hi4, htok4, hv4, hlt4, hPN3, hroot2,
              hpr2⟩ :=
            ih rem1 hlenr s3 p (ExprAST.BinaryExprAST s.CurTok LHS e1) hi3 hp htok3 hopsr hPN2
              (by
                intro r hr
                simp only [ExprAST.rootPrec, Option.some.injEq] at hr
                omega)
          refine ⟨max f1 f2 + 2, e, s1, q :: (used1 ++ used2), rem2, ?_, ?_, hi4, htok4, ?_, hlt4,
            hPN3, ?_, ?_⟩
          · rw [hsplit1, hsplit2]; simp
          · rw [hstep LHS (max f1 f2),
              ParseBinOpRHS_mono f1 (max f1 f2 + 1) _ _ _ _ hres1 (by omega)]
            exact ParseBinOpRHS_mono f2 (max f1 f2 + 1) _ _ _ _ hres2 (by omega)
          · rw [hv4, hv3, hv2, ← advance_add, ← advance_add]
            congr 1
            simp only [List.length_cons, List.length_append]
            omega
          · right
            rcases hroot2 with h | ⟨r, h1, h2⟩
            · exact ⟨tokPrec s.CurTok, by rw [h]; rfl, hple⟩
            · exact ⟨r, h1, h2⟩
          · rw [hpr2, printed_binary, hpr1, printed_number, chain_content q _ hq, chainToks_append,
              List.filterMap_append, hcur]
            simp
        · -- merge and go on
          obtain ⟨s2, hstep, hv2, hi2, _⟩ := loop_merge s p q.2 hi hple hb hnx
          have hPN2 : (ExprAST.BinaryExprAST s.CurTok LHS
              (ExprAST.NumberExprAST q.2)).properlyNested = true := by
            rw [properlyNested_binary]
            refine ⟨hPN, rfl, hinv, ?_⟩
            intro r hr
            simp [ExprAST.rootPrec] at hr
          have hcur2 : s2.CurTok = (advance 2 s.view).1 := congrArg Prod.fst hv2
          obtain ⟨f2, e, s1, used2, rem2, hsplit2, hres2, hi4, htok4, hv4, hlt4, hPN3, hroot2,
              hpr2⟩ :=
            ih rest1 hlen1 s2 p (ExprAST.BinaryExprAST s.CurTok LHS (ExprAST.NumberExprAST q.2))
              hi2 hp (by rw [hv2]; exact hrest2) hops1 hPN2
              (by
                intro r hr
                simp only [ExprAST.rootPrec, Option.some.injEq] at hr
                rw [hcur2]
                omega)
          refine ⟨f2 + 2, e, s1, q :: used2, rem2, ?_, ?_, hi4, htok4, ?_, hlt4, hPN3, ?_, ?_⟩
          · rw [hsplit2]; simp
          · rw [hstep LHS f2]
            exact ParseBinOpRHS_mono f2 (f2 + 1) _ _ _ _ hres2 (by omega)
          · rw [hv4, hv2, ← advance_add]
            congr 1
            simp only [List.length_cons]
            omega
          · right
            rcases hroot2 with h | ⟨r, h1, h2⟩
            · exact ⟨tokPrec s.CurTok, by rw [h]; rfl, hple⟩
            · exact ⟨r, h1, h2⟩
          · rw [hpr2, printed_binary, printed_number, chain_content q _ hq, hcur]
            simp

/-- C28. On a parenthesis-free expression `a0 o1 a1 ... on an` of number
literals and installed operators, followed by a token that is no operator,
`ParseExpression` succeeds (given enough fuel, and whatever the fuel, it
returns no other expression), consumes just the expression, and returns a
tree that is properly nested: at every `BinaryOp` node, a right child that is
a `BinaryOp` has an operator of strictly higher precedence than the node, and
a left child that is a `BinaryOp` one of precedence greater than or equal to
it. The tree has the operands and operators of the input, in their order. -/
theorem ParseExpression_properly_nested (s : State) (a0 : List Int)
    (rest : List (Int × List Int)) (t : Token) (hi : Installed s)
    (hops : ∀ q ∈ rest, 0 < tokPrec q.1) (ht : tokPrec t.code = -1)
    (htok : tokens (2 * rest.length + 2) s.view = Token.num a0 :: chainToks rest ++ [t]) :
    ∃ f e s1, ParseExpression f s = some (some e, s1) ∧
      (∀ f2 r, ParseExpression f2 s = some r → r = (some e, s1)) ∧
      e.properlyNested = true ∧
      printed e = Out.num a0 :: (chainToks rest).filterMap Token.content ∧
      s1.view = advance (2 * rest.length + 1) s.view ∧ tokenOf s1.CurTok s1.lex = t := by
  rw [show 2 * rest.length + 2 = (2 * rest.length + 1) + 1 by omega, tokens_succ] at htok
  simp only [List.cons_append, List.cons.injEq] at htok
  obtain ⟨h1, hrest⟩ := htok
  have hnum := tokenOf_num _ _ _ h1
  have hnum1 : s.CurTok = tok_num := hnum.1
  have hnum2 : s.lex.NumVal = a0 := hnum.2
  obtain ⟨f, e, s1, used, remaining, hsplit, hres, _, htok1, hv, hlt, hPN, _, hpr⟩ :=
    ParseBinOpRHS_climb t ht rest.length rest (le_refl _) (getNextTok s) 0
      (ExprAST.NumberExprAST a0) (Installed_getNextTok s hi) (le_refl 0)
      (by rw [getNextTok_view]; exact hrest) hops rfl
      (by intro r hr; simp [ExprAST.rootPrec] at hr)
  have hrem : remaining = [] := by
    cases remaining with
    | nil => rfl
    | cons q rem2 =>
      exfalso
      rw [show 2 * (q :: rem2).length + 1 = (2 * rem2.length + 1 + 1) + 1 by
        simp only [List.length_cons]; omega, tokens_succ] at htok1
      simp only [chainToks, List.cons_append, List.cons.injEq] at htok1
      have hc : s1.CurTok = q.1 := tokenOf_chr _ _ _ htok1.1
      have := hops q (by rw [hsplit]; exact List.mem_append_right _ (List.mem_cons_self _ _))
      rw [hc] at hlt
      omega
  subst hrem
  rw [List.append_nil] at hsplit
  subst hsplit
  have hmain : ParseExpression (f + 2) s = some (some e, s1) := by
    rw [ParseExpression, ParsePrimary_num _ s hnum1]
    simp only [hnum2]
    exact ParseBinOpRHS_mono f (f + 1) _ _ _ _ hres (by omega)
  refine ⟨f + 2, e, s1, hmain, ?_, hPN, ?_, ?_, ?_⟩
  · intro f2 r hr
    have a := ParseExpression_mono _ (max (f + 2) f2) _ _ hmain (by omega)
    have b := ParseExpression_mono _ (max (f + 2) f2) _ _ hr (by omega)
    rw [a] at b
    exact (Option.some.inj b).symm
  · rw [hpr, printed_number]; rfl
  · rw [hv, getNextTok_view]
    rw [show 2 * rest.length + 1 = (2 * rest.length) + 1 by omega, advance_succ]
    rfl
  · have hcur : tokenOf s1.CurTok s1.lex = t := by
      simpa [tokens, chainToks, State.view] using htok1
    exact hcur

/-- The input `1 + 2 * 3 - 4;` parses as `(1 + (2 * 3)) - 4`, which is
properly nested. -/
theorem ParseExpression_properly_nested_witness :
    (Installed (State.start [49, 43, 50, 42, 51, 45, 52, 59]) ∧
      (∀ q ∈ ([(43, [50]), (42, [51]), (45, [52])] : List (Int × List Int)), 0 < tokPrec q.1) ∧
      tokPrec (Token.chr 59).code = -1 ∧
      tokens (2 * ([(43, [50]), (42, [51]), (45, [52])] : List (Int × List Int)).length + 2)
          (State.start [49, 43, 50, 42, 51, 45, 52, 59]).view =
        Token.num [49] :: chainToks [(43, [50]), (42, [51]), (45, [52])] ++ [Token.chr 59]) ∧
    (∃ f e s1, ParseExpression f (State.start [49, 43, 50, 42, 51, 45, 52, 59]) =
        some (some e, s1) ∧
      (∀ f2 r, ParseExpression f2 (State.start [49, 43, 50, 42, 51, 45, 52, 59]) = some r →
        r = (some e, s1)) ∧
      e.properlyNested = true ∧
      printed e = Out.num [49] ::
        (chainToks [(43, [50]), (42, [51]), (45, [52])]).filterMap Token.content ∧
      s1.view = advance
          (2 * ([(43, [50]), (42, [51]), (45, [52])] : List (Int × List Int)).length + 1)
          (State.start [49, 43, 50, 42, 51, 45, 52, 59]).view ∧
      tokenOf s1.CurTok s1.lex = Token.chr 59) ∧
    (ParseExpression 6 (State.start [49, 43, 50, 42, 51, 45, 52, 59])).map (fun r => r.1) =
      some (some (ExprAST.BinaryExprAST 45
        (ExprAST.BinaryExprAST 43 (ExprAST.NumberExprAST [49])
          (ExprAST.BinaryExprAST 42 (ExprAST.NumberExprAST [50]) (ExprAST.NumberExprAST [51])))
        (ExprAST.NumberExprAST [52]))) :=
  ⟨⟨Installed_start _, by decide, by decide, by decide⟩,
    ParseExpression_properly_nested (State.start [49, 43, 50, 42, 51, 45, 52, 59]) [49]
      [(43, [50]), (42, [51]), (45, [52])] (Token.chr 59) (Installed_start _) (by decide)
      (by decide) (by decide),
    rfl⟩

/-! ## Every token consumed uses up input -/

theorem tokensLeft_lexer (l : LexState) : tokensLeft (lexer l) ≤ pendingLen l := by
  unfold tokensLeft
  by_cases h : (lexer l).1 = tok_eof
  · rw [if_pos h]
    have := lexer_pendingLen_le l
    omega
  · rw [if_neg h]
    have := lexer_consumes l h
    omega

theorem tokensLeft_advance : ∀ (n : Nat) (v : Int × LexState),
    tokensLeft (advance n v) ≤ tokensLeft v ∧ (0 < n → tokensLeft (advance n v) ≤ pendingLen v.2) := by
  intro n
  induction n with
  | zero => intro v; exact ⟨le_refl _, fun h => absurd h (by omega)⟩
  | succ n ih =>
    intro v
    rw [advance_succ]
    have h1 := (ih (lexer v.2)).1
    have h2 := tokensLeft_lexer v.2
    have h3 : pendingLen v.2 ≤ tokensLeft v := by unfold tokensLeft; omega
    exact ⟨by omega, fun _ => by omega⟩

/-- Consuming a token that is not the end token, and any number of tokens
after it, makes the bound smaller. -/
theorem tokensLeft_lt (n : Nat) (v : Int × LexState) (hn : 0 < n) (hv : v.1 ≠ tok_eof) :
    tokensLeft (advance n v) < tokensLeft v := by
  have h1 := (tokensLeft_advance n v).2 hn
  have h2 : tokensLeft v = pendingLen v.2 + 1 := by unfold tokensLeft; rw [if_neg hv]
  omega

theorem advance_getNextTok (s s1 : State) (n : Nat) (h : s1.view = advance n s.view) :
    (getNextTok s1).view = advance (n + 1) s.view := by
  rw [advance_add, ← h]; rfl

/-- Whatever a parser function returns, an expression or `nullptr`, it has
consumed some number of tokens; `ParsePrimary` and `ParseExpression` return an
expression only at a lookahead that is not the end token, and then have
consumed one token or more. -/
theorem parser_advance (f : Nat) :
    (∀ s r, ParseParenExpr f s = some r → ∃ n, 0 < n ∧ r.2.view = advance n s.view) ∧
    (∀ s r, ParseIdentifierExpr f s = some r → ∃ n, 0 < n ∧ r.2.view = advance n s.view) ∧
    (∀ Args s r, ParseArgsLoop f Args s = some r → ∃ n, r.2.view = advance n s.view) ∧
    (∀ s r, ParsePrimary f s = some r → ∃ n, r.2.view = advance n s.view ∧
      (r.1.isSome = true → 0 < n ∧ s.CurTok ≠ tok_eof)) ∧
    (∀ s r, ParseExpression f s = some r → ∃ n, r.2.view = advance n s.view ∧
      (r.1.isSome = true → 0 < n ∧ s.CurTok ≠ tok_eof)) ∧
    (∀ p LHS s r, ParseBinOpRHS f p LHS s = some r → ∃ n, r.2.view = advance n s.view) := by
  induction f with
  | zero =>
    refine ⟨?_, ?_, ?_, ?_, ?_, ?_⟩
    · intro s r h; simp [ParseParenExpr] at h
    · intro s r h; simp [ParseIdentifierExpr] at h
    · intro Args s r h; simp [ParseArgsLoop] at h
    · intro s r h; simp [ParsePrimary] at h
    · intro s r h; simp [ParseExpression] at h
    · intro p LHS s r h; simp [ParseBinOpRHS] at h
  | succ f ih =>
    obtain ⟨ihParen, ihId, ihArgs, ihPrim, ihExpr, ihRHS⟩ := ih
    refine ⟨?_, ?_, ?_, ?_, ?_, ?_⟩
    · intro s r h
      rw [ParseParenExpr] at h
      cases hE : ParseExpression f (getNextTok s) with
      | none => rw [hE] at h; simp at h
      | some x =>
        rw [hE] at h
        obtain ⟨n, hn, _⟩ := ihExpr _ _ hE
        obtain ⟨o, s2⟩ := x
        have hn2 : s2.view = advance (1 + n) s.view := by rw [advance_add]; exact hn
        cases o with
        | none =>
          rw [← Option.some.inj h]
          exact ⟨1 + n, by omega, hn2⟩
        | some V =>
          simp only [] at h
          by_cases h41 : s2.CurTok = 41
          · rw [if_neg (not_not.mpr h41)] at h
            rw [← Option.some.inj h]
            exact ⟨1 + n + 1, by omega, advance_getNextTok s s2 _ hn2⟩
          · rw [if_pos h41] at h
            rw [← Option.some.inj h]
            exact ⟨1 + n, by omega, hn2⟩
    · intro s r h
      rw [ParseIdentifierExpr] at h
      simp only [] at h
      by_cases h40 : (getNextTok s).CurTok = 40
      · rw [if_neg (not_not.mpr h40)] at h
        by_cases h41 : (getNextTok (getNextTok s)).CurTok = 41
        · rw [if_neg (not_not.mpr h41)] at h
          rw [← Option.some.inj h]
          exact ⟨3, by omega, rfl⟩
        · rw [if_pos h41] at h
          cases hA : ParseArgsLoop f [] (getNextTok (getNextTok s)) with
          | none => rw [hA] at h; simp at h
          | some x =>
            rw [hA] at h
            obtain ⟨n, hn⟩ := ihArgs _ _ _ hA
            obtain ⟨o, s3⟩ := x
            have hn3 : s3.view = advance (2 + n) s.view := by rw [advance_add]; exact hn
            cases o with
            | none =>
              rw [← Option.some.inj h]
              exact ⟨2 + n, by omega, hn3⟩
            | some Args =>
              rw [← Option.some.inj h]
              exact ⟨2 + n + 1, by omega, advance_getNextTok s s3 _ hn3⟩
      · rw [if_pos h40] at h
        rw [← Option.some.inj h]
        exact ⟨1, by omega, rfl⟩
    · intro Args s r h
      rw [ParseArgsLoop] at h
      cases hE : ParseExpression f s with
      | none => rw [hE] at h; simp at h
      | some x =>
        rw [hE] at h
        obtain ⟨n, hn, _⟩ := ihExpr _ _ hE
        obtain ⟨o, s2⟩ := x
        cases o with
        | none =>
          rw [← Option.some.inj h]
          exact ⟨n, hn⟩
        | some Arg =>
          simp only [] at h
          by_cases h41 : s2.CurTok = 41
          · rw [if_pos h41] at h
            rw [← Option.some.inj h]
            exact ⟨n, hn⟩
          · rw [if_neg h41] at h
            by_cases h44 : s2.CurTok = 44
            · rw [if_neg (not_not.mpr h44)] at h
              obtain ⟨m, hm⟩ := ihArgs _ _ _ h
              refine ⟨n + 1 + m, ?_⟩
              rw [hm, advance_add (n + 1) m, ← advance_getNextTok s s2 n hn]
            · rw [if_pos h44] at h
              rw [← Option.some.inj h]
              exact ⟨n, hn⟩
    · intro s r h
      rw [ParsePrimary] at h
      by_cases h1 : s.CurTok = tok_id
      · rw [if_pos h1] at h
        obtain ⟨n, hn, hv⟩ := ihId _ _ h
        exact ⟨n, hv, fun _ => ⟨hn, by rw [h1]; decide⟩⟩
      · rw [if_neg h1] at h
        by_cases h2 : s.CurTok = tok_num
        · rw [if_pos h2] at h
          rw [← Option.some.inj h]
          exact ⟨1, rfl, fun _ => ⟨by omega, by rw [h2]; decide⟩⟩
        · rw [if_neg h2] at h
          by_cases h3 : s.CurTok = 40
          · rw [if_pos h3] at h
            obtain ⟨n, hn, hv⟩ := ihParen _ _ h
            exact ⟨n, hv, fun _ => ⟨hn, by rw [h3]; decide⟩⟩
          · rw [if_neg h3] at h
            rw [← Option.some.inj h]
            exact ⟨0, rfl, fun hs => by simp at hs⟩
    · intro s r h
      rw [ParseExpression] at h
      cases hP : ParsePrimary f s with
      | none => rw [hP] at h; simp at h
      | some x =>
        rw [hP] at h
        obtain ⟨n, hn, hpos⟩ := ihPrim _ _ hP
        obtain ⟨o, s2⟩ := x
        cases o with
        | none =>
          rw [← Option.some.inj h]
          exact ⟨n, hn, fun hs => by simp at hs⟩
        | some LHS =>
          simp only [] at h
          obtain ⟨m, hm⟩ := ihRHS _ _ _ _ h
          have hp := hpos rfl
          refine ⟨n + m, ?_, fun _ => ⟨by omega, hp.2⟩⟩
          rw [hm, advance_add]
          exact congrArg _ hn
    · intro p LHS s r h
      rw [ParseBinOpRHS] at h
      simp only [] at h
      by_cases hlt : (GetTokPrecedence s).1 < p
      · rw [if_pos hlt] at h
        rw [← Option.some.inj h]
        exact ⟨0, GetTokPrecedence_view s⟩
      · rw [if_neg hlt] at h
        have hv0 : (getNextTok (GetTokPrecedence s).2).view = advance 1 s.view := by
          rw [getNextTok_view, GetTokPrecedence_lex]; rfl
        cases hP : ParsePrimary f (getNextTok (GetTokPrecedence s).2) with
        | none => rw [hP] at h; simp at h
        | some x =>
          rw [hP] at h
          obtain ⟨n, hn, _⟩ := ihPrim _ _ hP
          obtain ⟨o, s2⟩ := x
          have hn2 : s2.view = advance (1 + n) s.view := by
            rw [advance_add, ← hv0]; exact hn
          cases o with
          | none =>
            rw [← Option.some.inj h]
            exact ⟨1 + n, hn2⟩
          | some RHS =>
            simp only [] at h
            by_cases hnx : (GetTokPrecedence s).1 < (GetTokPrecedence s2).1
            · rw [if_pos hnx] at h
              cases hR : ParseBinOpRHS f ((GetTokPrecedence s).1 + 1) RHS
                  (GetTokPrecedence s2).2 with
              | none => rw [hR] at h; simp at h
              | some y =>
                rw [hR] at h
                obtain ⟨m, hm⟩ := ihRHS _ _ _ _ hR
                rw [GetTokPrecedence_view] at hm
                obtain ⟨o2, s3⟩ := y
                have hn3 : s3.view = advance (1 + n + m) s.view := by
                  rw [advance_add, ← hn2]; exact hm
                cases o2 with
                | none =>
                  rw [← Option.some.inj h]
                  exact ⟨1 + n + m, hn3⟩
                | some RHS1 =>
                  simp only [] at h
                  obtain ⟨k, hk⟩ := ihRHS _ _ _ _ h
                  refine ⟨1 + n + m + k, ?_⟩
                  rw [hk, advance_add (1 + n + m) k]
                  exact congrArg _ hn3
            · rw [if_neg hnx] at h
              obtain ⟨k, hk⟩ := ihRHS _ _ _ _ h
              rw [GetTokPrecedence_view] at hk
              refine ⟨1 + n + k, ?_⟩
              rw [hk, advance_add (1 + n) k]
              exact congrArg _ hn2

/-! ## More fuel gives the same result -/

theorem ParsePrototypeArgs_step (f : Nat) :
    ∀ (acc : List (List Int)) (s : State) (r : List (List Int) × State),
      ParsePrototypeArgs f acc s = some r → ParsePrototypeArgs (f + 1) acc s = some r := by
  induction f with
  | zero => intro acc s r h; simp [ParsePrototypeArgs] at h
  | succ f ih =>
    intro acc s r h
    rw [ParsePrototypeArgs] at h ⊢
    by_cases hid : (getNextTok s).CurTok = tok_id
    · rw [if_pos hid] at h ⊢; exact ih _ _ _ h
    · rw [if_neg hid] at h ⊢; exact h

theorem ParsePrototypeArgs_mono (f g : Nat) (acc : List (List Int)) (s : State)
    (r : List (List Int) × State) (h : ParsePrototypeArgs f acc s = some r) (hfg : f ≤ g) :
    ParsePrototypeArgs g acc s = some r := by
  induction hfg with
  | refl => exact h
  | step _ ih => exact ParsePrototypeArgs_step _ _ _ _ ih

theorem ParsePrototype_mono (f g : Nat) (s : State) (r : Option PrototypeAST × State)
    (h : ParsePrototype f s = some r) (hfg : f ≤ g) : ParsePrototype g s = some r := by
  unfold ParsePrototype at h ⊢
  by_cases hid : s.CurTok = tok_id
  · rw [if_neg (not_not.mpr hid)] at h ⊢
    simp only [] at h ⊢
    by_cases h40 : (getNextTok s).CurTok = 40
    · rw [if_neg (not_not.mpr h40)] at h ⊢
      cases hA : ParsePrototypeArgs f [] (getNextTok s) with
      | none => rw [hA] at h; simp at h
      | some x =>
        rw [hA] at h
        rw [ParsePrototypeArgs_mono f g _ _ _ hA hfg]
        exact h
    · rw [if_pos h40] at h ⊢; exact h
  · rw [if_pos hid] at h ⊢; exact h

theorem ParseDefn_mono (f g : Nat) (s : State) (r : Option FunctionAST × State)
    (h : ParseDefn f s = some r) (hfg : f ≤ g) : ParseDefn g s = some r := by
  unfold ParseDefn at h ⊢
  cases hP : ParsePrototype f (getNextTok s) with
  | none => rw [hP] at h; simp at h
  | some x =>
    rw [hP] at h
    rw [ParsePrototype_mono f g _ _ hP hfg]
    obtain ⟨o, s1⟩ := x
    cases o with
    | none => exact h
    | some Proto =>
      simp only [] at h ⊢
      cases hE : ParseExpression f s1 with
      | none => rw [hE] at h; simp at h
      | some y =>
        rw [hE] at h
        rw [ParseExpression_mono f g _ _ hE hfg]
        exact h

theorem ParseTopLevelExpr_mono (f g : Nat) (s : State) (r : Option FunctionAST × State)
    (h : ParseTopLevelExpr f s = some r) (hfg : f ≤ g) : ParseTopLevelExpr g s = some r := by
  unfold ParseTopLevelExpr at h ⊢
  cases hE : ParseExpression f s with
  | none => rw [hE] at h; simp at h
  | some y =>
    rw [hE] at h
    rw [ParseExpression_mono f g _ _ hE hfg]
    exact h

theorem HandleDefn_mono (f g : Nat) (v : Bool) (p r : Process)
    (h : HandleDefn f v p = some r) (hfg : f ≤ g) : HandleDefn g v p = some r := by
  unfold HandleDefn at h ⊢
  cases hP : ParseDefn f p.parse with
  | none => rw [hP] at h; simp at h
  | some x =>
    rw [hP] at h
    rw [ParseDefn_mono f g _ _ hP hfg]
    exact h

theorem HandleExtern_mono (f g : Nat) (v : Bool) (p r : Process)
    (h : HandleExtern f v p = some r) (hfg : f ≤ g) : HandleExtern g v p = some r := by
  unfold HandleExtern ParseExtern at h ⊢
  cases hP : ParsePrototype f (getNextTok p.parse) with
  | none => rw [hP] at h; simp at h
  | some x =>
    rw [hP] at h
    rw [ParsePrototype_mono f g _ _ hP hfg]
    exact h

theorem HandleTopLevelExpr_mono (f g : Nat) (v : Bool) (p r : Process)
    (h : HandleTopLevelExpr f v p = some r) (hfg : f ≤ g) :
    HandleTopLevelExpr g v p = some r := by
  unfold HandleTopLevelExpr at h ⊢
  cases hP : ParseTopLevelExpr f p.parse with
  | none => rw [hP] at h; simp at h
  | some x =>
    rw [hP] at h
    rw [ParseTopLevelExpr_mono f g _ _ hP hfg]
    exact h

theorem MainLoop_step (v : Bool) (f : Nat) :
    ∀ (p r : Process), MainLoop f v p = some r → MainLoop (f + 1) v p = some r := by
  induction f with
  | zero => intro p r h; simp [MainLoop] at h
  | succ f ih =>
    intro p r h
    rw [MainLoop] at h ⊢
    simp only [] at h ⊢
    by_cases h1 : p.parse.CurTok = tok_eof
    · rw [if_pos h1] at h ⊢; exact h
    · rw [if_neg h1] at h ⊢
      by_cases h2 : p.parse.CurTok = 59
      · rw [if_pos h2] at h ⊢; exact ih _ _ h
      · rw [if_neg h2] at h ⊢
        by_cases h3 : p.parse.CurTok = tok_gate
        · rw [if_pos h3] at h ⊢
          cases hH : HandleDefn f v { p with out := p.out ++ [Print.prompt] } with
          | none => rw [hH] at h; simp at h
          | some p2 =>
            rw [hH] at h
            rw [HandleDefn_mono f (f + 1) v _ _ hH (by omega)]
            exact ih _ _ h
        · rw [if_neg h3] at h ⊢
          by_cases h4 : p.parse.CurTok = tok_extern
          · rw [if_pos h4] at h ⊢
            cases hH : HandleExtern f v { p with out := p.out ++ [Print.prompt] } with
            | none => rw [hH] at h; simp at h
            | some p2 =>
              rw [hH] at h
              rw [HandleExtern_mono f (f + 1) v _ _ hH (by omega)]
              exact ih _ _ h
          · rw [if_neg h4] at h ⊢
            cases hH : HandleTopLevelExpr f v { p with out := p.out ++ [Print.prompt] } with
            | none => rw [hH] at h; simp at h
            | some p2 =>
              rw [hH] at h
              rw [HandleTopLevelExpr_mono f (f + 1) v _ _ hH (by omega)]
              exact ih _ _ h

theorem MainLoop_mono (v : Bool) (f g : Nat) (p r : Process) (h : MainLoop f v p = some r)
    (hfg : f ≤ g) : MainLoop g v p = some r := by
  induction hfg with
  | refl => exact h
  | step _ ih => exact MainLoop_step v _ _ _ ih

/-! ## The parser always returns -/

/-- Given enough fuel, the parser functions return in every state: by
induction on the bound on what can still be consumed. -/
theorem parser_total : ∀ (N : Nat) (s : State), tokensLeft s.view ≤ N →
    (∃ f r, ParsePrimary f s = some r) ∧ (∃ f r, ParseExpression f s = some r) ∧
    (∀ Args, ∃ f r, ParseArgsLoop f Args s = some r) ∧
    (∀ p LHS, ∃ f r, ParseBinOpRHS f p LHS s = some r) := by
  intro N
  induction N using Nat.strong_induction_on with
  | _ N ih =>
    have hPrim : ∀ s : State, tokensLeft s.view ≤ N → ∃ f r, ParsePrimary f s = some r := by
      intro s hs
      by_cases h1 : s.CurTok = tok_id
      · have hne : s.view.1 ≠ tok_eof := by
          show s.CurTok ≠ tok_eof
          rw [h1]; decide
        by_cases h40 : (getNextTok s).CurTok = 40
        · by_cases h41 : (getNextTok (getNextTok s)).CurTok = 41
          · exact ⟨2, _, by
              rw [ParsePrimary, if_pos h1, ParseIdentifierExpr]
              simp only []
              rw [if_neg (not_not.mpr h40), if_neg (not_not.mpr h41)]⟩
          · have hlt : tokensLeft (getNextTok (getNextTok s)).view < N := by
              have := tokensLeft_lt 2 s.view (by omega) hne
              have e : (getNextTok (getNextTok s)).view = advance 2 s.view := rfl
              rw [e]; omega
            obtain ⟨f, r, hr⟩ := (ih _ hlt (getNextTok (getNextTok s)) (le_refl _)).2.2.1 []
            obtain ⟨o, s3⟩ := r
            cases o with
            | none =>
              refine ⟨f + 2, (none, s3), ?_⟩
              rw [ParsePrimary, if_pos h1, ParseIdentifierExpr]
              simp only []
              rw [if_neg (not_not.mpr h40), if_pos h41, hr]
            | some Args =>
              refine ⟨f + 2, (some (ExprAST.CallExprAST s.lex.IdStr Args), getNextTok s3), ?_⟩
              rw [ParsePrimary, if_pos h1, ParseIdentifierExpr]
              simp only []
              rw [if_neg (not_not.mpr h40), if_pos h41, hr]
        · exact ⟨2, _, by
            rw [ParsePrimary, if_pos h1, ParseIdentifierExpr]
            simp only []
            rw [if_pos h40]⟩
      · by_cases h2 : s.CurTok = tok_num
        · exact ⟨1, _, by rw [ParsePrimary, if_neg h1, if_pos h2]⟩
        · by_cases h3 : s.CurTok = 40
          · have hne : s.view.1 ≠ tok_eof := by
              show s.CurTok ≠ tok_eof
              rw [h3]; decide
            have hlt : tokensLeft (getNextTok s).view < N := by
              have := tokensLeft_lt 1 s.view (by omega) hne
              have e : (getNextTok s).view = advance 1 s.view := rfl
              rw [e]; omega
            obtain ⟨f, r, hr⟩ := (ih _ hlt (getNextTok s) (le_refl _)).2.1
            obtain ⟨o, s2⟩ := r
            cases o with
            | none =>
              refine ⟨f + 2, (none, s2), ?_⟩
              rw [ParsePrimary, if_neg h1, if_neg h2, if_pos h3, ParseParenExpr, hr]
            | some V =>
              by_cases h41 : s2.CurTok = 41
              · exact ⟨f + 2, (some V, getNextTok s2), by
                  rw [ParsePrimary, if_neg h1, if_neg h2, if_pos h3, ParseParenExpr, hr]
                  simp only []
                  rw [if_neg (not_not.mpr h41)]⟩
              · exact ⟨f + 2, (none, LogError s2 "Syntax Error: expected ')'"), by
                  rw [ParsePrimary, if_neg h1, if_neg h2, if_pos h3, ParseParenExpr, hr]
                  simp only []
                  rw [if_pos h41]⟩
          · exact ⟨1, _, by rw [ParsePrimary, if_neg h1, if_neg h2, if_neg h3]⟩
    have hRHS : ∀ (s : State) (p : Int) (LHS : ExprAST), tokensLeft s.view ≤ N →
        ∃ f r, ParseBinOpRHS f p LHS s = some r := by
      intro s p LHS hs
      by_cases hlt : (GetTokPrecedence s).1 < p
      · exact ⟨1, _, by
          rw [ParseBinOpRHS]
          simp only []
          rw [if_pos hlt]⟩
      · have hv0 : (getNextTok (GetTokPrecedence s).2).view = advance 1 s.view := by
          rw [getNextTok_view, GetTokPrecedence_lex]; rfl
        have hs1 : tokensLeft (getNextTok (GetTokPrecedence s).2).view ≤ N := by
          rw [hv0]
          have := (tokensLeft_advance 1 s.view).1
          omega
        obtain ⟨f1, r1, hr1⟩ := hPrim _ hs1
        obtain ⟨n, hn, hpos⟩ := (parser_advance f1).2.2.2.1 _ _ hr1
        obtain ⟨o, s2⟩ := r1
        cases o with
        | none =>
          refine ⟨f1 + 1, (none, s2), ?_⟩
          rw [ParseBinOpRHS]
          simp only []
          rw [if_neg hlt, hr1]
        | some RHS =>
          have hp := hpos rfl
          have hs2 : tokensLeft s2.view < N := by
            have := tokensLeft_lt n (getNextTok (GetTokPrecedence s).2).view hp.1 hp.2
            have e : s2.view = advance n (getNextTok (GetTokPrecedence s).2).view := hn
            rw [e]; omega
          have hq : tokensLeft (GetTokPrecedence s2).2.view < N := by
            rw [GetTokPrecedence_view]; exact hs2
          by_cases hnx : (GetTokPrecedence s).1 < (GetTokPrecedence s2).1
          · obtain ⟨f2, r2, hr2⟩ := (ih _ hq (GetTokPrecedence s2).2 (le_refl _)).2.2.2
              ((GetTokPrecedence s).1 + 1) RHS
            obtain ⟨m, hm⟩ := (parser_advance f2).2.2.2.2.2 _ _ _ _ hr2
            obtain ⟨o2, s3⟩ := r2
            cases o2 with
            | none =>
              refine ⟨max f1 f2 + 1, (none, s3), ?_⟩
              rw [ParseBinOpRHS]
              simp only []
              rw [if_neg hlt, ParsePrimary_mono f1 _ _ _ hr1 (le_max_left f1 f2)]
              simp only []
              rw [if_pos hnx, ParseBinOpRHS_mono f2 _ _ _ _ _ hr2 (le_max_right f1 f2)]
            | some RHS1 =>
              have hs3 : tokensLeft s3.view < N := by
                have e : s3.view = advance m (GetTokPrecedence s2).2.view := hm
                have := (tokensLeft_advance m (GetTokPrecedence s2).2.view).1
                rw [e]; omega
              obtain ⟨f3, r3, hr3⟩ := (ih _ hs3 s3 (le_refl _)).2.2.2 p
                (ExprAST.BinaryExprAST (GetTokPrecedence s).2.CurTok LHS RHS1)
              refine ⟨max f1 (max f2 f3) + 1, r3, ?_⟩
              rw [ParseBinOpRHS]
              simp only []
              rw [if_neg hlt, ParsePrimary_mono f1 _ _ _ hr1 (le_max_left _ _)]
              simp only []
              rw [if_pos hnx, ParseBinOpRHS_mono f2 _ _ _ _ _ hr2
                (le_trans (le_max_left f2 f3) (le_max_right _ _))]
              simp only []
              exact ParseBinOpRHS_mono f3 _ _ _ _ _ hr3
                (le_trans (le_max_right f2 f3) (le_max_right _ _))
          · obtain ⟨f3, r3, hr3⟩ := (ih _ hq (GetTokPrecedence s2).2 (le_refl _)).2.2.2 p
              (ExprAST.BinaryExprAST (GetTokPrecedence s).2.CurTok LHS RHS)
            refine ⟨max f1 f3 + 1, r3, ?_⟩
            rw [ParseBinOpRHS]
            simp only []
            rw [if_neg hlt, ParsePrimary_mono f1 _ _ _ hr1 (le_max_left _ _)]
            simp only []
            rw [if_neg hnx]
            exact ParseBinOpRHS_mono f3 _ _ _ _ _ hr3 (le_max_right _ _)
    have hExpr : ∀ s : State, tokensLeft s.view ≤ N → ∃ f r, ParseExpression f s = some r := by
      intro s hs
      obtain ⟨f1, r1, hr1⟩ := hPrim s hs
      obtain ⟨n, hn, hpos⟩ := (parser_advance f1).2.2.2.1 _ _ hr1
      obtain ⟨o, s2⟩ := r1
      cases o with
      | none =>
        refine ⟨f1 + 1, (none, s2), ?_⟩
        rw [ParseExpression, hr1]
      | some LHS =>
        have hp := hpos rfl
        have hs2 : tokensLeft s2.view < N := by
          have := tokensLeft_lt n s.view hp.1 hp.2
          have e : s2.view = advance n s.view := hn
          rw [e]; omega
        obtain ⟨f2, r2, hr2⟩ := (ih _ hs2 s2 (le_refl _)).2.2.2 0 LHS
        refine ⟨max f1 f2 + 1, r2, ?_⟩
        rw [ParseExpression, ParsePrimary_mono f1 _ _ _ hr1 (le_max_left _ _)]
        simp only []
        exact ParseBinOpRHS_mono f2 _ _ _ _ _ hr2 (le_max_right _ _)
    intro s hs
    refine ⟨hPrim s hs, hExpr s hs, ?_, fun p LHS => hRHS s p LHS hs⟩
    intro Args
    obtain ⟨f1, r1, hr1⟩ := hExpr s hs
    obtain ⟨n, hn, hpos⟩ := (parser_advance f1).2.2.2.2.1 _ _ hr1
    obtain ⟨o, s2⟩ := r1
    cases o with
    | none =>
      refine ⟨f1 + 1, (none, s2), ?_⟩
      rw [ParseArgsLoop, hr1]
    | some Arg =>
      by_cases h41 : s2.CurTok = 41
      · exact ⟨f1 + 1, _, by
          rw [ParseArgsLoop, hr1]
          simp only []
          rw [if_pos h41]⟩
      · by_cases h44 : s2.CurTok = 44
        · have hp := hpos rfl
          have hs2 : tokensLeft (getNextTok s2).view < N := by
            have := tokensLeft_lt n s.view hp.1 hp.2
            have e : s2.view = advance n s.view := hn
            have e2 : (getNextTok s2).view = advance 1 s2.view := rfl
            have := (tokensLeft_advance 1 s2.view).1
            rw [e2]
            rw [e] at this ⊢
            omega
          obtain ⟨f2, r2, hr2⟩ := (ih _ hs2 (getNextTok s2) (le_refl _)).2.2.1 (Args ++ [Arg])
          refine ⟨max f1 f2 + 1, r2, ?_⟩
          rw [ParseArgsLoop, ParseExpression_mono f1 _ _ _ hr1 (le_max_left _ _)]
          simp only []
          rw [if_neg h41, if_neg (not_not.mpr h44)]
          exact ParseArgsLoop_mono f2 _ _ _ _ hr2 (le_max_right _ _)
        · exact ⟨f1 + 1, _, by
            rw [ParseArgsLoop, hr1]
            simp only []
            rw [if_neg h41, if_pos h44]⟩


theorem ParseExpression_total (s : State) : ∃ f r, ParseExpression f s = some r :=
  (parser_total _ s (le_refl _)).2.1

theorem ParsePrototype_total (s : State) : ∃ f r, ParsePrototype f s = some r := by
  by_cases hid : s.CurTok = tok_id
  · by_cases h40 : (getNextTok s).CurTok = 40
    · obtain ⟨r, hr⟩ := ParsePrototypeArgs_total (pendingLen (getNextTok s).lex + 1)
        (getNextTok s) [] (pendingLen (getNextTok s).lex + 1) (by omega) (le_refl _)
      obtain ⟨names, s2⟩ := r
      by_cases h41 : s2.CurTok = 41
      · exact ⟨_, _, by
          unfold ParsePrototype
          rw [if_neg (not_not.mpr hid)]
          simp only []
          rw [if_neg (not_not.mpr h40), hr]
          simp only []
          rw [if_neg (not_not.mpr h41)]⟩
      · exact ⟨_, _, by
          unfold ParsePrototype
          rw [if_neg (not_not.mpr hid)]
          simp only []
          rw [if_neg (not_not.mpr h40), hr]
          simp only []
          rw [if_pos h41]⟩
    · exact ⟨0, _, by
        unfold ParsePrototype
        rw [if_neg (not_not.mpr hid)]
        simp only []
        rw [if_pos h40]⟩
  · exact ⟨0, _, by
      unfold ParsePrototype
      rw [if_pos hid]⟩

/-- The function `ParseDefn()` always returns, and has then consumed the
keyword and some number of tokens after it. -/
theorem ParseDefn_total (s : State) :
    ∃ f r n, ParseDefn f s = some r ∧ 0 < n ∧ r.2.view = advance n s.view := by
  obtain ⟨f1, r1, hr1⟩ := ParsePrototype_total (getNextTok s)
  obtain ⟨⟨m, hm⟩, _⟩ := ParsePrototype_frame f1 _ _ hr1
  obtain ⟨o, s1⟩ := r1
  have hm1 : s1.view = advance (1 + m) s.view := by rw [advance_add]; exact hm
  cases o with
  | none =>
    refine ⟨f1, (none, s1), 1 + m, ?_, by omega, hm1⟩
    unfold ParseDefn
    rw [hr1]
  | some Proto =>
    obtain ⟨f2, r2, hr2⟩ := ParseExpression_total s1
    obtain ⟨k, hk, _⟩ := (parser_advance f2).2.2.2.2.1 _ _ hr2
    have hk1 : r2.2.view = advance (1 + m + k) s.view := by
      rw [advance_add, ← hm1]; exact hk
    obtain ⟨o2, s2⟩ := r2
    cases o2 with
    | none =>
      refine ⟨max f1 f2, (none, s2), 1 + m + k, ?_, by omega, hk1⟩
      unfold ParseDefn
      rw [ParsePrototype_mono f1 _ _ _ hr1 (le_max_left _ _)]
      simp only []
      rw [ParseExpression_mono f2 _ _ _ hr2 (le_max_right _ _)]
    | some E =>
      refine ⟨max f1 f2, (some { Proto := Proto, Body := E }, s2), 1 + m + k, ?_, by omega, hk1⟩
      unfold ParseDefn
      rw [ParsePrototype_mono f1 _ _ _ hr1 (le_max_left _ _)]
      simp only []
      rw [ParseExpression_mono f2 _ _ _ hr2 (le_max_right _ _)]

/-- The function `ParseExtern()` always returns, and has then consumed the
keyword and some number of tokens after it. -/
theorem ParseExtern_total (s : State) :
    ∃ f r n, ParseExtern f s = some r ∧ 0 < n ∧ r.2.view = advance n s.view := by
  obtain ⟨f1, r1, hr1⟩ := ParsePrototype_total (getNextTok s)
  obtain ⟨⟨m, hm⟩, _⟩ := ParsePrototype_frame f1 _ _ hr1
  exact ⟨f1, r1, 1 + m, hr1, by omega, by rw [advance_add]; exact hm⟩

/-- The function `ParseTopLevelExpr()` always returns; it has then consumed
some number of tokens, one or more when it returns a function. -/
theorem ParseTopLevelExpr_total (s : State) :
    ∃ f r n, ParseTopLevelExpr f s = some r ∧ r.2.view = advance n s.view ∧
      (r.1.isSome = true → 0 < n) := by
  obtain ⟨f, r, hr⟩ := ParseExpression_total s
  obtain ⟨n, hn, hpos⟩ := (parser_advance f).2.2.2.2.1 _ _ hr
  obtain ⟨o, s1⟩ := r
  cases o with
  | none =>
    refine ⟨f, (none, s1), n, ?_, hn, fun h => by simp at h⟩
    unfold ParseTopLevelExpr
    rw [hr]
  | some E =>
    refine ⟨f, (some { Proto := { Name := str_anon, Args := [] }, Body := E }, s1), n, ?_, hn,
      fun _ => (hpos rfl).1⟩
    unfold ParseTopLevelExpr
    rw [hr]

/-! ## The handlers and the loop -/

/-- After a definition is parsed, `HandleDefn` leaves the parser as the parse
left it and the generator as codegen of the definition leaves it. -/
theorem HandleDefn_parsed (f : Nat) (v : Bool) (p : Process) (AST : FunctionAST) (s1 : State)
    (h : ParseDefn f p.parse = some (some AST, s1)) :
    ∃ out1, HandleDefn f v p =
      some { parse := s1, gen := (AST.codegen p.gen).2, out := out1 } := by
  unfold HandleDefn
  rw [h]
  simp only []
  cases hg : AST.codegen p.gen with
  | mk o g1 => cases o <;> exact ⟨_, rfl⟩

/-- After a prototype is parsed, `HandleExtern` leaves the parser as the parse
left it and the generator as codegen of the prototype leaves it. -/
theorem HandleExtern_parsed (f : Nat) (v : Bool) (p : Process) (AST : PrototypeAST) (s1 : State)
    (h : ParseExtern f p.parse = some (some AST, s1)) :
    ∃ out1, HandleExtern f v p =
      some { parse := s1, gen := (AST.codegen p.gen).2, out := out1 } := by
  unfold HandleExtern
  rw [h]
  simp only []
  cases hg : AST.codegen p.gen with
  | mk o g1 => cases o <;> exact ⟨_, rfl⟩

/-- After a top-level expression is parsed, `HandleTopLevelExpr` leaves the
parser as the parse left it and the generator as codegen of the anonymous
function leaves it. -/
theorem HandleTopLevelExpr_parsed (f : Nat) (v : Bool) (p : Process) (AST : FunctionAST)
    (s1 : State) (h : ParseTopLevelExpr f p.parse = some (some AST, s1)) :
    ∃ out1, HandleTopLevelExpr f v p =
      some { parse := s1, gen := (AST.codegen p.gen).2, out := out1 } := by
  unfold HandleTopLevelExpr
  rw [h]
  simp only []
  cases hg : AST.codegen p.gen with
  | mk o g1 => cases o <;> exact ⟨_, rfl⟩

/-- The function `HandleDefn` returns, one token or more further on. -/
theorem HandleDefn_total (v : Bool) (p : Process) :
    ∃ f p1 n, HandleDefn f v p = some p1 ∧ 0 < n ∧ p1.parse.view = advance n p.parse.view := by
  obtain ⟨f, r, n, hr, hn, hv⟩ := ParseDefn_total p.parse
  obtain ⟨o, s1⟩ := r
  cases o with
  | none =>
    exact ⟨f, { p with parse := getNextTok s1 }, n + 1, by unfold HandleDefn; rw [hr], by omega,
      advance_getNextTok _ _ _ hv⟩
  | some AST =>
    obtain ⟨out1, h1⟩ := HandleDefn_parsed f v p AST s1 hr
    exact ⟨f, _, n, h1, hn, hv⟩

/-- The function `HandleExtern` returns, one token or more further on. -/
theorem HandleExtern_total (v : Bool) (p : Process) :
    ∃ f p1 n, HandleExtern f v p = some p1 ∧ 0 < n ∧ p1.parse.view = advance n p.parse.view := by
  obtain ⟨f, r, n, hr, hn, hv⟩ := ParseExtern_total p.parse
  obtain ⟨o, s1⟩ := r
  cases o with
  | none =>
    exact ⟨f, { p with parse := getNextTok s1 }, n + 1, by unfold HandleExtern; rw [hr], by omega,
      advance_getNextTok _ _ _ hv⟩
  | some AST =>
    obtain ⟨out1, h1⟩ := HandleExtern_parsed f v p AST s1 hr
    exact ⟨f, _, n, h1, hn, hv⟩

/-- The function `HandleTopLevelExpr` returns, one token or more further on. -/
theorem HandleTopLevelExpr_total (v : Bool) (p : Process) :
    ∃ f p1 n, HandleTopLevelExpr f v p = some p1 ∧ 0 < n ∧
      p1.parse.view = advance n p.parse.view := by
  obtain ⟨f, r, n, hr, hv, hpos⟩ := ParseTopLevelExpr_total p.parse
  obtain ⟨o, s1⟩ := r
  cases o with
  | none =>
    exact ⟨f, { p with parse := getNextTok s1 }, n + 1,
      by unfold HandleTopLevelExpr; rw [hr], by omega, advance_getNextTok _ _ _ hv⟩
  | some AST =>
    obtain ⟨out1, h1⟩ := HandleTopLevelExpr_parsed f v p AST s1 hr
    exact ⟨f, _, n, h1, hpos rfl, hv⟩

/-- An iteration of `MainLoop` at a lookahead that is not the end token: given
enough fuel it leads to a state one token or more further on, from which the
loop goes on. -/
theorem MainLoop_iteration (v : Bool) (p : Process) (h : p.parse.CurTok ≠ tok_eof) :
    ∃ f0 p1 n, 0 < n ∧ p1.parse.view = advance n p.parse.view ∧
      ∀ fuel, f0 ≤ fuel → MainLoop (fuel + 1) v p = MainLoop fuel v p1 := by
  by_cases h2 : p.parse.CurTok = 59
  · refine ⟨0, { parse := getNextTok p.parse, gen := p.gen, out := p.out ++ [Print.prompt] }, 1,
      by omega, rfl, ?_⟩
    intro fuel _
    rw [MainLoop]
    simp only []
    rw [if_neg h, if_pos h2]
  · by_cases h3 : p.parse.CurTok = tok_gate
    · obtain ⟨f, p1, n, hH, hn, hv⟩ := HandleDefn_total v { p with out := p.out ++ [Print.prompt] }
      refine ⟨f, p1, n, hn, hv, ?_⟩
      intro fuel hf
      rw [MainLoop]
      simp only []
      rw [if_neg h, if_neg h2, if_pos h3, HandleDefn_mono f fuel v _ _ hH hf]
    · by_cases h4 : p.parse.CurTok = tok_extern
      · obtain ⟨f, p1, n, hH, hn, hv⟩ :=
          HandleExtern_total v { p with out := p.out ++ [Print.prompt] }
        refine ⟨f, p1, n, hn, hv, ?_⟩
        intro fuel hf
        rw [MainLoop]
        simp only []
        rw [if_neg h, if_neg h2, if_neg h3, if_pos h4, HandleExtern_mono f fuel v _ _ hH hf]
      · obtain ⟨f, p1, n, hH, hn, hv⟩ :=
          HandleTopLevelExpr_total v { p with out := p.out ++ [Print.prompt] }
        refine ⟨f, p1, n, hn, hv, ?_⟩
        intro fuel hf
        rw [MainLoop]
        simp only []
        rw [if_neg h, if_neg h2, if_neg h3, if_neg h4,
          HandleTopLevelExpr_mono f fuel v _ _ hH hf]

/-- The loop returns from every state, given enough fuel. -/
theorem MainLoop_total (v : Bool) : ∀ (N : Nat) (p : Process), tokensLeft p.parse.view ≤ N →
    ∃ fuel r, MainLoop fuel v p = some r := by
  intro N
  induction N using Nat.strong_induction_on with
  | _ N ih =>
    intro p hp
    by_cases h : p.parse.CurTok = tok_eof
    · exact ⟨1, _, by rw [MainLoop]; simp only []; rw [if_pos h]⟩
    · obtain ⟨f0, p1, n, hn, hv, hstep⟩ := MainLoop_iteration v p h
      have hlt : tokensLeft p1.parse.view < N := by
        have := tokensLeft_lt n p.parse.view hn h
        rw [hv]; omega
      obtain ⟨fuel1, r, hr⟩ := ih _ hlt p1 (le_refl _)
      refine ⟨max f0 fuel1 + 1, r, ?_⟩
      rw [hstep _ (le_max_left _ _)]
      exact MainLoop_mono v fuel1 _ _ _ hr (le_max_right _ _)

/-- The loop returns only at the end token. -/
theorem MainLoop_returns_at_eof (v : Bool) : ∀ (fuel : Nat) (p r : Process),
    MainLoop fuel v p = some r → r.parse.CurTok = tok_eof := by
  intro fuel
  induction fuel with
  | zero => intro p r h; simp [MainLoop] at h
  | succ f ih =>
    intro p r h
    rw [MainLoop] at h
    simp only [] at h
    by_cases h1 : p.parse.CurTok = tok_eof
    · rw [if_pos h1] at h
      rw [← Option.some.inj h]
      exact h1
    · rw [if_neg h1] at h
      by_cases h2 : p.parse.CurTok = 59
      · rw [if_pos h2] at h; exact ih _ _ h
      · rw [if_neg h2] at h
        by_cases h3 : p.parse.CurTok = tok_gate
        · rw [if_pos h3] at h
          cases hH : HandleDefn f v { p with out := p.out ++ [Print.prompt] } with
          | none => rw [hH] at h; simp at h
          | some p2 => rw [hH] at h; exact ih _ _ h
        · rw [if_neg h3] at h
          by_cases h4 : p.parse.CurTok = tok_extern
          · rw [if_pos h4] at h
            cases hH : HandleExtern f v { p with out := p.out ++ [Print.prompt] } with
            | none => rw [hH] at h; simp at h
            | some p2 => rw [hH] at h; exact ih _ _ h
          · rw [if_neg h4] at h
            cases hH : HandleTopLevelExpr f v { p with out := p.out ++ [Print.prompt] } with
            | none => rw [hH] at h; simp at h
            | some p2 => rw [hH] at h; exact ih _ _ h

/-- C25. When `ParseDefn`, `ParseExtern` or `ParseTopLevelExpr` returns
`nullptr`, leaving the state `s1`, the handler returns with the lookahead
advanced by one token from `s1` (`getNextTok`), the generator's state (the
module with it) and the driver's output unchanged: nothing is generated or
printed. The state `s1` is some number `n` of tokens beyond the one in which
the handler was called, so the handler ends `n + 1` tokens beyond it. The loop
goes on from there: the iteration of `MainLoop` that called the handler is
followed by the next one. And each of the three parse functions returns in
every state, given enough fuel. -/
theorem Handle_parse_failure (fuel : Nat) (v : Bool) (p : Process) (s1 : State) :
    (ParseDefn fuel p.parse = some (none, s1) →
      HandleDefn fuel v p = some { p with parse := getNextTok s1 } ∧
      (p.parse.CurTok = tok_gate →
        MainLoop (fuel + 1) v p =
          MainLoop fuel v
            { parse := getNextTok s1, gen := p.gen, out := p.out ++ [Print.prompt] })) ∧
    (ParseExtern fuel p.parse = some (none, s1) →
      HandleExtern fuel v p = some { p with parse := getNextTok s1 } ∧
      (p.parse.CurTok = tok_extern →
        MainLoop (fuel + 1) v p =
          MainLoop fuel v
            { parse := getNextTok s1, gen := p.gen, out := p.out ++ [Print.prompt] })) ∧
    (ParseTopLevelExpr fuel p.parse = some (none, s1) →
      HandleTopLevelExpr fuel v p = some { p with parse := getNextTok s1 } ∧
      (p.parse.CurTok ≠ tok_eof → p.parse.CurTok ≠ 59 → p.parse.CurTok ≠ tok_gate →
        p.parse.CurTok ≠ tok_extern →
        MainLoop (fuel + 1) v p =
          MainLoop fuel v
            { parse := getNextTok s1, gen := p.gen, out := p.out ++ [Print.prompt] })) ∧
    ((ParseDefn fuel p.parse = some (none, s1) ∨ ParseExtern fuel p.parse = some (none, s1) ∨
        ParseTopLevelExpr fuel p.parse = some (none, s1)) →
      ∃ n, s1.view = advance n p.parse.view ∧
        (getNextTok s1).view = advance (n + 1) p.parse.view) ∧
    ((∃ f r, ParseDefn f p.parse = some r) ∧ (∃ f r, ParseExtern f p.parse = some r) ∧
      (∃ f r, ParseTopLevelExpr f p.parse = some r)) := by
  refine ⟨?_, ?_, ?_, ?_, ?_⟩
  · intro h
    have hH : ∀ q : Process, q.parse = p.parse →
        HandleDefn fuel v q = some { q with parse := getNextTok s1 } := by
      intro q hq
      unfold HandleDefn
      rw [hq, h]
    refine ⟨hH p rfl, ?_⟩
    intro hg
    have h1 : p.parse.CurTok ≠ tok_eof := by rw [hg]; decide
    have h2 : p.parse.CurTok ≠ 59 := by rw [hg]; decide
    rw [MainLoop]
    simp only []
    rw [if_neg h1, if_neg h2, if_pos hg, hH { parse := p.parse, gen := p.gen, out := p.out ++ [Print.prompt] } rfl]
  · intro h
    have hH : ∀ q : Process, q.parse = p.parse →
        HandleExtern fuel v q = some { q with parse := getNextTok s1 } := by
      intro q hq
      unfold HandleExtern
      rw [hq, h]
    refine ⟨hH p rfl, ?_⟩
    intro hg
    have h1 : p.parse.CurTok ≠ tok_eof := by rw [hg]; decide
    have h2 : p.parse.CurTok ≠ 59 := by rw [hg]; decide
    have h3 : p.parse.CurTok ≠ tok_gate := by rw [hg]; decide
    rw [MainLoop]
    simp only []
    rw [if_neg h1, if_neg h2, if_neg h3, if_pos hg, hH { parse := p.parse, gen := p.gen, out := p.out ++ [Print.prompt] } rfl]
  · intro h
    have hH : ∀ q : Process, q.parse = p.parse →
        HandleTopLevelExpr fuel v q = some { q with parse := getNextTok s1 } := by
      intro q hq
      unfold HandleTopLevelExpr
      rw [hq, h]
    refine ⟨hH p rfl, ?_⟩
    intro h1 h2 h3 h4
    rw [MainLoop]
    simp only []
    rw [if_neg h1, if_neg h2, if_neg h3, if_neg h4, hH { parse := p.parse, gen := p.gen, out := p.out ++ [Print.prompt] } rfl]
  · intro h
    have hn : ∃ n, s1.view = advance n p.parse.view := by
      rcases h with h | h | h
      · unfold ParseDefn at h
        cases hP : ParsePrototype fuel (getNextTok p.parse) with
        | none => rw [hP] at h; simp at h
        | some x =>
          rw [hP] at h
          obtain ⟨⟨m, hm⟩, _⟩ := ParsePrototype_frame fuel _ _ hP
          obtain ⟨o, s2⟩ := x
          have hm1 : s2.view = advance (1 + m) p.parse.view := by rw [advance_add]; exact hm
          cases o with
          | none =>
            simp only [Option.some.injEq, Prod.mk.injEq, true_and] at h
            rw [← h]; exact ⟨_, hm1⟩
          | some Proto =>
            simp only [] at h
            cases hE : ParseExpression fuel s2 with
            | none => rw [hE] at h; simp at h
            | some y =>
              rw [hE] at h
              obtain ⟨k, hk, _⟩ := (parser_advance fuel).2.2.2.2.1 _ _ hE
              obtain ⟨o2, s3⟩ := y
              cases o2 with
              | none =>
                simp only [Option.some.injEq, Prod.mk.injEq, true_and] at h
                rw [← h]
                exact ⟨1 + m + k, by rw [advance_add, ← hm1]; exact hk⟩
              | some E => simp at h
      · obtain ⟨⟨m, hm⟩, _⟩ := ParsePrototype_frame fuel _ _ h
        exact ⟨1 + m, by rw [advance_add]; exact hm⟩
      · unfold ParseTopLevelExpr at h
        cases hE : ParseExpression fuel p.parse with
        | none => rw [hE] at h; simp at h
        | some y =>
          rw [hE] at h
          obtain ⟨k, hk, _⟩ := (parser_advance fuel).2.2.2.2.1 _ _ hE
          obtain ⟨o2, s3⟩ := y
          cases o2 with
          | none =>
            simp only [Option.some.injEq, Prod.mk.injEq, true_and] at h
            rw [← h]
            exact ⟨k, hk⟩
          | some E => simp at h
    obtain ⟨n, hn⟩ := hn
    exact ⟨n, hn, advance_getNextTok _ _ _ hn⟩
  · obtain ⟨f1, r1, _, h1, _⟩ := ParseDefn_total p.parse
    obtain ⟨f2, r2, _, h2, _⟩ := ParseExtern_total p.parse
    obtain ⟨f3, r3, _, h3, _⟩ := ParseTopLevelExpr_total p.parse
    exact ⟨⟨f1, r1, h1⟩, ⟨f2, r2, h2⟩, ⟨f3, r3, h3⟩⟩

/-- On the input `)1;` the parse of a top-level expression fails at `)`
without consuming it; the handler skips the `)` and changes nothing else, and
the loop goes on: it generates the expression `1` and returns at the end of
the input. -/
theorem Handle_parse_failure_witness :
    ParseTopLevelExpr 2 (Process.start [41, 49, 59]).parse =
      some (none, LogError (State.start [41, 49, 59]) "Parse Error: Unknown token") ∧
    HandleTopLevelExpr 2 false (Process.start [41, 49, 59]) =
      some { Process.start [41, 49, 59] with
        parse := getNextTok (LogError (State.start [41, 49, 59]) "Parse Error: Unknown token") } ∧
    (MainLoop 5 false (Process.start [41, 49, 59])).map
        (fun r => (r.parse.CurTok, r.gen.TheModule.map (fun F => F.Name), r.parse.diag)) =
      some (tok_eof, [str_anon], [Diag.LogError "Parse Error: Unknown token"]) :=
  ⟨rfl,
    ((Handle_parse_failure 2 false (Process.start [41, 49, 59])
      (LogError (State.start [41, 49, 59]) "Parse Error: Unknown token")).2.2.1 rfl).1,
    by decide⟩

/-- C26. `MainLoop` returns only in a state whose lookahead is the end token,
and on every input it returns, given enough fuel (more fuel gives the same
final state); it does so from every state of the parser and the generator.
Every iteration at a lookahead other than the end token leads, whether or not
parsing or generation fails, to a state that is one token or more further on
in the input, with less left to consume, from which the loop goes on. -/
theorem MainLoop_terminates (inp : List Nat) (v : Bool) :
    (∃ fuel r, MainLoop fuel v (Process.start inp) = some r ∧ r.parse.CurTok = tok_eof ∧
      ∀ fuel2, fuel ≤ fuel2 → MainLoop fuel2 v (Process.start inp) = some r) ∧
    (∀ fuel p r, MainLoop fuel v p = some r → r.parse.CurTok = tok_eof) ∧
    (∀ p : Process, ∃ fuel r, MainLoop fuel v p = some r) ∧
    (∀ p : Process, p.parse.CurTok ≠ tok_eof →
      ∃ f0 p1 n, 0 < n ∧ p1.parse.view = advance n p.parse.view ∧
        tokensLeft p1.parse.view < tokensLeft p.parse.view ∧
        ∀ fuel, f0 ≤ fuel → MainLoop (fuel + 1) v p = MainLoop fuel v p1) := by
  refine ⟨?_, MainLoop_returns_at_eof v, fun p => MainLoop_total v _ p (le_refl _), ?_⟩
  · obtain ⟨fuel, r, hr⟩ := MainLoop_total v _ (Process.start inp) (le_refl _)
    exact ⟨fuel, r, hr, MainLoop_returns_at_eof v _ _ _ hr,
      fun fuel2 h2 => MainLoop_mono v _ _ _ _ hr h2⟩
  · intro p hp
    obtain ⟨f0, p1, n, hn, hv, hstep⟩ := MainLoop_iteration v p hp
    refine ⟨f0, p1, n, hn, hv, ?_, hstep⟩
    rw [hv]
    exact tokensLeft_lt n p.parse.view hn hp

/-! ## Lookups leave the answers of the table unchanged -/

/-- A call of `GetTokPrecedence()` does not change what a later call
returns, whatever the table is and whatever the two tokens are. -/
theorem GetTokPrecedence_frame (s : State) (c t : Int) :
    (GetTokPrecedence { (GetTokPrecedence { s with CurTok := c }).2 with CurTok := t }).1 =
      (GetTokPrecedence { s with CurTok := t }).1 := by
  rw [GetTokPrecedence_fst, GetTokPrecedence_fst]
  simp only [GetTokPrecedence_lookup { s with CurTok := c } t]

theorem lookups_lookup : ∀ (toks : List Int) (s : State) (k : Int),
    ((lookups toks s).BinOpPrecedence.lookup k).getD 0 =
      (s.BinOpPrecedence.lookup k).getD 0 := by
  intro toks
  induction toks with
  | nil => intro s k; rfl
  | cons t rest ih =>
    intro s k
    rw [lookups, ih, GetTokPrecedence_lookup]

theorem lookups_frame (toks : List Int) (s : State) (t : Int) :
    (GetTokPrecedence { lookups toks s with CurTok := t }).1 =
      (GetTokPrecedence { s with CurTok := t }).1 := by
  rw [GetTokPrecedence_fst, GetTokPrecedence_fst]
  simp only [lookups_lookup toks s t]

/-- C37. After `install_binops()` (run, as in `main`, on the empty map), and
after any sequence of `GetTokPrecedence()` calls on arbitrary tokens, installed
or not, `GetTokPrecedence()` on a token `t` returns what it returns right after
`install_binops()`, the precedence of `t` in the default table. In every state
and for every two tokens, a lookup of the one does not change the result of a
later lookup of the other, nor do any number of lookups. (The map itself
grows: a lookup of a character without an entry inserts a zero entry.) -/
theorem BinOpPrecedence_read_only (s0 : State) (h0 : s0.BinOpPrecedence = [])
    (toks : List Int) (t : Int) :
    (GetTokPrecedence { lookups toks (install_binops s0) with CurTok := t }).1 =
      (GetTokPrecedence { install_binops s0 with CurTok := t }).1 ∧
    (GetTokPrecedence { lookups toks (install_binops s0) with CurTok := t }).1 = tokPrec t ∧
    (∀ (s : State) (c : Int),
      (GetTokPrecedence { (GetTokPrecedence { s with CurTok := c }).2 with CurTok := t }).1 =
        (GetTokPrecedence { s with CurTok := t }).1) ∧
    (∀ s : State, (GetTokPrecedence { lookups toks s with CurTok := t }).1 =
      (GetTokPrecedence { s with CurTok := t }).1) := by
  have h1 := lookups_frame toks (install_binops s0) t
  refine ⟨h1, ?_, fun s c => GetTokPrecedence_frame s c t, fun s => lookups_frame toks s t⟩
  rw [h1]
  exact Installed_install_binops s0 h0 t

/-- After lookups of `a`, `+`, the end token and `a` again, `*` still has
precedence 40 and `a` still has none, though the lookup of `a` has put an
entry for it into the map. -/
theorem BinOpPrecedence_read_only_witness :
    (State.init []).BinOpPrecedence = [] ∧
    (GetTokPrecedence { lookups [97, 43, -1, 97] (install_binops (State.init [])) with
        CurTok := 42 }).1 = 40 ∧
    (GetTokPrecedence { lookups [97, 43, -1, 97] (install_binops (State.init [])) with
        CurTok := 97 }).1 = -1 ∧
    (lookups [97] (install_binops (State.init []))).BinOpPrecedence =
      (97, 0) :: (install_binops (State.init [])).BinOpPrecedence :=
  ⟨rfl,
    ((BinOpPrecedence_read_only (State.init []) rfl [97, 43, -1, 97] 42).2.1).trans (by decide),
    ((BinOpPrecedence_read_only (State.init []) rfl [97, 43, -1, 97] 97).2.1).trans (by decide),
    by decide⟩

/-! ## The lookahead after an expression -/

theorem GetTokPrecedence_idem (s : State) :
    (GetTokPrecedence (GetTokPrecedence s).2).1 = (GetTokPrecedence s).1 := by
  rw [GetTokPrecedence_fst, GetTokPrecedence_fst (s), GetTokPrecedence_CurTok,
    GetTokPrecedence_lookup]

theorem GetTokPrecedence_range (s : State) :
    (GetTokPrecedence s).1 = -1 ∨ 0 < (GetTokPrecedence s).1 := by
  rw [GetTokPrecedence_fst]
  split
  · split
    · exact Or.inl rfl
    · right; omega
  · exact Or.inl rfl

/-- The loop of `ParseBinOpRHS` returns an expression only at a lookahead
whose precedence is below `ExprPrec`. -/
theorem ParseBinOpRHS_lookahead (f : Nat) :
    ∀ (p : Int) (LHS : ExprAST) (s : State) (e : ExprAST) (s1 : State),
      ParseBinOpRHS f p LHS s = some (some e, s1) → (GetTokPrecedence s1).1 < p := by
  induction f with
  | zero => intro p LHS s e s1 h; simp [ParseBinOpRHS] at h
  | succ f ih =>
    intro p LHS s e s1 h
    rw [ParseBinOpRHS] at h
    simp only [] at h
    by_cases hlt : (GetTokPrecedence s).1 < p
    · rw [if_pos hlt] at h
      simp only [Option.some.injEq, Prod.mk.injEq] at h
      rw [← h.2, GetTokPrecedence_idem]
      exact hlt
    · rw [if_neg hlt] at h
      cases hP : ParsePrimary f (getNextTok (GetTokPrecedence s).2) with
      | none => rw [hP] at h; simp at h
      | some x =>
        rw [hP] at h
        obtain ⟨o, s2⟩ := x
        cases o with
        | none => simp at h
        | some RHS =>
          simp only [] at h
          by_cases hnx : (GetTokPrecedence s).1 < (GetTokPrecedence s2).1
          · rw [if_pos hnx] at h
            cases hR : ParseBinOpRHS f ((GetTokPrecedence s).1 + 1) RHS
                (GetTokPrecedence s2).2 with
            | none => rw [hR] at h; simp at h
            | some y =>
              rw [hR] at h
              obtain ⟨o2, s3⟩ := y
              cases o2 with
              | none => simp at h
              | some RHS1 =>
                simp only [] at h
                exact ih _ _ _ _ _ h
          · rw [if_neg hnx] at h
            exact ih _ _ _ _ _ h

theorem tokPrec_neg (c : Int) (h : tokPrec c = -1) : c ∉ [60, 43, 45, 42, 47] := by
  intro hm
  simp only [List.mem_cons, List.mem_singleton, List.not_mem_nil, or_false] at hm
  rcases hm with e | e | e | e | e <;> (rw [e] at h; revert h; decide)

/-- C31. Whenever `ParseExpression` returns an expression, `GetTokPrecedence()`
returns -1 for the lookahead it leaves (whatever the table is), and one token
or more has been consumed. With the default table installed, the lookahead is
then none of the installed operator characters `<`, `+`, `-`, `*`, `/`. -/
theorem ParseExpression_lookahead (f : Nat) (s : State) (e : ExprAST) (s1 : State)
    (h : ParseExpression f s = some (some e, s1)) :
    (GetTokPrecedence s1).1 = -1 ∧
    (∃ n, 0 < n ∧ s1.view = advance n s.view) ∧
    (Installed s → tokPrec s1.CurTok = -1 ∧ s1.CurTok ∉ [60, 43, 45, 42, 47]) := by
  have hlook : (GetTokPrecedence s1).1 = -1 := by
    cases f with
    | zero => simp [ParseExpression] at h
    | succ f =>
      rw [ParseExpression] at h
      cases hP : ParsePrimary f s with
      | none => rw [hP] at h; simp at h
      | some x =>
        rw [hP] at h
        obtain ⟨o, s2⟩ := x
        cases o with
        | none => simp at h
        | some LHS =>
          simp only [] at h
          have := ParseBinOpRHS_lookahead f _ _ _ _ _ h
          rcases GetTokPrecedence_range s1 with h1 | h1
          · exact h1
          · omega
  refine ⟨hlook, ?_, ?_⟩
  · obtain ⟨n, hn, hpos⟩ := (parser_advance f).2.2.2.2.1 _ _ h
    exact ⟨n, (hpos rfl).1, hn⟩
  · intro hi
    have hi1 := ((parser_span f).2.2.2.2.1 s e s1 hi h).1
    have ht : tokPrec s1.CurTok = -1 := by
      rw [← GetTokPrecedence_installed s1 hi1]; exact hlook
    exact ⟨ht, tokPrec_neg _ ht⟩

/-- On the input `1+2)`, `ParseExpression` returns `1 + 2` and leaves the `)`
as lookahead, three tokens on. -/
theorem ParseExpression_lookahead_witness :
    ∃ e s1, ParseExpression 4 (State.start [49, 43, 50, 41]) = some (some e, s1) ∧
      s1.CurTok = 41 ∧ s1.view = advance 3 (State.start [49, 43, 50, 41]).view ∧
      ((GetTokPrecedence s1).1 = -1 ∧
        (∃ n, 0 < n ∧ s1.view = advance n (State.start [49, 43, 50, 41]).view) ∧
        (Installed (State.start [49, 43, 50, 41]) →
          tokPrec s1.CurTok = -1 ∧ s1.CurTok ∉ [60, 43, 45, 42, 47])) :=
  ⟨ExprAST.BinaryExprAST 43 (ExprAST.NumberExprAST [49]) (ExprAST.NumberExprAST [50]),
    ((ParseExpression 4 (State.start [49, 43, 50, 41])).getD (none, State.init [])).2,
    rfl, by decide, by decide,
    ParseExpression_lookahead 4 (State.start [49, 43, 50, 41]) _ _ rfl⟩

/-! ## The printed prototype -/

/-- The loop of `PrototypeAST::pretty_print` writes the separators as specified
when no name before the last one equals the last one. -/
theorem pretty_print_names_separated (last : List Int) :
    ∀ (names : List (List Int)), last ∉ names →
      pretty_print_names last (names ++ [last]) = separated (names ++ [last]) := by
  intro names
  induction names with
  | nil => intro _; simp [pretty_print_names, separated]
  | cons p rest ih =>
    intro h
    rw [List.mem_cons, not_or] at h
    have hp : p ≠ last := fun e => h.1 e.symm
    rw [List.cons_append, pretty_print_names, if_pos hp, ih h.2]
    cases rest with
    | nil => rfl
    | cons q rest1 => rfl

/-- C36 (the code departs from the claim). The line `extern f(a b a)` parses
to the prototype `f` with the parameter names `a`, `b`, `a`, and for it
`PrototypeAST::pretty_print` writes `Prototype: [f(ab, a)]`: no separator
follows the first `a`, because the loop compares each name with the last name
by value. The claim has `Prototype: [f(a, b, a)]`. -/
theorem PrototypeAST_pretty_print_repeated_name :
    (ParseExtern 5 (State.start externRepeated)).map (fun r => r.1) =
      some (some { Name := [102], Args := [[97], [98], [97]] }) ∧
    PrototypeAST.pretty_print { Name := [102], Args := [[97], [98], [97]] } "\n" =
      [Out.text "Prototype: [", Out.name [102], Out.text "(",
        Out.name [97], Out.name [98], Out.text ", ", Out.name [97],
        Out.text ")]", Out.text "\n"] ∧
    PrototypeAST.pretty_print { Name := [102], Args := [[97], [98], [97]] } "\n" ≠
      [Out.text "Prototype: [", Out.name [102], Out.text "("] ++
        separated [[97], [98], [97]] ++ [Out.text ")]", Out.text "\n"] ∧
    (MainLoop 8 true (Process.start externRepeated)).bind (fun p => p.out.get? 3) =
      some (Print.pretty
        [Out.text "Prototype: [", Out.name [102], Out.text "(",
          Out.name [97], Out.name [98], Out.text ", ", Out.name [97],
          Out.text ")]", Out.text "\n"]) :=
  ⟨by decide, by decide, by decide, rfl⟩

/-! ## Expression codegen succeeds on the well-formed expressions -/

/-- A lookup `NamedValues[k1]` binds no name and unbinds none. -/
theorem bound_namedIndex (nv : List (List Int × Option Value)) (k1 k : List Int) :
    bound (namedIndex nv k1).2 k = bound nv k := by
  unfold namedIndex
  cases h : namedFind k1 nv with
  | some v => rfl
  | none =>
    show bound ((k1, none) :: nv) k = bound nv k
    unfold bound
    by_cases e : k1 = k
    · rw [namedFind, if_pos e, ← e, h]
    · rw [namedFind, if_neg e]

mutual
/-- Expression codegen binds no name and unbinds none. -/
theorem codegen_bound : ∀ (e : ExprAST) (g : GenState) (k : List Int),
    bound (e.codegen g).2.NamedValues k = bound g.NamedValues k
  | .NumberExprAST _, g, k => by simp only [ExprAST.codegen]
  | .VariableExprAST x, g, k => by
    have h := bound_namedIndex g.NamedValues x k
    simp only [ExprAST.codegen]
    split <;> exact h
  | .BinaryExprAST Op l r, g, k => by
    have hl := codegen_bound l g k
    have hr := codegen_bound r (l.codegen g).2 k
    simp only [ExprAST.codegen]
    split
    · split
      · rw [hr, hl]
      · split
        · rw [hr, hl]
        · split
          · rw [hr, hl]
          · split
            · rw [hr, hl]
            · show bound (r.codegen (l.codegen g).2).2.NamedValues k = _
              rw [hr, hl]
    · rw [hr, hl]
  | .CallExprAST c args, g, k => by
    have ha := codegenArgs_bound args [] g k
    simp only [ExprAST.codegen]
    split
    · rfl
    · split
      · rfl
      · split
        · rename_i h; rw [h] at ha; exact ha
        · rename_i h; rw [h] at ha; exact ha
theorem codegenArgs_bound : ∀ (es : List ExprAST) (acc : List Value) (g : GenState)
    (k : List Int), bound (codegenArgs es acc g).2.NamedValues k = bound g.NamedValues k
  | [], acc, g, k => by simp only [codegenArgs]
  | a :: rest, acc, g, k => by
    have ha := codegen_bound a g k
    simp only [codegenArgs]
    split
    · rename_i h; rw [h] at ha; exact ha
    · rename_i V g1 h
      rw [h] at ha
      rw [codegenArgs_bound rest (acc ++ [V]) g1 k]; exact ha
end

mutual
/-- Well-formedness depends on the symbol table through the bound names only. -/
theorem wellFormed_congr (m : List LLVMFunction) (nv1 nv2 : List (List Int × Option Value))
    (h : ∀ k, bound nv1 k = bound nv2 k) :
    ∀ e : ExprAST, e.wellFormed m nv1 = e.wellFormed m nv2
  | .NumberExprAST _ => by simp only [ExprAST.wellFormed]
  | .VariableExprAST x => by simp only [ExprAST.wellFormed, h x]
  | .BinaryExprAST Op l r => by
    simp only [ExprAST.wellFormed, wellFormed_congr m nv1 nv2 h l, wellFormed_congr m nv1 nv2 h r]
  | .CallExprAST c args => by
    simp only [ExprAST.wellFormed, wellFormedArgs_congr m nv1 nv2 h args]
theorem wellFormedArgs_congr (m : List LLVMFunction) (nv1 nv2 : List (List Int × Option Value))
    (h : ∀ k, bound nv1 k = bound nv2 k) :
    ∀ es : List ExprAST, wellFormedArgs m nv1 es = wellFormedArgs m nv2 es
  | [] => by simp only [wellFormedArgs]
  | a :: rest => by
    simp only [wellFormedArgs, wellFormed_congr m nv1 nv2 h a,
      wellFormedArgs_congr m nv1 nv2 h rest]
end

mutual
theorem codegen_isSome : ∀ (e : ExprAST) (g : GenState),
    (e.codegen g).1.isSome = e.wellFormed g.TheModule g.NamedValues
  | .NumberExprAST _, g => by simp only [ExprAST.codegen, ExprAST.wellFormed, Option.isSome_some]
  | .VariableExprAST x, g => by
    simp only [ExprAST.codegen, ExprAST.wellFormed, bound, namedIndex]
    cases h : namedFind x g.NamedValues with
    | none => rfl
    | some v => cases v <;> rfl
  | .BinaryExprAST Op l r, g => by
    have hl := codegen_isSome l g
    have hr := codegen_isSome r (l.codegen g).2
    rw [codegen_TheModule l g,
      wellFormed_congr g.TheModule _ g.NamedValues (codegen_bound l g) r] at hr
    simp only [ExprAST.wellFormed]
    rw [← hl, ← hr]
    simp only [ExprAST.codegen]
    cases hL : (l.codegen g).1 with
    | none => simp
    | some L =>
      cases hR : (r.codegen (l.codegen g).2).1 with
      | none => simp
      | some R =>
        by_cases h1 : Op = 43
        · simp [h1]
        · by_cases h2 : Op = 45
          · simp [h2]
          · by_cases h3 : Op = 42
            · simp [h3]
            · by_cases h4 : Op = 60
              · simp [h4]
              · simp [h1, h2, h3, h4]
  | .CallExprAST c args, g => by
    have ha := codegenArgs_isSome args [] g
    simp only [ExprAST.codegen, ExprAST.wellFormed]
    cases hF : getFunction g.TheModule c with
    | none => rfl
    | some F =>
      simp only []
      by_cases hlen : F.Args.length = args.length
      · rw [← ha]
        cases hA : codegenArgs args [] g with
        | mk o g1 => cases o <;> simp [hlen]
      · simp [hlen]
theorem codegenArgs_isSome : ∀ (es : List ExprAST) (acc : List Value) (g : GenState),
    (codegenArgs es acc g).1.isSome = wellFormedArgs g.TheModule g.NamedValues es
  | [], acc, g => by simp only [codegenArgs, wellFormedArgs, Option.isSome_some]
  | a :: rest, acc, g => by
    have ha := codegen_isSome a g
    simp only [codegenArgs, wellFormedArgs]
    rw [← ha]
    cases hA : a.codegen g with
    | mk o g1 =>
      cases o with
      | none => simp
      | some V =>
        have hr := codegenArgs_isSome rest (acc ++ [V]) g1
        have hm := codegen_TheModule a g
        have hb := codegen_bound a g
        rw [hA] at hm hb
        simp only [] at hm hb
        rw [hm, wellFormedArgs_congr g.TheModule _ g.NamedValues hb rest] at hr
        simp [hr]
end

/-- A symbol table as `FunctionAST::codegen` fills it holds no null pointer;
in such a table the bound names are the names with an entry. -/
theorem bound_of_no_null : ∀ (nv : List (List Int × Option Value)) (k : List Int),
    (∀ p ∈ nv, p.2 ≠ none) → bound nv k = (namedFind k nv).isSome := by
  intro nv k h
  induction nv with
  | nil => rfl
  | cons p rest ih =>
    have ih1 := ih (fun q hq => h q (List.mem_cons_of_mem _ hq))
    unfold bound at ih1 ⊢
    rw [namedFind]
    by_cases e : p.1 = k
    · rw [if_pos e]
      have := h p (List.mem_cons_self _ _)
      cases hp : p.2 with
      | none => exact absurd hp this
      | some V => rfl
    · rw [if_neg e]; exact ih1

/-- C33. In every state of the generator, codegen of an expression returns a
value exactly when the expression is well-formed for the module and the symbol
table of that state, in the recursive sense of `ExprAST.wellFormed`: a number
always; a variable when the symbol table has a value for its name; a binary
operation when both children are well-formed and the operator is `+`, `-`,
`*` or `<`; a call when `getFunction` finds the callee, the number of
arguments is the number of its parameters and every argument is well-formed. -/
theorem codegen_succeeds_iff_wellFormed (e : ExprAST) (g : GenState) :
    (e.codegen g).1.isSome = e.wellFormed g.TheModule g.NamedValues :=
  codegen_isSome e g

/-! ## A definition stays in the module -/

theorem hasBody_iff (m : List LLVMFunction) (f : List Int) :
    hasBody m f = true ↔ ∃ F, getFunction m f = some F ∧ F.Body.isSome = true := by
  unfold hasBody
  cases h : getFunction m f with
  | none => simp
  | some F => simp

theorem getFunction_setBody_other (f k : List Int) (b : Block) (h : k ≠ f) :
    ∀ m : List LLVMFunction, getFunction (setBody m f b) k = getFunction m k := by
  intro m
  induction m with
  | nil => rfl
  | cons x xs ih =>
    unfold getFunction at ih ⊢
    rw [setBody]
    by_cases hx : x.Name = f
    · have hk : ¬ x.Name = k := fun e => h (e.symm.trans hx)
      rw [if_pos hx, List.find?_cons_of_neg _ (by simpa using hk),
        List.find?_cons_of_neg _ (by simpa using hk)]
    · rw [if_neg hx]
      by_cases hk : x.Name = k
      · rw [List.find?_cons_of_pos _ (by simpa using hk),
          List.find?_cons_of_pos _ (by simpa using hk)]
      · rw [List.find?_cons_of_neg _ (by simpa using hk),
          List.find?_cons_of_neg _ (by simpa using hk), ih]

theorem getFunction_eraseFromParent_other (f k : List Int) (h : k ≠ f) :
    ∀ m : List LLVMFunction, getFunction (eraseFromParent m f) k = getFunction m k := by
  intro m
  induction m with
  | nil => rfl
  | cons x xs ih =>
    unfold getFunction at ih ⊢
    rw [eraseFromParent]
    by_cases hx : x.Name = f
    · have hk : ¬ x.Name = k := fun e => h (e.symm.trans hx)
      rw [if_pos hx, List.find?_cons_of_neg _ (by simpa using hk)]
    · rw [if_neg hx]
      by_cases hk : x.Name = k
      · rw [List.find?_cons_of_pos _ (by simpa using hk),
          List.find?_cons_of_pos _ (by simpa using hk)]
      · rw [List.find?_cons_of_neg _ (by simpa using hk),
          List.find?_cons_of_neg _ (by simpa using hk), ih]

theorem getFunction_append_some (m : List LLVMFunction) (F G : LLVMFunction) (k : List Int)
    (h : getFunction m k = some G) : getFunction (m ++ [F]) k = some G := by
  unfold getFunction at h ⊢
  rw [List.find?_append, h]
  rfl

/-- A function with a body under the name of a definition: the definition is
rejected and the state is the one before with the message added. -/
theorem FunctionAST_codegen_rejected (Fn : FunctionAST) (g : GenState)
    (h : hasBody g.TheModule Fn.Proto.Name = true) :
    Fn.codegen g = (none, LogErrorV g "Function can't be redefined.") := by
  obtain ⟨F, hF, hb⟩ := (hasBody_iff _ _).mp h
  simp only [FunctionAST.codegen, hF, hb, if_true]

/-- A function that `FunctionAST::codegen` returns has the name of the
prototype, and the module then has it with a body under that name. -/
theorem FunctionAST_codegen_defined (Fn : FunctionAST) (g : GenState) (F : LLVMFunction)
    (h : (Fn.codegen g).1 = some F) :
    F.Name = Fn.Proto.Name ∧ hasBody (Fn.codegen g).2.TheModule Fn.Proto.Name = true := by
  by_cases hnb : ∀ F, getFunction g.TheModule Fn.Proto.Name = some F → F.Body = none
  · obtain ⟨T, gP, _, _, hname, hfind, _, _, hsome, hnone⟩ := FunctionAST_codegen_cases Fn g hnb
    have hmod := codegen_TheModule Fn.Body ⟨setBody gP.TheModule T.Name Block.entry,
      bindArgs T.Name T.Args 0 [], gP.diag, gP.LastUnique⟩
    cases hB : Fn.Body.codegen ⟨setBody gP.TheModule T.Name Block.entry,
        bindArgs T.Name T.Args 0 [], gP.diag, gP.LastUnique⟩ with
    | mk r g3 =>
      rw [hB] at hmod
      cases r with
      | none => rw [hnone g3 hB] at h; exact Option.noConfusion h
      | some RetVal =>
        rw [hsome RetVal g3 hB] at h ⊢
        have hF : F = { T with Body := some (Block.ret RetVal) } := (Option.some.inj h).symm
        refine ⟨by rw [hF]; exact hname, ?_⟩
        show hasBody (setBody g3.TheModule T.Name (Block.ret RetVal)) Fn.Proto.Name = true
        rw [hasBody_iff, hmod, hname]
        show ∃ F, getFunction (setBody (setBody gP.TheModule Fn.Proto.Name Block.entry)
          Fn.Proto.Name (Block.ret RetVal)) Fn.Proto.Name = some F ∧ F.Body.isSome = true
        exact ⟨_, getFunction_setBody _ _ _ _ (getFunction_setBody _ _ _ _ hfind), rfl⟩
  · push_neg at hnb
    obtain ⟨F1, hF1, hb⟩ := hnb
    have hh : hasBody g.TheModule Fn.Proto.Name = true := by
      rw [hasBody_iff]
      refine ⟨F1, hF1, ?_⟩
      cases hB : F1.Body with
      | none => exact absurd hB hb
      | some b => rfl
    rw [FunctionAST_codegen_rejected Fn g hh] at h
    exact Option.noConfusion h

/-- Codegen of a function leaves what `getFunction` finds for a name under
which the module has a function with a body. -/
theorem FunctionAST_codegen_keeps (Fn : FunctionAST) (g : GenState) (f : List Int)
    (h : hasBody g.TheModule f = true) :
    getFunction (Fn.codegen g).2.TheModule f = getFunction g.TheModule f := by
  by_cases e : Fn.Proto.Name = f
  · rw [FunctionAST_codegen_rejected Fn g (by rw [e]; exact h)]
    rfl
  · have e1 : f ≠ Fn.Proto.Name := fun x => e x.symm
    by_cases hnb : ∀ F, getFunction g.TheModule Fn.Proto.Name = some F → F.Body = none
    · obtain ⟨T, gP, hcase, _, hname, _, _, _, hsome, hnone⟩ := FunctionAST_codegen_cases Fn g hnb
      obtain ⟨G, hG, _⟩ := (hasBody_iff _ _).mp h
      have hP : getFunction gP.TheModule f = getFunction g.TheModule f := by
        rcases hcase with ⟨_, h2⟩ | ⟨_, _, h3, _⟩
        · rw [h2]
        · rw [h3, hG]; exact getFunction_append_some _ _ _ _ hG
      have hmod := codegen_TheModule Fn.Body ⟨setBody gP.TheModule T.Name Block.entry,
        bindArgs T.Name T.Args 0 [], gP.diag, gP.LastUnique⟩
      rw [← hname] at e1
      cases hB : Fn.Body.codegen ⟨setBody gP.TheModule T.Name Block.entry,
          bindArgs T.Name T.Args 0 [], gP.diag, gP.LastUnique⟩ with
      | mk r g3 =>
        rw [hB] at hmod
        cases r with
        | some RetVal =>
          rw [hsome RetVal g3 hB]
          show getFunction (setBody g3.TheModule T.Name (Block.ret RetVal)) f = _
          rw [getFunction_setBody_other _ _ _ e1, hmod]
          show getFunction (setBody gP.TheModule T.Name Block.entry) f = _
          rw [getFunction_setBody_other _ _ _ e1, hP]
        | none =>
          rw [hnone g3 hB]
          show getFunction (eraseFromParent g3.TheModule T.Name) f = _
          rw [getFunction_eraseFromParent_other _ _ e1, hmod]
          show getFunction (setBody gP.TheModule T.Name Block.entry) f = _
          rw [getFunction_setBody_other _ _ _ e1, hP]
    · push_neg at hnb
      obtain ⟨F1, hF1, hb⟩ := hnb
      have hh : hasBody g.TheModule Fn.Proto.Name = true := by
        rw [hasBody_iff]
        refine ⟨F1, hF1, ?_⟩
        cases hB : F1.Body with
        | none => exact absurd hB hb
        | some b => rfl
      rw [FunctionAST_codegen_rejected Fn g hh]
      rfl

/-- Codegen of a prototype leaves what `getFunction` finds for a name that the
module has, and the function it adds has another name. -/
theorem PrototypeAST_codegen_keeps (P : PrototypeAST) (g : GenState) (f : List Int)
    (G : LLVMFunction) (h : getFunction g.TheModule f = some G) :
    getFunction (P.codegen g).2.TheModule f = some G ∧
    ∀ F, (P.codegen g).1 = some F → F.Name ≠ f := by
  obtain ⟨F, hP, hfresh, _⟩ := PrototypeAST_codegen_eq P g
  rw [hP]
  refine ⟨getFunction_append_some _ _ _ _ h, ?_⟩
  intro F1 h1 e
  have : F = F1 := Option.some.inj h1
  rw [this, e] at hfresh
  have hn : getFunction g.TheModule f ≠ none := by rw [h]; exact Option.noConfusion
  exact hn ((getFunction_none _ _).mpr hfresh)

theorem hasBody_congr (m1 m2 : List LLVMFunction) (f : List Int)
    (h : getFunction m1 f = getFunction m2 f) : hasBody m1 f = hasBody m2 f := by
  unfold hasBody
  rw [h]

/-- A call of `codegen()` keeps a definition that the module has. -/
theorem Gen_run_keeps (c : Gen) (g : GenState) (f : List Int)
    (h : hasBody g.TheModule f = true) : hasBody (c.run g).TheModule f = true := by
  cases c with
  | defn Fn =>
    rw [← h]
    exact hasBody_congr _ _ _ (FunctionAST_codegen_keeps Fn g f h)
  | decl P =>
    obtain ⟨G, hG, hb⟩ := (hasBody_iff _ _).mp h
    rw [hasBody_iff]
    exact ⟨G, (PrototypeAST_codegen_keeps P g f G hG).1, hb⟩

/-- A sequence of calls of `codegen()` keeps a definition that the module has. -/
theorem runGen_keeps (f : List Int) : ∀ (calls : List Gen) (g : GenState),
    hasBody g.TheModule f = true → hasBody (runGen calls g).TheModule f = true := by
  intro calls
  induction calls with
  | nil => intro g h; exact h
  | cons c rest ih => intro g h; exact ih _ (Gen_run_keeps c g f h)

theorem NoAnonIR_refl (out : List Print) : NoAnonIR out out :=
  ⟨[], (List.append_nil _).symm, fun _ h => absurd h (List.not_mem_nil _)⟩

theorem NoAnonIR_trans (o1 o2 o3 : List Print) (h1 : NoAnonIR o1 o2) (h2 : NoAnonIR o2 o3) :
    NoAnonIR o1 o3 := by
  obtain ⟨e1, h1, k1⟩ := h1
  obtain ⟨e2, h2, k2⟩ := h2
  refine ⟨e1 ++ e2, by rw [h2, h1, List.append_assoc], ?_⟩
  intro F hF
  rcases List.mem_append.mp hF with h | h
  · exact k1 F h
  · exact k2 F h

theorem NoAnonIR_prompt (out : List Print) : NoAnonIR out (out ++ [Print.prompt]) :=
  ⟨[Print.prompt], rfl, fun F h => by simp at h⟩

/-- What a handler writes after a parse when codegen returns `nullptr`: the
status line, and the pretty-printed tree when asked for. -/
theorem NoAnonIR_status (out : List Print) (line : String) (v : Bool) (items : List Out) :
    NoAnonIR out (out ++ [Print.status line] ++ (if v then [Print.pretty items] else [])) := by
  refine ⟨[Print.status line] ++ (if v then [Print.pretty items] else []),
    by simp only [List.append_assoc], ?_⟩
  intro F hF
  cases v <;> simp at hF

/-- What a handler writes after a parse when codegen returns a function: the
IR of that function also. -/
theorem NoAnonIR_IR (out : List Print) (line : String) (v : Bool) (items : List Out)
    (IR : LLVMFunction) (hr : IR.Name ≠ str_anon) :
    NoAnonIR out (out ++ [Print.status line] ++ (if v then [Print.pretty items] else []) ++
      [Print.IR IR]) := by
  refine ⟨[Print.status line] ++ (if v then [Print.pretty items] else []) ++ [Print.IR IR],
    by simp only [List.append_assoc], ?_⟩
  intro F hF
  have : F = IR := by cases v <;> simpa using hF
  rw [this]
  exact hr

/-- With `__anon_expr` defined, codegen of a function keeps it defined and
returns no function of that name. -/
theorem FunctionAST_codegen_anon (Fn : FunctionAST) (g : GenState)
    (h : hasBody g.TheModule str_anon = true) :
    hasBody (Fn.codegen g).2.TheModule str_anon = true ∧
    ∀ F, (Fn.codegen g).1 = some F → F.Name ≠ str_anon := by
  refine ⟨Gen_run_keeps (Gen.defn Fn) g str_anon h, ?_⟩
  intro F hF e
  have hn := (FunctionAST_codegen_defined Fn g F hF).1
  rw [e] at hn
  rw [FunctionAST_codegen_rejected Fn g (by rw [← hn]; exact h)] at hF
  exact Option.noConfusion hF

/-- With `__anon_expr` defined, codegen of a prototype keeps it defined and
returns a function of another name. -/
theorem PrototypeAST_codegen_anon (P : PrototypeAST) (g : GenState)
    (h : hasBody g.TheModule str_anon = true) :
    hasBody (P.codegen g).2.TheModule str_anon = true ∧
    ∀ F, (P.codegen g).1 = some F → F.Name ≠ str_anon := by
  obtain ⟨G, hG, _⟩ := (hasBody_iff _ _).mp h
  exact ⟨Gen_run_keeps (Gen.decl P) g str_anon h, (PrototypeAST_codegen_keeps P g _ G hG).2⟩

theorem HandleDefn_anon (fuel : Nat) (v : Bool) (p p1 : Process)
    (h : hasBody p.gen.TheModule str_anon = true) (hH : HandleDefn fuel v p = some p1) :
    hasBody p1.gen.TheModule str_anon = true ∧ NoAnonIR p.out p1.out := by
  unfold HandleDefn at hH
  cases hp : ParseDefn fuel p.parse with
  | none => rw [hp] at hH; simp at hH
  | some x =>
    obtain ⟨o, s1⟩ := x
    rw [hp] at hH
    cases o with
    | none =>
      simp only [Option.some.injEq] at hH
      rw [← hH]
      exact ⟨h, NoAnonIR_refl _⟩
    | some AST =>
      simp only [] at hH
      obtain ⟨hk, hn⟩ := FunctionAST_codegen_anon AST p.gen h
      cases hg : AST.codegen p.gen with
      | mk r g1 =>
        rw [hg] at hH hk hn
        cases r with
        | none =>
          simp only [Option.some.injEq] at hH
          rw [← hH]
          exact ⟨hk, NoAnonIR_status p.out "Parsed a function definition.\n" v (AST.pretty_print "\n")⟩
        | some IR =>
          simp only [Option.some.injEq] at hH
          rw [← hH]
          exact ⟨hk, NoAnonIR_IR p.out "Parsed a function definition.\n" v (AST.pretty_print "\n") IR
            (hn IR rfl)⟩

theorem HandleExtern_anon (fuel : Nat) (v : Bool) (p p1 : Process)
    (h : hasBody p.gen.TheModule str_anon = true) (hH : HandleExtern fuel v p = some p1) :
    hasBody p1.gen.TheModule str_anon = true ∧ NoAnonIR p.out p1.out := by
  unfold HandleExtern at hH
  cases hp : ParseExtern fuel p.parse with
  | none => rw [hp] at hH; simp at hH
  | some x =>
    obtain ⟨o, s1⟩ := x
    rw [hp] at hH
    cases o with
    | none =>
      simp only [Option.some.injEq] at hH
      rw [← hH]
      exact ⟨h, NoAnonIR_refl _⟩
    | some AST =>
      simp only [] at hH
      obtain ⟨hk, hn⟩ := PrototypeAST_codegen_anon AST p.gen h
      cases hg : AST.codegen p.gen with
      | mk r g1 =>
        rw [hg] at hH hk hn
        cases r with
        | none =>
          simp only [Option.some.injEq] at hH
          rw [← hH]
          exact ⟨hk, NoAnonIR_status p.out "Parsed an extern\n" v (AST.pretty_print "\n")⟩
        | some IR =>
          simp only [Option.some.injEq] at hH
          rw [← hH]
          exact ⟨hk, NoAnonIR_IR p.out "Parsed an extern\n" v (AST.pretty_print "\n") IR
            (hn IR rfl)⟩

theorem HandleTopLevelExpr_anon (fuel : Nat) (v : Bool) (p p1 : Process)
    (h : hasBody p.gen.TheModule str_anon = true) (hH : HandleTopLevelExpr fuel v p = some p1) :
    hasBody p1.gen.TheModule str_anon = true ∧ NoAnonIR p.out p1.out := by
  unfold HandleTopLevelExpr at hH
  cases hp : ParseTopLevelExpr fuel p.parse with
  | none => rw [hp] at hH; simp at hH
  | some x =>
    obtain ⟨o, s1⟩ := x
    rw [hp] at hH
    cases o with
    | none =>
      simp only [Option.some.injEq] at hH
      rw [← hH]
      exact ⟨h, NoAnonIR_refl _⟩
    | some AST =>
      simp only [] at hH
      obtain ⟨hk, hn⟩ := FunctionAST_codegen_anon AST p.gen h
      cases hg : AST.codegen p.gen with
      | mk r g1 =>
        rw [hg] at hH hk hn
        cases r with
        | none =>
          simp only [Option.some.injEq] at hH
          rw [← hH]
          exact ⟨hk, NoAnonIR_status p.out "Parsed a top-level expr\n" v (AST.pretty_print "\n")⟩
        | some IR =>
          simp only [Option.some.injEq] at hH
          rw [← hH]
          exact ⟨hk, NoAnonIR_IR p.out "Parsed a top-level expr\n" v (AST.pretty_print "\n") IR
            (hn IR rfl)⟩

/-- With `__anon_expr` defined when the loop is entered, it is defined when
the loop returns, and the loop has printed the IR of no function of that name. -/
theorem MainLoop_anon (v : Bool) : ∀ (fuel : Nat) (p p1 : Process),
    hasBody p.gen.TheModule str_anon = true → MainLoop fuel v p = some p1 →
      hasBody p1.gen.TheModule str_anon = true ∧ NoAnonIR p.out p1.out := by
  intro fuel
  induction fuel with
  | zero => intro p p1 _ hM; simp [MainLoop] at hM
  | succ fuel ih =>
    intro p p1 h hM
    rw [MainLoop] at hM
    simp only [] at hM
    have hpr := NoAnonIR_prompt p.out
    by_cases h1 : p.parse.CurTok = tok_eof
    · rw [if_pos h1] at hM
      rw [← Option.some.inj hM]
      exact ⟨h, hpr⟩
    · rw [if_neg h1] at hM
      by_cases h2 : p.parse.CurTok = 59
      · rw [if_pos h2] at hM
        obtain ⟨hk, hw⟩ := ih ⟨getNextTok p.parse, p.gen, p.out ++ [Print.prompt]⟩ p1 h hM
        exact ⟨hk, NoAnonIR_trans _ _ _ hpr hw⟩
      · rw [if_neg h2] at hM
        by_cases h3 : p.parse.CurTok = tok_gate
        · rw [if_pos h3] at hM
          cases hH : HandleDefn fuel v { p with out := p.out ++ [Print.prompt] } with
          | none => rw [hH] at hM; simp at hM
          | some p2 =>
            rw [hH] at hM
            obtain ⟨hk2, hw2⟩ := HandleDefn_anon fuel v
                ⟨p.parse, p.gen, p.out ++ [Print.prompt]⟩ p2 h hH
            obtain ⟨hk, hw⟩ := ih p2 p1 hk2 hM
            exact ⟨hk, NoAnonIR_trans _ _ _ hpr (NoAnonIR_trans _ _ _ hw2 hw)⟩
        · rw [if_neg h3] at hM
          by_cases h4 : p.parse.CurTok = tok_extern
          · rw [if_pos h4] at hM
            cases hH : HandleExtern fuel v { p with out := p.out ++ [Print.prompt] } with
            | none => rw [hH] at hM; simp at hM
            | some p2 =>
              rw [hH] at hM
              obtain ⟨hk2, hw2⟩ := HandleExtern_anon fuel v
                ⟨p.parse, p.gen, p.out ++ [Print.prompt]⟩ p2 h hH
              obtain ⟨hk, hw⟩ := ih p2 p1 hk2 hM
              exact ⟨hk, NoAnonIR_trans _ _ _ hpr (NoAnonIR_trans _ _ _ hw2 hw)⟩
          · rw [if_neg h4] at hM
            cases hH : HandleTopLevelExpr fuel v { p with out := p.out ++ [Print.prompt] } with
            | none => rw [hH] at hM; simp at hM
            | some p2 =>
              rw [hH] at hM
              obtain ⟨hk2, hw2⟩ := HandleTopLevelExpr_anon fuel v
                ⟨p.parse, p.gen, p.out ++ [Print.prompt]⟩ p2 h hH
              obtain ⟨hk, hw⟩ := ih p2 p1 hk2 hM
              exact ⟨hk, NoAnonIR_trans _ _ _ hpr (NoAnonIR_trans _ _ _ hw2 hw)⟩

/-- C35. Once `FunctionAST::codegen` has returned a function for the anonymous
function `__anon_expr` of a top-level expression, the module has `__anon_expr`
with a body, and keeps it through every sequence of later `codegen()` calls of
functions and prototypes: after any such sequence, codegen of the anonymous
function of any expression returns `nullptr` with the message
"Function can't be redefined." and changes nothing else. In the driver: from
any state of `MainLoop` with that generator state, the loop returns with
`__anon_expr` still defined and has printed the IR of no function of that
name. -/
theorem anon_expr_defined_once (E : ExprAST) (g : GenState) (F : LLVMFunction)
    (h : ((anonFunction E).codegen g).1 = some F) :
    hasBody ((anonFunction E).codegen g).2.TheModule str_anon = true ∧
    (∀ (calls : List Gen) (E1 : ExprAST),
      hasBody (runGen calls ((anonFunction E).codegen g).2).TheModule str_anon = true ∧
      (anonFunction E1).codegen (runGen calls ((anonFunction E).codegen g).2) =
        (none, LogErrorV (runGen calls ((anonFunction E).codegen g).2)
          "Function can't be redefined.")) ∧
    (∀ (fuel : Nat) (v : Bool) (p p1 : Process), p.gen = ((anonFunction E).codegen g).2 →
      MainLoop fuel v p = some p1 →
        hasBody p1.gen.TheModule str_anon = true ∧ NoAnonIR p.out p1.out) := by
  have h0 : hasBody ((anonFunction E).codegen g).2.TheModule str_anon = true :=
    (FunctionAST_codegen_defined (anonFunction E) g F h).2
  refine ⟨h0, ?_, ?_⟩
  · intro calls E1
    have hk := runGen_keeps str_anon calls _ h0
    exact ⟨hk, FunctionAST_codegen_rejected (anonFunction E1) _ hk⟩
  · intro fuel v p p1 hp hM
    exact MainLoop_anon v fuel p p1 (by rw [hp]; exact h0) hM

/-- On the input `1;2;` the first expression is generated and the second is
rejected: the loop returns with one function in the module, the one message,
and one IR printed. After the first, and also after a later `extern f(a)`,
the expression `2` is rejected. -/
theorem anon_expr_defined_once_witness :
    ((anonFunction (ExprAST.NumberExprAST [49])).codegen GenState.init).1 =
      some { Name := str_anon, Args := [], Body := some (Block.ret (Value.ConstantFP [49])) } ∧
    (MainLoop 6 false (Process.start twoExpressions)).map
        (fun p => (p.gen.TheModule.length, p.gen.diag)) =
      some (1, [Diag.LogError "Function can't be redefined."]) ∧
    (anonFunction (ExprAST.NumberExprAST [50])).codegen
        (runGen [Gen.decl externF]
          ((anonFunction (ExprAST.NumberExprAST [49])).codegen GenState.init).2) =
      (none, LogErrorV (runGen [Gen.decl externF]
          ((anonFunction (ExprAST.NumberExprAST [49])).codegen GenState.init).2)
        "Function can't be redefined.") :=
  ⟨rfl, by decide,
    ((anon_expr_defined_once (ExprAST.NumberExprAST [49]) GenState.init _ rfl).2.1
      [Gen.decl externF] (ExprAST.NumberExprAST [50])).2⟩

/-! ## The module after a failed definition -/

/-- In a module whose names are unique, a function of the module is the one
that `getFunction` finds for its name. -/
theorem getFunction_of_mem (f : List Int) : ∀ (m : List LLVMFunction) (F : LLVMFunction),
    (m.map (fun F => F.Name)).Nodup → F ∈ m → F.Name = f → getFunction m f = some F := by
  intro m
  induction m with
  | nil => intro F _ h; exact absurd h (List.not_mem_nil _)
  | cons x xs ih =>
    intro F hnd hF hn
    rw [List.map_cons, List.nodup_cons] at hnd
    unfold getFunction at ih ⊢
    rcases List.mem_cons.mp hF with e | hmem
    · rw [← e, List.find?_cons_of_pos _ (by simpa using hn)]
    · have hx : ¬ x.Name = f := by
        intro e
        apply hnd.1
        rw [e, ← hn]
        exact List.mem_map_of_mem _ hmem
      rw [List.find?_cons_of_neg _ (by simpa using hx)]
      exact ih F hnd.2 hmem hn

/-- Filtering a module leaves what `getFunction` finds for a name whose
functions are all kept. -/
theorem getFunction_filter_keeps (q : LLVMFunction → Bool) (k : List Int) :
    ∀ m : List LLVMFunction, (∀ F, F.Name = k → q F = true) →
      getFunction (m.filter q) k = getFunction m k := by
  intro m hq
  induction m with
  | nil => rfl
  | cons x xs ih =>
    unfold getFunction at ih ⊢
    by_cases hx : x.Name = k
    · rw [List.filter_cons_of_pos (hq x hx), List.find?_cons_of_pos _ (by simpa using hx),
        List.find?_cons_of_pos _ (by simpa using hx)]
    · rw [List.find?_cons_of_neg _ (by simpa using hx)]
      by_cases hkeep : q x = true
      · rw [List.filter_cons_of_pos hkeep, List.find?_cons_of_neg _ (by simpa using hx)]
        exact ih
      · rw [List.filter_cons_of_neg hkeep]
        exact ih

/-- In a module whose names are unique, when the body of a definition fails to
generate, the module is left with the functions of the other names. -/
theorem FunctionAST_codegen_failure_filter (Fn : FunctionAST) (g : GenState)
    (hnd : (g.TheModule.map (fun F => F.Name)).Nodup)
    (hnb : ∀ F, getFunction g.TheModule Fn.Proto.Name = some F → F.Body = none)
    (hfail : (Fn.codegen g).1 = none) :
    (Fn.codegen g).2.TheModule =
      g.TheModule.filter (fun F => !decide (F.Name = Fn.Proto.Name)) := by
  obtain ⟨T, gP, hcase, _, hname, _, _, _, hsome, hnone⟩ := FunctionAST_codegen_cases Fn g hnb
  have hP : (gP.TheModule.map (fun F => F.Name)).Nodup := by
    rcases hcase with ⟨_, h2⟩ | ⟨_, h2, _⟩
    · rw [h2]; exact hnd
    · have := PrototypeAST_codegen_unique Fn.Proto g hnd
      rw [h2] at this
      exact this
  have hothers : gP.TheModule.filter (fun F => !decide (F.Name = Fn.Proto.Name)) =
      g.TheModule.filter (fun F => !decide (F.Name = Fn.Proto.Name)) := by
    rcases hcase with ⟨_, h2⟩ | ⟨_, _, h3, _⟩
    · rw [h2]
    · rw [h3, List.filter_append, List.filter_cons_of_neg (by simpa using hname)]
      simp
  have hmod := codegen_TheModule Fn.Body ⟨setBody gP.TheModule T.Name Block.entry,
    bindArgs T.Name T.Args 0 [], gP.diag, gP.LastUnique⟩
  cases hB : Fn.Body.codegen ⟨setBody gP.TheModule T.Name Block.entry,
      bindArgs T.Name T.Args 0 [], gP.diag, gP.LastUnique⟩ with
  | mk r g3 =>
    rw [hB] at hmod
    cases r with
    | some RetVal =>
      rw [hsome RetVal g3 hB] at hfail
      exact Option.noConfusion hfail
    | none =>
      have hnd3 : (g3.TheModule.map (fun F => F.Name)).Nodup := by
        rw [hmod]
        show ((setBody gP.TheModule T.Name Block.entry).map _).Nodup
        rw [setBody_names]; exact hP
      rw [hnone g3 hB]
      show eraseFromParent g3.TheModule T.Name = _
      rw [eraseFromParent_unique T.Name g3.TheModule hnd3, hmod, hname]
      show (setBody gP.TheModule Fn.Proto.Name Block.entry).filter _ = _
      rw [setBody_filter_others, hothers]

/-- C34 (the claim fails for an earlier declaration). After `extern f(a)` the
module holds the declaration `f(a)`. Codegen of the definition `gate f(a) y`
returns `nullptr`, the variable `y` being unknown, and afterwards the module
holds no function: the declaration made by `extern` is gone. -/
theorem FunctionAST_codegen_failure_not_atomic :
    functions afterExternF = [([102], [[97]], false)] ∧
    (unknownBody.codegen afterExternF).1 = none ∧
    functions (unknownBody.codegen afterExternF).2 = [] ∧
    functions (unknownBody.codegen afterExternF).2 ≠ functions afterExternF :=
  ⟨by decide, rfl, by decide, by decide⟩

/-- C34 (as amended). In a module whose function names are unique (as they are
in every state the generator reaches), when `FunctionAST::codegen` returns
`nullptr` the module afterwards holds exactly the functions it held before,
in the same order and each as it was, less the function that `getFunction`
finds for the name of the definition when that function has no body (a
declaration made earlier by `extern`): that one is erased. So the module is
as before when the name had a function with a body or had none; and the
functions of all other names are as before in every case. -/
theorem FunctionAST_codegen_failure_module (Fn : FunctionAST) (g : GenState)
    (hnd : (g.TheModule.map (fun F => F.Name)).Nodup)
    (hfail : (Fn.codegen g).1 = none) :
    (Fn.codegen g).2.TheModule =
      g.TheModule.filter (fun F => !decide (F.Name = Fn.Proto.Name) || F.Body.isSome) ∧
    ((∀ F, getFunction g.TheModule Fn.Proto.Name = some F → F.Body.isSome = true) →
      (Fn.codegen g).2.TheModule = g.TheModule ∧ functions (Fn.codegen g).2 = functions g) ∧
    (∀ F, getFunction g.TheModule Fn.Proto.Name = some F → F.Body = none →
      getFunction (Fn.codegen g).2.TheModule Fn.Proto.Name = none) ∧
    (∀ k, k ≠ Fn.Proto.Name →
      getFunction (Fn.codegen g).2.TheModule k = getFunction g.TheModule k) := by
  have hmain : (Fn.codegen g).2.TheModule =
      g.TheModule.filter (fun F => !decide (F.Name = Fn.Proto.Name) || F.Body.isSome) := by
    by_cases hnb : ∀ F, getFunction g.TheModule Fn.Proto.Name = some F → F.Body = none
    · rw [FunctionAST_codegen_failure_filter Fn g hnd hnb hfail]
      apply List.filter_congr
      intro F hF
      by_cases e : F.Name = Fn.Proto.Name
      · have hb := hnb F (getFunction_of_mem _ _ F hnd hF e)
        simp [e, hb]
      · simp [e]
    · push_neg at hnb
      obtain ⟨F1, hF1, hb⟩ := hnb
      have hb1 : F1.Body.isSome = true := by
        cases hB : F1.Body with
        | none => exact absurd hB hb
        | some b => rfl
      rw [FunctionAST_codegen_rejected Fn g ((hasBody_iff _ _).mpr ⟨F1, hF1, hb1⟩)]
      show g.TheModule = _
      symm
      rw [List.filter_eq_self]
      intro F hF
      by_cases e : F.Name = Fn.Proto.Name
      · have := getFunction_of_mem _ _ F hnd hF e
        rw [hF1] at this
        rw [← Option.some.inj this]
        simp [hb1]
      · simp [e]
  have hsame : (∀ F, getFunction g.TheModule Fn.Proto.Name = some F → F.Body.isSome = true) →
      (Fn.codegen g).2.TheModule = g.TheModule := by
    intro hall
    rw [hmain, List.filter_eq_self]
    intro F hF
    by_cases e : F.Name = Fn.Proto.Name
    · simp [hall F (getFunction_of_mem _ _ F hnd hF e)]
    · simp [e]
  refine ⟨hmain, fun hall => ⟨hsame hall, by unfold functions; rw [hsame hall]⟩, ?_, ?_⟩
  · intro F hF hb
    rw [getFunction_none, hmain]
    intro hm
    obtain ⟨G, hG, e⟩ := List.mem_map.mp hm
    rw [List.mem_filter] at hG
    have hGF := getFunction_of_mem _ _ G hnd hG.1 e
    rw [hF] at hGF
    have hG2 := hG.2
    rw [← Option.some.inj hGF] at hG2
    simp [hb] at hG2
    exact hG2 (by rw [Option.some.inj hGF]; exact e)
  · intro k hk
    rw [hmain]
    apply getFunction_filter_keeps
    intro F e
    have hne : ¬ F.Name = Fn.Proto.Name := fun e1 => hk (e.symm.trans e1)
    simp [hne]

/-- After `extern f(a)`, the failed definition `gate h(a) y` leaves the module
as it was, with the declaration of `f`; the failed definition `gate f(a) y`
leaves the module without it. -/
theorem FunctionAST_codegen_failure_module_witness :
    ((afterExternF.TheModule.map (fun F => F.Name)).Nodup ∧
      (unknownBodyH.codegen afterExternF).1 = none ∧
      (unknownBody.codegen afterExternF).1 = none) ∧
    functions (unknownBodyH.codegen afterExternF).2 = functions afterExternF ∧
    getFunction (unknownBody.codegen afterExternF).2.TheModule [102] = none :=
  ⟨⟨by decide, rfl, rfl⟩,
    ((FunctionAST_codegen_failure_module unknownBodyH afterExternF (by decide) rfl).2.1
      (fun F h => by
        have h1 : (none : Option LLVMFunction) = some F := h
        exact Option.noConfusion h1)).2,
    (FunctionAST_codegen_failure_module unknownBody afterExternF (by decide) rfl).2.2.1
      { Name := [102], Args := [[97]], Body := none } rfl rfl⟩

/-! ## Identifier tokens -/

theorem getchar_ge (inp : List Nat) : EOF ≤ (getchar inp).1 := by
  cases inp with
  | nil => exact le_refl _
  | cons x xs => show EOF ≤ (x : Int); unfold EOF; omega

theorem skipSpace_ge : ∀ (inp : List Nat) (c : Int), EOF ≤ c → EOF ≤ (skipSpace c inp).1 := by
  intro inp
  induction inp with
  | nil =>
    intro c hc
    rw [skipSpace]
    split
    · exact le_refl _
    · exact hc
  | cons x xs ih =>
    intro c hc
    rw [skipSpace]
    split
    · exact ih _ (by unfold EOF; omega)
    · exact hc

theorem readNumber_ge : ∀ (inp : List Nat) (acc : List Int) (d : Bool) (c : Int),
    EOF ≤ (readNumber acc d c inp).2.1 := by
  intro inp
  induction inp with
  | nil => intro acc d c; exact le_refl _
  | cons x xs ih =>
    intro acc d c
    rw [readNumber]
    split
    · exact ih _ _ _
    · show EOF ≤ (x : Int); unfold EOF; omega

theorem skipComment_ge : ∀ inp : List Nat, EOF ≤ (skipComment inp).1 := by
  intro inp
  induction inp with
  | nil => exact le_refl _
  | cons x xs ih =>
    rw [skipComment]
    split
    · exact ih
    · show EOF ≤ (x : Int); unfold EOF; omega

/-- The identifier loop appends letters and digits only. -/
theorem readIdent_shape : ∀ (inp : List Nat) (acc : List Int),
    ∃ w, (readIdent acc inp).1 = acc ++ w ∧ w.all isalnum = true ∧
      EOF ≤ (readIdent acc inp).2.1 := by
  intro inp
  induction inp with
  | nil => intro acc; exact ⟨[], (List.append_nil _).symm, rfl, le_refl _⟩
  | cons x xs ih =>
    intro acc
    rw [readIdent]
    by_cases hx : isalnum (x : Int) = true
    · rw [if_pos hx]
      obtain ⟨w, h1, h2, h3⟩ := ih (acc ++ [(x : Int)])
      refine ⟨(x : Int) :: w, ?_, ?_, h3⟩
      · rw [h1, List.append_assoc]; rfl
      · rw [List.all_cons, hx, h2]; rfl
    · rw [if_neg hx]
      exact ⟨[], (List.append_nil _).symm, rfl, by show EOF ≤ (x : Int); unfold EOF; omega⟩

/-- From a state whose buffered character is a character read or `EOF`, the
lexer leaves such a state, and an identifier token has the text of an
identifier. -/
theorem lexer_Lexed_aux (n : Nat) : ∀ l : LexState, l.input.length < n → EOF ≤ l.LastChar →
    Lexed (lexer l) := by
  induction n with
  | zero => intro l h; omega
  | succ n ih =>
    intro l hn hl
    have hc0 := skipSpace_ge l.input l.LastChar hl
    have hskl := skipSpace_length l.input l.LastChar
    have hg : tok_gate ≠ tok_id := by decide
    have hx : tok_extern ≠ tok_id := by decide
    have hnum : tok_num ≠ tok_id := by decide
    have he : tok_eof ≠ tok_id := by decide
    rw [lexer_eq]
    simp only []
    by_cases ha : isalpha (skipSpace l.LastChar l.input).1 = true
    · simp only [ha, if_true]
      obtain ⟨w, h1, h2, h3⟩ := readIdent_shape (skipSpace l.LastChar l.input).2
        [(skipSpace l.LastChar l.input).1]
      split
      · exact ⟨h3, fun h => absurd h hg⟩
      · split
        · exact ⟨h3, fun h => absurd h hx⟩
        · rename_i hng hne
          refine ⟨h3, fun _ => ?_⟩
          show isIdentifier (readIdent [(skipSpace l.LastChar l.input).1]
            (skipSpace l.LastChar l.input).2).1 = true
          unfold isIdentifier
          rw [decide_eq_true hng, decide_eq_true hne, h1]
          show (isalpha (skipSpace l.LastChar l.input).1 && w.all isalnum && true && true) = true
          rw [ha, h2]
          rfl
    · have ha1 : isalpha (skipSpace l.LastChar l.input).1 = false := by simpa using ha
      simp only [ha1, Bool.false_eq_true, if_false]
      by_cases hd : (isdigit (skipSpace l.LastChar l.input).1 ||
          (skipSpace l.LastChar l.input).1 == 46) = true
      · simp only [hd, if_true]
        exact ⟨readNumber_ge _ _ _ _, fun h => absurd h hnum⟩
      · have hd1 : (isdigit (skipSpace l.LastChar l.input).1 ||
            (skipSpace l.LastChar l.input).1 == 46) = false := by simpa using hd
        simp only [hd1, Bool.false_eq_true, if_false]
        by_cases hc : ((skipSpace l.LastChar l.input).1 == 35) = true
        · simp only [hc, if_true]
          have hcg := skipComment_ge (skipSpace l.LastChar l.input).2
          by_cases hr : ((skipComment (skipSpace l.LastChar l.input).2).1 != EOF) = true
          · simp only [hr, if_true]
            have hr1 : (skipComment (skipSpace l.LastChar l.input).2).1 ≠ EOF := by
              simpa using hr
            have hlen := skipComment_length _ hr1
            exact ih { l with LastChar := (skipComment (skipSpace l.LastChar l.input).2).1,
                              input := (skipComment (skipSpace l.LastChar l.input).2).2 }
              (by simp only []; omega) hcg
          · have hr2 : ((skipComment (skipSpace l.LastChar l.input).2).1 != EOF) = false := by
              simpa using hr
            simp only [hr2, Bool.false_eq_true, if_false]
            exact ⟨hcg, fun h => absurd h he⟩
        · have hc1 : ((skipSpace l.LastChar l.input).1 == 35) = false := by simpa using hc
          simp only [hc1, Bool.false_eq_true, if_false]
          by_cases hE : ((skipSpace l.LastChar l.input).1 == EOF) = true
          · simp only [hE, if_true]
            exact ⟨hc0, fun h => absurd h he⟩
          · have hE1 : ((skipSpace l.LastChar l.input).1 == EOF) = false := by simpa using hE
            simp only [hE1, Bool.false_eq_true, if_false]
            refine ⟨getchar_ge _, fun h => ?_⟩
            exfalso
            have h4 : (skipSpace l.LastChar l.input).1 = tok_id := h
            rw [h4] at hc0
            revert hc0
            decide

theorem lexer_Lexed (l : LexState) (h : EOF ≤ l.LastChar) : Lexed (lexer l) :=
  lexer_Lexed_aux (l.input.length + 1) l (Nat.lt_succ_self _) h

theorem Lexed_advance : ∀ (n : Nat) (v : Int × LexState), Lexed v → Lexed (advance n v) := by
  intro n
  induction n with
  | zero => intro v h; exact h
  | succ n ih => intro v h; exact ih _ (lexer_Lexed v.2 h.1)

theorem Lexed_getNextTok (s : State) (h : EOF ≤ s.lex.LastChar) : Lexed (getNextTok s).view :=
  lexer_Lexed s.lex h

theorem Lexed_start (inp : List Nat) : Lexed (State.start inp).view :=
  lexer_Lexed (LexState.start inp) (by show EOF ≤ (32 : Int); decide)

theorem isIdentifier_ne_anon (w : List Int) (h : isIdentifier w = true) : w ≠ str_anon := by
  intro e
  rw [e] at h
  revert h
  decide

/-- The parameter loop of `ParsePrototype` collects texts of identifiers. -/
theorem ParsePrototypeArgs_identifiers : ∀ (f : Nat) (argnames : List (List Int)) (s : State)
    (r : List (List Int) × State), ParsePrototypeArgs f argnames s = some r →
      EOF ≤ s.lex.LastChar → (∀ a ∈ argnames, isIdentifier a = true) →
        (∀ a ∈ r.1, isIdentifier a = true) ∧ EOF ≤ r.2.lex.LastChar := by
  intro f
  induction f with
  | zero => intro argnames s r h; simp [ParsePrototypeArgs] at h
  | succ f ih =>
    intro argnames s r h hl hargs
    rw [ParsePrototypeArgs] at h
    have hL := Lexed_getNextTok s hl
    by_cases ht : (getNextTok s).CurTok = tok_id
    · rw [if_pos ht] at h
      refine ih _ _ _ h hL.1 ?_
      intro a ha
      rcases List.mem_append.mp ha with h1 | h1
      · exact hargs a h1
      · rw [List.mem_singleton] at h1
        rw [h1]
        exact hL.2 ht
    · rw [if_neg ht] at h
      rw [← Option.some.inj h]
      exact ⟨hargs, hL.1⟩

/-- A prototype that `ParsePrototype` returns has the text of an identifier
as its name and as each of its parameter names. -/
theorem ParsePrototype_identifiers (f : Nat) (s : State) (P : PrototypeAST) (s1 : State)
    (hL : Lexed s.view) (h : ParsePrototype f s = some (some P, s1)) :
    isIdentifier P.Name = true ∧ ∀ a ∈ P.Args, isIdentifier a = true := by
  unfold ParsePrototype at h
  by_cases h1 : s.CurTok ≠ tok_id
  · rw [if_pos h1] at h; simp at h
  · rw [if_neg h1] at h
    simp only [] at h
    have h1e : s.CurTok = tok_id := by simpa using h1
    by_cases h2 : (getNextTok s).CurTok ≠ 40
    · rw [if_pos h2] at h; simp at h
    · rw [if_neg h2] at h
      cases hA : ParsePrototypeArgs f [] (getNextTok s) with
      | none => rw [hA] at h; simp at h
      | some r =>
        rw [hA] at h
        obtain ⟨argnames, s2⟩ := r
        simp only [] at h
        by_cases h3 : s2.CurTok ≠ 41
        · rw [if_pos h3] at h; simp at h
        · rw [if_neg h3] at h
          simp only [Option.some.injEq, Prod.mk.injEq] at h
          rw [← h.1]
          have := ParsePrototypeArgs_identifiers f [] (getNextTok s) _ hA
            (Lexed_getNextTok s hL.1).1 (fun a ha => absurd ha (List.not_mem_nil _))
          exact ⟨hL.2 h1e, this.1⟩

/-- C32. On every standard input, every lookahead of the token stream that is
an identifier token comes with an `IdStr` that is not empty, begins with a
letter, holds letters and digits only and is neither `gate` nor `extern`; so
does every identifier token that `lexer()` returns from a state whose buffered
character is a character read or `EOF`. The reserved name `__anon_expr` is no
such text, and every prototype that `ParsePrototype`, `ParseExtern` or
`ParseDefn` returns at a lookahead of the token stream has such a text as its
name and as each parameter name: its name is not `__anon_expr`. -/
theorem identifier_tokens_and_names (inp : List Nat) (n : Nat) :
    ((advance n (State.start inp).view).1 = tok_id →
      isIdentifier (advance n (State.start inp).view).2.IdStr = true) ∧
    (∀ l : LexState, EOF ≤ l.LastChar → (lexer l).1 = tok_id →
      isIdentifier (lexer l).2.IdStr = true) ∧
    isIdentifier str_anon = false ∧
    (∀ (fuel : Nat) (s : State) (P : PrototypeAST) (s1 : State),
      s.view = advance n (State.start inp).view →
      (ParsePrototype fuel s = some (some P, s1) ∨ ParseExtern fuel s = some (some P, s1)) →
        isIdentifier P.Name = true ∧ P.Name ≠ str_anon ∧
          ∀ a ∈ P.Args, isIdentifier a = true) ∧
    (∀ (fuel : Nat) (s : State) (Fn : FunctionAST) (s1 : State),
      s.view = advance n (State.start inp).view → ParseDefn fuel s = some (some Fn, s1) →
        isIdentifier Fn.Proto.Name = true ∧ Fn.Proto.Name ≠ str_anon ∧
          ∀ a ∈ Fn.Proto.Args, isIdentifier a = true) := by
  have hL := Lexed_advance n _ (Lexed_start inp)
  refine ⟨hL.2, fun l hl => (lexer_Lexed l hl).2, by decide, ?_, ?_⟩
  · intro fuel s P s1 hs h
    rw [← hs] at hL
    rcases h with h | h
    · have := ParsePrototype_identifiers fuel s P s1 hL h
      exact ⟨this.1, isIdentifier_ne_anon _ this.1, this.2⟩
    · have := ParsePrototype_identifiers fuel (getNextTok s) P s1 (Lexed_getNextTok s hL.1) h
      exact ⟨this.1, isIdentifier_ne_anon _ this.1, this.2⟩
  · intro fuel s Fn s1 hs h
    rw [← hs] at hL
    unfold ParseDefn at h
    cases hP : ParsePrototype fuel (getNextTok s) with
    | none => rw [hP] at h; simp at h
    | some r =>
      obtain ⟨o, s2⟩ := r
      cases o with
      | none => rw [hP] at h; simp at h
      | some P =>
        have := ParsePrototype_identifiers fuel (getNextTok s) P s2 (Lexed_getNextTok s hL.1) hP
        rw [hP] at h
        simp only [] at h
        cases hE : ParseExpression fuel s2 with
        | none => rw [hE] at h; simp at h
        | some r2 =>
          obtain ⟨o2, s3⟩ := r2
          rw [hE] at h
          cases o2 with
          | none => simp at h
          | some E =>
            simp only [Option.some.injEq, Prod.mk.injEq] at h
            rw [← h.1]
            exact ⟨this.1, isIdentifier_ne_anon _ this.1, this.2⟩

/-- On the input `gate foo(x1 y) x1`, the token after `gate` is an identifier
token with the text `foo`, and the definition parsed has the prototype `foo`
with the parameters `x1` and `y`. -/
theorem identifier_tokens_and_names_witness :
    (ParseDefn 6 (State.start gateFoo)).map (fun r => r.1.map (fun Fn => Fn.Proto)) =
      some (some { Name := [102, 111, 111], Args := [[120, 49], [121]] }) ∧
    (advance 1 (State.start gateFoo).view).1 = tok_id ∧
    (advance 1 (State.start gateFoo).view).2.IdStr = [102, 111, 111] ∧
    isIdentifier (advance 1 (State.start gateFoo).view).2.IdStr = true :=
  ⟨by decide, by decide, by decide, (identifier_tokens_and_names gateFoo 1).1 (by decide)⟩

/-! ## Binary operations and the constant folder -/

/-- C17 (the claim fails for constant operands). Codegen of `1 < 2` in the
initial state emits no comparison and no widening: both operands are
constants, the builder folds the comparison to a constant and the widening of
that constant to a constant again, and the value returned is a constant, not
the widening instruction. Likewise `1 + 2` emits no add. -/
theorem BinaryExprAST_codegen_constants_folded :
    (ExprAST.BinaryExprAST 60 (ExprAST.NumberExprAST [49]) (ExprAST.NumberExprAST [50])).codegen
        GenState.init =
      (some (Value.ConstantFold (Value.UIToFP (Value.ConstantFold
          (Value.FCmpULT (Value.ConstantFP [49]) (Value.ConstantFP [50]))))), GenState.init) ∧
    ((ExprAST.BinaryExprAST 60 (ExprAST.NumberExprAST [49])
        (ExprAST.NumberExprAST [50])).codegen GenState.init).1 ≠
      some (Value.UIToFP (Value.FCmpULT (Value.ConstantFP [49]) (Value.ConstantFP [50]))) ∧
    (ExprAST.BinaryExprAST 43 (ExprAST.NumberExprAST [49]) (ExprAST.NumberExprAST [50])).codegen
        GenState.init =
      (some (Value.ConstantFold (Value.FAdd (Value.ConstantFP [49]) (Value.ConstantFP [50]))),
        GenState.init) ∧
    ((ExprAST.BinaryExprAST 43 (ExprAST.NumberExprAST [49])
        (ExprAST.NumberExprAST [50])).codegen GenState.init).1 ≠
      some (Value.FAdd (Value.ConstantFP [49]) (Value.ConstantFP [50])) :=
  ⟨rfl,
    fun h => by
      have h1 : some (Value.ConstantFold (Value.UIToFP (Value.ConstantFold
          (Value.FCmpULT (Value.ConstantFP [49]) (Value.ConstantFP [50]))))) =
        some (Value.UIToFP (Value.FCmpULT (Value.ConstantFP [49]) (Value.ConstantFP [50]))) := h
      exact Value.noConfusion (Option.some.inj h1),
    rfl,
    fun h => by
      have h1 : some (Value.ConstantFold (Value.FAdd (Value.ConstantFP [49])
          (Value.ConstantFP [50]))) =
        some (Value.FAdd (Value.ConstantFP [49]) (Value.ConstantFP [50])) := h
      exact Value.noConfusion (Option.some.inj h1)⟩

/-- C17, amended. Codegen of a binary operation generates the left child and
then, in the state it leaves, the right child. When both give values `L` and
`R`, it makes the builder call of the operator: the floating-point add of `L`
and `R` for `+`, the subtract for `-`, the multiply for `*`, for `<` the
comparison `fcmp ult` of `L` and `R` and then the widening of its result to
double. When `L` or `R` is not a constant, the builder emits these
instructions and the value returned is the instruction (for `<` the
widening of the comparison). When both are constants, the builder folds each
call to a constant and emits no instruction. For every other operator codegen
logs the invalid-binary-operator error and returns `nullptr`. When a child
fails it returns `nullptr`. -/
theorem BinaryExprAST_codegen_spec (Op : Int) (left right : ExprAST) (g : GenState) :
    (∀ L R, (left.codegen g).1 = some L → (right.codegen (left.codegen g).2).1 = some R →
      ((L.isConstant && R.isConstant) = false →
        (Op = 43 → (ExprAST.BinaryExprAST Op left right).codegen g =
          (some (Value.FAdd L R), (right.codegen (left.codegen g).2).2)) ∧
        (Op = 45 → (ExprAST.BinaryExprAST Op left right).codegen g =
          (some (Value.FSub L R), (right.codegen (left.codegen g).2).2)) ∧
        (Op = 42 → (ExprAST.BinaryExprAST Op left right).codegen g =
          (some (Value.FMul L R), (right.codegen (left.codegen g).2).2)) ∧
        (Op = 60 → (ExprAST.BinaryExprAST Op left right).codegen g =
          (some (Value.UIToFP (Value.FCmpULT L R)), (right.codegen (left.codegen g).2).2))) ∧
      ((L.isConstant && R.isConstant) = true →
        (Op = 43 → (ExprAST.BinaryExprAST Op left right).codegen g =
          (some (Value.ConstantFold (Value.FAdd L R)), (right.codegen (left.codegen g).2).2)) ∧
        (Op = 45 → (ExprAST.BinaryExprAST Op left right).codegen g =
          (some (Value.ConstantFold (Value.FSub L R)), (right.codegen (left.codegen g).2).2)) ∧
        (Op = 42 → (ExprAST.BinaryExprAST Op left right).codegen g =
          (some (Value.ConstantFold (Value.FMul L R)), (right.codegen (left.codegen g).2).2)) ∧
        (Op = 60 → (ExprAST.BinaryExprAST Op left right).codegen g =
          (some (Value.ConstantFold (Value.UIToFP (Value.ConstantFold (Value.FCmpULT L R)))),
            (right.codegen (left.codegen g).2).2))) ∧
      (Op ≠ 43 → Op ≠ 45 → Op ≠ 42 → Op ≠ 60 →
        (ExprAST.BinaryExprAST Op left right).codegen g =
          (none, LogErrorV (right.codegen (left.codegen g).2).2 "invalid BinOp"))) ∧
    ((left.codegen g).1 = none ∨ (right.codegen (left.codegen g).2).1 = none →
      (ExprAST.BinaryExprAST Op left right).codegen g =
        (none, (right.codegen (left.codegen g).2).2)) := by
  constructor
  · intro L R hl hr
    have h43 : Op = 43 → (ExprAST.BinaryExprAST Op left right).codegen g =
        (some (CreateFAdd L R), (right.codegen (left.codegen g).2).2) := by
      intro h; subst h; simp only [ExprAST.codegen, hl, hr, if_true]
    have h45 : Op = 45 → (ExprAST.BinaryExprAST Op left right).codegen g =
        (some (CreateFSub L R), (right.codegen (left.codegen g).2).2) := by
      intro h; subst h; simp only [ExprAST.codegen, hl, hr]; rfl
    have h42 : Op = 42 → (ExprAST.BinaryExprAST Op left right).codegen g =
        (some (CreateFMul L R), (right.codegen (left.codegen g).2).2) := by
      intro h; subst h; simp only [ExprAST.codegen, hl, hr]; rfl
    have h60 : Op = 60 → (ExprAST.BinaryExprAST Op left right).codegen g =
        (some (CreateUIToFP (CreateFCmpULT L R)), (right.codegen (left.codegen g).2).2) := by
      intro h; subst h; simp only [ExprAST.codegen, hl, hr]; rfl
    refine ⟨?_, ?_, ?_⟩
    · intro hc
      have e1 : CreateFAdd L R = Value.FAdd L R := by unfold CreateFAdd; rw [hc]; rfl
      have e2 : CreateFSub L R = Value.FSub L R := by unfold CreateFSub; rw [hc]; rfl
      have e3 : CreateFMul L R = Value.FMul L R := by unfold CreateFMul; rw [hc]; rfl
      have e4 : CreateUIToFP (CreateFCmpULT L R) = Value.UIToFP (Value.FCmpULT L R) := by
        unfold CreateFCmpULT; rw [hc]; rfl
      rw [← e1, ← e2, ← e3, ← e4]
      exact ⟨h43, h45, h42, h60⟩
    · intro hc
      have e1 : CreateFAdd L R = Value.ConstantFold (Value.FAdd L R) := by
        unfold CreateFAdd; rw [hc]; rfl
      have e2 : CreateFSub L R = Value.ConstantFold (Value.FSub L R) := by
        unfold CreateFSub; rw [hc]; rfl
      have e3 : CreateFMul L R = Value.ConstantFold (Value.FMul L R) := by
        unfold CreateFMul; rw [hc]; rfl
      have e4 : CreateUIToFP (CreateFCmpULT L R) =
          Value.ConstantFold (Value.UIToFP (Value.ConstantFold (Value.FCmpULT L R))) := by
        unfold CreateFCmpULT; rw [hc]; rfl
      rw [← e1, ← e2, ← e3, ← e4]
      exact ⟨h43, h45, h42, h60⟩
    · intro h1 h2 h3 h4
      simp only [ExprAST.codegen, hl, hr, h1, h2, h3, h4, if_false]
  · intro h
    rcases h with h | h
    · cases hr : (right.codegen (left.codegen g).2).1 <;>
        simp only [ExprAST.codegen, h, hr]
    · cases hl : (left.codegen g).1 <;> simp only [ExprAST.codegen, h, hl]

/-- With `a` the first argument of `f`, the expression `a < 1` generates the
widening of the comparison of the argument and the constant, and `a + 1` the
add; `2 * 3` is folded to a constant; `1 / 2` fails as an invalid operator;
`1 + x` with `x` unbound returns `nullptr`. -/
theorem BinaryExprAST_codegen_spec_witness :
    (ExprAST.BinaryExprAST 60 (ExprAST.VariableExprAST [97])
        (ExprAST.NumberExprAST [49])).codegen scopeOfA =
      (some (Value.UIToFP (Value.FCmpULT (Value.Argument [102] 0) (Value.ConstantFP [49]))),
        scopeOfA) ∧
    (ExprAST.BinaryExprAST 43 (ExprAST.VariableExprAST [97])
        (ExprAST.NumberExprAST [49])).codegen scopeOfA =
      (some (Value.FAdd (Value.Argument [102] 0) (Value.ConstantFP [49])), scopeOfA) ∧
    (ExprAST.BinaryExprAST 42 (ExprAST.NumberExprAST [50])
        (ExprAST.NumberExprAST [51])).codegen scopeOfA =
      (some (Value.ConstantFold (Value.FMul (Value.ConstantFP [50]) (Value.ConstantFP [51]))),
        scopeOfA) ∧
    (ExprAST.BinaryExprAST 47 (ExprAST.NumberExprAST [49]) (ExprAST.NumberExprAST [50])).codegen
        GenState.init =
      (none, LogErrorV GenState.init "invalid BinOp") ∧
    ((ExprAST.BinaryExprAST 43 (ExprAST.NumberExprAST [49])
        (ExprAST.VariableExprAST [120])).codegen GenState.init).1 = none :=
  ⟨(((BinaryExprAST_codegen_spec 60 (ExprAST.VariableExprAST [97]) (ExprAST.NumberExprAST [49])
      scopeOfA).1 (Value.Argument [102] 0) (Value.ConstantFP [49]) rfl rfl).1 rfl).2.2.2 rfl,
    (((BinaryExprAST_codegen_spec 43 (ExprAST.VariableExprAST [97]) (ExprAST.NumberExprAST [49])
      scopeOfA).1 (Value.Argument [102] 0) (Value.ConstantFP [49]) rfl rfl).1 rfl).1 rfl,
    (((BinaryExprAST_codegen_spec 42 (ExprAST.NumberExprAST [50]) (ExprAST.NumberExprAST [51])
      scopeOfA).1 (Value.ConstantFP [50]) (Value.ConstantFP [51]) rfl rfl).2.1 rfl).2.2.1 rfl,
    rfl, rfl⟩

/-! ## The two errors of a call, and calls nested in arguments -/

theorem newDiag_append (g g1 : GenState) (extra : List Diag) (h : g1.diag = g.diag ++ extra) :
    newDiag g g1 = extra := by
  unfold newDiag
  rw [h]
  simp

mutual
/-- The unknown-function error is written only for a call of the expression
whose callee the module does not hold, and the incorrect-number error only
for a call of the expression whose number of arguments is not the number of
parameters of its callee. -/
theorem codegen_call_errors : ∀ (e : ExprAST) (g : GenState),
    ∃ extra, (e.codegen g).2.diag = g.diag ++ extra ∧
      (Diag.LogError "Unknown function called" ∈ extra →
        ∃ p ∈ e.callSites, getFunction g.TheModule p.1 = none) ∧
      (Diag.LogError "Incorrect number of arguments passed" ∈ extra →
        ∃ p ∈ e.callSites, ∃ F, getFunction g.TheModule p.1 = some F ∧ F.Args.length ≠ p.2)
  | .NumberExprAST _, g => ⟨[], by simp [ExprAST.codegen], by simp, by simp⟩
  | .VariableExprAST x, g => by
    simp only [ExprAST.codegen]
    split
    · exact ⟨[Diag.LogError "Unknown Variable Name"], rfl, by simp, by simp⟩
    · exact ⟨[], by simp, by simp, by simp⟩
  | .BinaryExprAST Op l r, g => by
    obtain ⟨e1, hl, hlU, hlA⟩ := codegen_call_errors l g
    obtain ⟨e2, hr, hrU, hrA⟩ := codegen_call_errors r (l.codegen g).2
    rw [codegen_TheModule l g] at hrU hrA
    have hboth : (r.codegen (l.codegen g).2).2.diag = g.diag ++ (e1 ++ e2) := by
      rw [hr, hl, List.append_assoc]
    have hU : Diag.LogError "Unknown function called" ∈ e1 ++ e2 →
        ∃ p ∈ (ExprAST.BinaryExprAST Op l r).callSites, getFunction g.TheModule p.1 = none := by
      intro hd
      simp only [ExprAST.callSites]
      rcases List.mem_append.mp hd with h | h
      · obtain ⟨p, hp, hp2⟩ := hlU h
        exact ⟨p, List.mem_append_left _ hp, hp2⟩
      · obtain ⟨p, hp, hp2⟩ := hrU h
        exact ⟨p, List.mem_append_right _ hp, hp2⟩
    have hA : Diag.LogError "Incorrect number of arguments passed" ∈ e1 ++ e2 →
        ∃ p ∈ (ExprAST.BinaryExprAST Op l r).callSites, ∃ F,
          getFunction g.TheModule p.1 = some F ∧ F.Args.length ≠ p.2 := by
      intro hd
      simp only [ExprAST.callSites]
      rcases List.mem_append.mp hd with h | h
      · obtain ⟨p, hp, hp2⟩ := hlA h
        exact ⟨p, List.mem_append_left _ hp, hp2⟩
      · obtain ⟨p, hp, hp2⟩ := hrA h
        exact ⟨p, List.mem_append_right _ hp, hp2⟩
    simp only [ExprAST.codegen]
    split
    · split
      · exact ⟨e1 ++ e2, hboth, hU, hA⟩
      · split
        · exact ⟨e1 ++ e2, hboth, hU, hA⟩
        · split
          · exact ⟨e1 ++ e2, hboth, hU, hA⟩
          · split
            · exact ⟨e1 ++ e2, hboth, hU, hA⟩
            · refine ⟨e1 ++ e2 ++ [Diag.LogError "invalid BinOp"], ?_, ?_, ?_⟩
              · show (r.codegen (l.codegen g).2).2.diag ++ _ = _
                rw [hboth, List.append_assoc]
              · intro hd
                rcases List.mem_append.mp hd with h | h
                · exact hU h
                · simp at h
              · intro hd
                rcases List.mem_append.mp hd with h | h
                · exact hA h
                · simp at h
    · exact ⟨e1 ++ e2, hboth, hU, hA⟩
  | .CallExprAST c args, g => by
    obtain ⟨e1, ha, haU, haA⟩ := codegenArgs_call_errors args [] g
    simp only [ExprAST.codegen]
    split
    · rename_i hF
      refine ⟨[Diag.LogError "Unknown function called"], rfl, ?_, by simp⟩
      intro _
      exact ⟨(c, args.length), by simp [ExprAST.callSites], hF⟩
    · rename_i F hF
      split
      · rename_i hlen
        refine ⟨[Diag.LogError "Incorrect number of arguments passed"], rfl, by simp, ?_⟩
        intro _
        exact ⟨(c, args.length), by simp [ExprAST.callSites], F, hF, hlen⟩
      · have hU : Diag.LogError "Unknown function called" ∈ e1 →
            ∃ p ∈ (ExprAST.CallExprAST c args).callSites, getFunction g.TheModule p.1 = none := by
          intro hd
          obtain ⟨p, hp, hp2⟩ := haU hd
          exact ⟨p, by simp only [ExprAST.callSites]; exact List.mem_cons_of_mem _ hp, hp2⟩
        have hA : Diag.LogError "Incorrect number of arguments passed" ∈ e1 →
            ∃ p ∈ (ExprAST.CallExprAST c args).callSites, ∃ F,
              getFunction g.TheModule p.1 = some F ∧ F.Args.length ≠ p.2 := by
          intro hd
          obtain ⟨p, hp, hp2⟩ := haA hd
          exact ⟨p, by simp only [ExprAST.callSites]; exact List.mem_cons_of_mem _ hp, hp2⟩
        split
        · rename_i h; rw [h] at ha; exact ⟨e1, ha, hU, hA⟩
        · rename_i h; rw [h] at ha; exact ⟨e1, ha, hU, hA⟩
theorem codegenArgs_call_errors : ∀ (es : List ExprAST) (acc : List Value) (g : GenState),
    ∃ extra, (codegenArgs es acc g).2.diag = g.diag ++ extra ∧
      (Diag.LogError "Unknown function called" ∈ extra →
        ∃ p ∈ callSitesOfArgs es, getFunction g.TheModule p.1 = none) ∧
      (Diag.LogError "Incorrect number of arguments passed" ∈ extra →
        ∃ p ∈ callSitesOfArgs es, ∃ F,
          getFunction g.TheModule p.1 = some F ∧ F.Args.length ≠ p.2)
  | [], acc, g => ⟨[], by simp [codegenArgs], by simp, by simp⟩
  | a :: rest, acc, g => by
    obtain ⟨e1, ha, haU, haA⟩ := codegen_call_errors a g
    have hm := codegen_TheModule a g
    simp only [codegenArgs]
    split
    · rename_i h
      rw [h] at ha
      refine ⟨e1, ha, ?_, ?_⟩
      · intro hd
        obtain ⟨p, hp, hp2⟩ := haU hd
        exact ⟨p, by simp only [callSitesOfArgs]; exact List.mem_append_left _ hp, hp2⟩
      · intro hd
        obtain ⟨p, hp, hp2⟩ := haA hd
        exact ⟨p, by simp only [callSitesOfArgs]; exact List.mem_append_left _ hp, hp2⟩
    · rename_i V g1 h
      rw [h] at ha hm
      obtain ⟨e2, hb, hbU, hbA⟩ := codegenArgs_call_errors rest (acc ++ [V]) g1
      have hm1 : g1.TheModule = g.TheModule := hm
      rw [hm1] at hbU hbA
      refine ⟨e1 ++ e2, ?_, ?_, ?_⟩
      · rw [hb]
        show g1.diag ++ e2 = _
        rw [ha, List.append_assoc]
      · intro hd
        simp only [callSitesOfArgs]
        rcases List.mem_append.mp hd with h1 | h1
        · obtain ⟨p, hp, hp2⟩ := haU h1
          exact ⟨p, List.mem_append_left _ hp, hp2⟩
        · obtain ⟨p, hp, hp2⟩ := hbU h1
          exact ⟨p, List.mem_append_right _ hp, hp2⟩
      · intro hd
        simp only [callSitesOfArgs]
        rcases List.mem_append.mp hd with h1 | h1
        · obtain ⟨p, hp, hp2⟩ := haA h1
          exact ⟨p, List.mem_append_left _ hp, hp2⟩
        · obtain ⟨p, hp, hp2⟩ := hbA h1
          exact ⟨p, List.mem_append_right _ hp, hp2⟩
end

/-- The errors of a call whose callee the module holds with as many
parameters as the call has arguments are those of its arguments. -/
theorem CallExprAST_codegen_args_errors (Callee : List Int) (Args : List ExprAST)
    (g : GenState) (CalleeF : LLVMFunction) (hF : getFunction g.TheModule Callee = some CalleeF)
    (hlen : CalleeF.Args.length = Args.length) :
    (Diag.LogError "Unknown function called" ∈
        newDiag g ((ExprAST.CallExprAST Callee Args).codegen g).2 →
      ∃ p ∈ callSitesOfArgs Args, getFunction g.TheModule p.1 = none) ∧
    (Diag.LogError "Incorrect number of arguments passed" ∈
        newDiag g ((ExprAST.CallExprAST Callee Args).codegen g).2 →
      ∃ p ∈ callSitesOfArgs Args, ∃ F,
        getFunction g.TheModule p.1 = some F ∧ F.Args.length ≠ p.2) := by
  obtain ⟨e1, ha, haU, haA⟩ := codegenArgs_call_errors Args [] g
  have hd : ((ExprAST.CallExprAST Callee Args).codegen g).2.diag = g.diag ++ e1 := by
    rw [(CallExprAST_codegen_eq Callee Args g).2.2 CalleeF hF hlen]
    cases hA : codegenArgs Args [] g with
    | mk o g1 =>
      rw [hA] at ha
      cases o <;> exact ha
  rw [newDiag_append g _ e1 hd]
  exact ⟨haU, haA⟩

/-- C15 (the claim fails for a call nested in an argument). After
`extern f(a)` the module holds `f`, and yet codegen of the call `f(h())`
fails with the unknown-function error, in the state before plus that
message: the error is that of the argument `h()`. -/
theorem CallExprAST_codegen_nested_unknown :
    getFunction afterExternF.TheModule [102] =
      some { Name := [102], Args := [[97]], Body := none } ∧
    callOfUnknown = ExprAST.CallExprAST [102] [ExprAST.CallExprAST [104] []] ∧
    callOfUnknown.codegen afterExternF =
      (none, LogErrorV afterExternF "Unknown function called") :=
  ⟨rfl, rfl, rfl⟩

/-- C15, amended. When the module holds no function of the callee's name,
codegen of a call fails with the unknown-function error whatever the arguments
are, and leaves the state as it was but for the message: no argument has been
generated and the argument count has not been looked at. When the module
holds such a function, the outcome is that of the argument count check and
of the arguments; the unknown-function error is then written only if the
number of arguments is the number of parameters and a call nested in the
arguments has a callee that the module does not hold. -/
theorem CallExprAST_codegen_unknown_function (Callee : List Int) (g : GenState) :
    (getFunction g.TheModule Callee = none → ∀ Args,
      (ExprAST.CallExprAST Callee Args).codegen g =
        (none, LogErrorV g "Unknown function called")) ∧
    (∀ CalleeF Args, getFunction g.TheModule Callee = some CalleeF →
      (ExprAST.CallExprAST Callee Args).codegen g =
        if CalleeF.Args.length ≠ Args.length then
          (none, LogErrorV g "Incorrect number of arguments passed")
        else
          match codegenArgs Args [] g with
          | (none, g1) => (none, g1)
          | (some ArgsV, g1) => (some (Value.Call Callee ArgsV), g1)) ∧
    (∀ CalleeF Args, getFunction g.TheModule Callee = some CalleeF →
      Diag.LogError "Unknown function called" ∈
          newDiag g ((ExprAST.CallExprAST Callee Args).codegen g).2 →
        CalleeF.Args.length = Args.length ∧
        ∃ p ∈ callSitesOfArgs Args, getFunction g.TheModule p.1 = none) := by
  refine ⟨fun h Args => (CallExprAST_codegen_eq Callee Args g).1 h, ?_, ?_⟩
  · intro F Args hF
    by_cases hlen : F.Args.length = Args.length
    · rw [if_neg (not_not.mpr hlen)]
      exact (CallExprAST_codegen_eq Callee Args g).2.2 F hF hlen
    · rw [if_pos hlen]
      exact (CallExprAST_codegen_eq Callee Args g).2.1 F hF hlen
  · intro F Args hF hmem
    by_cases hlen : F.Args.length = Args.length
    · exact ⟨hlen, (CallExprAST_codegen_args_errors Callee Args g F hF hlen).1 hmem⟩
    · exfalso
      rw [(CallExprAST_codegen_eq Callee Args g).2.1 F hF hlen,
        newDiag_append g _ [Diag.LogError "Incorrect number of arguments passed"] rfl] at hmem
      simp at hmem

/-- With only `foo` in the module, a call of `bar` fails with the
unknown-function error also when its argument is itself in error, and
nothing but the message is added to the state. After `extern f(a)`, the
unknown-function error of `f(h())` is that of the nested call of `h`, which
the module does not hold. -/
theorem CallExprAST_codegen_unknown_function_witness :
    getFunction [({ Name := [102, 111, 111], Args := [[97]], Body := none } : LLVMFunction)]
      [98, 97, 114] = none ∧
    (ExprAST.CallExprAST [98, 97, 114] [ExprAST.VariableExprAST [120]]).codegen
        { TheModule := [{ Name := [102, 111, 111], Args := [[97]], Body := none }],
          NamedValues := [], diag := [], LastUnique := 0 } =
      (none, LogErrorV
        { TheModule := [{ Name := [102, 111, 111], Args := [[97]], Body := none }],
          NamedValues := [], diag := [], LastUnique := 0 } "Unknown function called") ∧
    Diag.LogError "Unknown function called" ∈
      newDiag afterExternF (callOfUnknown.codegen afterExternF).2 ∧
    (∃ p ∈ callSitesOfArgs [ExprAST.CallExprAST [104] []],
      getFunction afterExternF.TheModule p.1 = none) :=
  ⟨rfl, ((CallExprAST_codegen_unknown_function [98, 97, 114]
      { TheModule := [{ Name := [102, 111, 111], Args := [[97]], Body := none }],
        NamedValues := [], diag := [], LastUnique := 0 }).1 rfl) _,
    by decide,
    ((CallExprAST_codegen_unknown_function [102] afterExternF).2.2
      { Name := [102], Args := [[97]], Body := none } [ExprAST.CallExprAST [104] []] rfl
      (by decide)).2⟩

/-- C16 (the claim fails for a call nested in an argument). After
`extern f(a)` the module holds `f` with one parameter. The call `f(f())` has
one argument, and yet codegen of it fails with the incorrect-number error,
in the state before plus that message: the error is that of the argument
`f()`. -/
theorem arity_error_of_nested_call :
    getFunction afterExternF.TheModule [102] =
      some { Name := [102], Args := [[97]], Body := none } ∧
    callOfShortCall = ExprAST.CallExprAST [102] [ExprAST.CallExprAST [102] []] ∧
    callOfShortCall.codegen afterExternF =
      (none, LogErrorV afterExternF "Incorrect number of arguments passed") :=
  ⟨rfl, rfl, rfl⟩

/-- C16, amended. An arity mismatch is a generation error, not a parse error.
Parser: at an identifier `x` followed by `(`, `ParseIdentifierExpr` returns the
call of `x` for no argument and for any number of arguments that parse, without
regard to any declaration. Generator: when the module holds a function of the
callee's name with `k` arguments, a call with another number of arguments fails
with the incorrect-number-of-arguments error before any argument is generated;
a call with `k` arguments writes this error only if a call nested in its
arguments has a number of arguments that is not the number of parameters of
its own callee; and a call with `k` arguments that generate gives the call
instruction. -/
theorem arity_checked_by_codegen (s : State) (x : List Int) (g : GenState)
    (Callee : List Int) (CalleeF : LLVMFunction)
    (hx : tokenOf s.CurTok s.lex = Token.id x) (h40 : (getNextTok s).CurTok = 40)
    (hF : getFunction g.TheModule Callee = some CalleeF) :
    ((getNextTok (getNextTok s)).CurTok = 41 → ∀ f, 0 < f →
      ParseIdentifierExpr f s =
        some (some (ExprAST.CallExprAST x []), getNextTok (getNextTok (getNextTok s)))) ∧
    (∀ es u e v, ArgPrefix (getNextTok (getNextTok s)) es u → Parses u e v → v.CurTok = 41 →
      ∃ f0, ∀ f, f0 ≤ f →
        ParseIdentifierExpr f s = some (some (ExprAST.CallExprAST x (es ++ [e])), getNextTok v)) ∧
    (∀ Args : List ExprAST, Args.length ≠ CalleeF.Args.length →
      (ExprAST.CallExprAST Callee Args).codegen g =
        (none, LogErrorV g "Incorrect number of arguments passed")) ∧
    (∀ Args : List ExprAST, Args.length = CalleeF.Args.length →
      Diag.LogError "Incorrect number of arguments passed" ∈
          newDiag g ((ExprAST.CallExprAST Callee Args).codegen g).2 →
        ∃ p ∈ callSitesOfArgs Args, ∃ F,
          getFunction g.TheModule p.1 = some F ∧ F.Args.length ≠ p.2) ∧
    (∀ (Args : List ExprAST) ArgsV g1, Args.length = CalleeF.Args.length →
      codegenArgs Args [] g = (some ArgsV, g1) →
      (ExprAST.CallExprAST Callee Args).codegen g = (some (Value.Call Callee ArgsV), g1)) := by
  have hid : s.lex.IdStr = x := (tokenOf_id _ _ _ hx).2
  refine ⟨?_, ?_, ?_, ?_, ?_⟩
  · intro h41 f hf
    obtain ⟨k, rfl⟩ : ∃ k, f = k + 1 := ⟨f - 1, by omega⟩
    rw [ParseIdentifierExpr]
    simp only [h40, h41, ne_eq, not_true_eq_false, if_false, hid]
  · intro es u e v hpre hp hc
    have h41 := ArgPrefix_not_rparen _ es u e v hpre hp
    obtain ⟨k, hk⟩ := hp
    have hlast : ParseArgsLoop (k + 1) ([] ++ es) u = some (some (es ++ [e]), v) := by
      rw [ParseArgsLoop, hk]
      simp only [hc, if_true, List.nil_append]
    obtain ⟨f0, hf0⟩ := ParseArgsLoop_prefix _ es u hpre [] _ (k + 1) hlast
    refine ⟨f0 + 1, fun f hf => ?_⟩
    obtain ⟨j, rfl⟩ : ∃ j, f = j + 1 := ⟨f - 1, by omega⟩
    rw [ParseIdentifierExpr_call j s h40 h41, hf0 j (by omega), hid]
  · intro Args hne
    exact (CallExprAST_codegen_eq Callee Args g).2.1 CalleeF hF (fun h => hne h.symm)
  · intro Args hlen hmem
    exact (CallExprAST_codegen_args_errors Callee Args g CalleeF hF hlen.symm).2 hmem
  · intro Args ArgsV g1 hlen hargs
    rw [(CallExprAST_codegen_eq Callee Args g).2.2 CalleeF hF hlen.symm, hargs]

/-- After `gate foo(a b) a + b`, the call `foo(2, 3)` generates a call
instruction and `foo(2)` is rejected by the generator; the parser returns a
call node for `foo(2, 3);` and for `foo(2);`. -/
theorem arity_checked_by_codegen_witness :
    (tokenOf (State.start [102, 111, 111, 40, 50, 41, 59]).CurTok
        (State.start [102, 111, 111, 40, 50, 41, 59]).lex = Token.id [102, 111, 111] ∧
      (getNextTok (State.start [102, 111, 111, 40, 50, 41, 59])).CurTok = 40 ∧
      getFunction afterFooDefinition.TheModule [102, 111, 111] =
        some { Name := [102, 111, 111], Args := [[97], [98]],
               Body := some (Block.ret (Value.FAdd (Value.Argument [102, 111, 111] 0)
                 (Value.Argument [102, 111, 111] 1))) }) ∧
    ((ExprAST.CallExprAST [102, 111, 111] [ExprAST.NumberExprAST [50]]).codegen
        afterFooDefinition =
      (none, LogErrorV afterFooDefinition "Incorrect number of arguments passed")) ∧
    ((ExprAST.CallExprAST [102, 111, 111]
        [ExprAST.NumberExprAST [50], ExprAST.NumberExprAST [51]]).codegen afterFooDefinition).1 =
      some (Value.Call [102, 111, 111] [Value.ConstantFP [50], Value.ConstantFP [51]]) ∧
    (ParseIdentifierExpr 9 (State.start [102, 111, 111, 40, 50, 41, 59])).map (fun r => r.1) =
      some (some (ExprAST.CallExprAST [102, 111, 111] [ExprAST.NumberExprAST [50]])) ∧
    (ParseIdentifierExpr 9 (State.start [102, 111, 111, 40, 50, 44, 32, 51, 41, 59])).map
        (fun r => r.1) =
      some (some (ExprAST.CallExprAST [102, 111, 111]
        [ExprAST.NumberExprAST [50], ExprAST.NumberExprAST [51]])) :=
  ⟨⟨by decide, by decide, rfl⟩,
    (arity_checked_by_codegen (State.start [102, 111, 111, 40, 50, 41, 59]) [102, 111, 111]
      afterFooDefinition [102, 111, 111]
      { Name := [102, 111, 111], Args := [[97], [98]],
        Body := some (Block.ret (Value.FAdd (Value.Argument [102, 111, 111] 0)
          (Value.Argument [102, 111, 111] 1))) }
      (by decide) (by decide) rfl).2.2.1
      [ExprAST.NumberExprAST [50]] (by decide),
    rfl, rfl, rfl⟩

/-! ## Declarations -/

/-- The arity checked at a call is the number of arguments of the function
that `getFunction` finds for the callee. -/
theorem ArityChecked_of_getFunction (m : List LLVMFunction) (f : List Int) (F : LLVMFunction)
    (h : getFunction m f = some F) : ArityChecked m f F.Args.length := by
  constructor
  · intro Args g1 hg1 hlen
    rw [← hg1] at h
    exact (CallExprAST_codegen_eq f Args g1).2.1 F h (fun e => hlen e.symm)
  · intro v g1 hg1
    rw [← hg1] at h
    rw [(CallExprAST_codegen_eq f _ g1).2.2 F h (by simp), codegenArgs_numbers]
    simp

/-- C24 (the claim fails when the name is taken, and for a repeated parameter
name). After `extern f(a)`, codegen of the prototype `f(a b)` adds a function
of two parameters under the new name `f.1`; the function named `f` is still
the one of one parameter, and the call `f(1, 2)` fails with the
incorrect-number-of-arguments error: the arity checked is not the number of
names of the prototype generated last. In the initial state, codegen of the
prototype `f(a a)` declares `f` with the parameters `a` and `a1`: the second
parameter does not carry the second name. -/
theorem PrototypeAST_codegen_name_taken :
    (PrototypeAST.codegen { Name := [102], Args := [[97], [98]] } afterExternF).1 =
      some { Name := [102, 46, 49], Args := [[97], [98]], Body := none } ∧
    getFunction
        (PrototypeAST.codegen { Name := [102], Args := [[97], [98]] } afterExternF).2.TheModule
        [102] =
      some { Name := [102], Args := [[97]], Body := none } ∧
    (ExprAST.CallExprAST [102] [ExprAST.NumberExprAST [49], ExprAST.NumberExprAST [50]]).codegen
        (PrototypeAST.codegen { Name := [102], Args := [[97], [98]] } afterExternF).2 =
      (none, LogErrorV
        (PrototypeAST.codegen { Name := [102], Args := [[97], [98]] } afterExternF).2
        "Incorrect number of arguments passed") ∧
    (externRepeatedA.codegen GenState.init).1 =
      some { Name := [102], Args := [[97], [97, 49]], Body := none } :=
  ⟨rfl, rfl, rfl, rfl⟩

/-- C24, amended. Codegen of a prototype with name `f` and parameter names
`p1..pn` adds to the module one function, with exactly `n` parameters, no
body and a name that no function of the module had; when the names `p1..pn`
are pairwise distinct, its `i`-th parameter carries the `i`-th name. When the
module has no function named `f`, this function is named `f` and is the one
found for `f`, so that the arity checked at a call of `f` is `n`, whether the
parameter names are distinct or not. When the module has a function named
`f`, the new function has another name, and calls of `f` keep resolving to
the earlier function: the arity checked is the number of its parameters. -/
theorem PrototypeAST_codegen_declares (P : PrototypeAST) (g : GenState) :
    (∃ F, (P.codegen g).1 = some F ∧ (P.codegen g).2.TheModule = g.TheModule ++ [F] ∧
      F.Args.length = P.Args.length ∧ F.Body = none ∧
      F.Name ∉ g.TheModule.map (fun G => G.Name) ∧
      (P.Args.Nodup → F.Args = P.Args) ∧
      (getFunction g.TheModule P.Name = none →
        F.Name = P.Name ∧ getFunction (P.codegen g).2.TheModule P.Name = some F) ∧
      (∀ G, getFunction g.TheModule P.Name = some G → F.Name ≠ P.Name)) ∧
    (getFunction g.TheModule P.Name = none →
      ArityChecked (P.codegen g).2.TheModule P.Name P.Args.length) ∧
    (∀ G, getFunction g.TheModule P.Name = some G →
      getFunction (P.codegen g).2.TheModule P.Name = some G ∧
      ArityChecked (P.codegen g).2.TheModule P.Name G.Args.length) ∧
    (getFunction g.TheModule P.Name = none → P.Args.Nodup →
      P.codegen g =
        (some { Name := P.Name, Args := P.Args, Body := none },
          { g with TheModule := g.TheModule ++ [{ Name := P.Name, Args := P.Args, Body := none }] })) := by
  obtain ⟨F, hP, hfresh, hargs, hbody, hname⟩ := PrototypeAST_codegen_eq P g
  have hlenF : F.Args.length = P.Args.length := by rw [hargs, setNames_length]
  have hnd : P.Args.Nodup → F.Args = P.Args := by
    intro h
    rw [hargs, setNames_distinct P.Args [] 0 h (by simp), List.nil_append]
  have hmod : (P.codegen g).2.TheModule = g.TheModule ++ [F] := by rw [hP]
  have hnew : getFunction g.TheModule P.Name = none →
      F.Name = P.Name ∧ getFunction (P.codegen g).2.TheModule P.Name = some F := by
    intro hnone
    have hfree := (getFunction_none _ _).mp hnone
    have h1 := (hname hfree).1
    refine ⟨h1, ?_⟩
    rw [hmod, ← h1]
    exact getFunction_append_new g.TheModule F hfresh
  have hold : ∀ G, getFunction g.TheModule P.Name = some G →
      getFunction (P.codegen g).2.TheModule P.Name = some G := by
    intro G hG
    rw [hmod]
    exact getFunction_append_some _ _ _ _ hG
  refine ⟨⟨F, by rw [hP], hmod, hlenF, hbody, hfresh, hnd, hnew, ?_⟩, ?_, ?_, ?_⟩
  · intro G hG e
    have hn : getFunction g.TheModule P.Name ≠ none := by rw [hG]; exact Option.noConfusion
    apply hn
    rw [getFunction_none, ← e]
    exact hfresh
  · intro hnone
    have := ArityChecked_of_getFunction _ _ _ (hnew hnone).2
    rw [hlenF] at this
    exact this
  · intro G hG
    exact ⟨hold G hG, ArityChecked_of_getFunction _ _ _ (hold G hG)⟩
  · intro hnone hndp
    have hfree := (getFunction_none _ _).mp hnone
    have hF : F = { Name := P.Name, Args := P.Args, Body := none } := by
      have h1 := (hname hfree).1
      have h2 := hnd hndp
      cases F
      simp only at h1 h2 hbody
      rw [h1, h2, hbody]
    rw [hP, (hname hfree).2, hF]

/-- In the initial state, codegen of the prototype of `extern f(a a)` declares
`f`, and the arity checked at a call of `f` is two: the call `f(1)` is
rejected. After `extern f(a)`, codegen of the prototype `f(a b)` leaves the
call of `f` resolving to the function of one parameter. -/
theorem PrototypeAST_codegen_declares_witness :
    getFunction GenState.init.TheModule externRepeatedA.Name = none ∧
    (ExprAST.CallExprAST [102] [ExprAST.NumberExprAST [49]]).codegen
        (externRepeatedA.codegen GenState.init).2 =
      (none, LogErrorV (externRepeatedA.codegen GenState.init).2
        "Incorrect number of arguments passed") ∧
    getFunction
        (PrototypeAST.codegen { Name := [102], Args := [[97], [98]] } afterExternF).2.TheModule
        [102] =
      some { Name := [102], Args := [[97]], Body := none } :=
  ⟨rfl,
    ((PrototypeAST_codegen_declares externRepeatedA GenState.init).2.1 rfl).1
      [ExprAST.NumberExprAST [49]] _ rfl (by decide),
    ((PrototypeAST_codegen_declares { Name := [102], Args := [[97], [98]] } afterExternF).2.2.1
      { Name := [102], Args := [[97]], Body := none } rfl).1⟩

end Qadin
